import Mathlib

/-!
# A two-pass assembler for a 10-bit machine: shallow embedding and verification

The C sources (`helpers.c`, `symbol_table.c`, `instruction_utils.c`,
`instruction_image.c`, `data_image.c`, `first_pass.c`, `second_pass.c`) are
embedded as Lean functions.

Conventions of the embedding:
* a C string is a `List Char` (the terminating NUL is not stored), a nullable
  `char *` is an `Option`;
* a C `int` is an `Int`; the bitwise operators are computed on the 32-bit
  two's-complement representation;
* the process-wide globals (code image, command list, directive list) and the
  counters of a pass are collected in explicit state records;
* `malloc`/`calloc` are assumed to succeed;
* an array access outside the array is undefined in C: the unchecked stores of
  the second pass return `none` there.
-/

namespace Asm

/-! ## C library primitives -/

abbrev CStr := List Char

/-- The double quote character. -/
def DQUOTE : Char := Char.ofNat 34

/-- The single quote character. -/
def SQUOTE : Char := Char.ofNat 39

/-- The function `isspace` in the C locale: space, `\t`, `\n`, `\v`, `\f`, `\r`. -/
def isspace (c : Char) : Bool :=
  c.toNat == 32 || (9 ≤ c.toNat && c.toNat ≤ 13)

/-- The function `isdigit` in the C locale. -/
def isdigit (c : Char) : Bool := 48 ≤ c.toNat && c.toNat ≤ 57

/-- The function `isalpha` in the C locale. -/
def isalpha (c : Char) : Bool :=
  (65 ≤ c.toNat && c.toNat ≤ 90) || (97 ≤ c.toNat && c.toNat ≤ 122)

/-- The function `isalnum` in the C locale. -/
def isalnum (c : Char) : Bool := isalpha c || isdigit c

/-- The unsigned 32-bit representation of a C `int`. -/
def toU32 (x : Int) : Nat := (x % 4294967296).toNat

/-- The C `int` with a given unsigned 32-bit representation. -/
def ofU32 (n : Nat) : Int :=
  if n % 4294967296 < 2147483648 then (n % 4294967296 : Nat)
  else ((n % 4294967296 : Nat) : Int) - 4294967296

/-- C `a & b` on `int`. -/
def c_and (a b : Int) : Int := ofU32 (toU32 a &&& toU32 b)

/-- C `a | b` on `int`. -/
def c_or (a b : Int) : Int := ofU32 (toU32 a ||| toU32 b)

/-- C `~a` on `int`. -/
def c_not (a : Int) : Int := -a - 1

/-- C `a << k` on `int` (the result truncated to 32 bits). -/
def c_shl (a : Int) (k : Nat) : Int := ofU32 (toU32 a <<< k)

/-- C `(short)x`: truncation to 16 bits, two's complement. -/
def to_short (x : Int) : Int :=
  if x % 65536 < 32768 then x % 65536 else x % 65536 - 65536

/-- The call `strchr(s, c)`: the suffix of `s` that starts at the first `c`, if any. -/
def strchr : CStr → Char → Option CStr
  | [], _ => none
  | x :: xs, c => if x = c then some (x :: xs) else strchr xs c

/-- The characters of `s` before the first `c` (all of `s` without a `c`):
the string left at `s` when the first `c` is overwritten with NUL. -/
def cut_at (s : CStr) (c : Char) : CStr := s.takeWhile (fun x => x != c)

/-- The call `strtok(s, delims)` on a fresh string: the first token, if any, and the
saved rest from which `strtok(NULL, ...)` continues. -/
def strtok (s delims : CStr) : Option CStr × CStr :=
  match s.dropWhile (fun x => delims.contains x) with
  | [] => (none, [])
  | x :: xs =>
    let tok := (x :: xs).takeWhile (fun y => !delims.contains y)
    (some tok, ((x :: xs).dropWhile (fun y => !delims.contains y)).tail)

/-- The call `strtok(NULL, "")`: with no delimiters the whole saved rest is the token,
and there is none when the rest is empty. -/
def strtok_rest (saved : CStr) : Option CStr :=
  if saved = [] then none else some saved

/-- All tokens that repeated `strtok(..., delims)` calls deliver. The fuel is
the length of the string, which bounds the number of tokens. -/
def strtok_all_fuel (delims : CStr) : Nat → CStr → List CStr
  | 0, _ => []
  | n + 1, s =>
    match strtok s delims with
    | (none, _) => []
    | (some tok, rest) => tok :: strtok_all_fuel delims n rest

def strtok_all (s delims : CStr) : List CStr :=
  strtok_all_fuel delims (s.length + 1) s

/-- The value of the leading decimal digits of a string. -/
def parse_digits : Nat → CStr → Nat
  | acc, [] => acc
  | acc, c :: cs =>
    if isdigit c then parse_digits (acc * 10 + (c.toNat - 48)) cs else acc

/-- Saturation to the range of a 64-bit `long`, as `strtol` does. -/
def clamp_long (x : Int) : Int :=
  if x < -9223372036854775808 then -9223372036854775808
  else if x > 9223372036854775807 then 9223372036854775807
  else x

/-- The call `strtol(s, NULL, 10)`: leading white space, an optional sign, digits. -/
def strtol10 (s : CStr) : Int :=
  match s.dropWhile isspace with
  | [] => 0
  | c :: cs =>
    if c = '-' then clamp_long (-(parse_digits 0 cs : Int))
    else if c = '+' then clamp_long (parse_digits 0 cs)
    else clamp_long (parse_digits 0 (c :: cs))

/-- The call `atoi(s)`, that is `(int)strtol(s, NULL, 10)`. -/
def atoi (s : CStr) : Int := ofU32 (toU32 (strtol10 s))

/-! ## helpers.c -/

def WORD_MASK : Int := 0x3FF
def NIBBLE_MASK : Int := 0xF
def IMM_MASK : Int := 0xFF
def ADDR_MODE_MASK : Int := 0x3
def ARE_MASK : Int := 0x3
def IMM_DATA_SHIFT : Nat := 2
def REG_DST_SHIFT : Nat := 2
def REG_SRC_SHIFT : Nat := 6

def MAX_LABEL_LENGTH : Nat := 31
def MAX_SYMBOL_LENGTH : Nat := 31
def MAX_LINE_LENGTH : Nat := 81
def MAX_FILENAME_LENGTH : Nat := 100
def EXT_LENGTH : Nat := 5
def MAX_WORDS_MEMORY : Int := 256
def MIN_WORD_VAL : Int := -512
def MAX_WORD_VAL : Int := 511
def MIN_IMMEDIATE_VAL : Int := -128
def MAX_IMMEDIATE_VAL : Int := 127
def IC_INIT_VALUE : Int := 100
def DC_INIT_VALUE : Int := 0

def remove_comment (line : CStr) : CStr := cut_at line ';'

def trim_left (str : CStr) : CStr := str.dropWhile isspace

def trim_right (str : CStr) : CStr := (str.reverse.dropWhile isspace).reverse

/-- The loop of `trim_inbetween`: `read` is what is left to read, `w` the
characters written so far, last one first. -/
def trim_inbetween_loop : CStr → CStr → Bool → Bool → Char → CStr
  | [], w, _, _, _ => w.reverse
  | c :: read, w, saw_space, true, quote_char =>
    trim_inbetween_loop read (c :: w) saw_space (!(c == quote_char)) quote_char
  | c :: read, w, saw_space, false, quote_char =>
    if c = ':' then
      trim_inbetween_loop read (' ' :: (if saw_space then w else ':' :: w))
        true false quote_char
    else if c = ',' ∧ saw_space = true then
      trim_inbetween_loop read (' ' :: ',' :: w.tail) true false quote_char
    else if c = DQUOTE ∨ c = SQUOTE then
      trim_inbetween_loop read (c :: w) false true c
    else if isspace c then
      if saw_space then trim_inbetween_loop read w true false quote_char
      else trim_inbetween_loop read (' ' :: w) true false quote_char
    else
      trim_inbetween_loop read (c :: w) false false quote_char

def trim_inbetween (str : CStr) : CStr :=
  trim_inbetween_loop str [] false false (Char.ofNat 0)

def trim (str : CStr) : CStr := trim_inbetween (trim_right (trim_left str))

def cleanup_line (line : CStr) : CStr := trim (remove_comment line)

/-- The function `check_trailing_comma`: the new error count. -/
def check_trailing_comma (s : Option CStr) (error_count : Int) : Int :=
  match s with
  | none => error_count
  | some str =>
    match str.reverse.dropWhile isspace with
    | [] => error_count
    | c :: _ => if c = ',' then error_count + 1 else error_count

def ILLEGAL : List CStr :=
  ["mcro".toList, "mcroend".toList, "mov".toList, "add".toList, "sub".toList,
   ".data".toList, ".string".toList, ".extern".toList, ".entry".toList,
   "stop".toList]

def is_illegal_name (name : CStr) : Bool := ILLEGAL.contains name

def is_valid_data_num (str : CStr) : Bool :=
  match str with
  | [] => false
  | c :: cs =>
    if c = '+' ∨ c = '-' then
      (match cs with
       | [] => false
       | _ => cs.all isdigit)
    else (c :: cs).all isdigit

def is_num_within_range (num : Int) : Bool :=
  !(decide (num < MIN_WORD_VAL) || decide (num > MAX_WORD_VAL))

/-- The letter of a base-4 digit. -/
def base4_letter (digit : Int) : Char :=
  if digit = 0 then 'a' else if digit = 1 then 'b'
  else if digit = 2 then 'c' else 'd'

/-- The loop of `decimal_to_base4_letters`, from position `n - 1` down to 0:
the letters are produced right to left. -/
def base4_loop : Nat → Int → CStr → CStr
  | 0, _, acc => acc
  | n + 1, temp_value, acc =>
    base4_loop n (temp_value / 4) (base4_letter (temp_value % 4) :: acc)

def decimal_to_base4_letters (decimal_value : Int) : CStr :=
  base4_loop 5 (c_and decimal_value WORD_MASK) []

/-- Reading a string of letters as a base-4 numeral, most significant digit
first (`a` = 0, `b` = 1, `c` = 2, `d` = 3). -/
def base4_value (s : CStr) : Int :=
  s.foldl (fun acc c => acc * 4 + ((c.toNat : Int) - 97)) 0

/-! ## symbol_table.c -/

inductive SymbolType where
  | SYMBOL_CODE
  | SYMBOL_DATA
  | SYMBOL_EXTERNAL
deriving DecidableEq, Repr

open SymbolType

/-- One label record; the table is the linked list of records, head first.
The field `line_number` of the C struct is never written and is left out. -/
structure Symbol where
  name : CStr
  address : Int
  type : SymbolType
deriving DecidableEq, Repr

def RESERVED_WORDS : List CStr :=
  ["mov".toList, "cmp".toList, "add".toList, "sub".toList, "not".toList,
   "clr".toList, "lea".toList, "inc".toList, "dec".toList, "jmp".toList,
   "bne".toList, "red".toList, "prn".toList, "jsr".toList, "rts".toList,
   "stop".toList, "data".toList, "string".toList, "mat".toList,
   "extern".toList, "entry".toList, "r0".toList, "r1".toList, "r2".toList,
   "r3".toList, "r4".toList, "r5".toList, "r6".toList, "r7".toList]

def find_symbol : List Symbol → CStr → Option Symbol
  | [], _ => none
  | current :: next, name =>
    if current.name = name then some current else find_symbol next name

/-- The function `add_symbol`: the new node (or `none` for NULL) and the table
afterwards. The stored name is what `strncpy` and the NUL written at index
`MAX_LABEL_LENGTH - 1` leave of it. -/
def add_symbol (head : List Symbol) (name : CStr) (address : Int)
    (type : SymbolType) : Option Symbol × List Symbol :=
  if name.length = 0 ∨ name.length > MAX_LABEL_LENGTH then (none, head)
  else if RESERVED_WORDS.contains name then (none, head)
  else
    match find_symbol head name with
    | some _ => (none, head)
    | none =>
      let sym : Symbol :=
        { name := name.take (MAX_LABEL_LENGTH - 1), address := address,
          type := type }
      (some sym, sym :: head)

/-! ## types.h -/

structure DirectiveFields where
  label : Option CStr
  data : List Int
  data_length : Int
  data_address : Int
  arg_label : Option CStr
  is_extern : Bool
  is_entry : Bool
deriving DecidableEq, Repr

structure CommandFields where
  label : Option CStr
  cmd_address : Int
  length : Int
  opcode : Int
  src : Option CStr
  dst : Option CStr
deriving DecidableEq, Repr

/-! ## instruction_utils.c -/

def ADDR_MODE_IMMEDIATE : Int := 0
def ADDR_MODE_DIRECT : Int := 1
def ADDR_MODE_MATRIX : Int := 2
def ADDR_MODE_REGISTER : Int := 3

def ADDR_MASK_IMMEDIATE : Int := 1
def ADDR_MASK_DIRECT : Int := 2
def ADDR_MASK_MATRIX : Int := 4
def ADDR_MASK_REGISTER : Int := 8

def DST_MODE_SHIFT : Nat := 2
def SRC_MODE_SHIFT : Nat := 4
def OPCODE_SHIFT : Nat := 6
def OPCODE_MASK : Int := NIBBLE_MASK

structure InstructionInfo where
  opcode : Int
  name : CStr
  allowed_src : Int
  allowed_dst : Int
deriving DecidableEq, Repr

/-- All four addressing modes. -/
def MASK_ALL : Int :=
  c_or (c_or (c_or ADDR_MASK_IMMEDIATE ADDR_MASK_DIRECT) ADDR_MASK_MATRIX)
    ADDR_MASK_REGISTER

/-- Every mode but IMMEDIATE. -/
def MASK_NO_IMM : Int :=
  c_or (c_or ADDR_MASK_DIRECT ADDR_MASK_MATRIX) ADDR_MASK_REGISTER

/-- The instruction table, without its end marker. -/
def instruction_info_table : List InstructionInfo :=
  [ ⟨0, "mov".toList, MASK_ALL, MASK_NO_IMM⟩,
    ⟨1, "cmp".toList, MASK_ALL, MASK_ALL⟩,
    ⟨2, "add".toList, MASK_ALL, MASK_NO_IMM⟩,
    ⟨3, "sub".toList, MASK_ALL, MASK_NO_IMM⟩,
    ⟨4, "lea".toList, c_or ADDR_MASK_DIRECT ADDR_MASK_MATRIX, MASK_NO_IMM⟩,
    ⟨5, "clr".toList, 0, MASK_NO_IMM⟩,
    ⟨6, "not".toList, 0, MASK_NO_IMM⟩,
    ⟨7, "inc".toList, 0, MASK_NO_IMM⟩,
    ⟨8, "dec".toList, 0, MASK_NO_IMM⟩,
    ⟨9, "jmp".toList, 0, MASK_NO_IMM⟩,
    ⟨10, "bne".toList, 0, MASK_NO_IMM⟩,
    ⟨11, "jsr".toList, 0, MASK_NO_IMM⟩,
    ⟨12, "red".toList, 0, MASK_NO_IMM⟩,
    ⟨13, "prn".toList, 0, MASK_ALL⟩,
    ⟨14, "rts".toList, 0, 0⟩,
    ⟨15, "stop".toList, 0, 0⟩ ]

def opcode_from_string_loop : List InstructionInfo → CStr → Int
  | [], _ => -1
  | e :: rest, s => if s = e.name then e.opcode else opcode_from_string_loop rest s

def opcode_from_string (s : CStr) : Int :=
  opcode_from_string_loop instruction_info_table s

def is_register (s : CStr) : Bool :=
  match s with
  | [c0, c1] => c0 == 'r' && !(decide (c1.toNat < 48) || decide (c1.toNat > 55))
  | _ => false

/-- The function `reg_code`: `s[1] - '0'` (the terminating NUL when `s` has
one character). -/
def reg_code (s : CStr) : Int := ((s.getD 1 (Char.ofNat 0)).toNat : Int) - 48

def addr_mode (operand : CStr) : Int :=
  if operand.head? = some '#' then ADDR_MODE_IMMEDIATE
  else if is_register operand then ADDR_MODE_REGISTER
  else if (strchr operand '[').isSome then ADDR_MODE_MATRIX
  else ADDR_MODE_DIRECT

/-- The function `parse_matrix_regs`: `some (row, col)` when it returns true.
The bracket contents are assumed to fit the 32-byte buffers. -/
def parse_matrix_regs (op : CStr) : Option (Int × Int) :=
  match strchr op '[' with
  | none => none
  | some p1 =>
    match strchr p1.tail ']' with
    | none => none
    | some p2 =>
      match strchr p2.tail '[' with
      | none => none
      | some p3 =>
        match strchr p3.tail ']' with
        | none => none
        | some _ =>
          let rbuf := trim (cut_at p1.tail ']')
          let cbuf := trim (cut_at p3.tail ']')
          if !is_register rbuf || !is_register cbuf then none
          else some (reg_code rbuf, reg_code cbuf)

def get_instruction_info_loop : List InstructionInfo → Int → Option InstructionInfo
  | [], _ => none
  | p :: rest, opcode =>
    if p.opcode = opcode then some p else get_instruction_info_loop rest opcode

def get_instruction_info (opcode : Int) : Option InstructionInfo :=
  get_instruction_info_loop instruction_info_table opcode

/-- The function `parse_opcode_and_operands`: `none` when it returns false,
else the opcode token and the trimmed rest (or NULL). -/
def parse_opcode_and_operands (line : CStr) : Option (CStr × Option CStr) :=
  match strtok line [' ', '\t'] with
  | (none, _) => none
  | (some op, saved) =>
    match strtok_rest saved with
    | none => some (op, none)
    | some rest => some (op, some (trim rest))

/-- An empty string becomes NULL. -/
def nonempty_or_null (s : CStr) : Option CStr := if s = [] then none else some s

/-- The function `parse_two_operands`: the returned flag, `src`, `dst` and the
error count. The operand text is split in place at the comma, so the source
part `a` is followed in the buffer by a NUL and the destination part `b`.
`trim` rewrites its argument in place: when the trimmed source is longer than
`a`, its tail runs over the NUL into `b`, and the string found after the comma
is then that tail. -/
def parse_two_operands (operands : Option CStr) (err_count : Int) :
    Bool × Option CStr × Option CStr × Int :=
  match operands with
  | none => (true, none, none, err_count)
  | some [] => (true, none, none, err_count)
  | some (o :: os) =>
    match strchr (o :: os) ',' with
    | some comma =>
      let a := cut_at (o :: os) ','
      let s := trim a
      let b := if s.length ≤ a.length then comma.tail else s.drop (a.length + 1)
      let d := trim b
      if (strchr d ',').isSome then
        (false, nonempty_or_null s, nonempty_or_null d, err_count + 1)
      else (true, nonempty_or_null s, nonempty_or_null d, err_count)
    | none => (true, none, nonempty_or_null (trim (o :: os)), err_count)

/-- The function `check_operand_count` for a non-NULL `info`. -/
def check_operand_count (info : InstructionInfo) (src dst : Option CStr)
    (err_count : Int) : Bool × Int :=
  let expected : Int :=
    (if info.allowed_src ≠ 0 then 1 else 0) + (if info.allowed_dst ≠ 0 then 1 else 0)
  let actual : Int := (if src.isSome then 1 else 0) + (if dst.isSome then 1 else 0)
  if expected ≠ actual then (false, err_count + 1) else (true, err_count)

/-- The function `validate_operand_modes` for a non-NULL `info`: the returned
flag, the two modes written to the out parameters (they keep the caller's -1
when the function fails) and the error count. A shift count is taken as it is
for the modes 0..3 that `addr_mode` gives. -/
def validate_operand_modes (info : InstructionInfo) (src dst : Option CStr)
    (err_count : Int) : Bool × Int × Int × Int :=
  let computed_src_mode : Int := match src with
    | some s => addr_mode s
    | none => -1
  let computed_dst_mode : Int := match dst with
    | some d => addr_mode d
    | none => -1
  if src.isSome ∧ c_and info.allowed_src (c_shl 1 computed_src_mode.toNat) = 0 then
    (false, -1, -1, err_count + 1)
  else if dst.isSome ∧ c_and info.allowed_dst (c_shl 1 computed_dst_mode.toNat) = 0 then
    (false, -1, -1, err_count + 1)
  else (true, computed_src_mode, computed_dst_mode, err_count)

def compute_instruction_length (src_mode dst_mode : Int) (src dst : Option CStr) : Int :=
  if src.isSome ∧ dst.isSome ∧ src_mode = ADDR_MODE_REGISTER ∧
      dst_mode = ADDR_MODE_REGISTER then
    1 + 1
  else
    1 + (if src.isSome then (if src_mode = ADDR_MODE_MATRIX then 2 else 1) else 0)
      + (if dst.isSome then (if dst_mode = ADDR_MODE_MATRIX then 2 else 1) else 0)

/-- The function `validate_immediate_range`: the flag and the error count. -/
def validate_immediate_range (val : Int) (err_count : Int) : Bool × Int :=
  if val < MIN_IMMEDIATE_VAL ∨ val > MAX_IMMEDIATE_VAL then (false, err_count + 1)
  else (true, err_count)

/-! ## instruction_image.c and data_image.c -/

/-- The code image `instruction_image[MAX_WORDS_MEMORY]`, by index. -/
abbrev Image := Nat → Int

/-- The store `image[idx] = v`. -/
def set_word (image : Image) (idx : Nat) (v : Int) : Image :=
  fun j => if j = idx then v else image j

/-- The state of a first pass: the symbol table, the globals and the counters
`ic`, `dc` and `error_count` of `first_pass`. -/
structure Pass1 where
  sym_table : List Symbol
  instruction_image : Image
  command_list : List CommandFields
  directive_list : List DirectiveFields
  IC : Int
  dc : Int
  error_count : Int

def command_count (st : Pass1) : Int := st.command_list.length

def directive_count (st : Pass1) : Int := st.directive_list.length

def append_command (cf : CommandFields) (st : Pass1) : Pass1 :=
  if command_count st + directive_count st ≥ MAX_WORDS_MEMORY then st
  else { st with command_list := st.command_list ++ [cf] }

def append_directive (df : DirectiveFields) (st : Pass1) : Pass1 :=
  if command_count st + directive_count st ≥ MAX_WORDS_MEMORY then st
  else { st with directive_list := st.directive_list ++ [df] }

/-- The function `new_directive`: a zeroed record with a zeroed payload of
`data_length` words. -/
def new_directive (data_length : Int) : DirectiveFields :=
  { label := none, data := List.replicate data_length.toNat 0,
    data_length := data_length, data_address := 0, arg_label := none,
    is_extern := false, is_entry := false }

/-- The function `emit_word`: the returned index (or -1), the image and IC. -/
def emit_word (value : Int) (image : Image) (IC : Int) : Int × Image × Int :=
  let idx := IC - IC_INIT_VALUE
  if idx < 0 ∨ idx ≥ MAX_WORDS_MEMORY then (-1, image, IC)
  else (idx, set_word image idx.toNat (c_and value WORD_MASK), IC + 1)

def record_command (start_ic length_words opcode : Int) (src dst : Option CStr)
    (label_or_null : Option CStr) (st : Pass1) : Pass1 :=
  append_command
    { label := label_or_null, cmd_address := start_ic, length := length_words,
      opcode := opcode, src := src, dst := dst } st

def encode_immediate8 (val : Int) : Int := c_shl (c_and val IMM_MASK) IMM_DATA_SHIFT

def encode_reg_src_word (reg_code_val : Int) : Int :=
  c_shl (c_and reg_code_val NIBBLE_MASK) REG_SRC_SHIFT

def encode_reg_dst_word (reg_code_val : Int) : Int :=
  c_shl (c_and reg_code_val NIBBLE_MASK) REG_DST_SHIFT

def encode_regs_shared (src_reg_code_val dst_reg_code_val : Int) : Int :=
  c_or (c_shl (c_and src_reg_code_val NIBBLE_MASK) REG_SRC_SHIFT)
    (c_shl (c_and dst_reg_code_val NIBBLE_MASK) REG_DST_SHIFT)

def encode_matrix_indices (row_reg_code_val col_reg_code_val : Int) : Int :=
  c_or (c_shl (c_and row_reg_code_val NIBBLE_MASK) REG_SRC_SHIFT)
    (c_shl (c_and col_reg_code_val NIBBLE_MASK) REG_DST_SHIFT)

/-- The word that `emit_first_word` packs. -/
def first_word (opcode src_mode dst_mode : Int) : Int :=
  c_or (c_or (c_shl (c_and opcode OPCODE_MASK) OPCODE_SHIFT)
      (c_shl (c_and src_mode ADDR_MODE_MASK) SRC_MODE_SHIFT))
    (c_shl (c_and dst_mode ADDR_MODE_MASK) DST_MODE_SHIFT)

/-- The function `emit_first_word` (for a non-NULL `IC`): the returned flag,
the image and IC. -/
def emit_first_word (opcode src_mode dst_mode : Int) (image : Image) (IC : Int) :
    Int × Image × Int :=
  let r := emit_word (c_and (first_word opcode src_mode dst_mode) WORD_MASK) image IC
  (1, r.2.1, r.2.2)

/-- What `emit_operands` updates: the image, IC, the error count and its local
`had_error`. -/
structure Emit where
  image : Image
  IC : Int
  err_count : Int
  had_error : Bool

/-- One of the two blocks `if (src) ...` and `if (dst) ...` of `emit_operands`
for a present operand; the blocks differ only in the encoder of a single
register, which is the parameter `encode_reg`. -/
def emit_operand_block (encode_reg : Int → Int) (operand : CStr) (mode : Int)
    (e : Emit) : Emit :=
  if mode = ADDR_MODE_REGISTER then
    let r := emit_word (encode_reg (reg_code operand)) e.image e.IC
    { e with image := r.2.1, IC := r.2.2 }
  else if mode = ADDR_MODE_IMMEDIATE then
    let e1 : Emit :=
      if !is_valid_data_num operand.tail then
        { e with err_count := e.err_count + 1, had_error := true }
      else e
    let val := atoi operand.tail
    let v := validate_immediate_range val e1.err_count
    let e2 : Emit :=
      { e1 with err_count := v.2, had_error := e1.had_error || !v.1 }
    let r := emit_word (encode_immediate8 val) e2.image e2.IC
    { e2 with image := r.2.1, IC := r.2.2 }
  else if mode = ADDR_MODE_DIRECT then
    let r := emit_word 0 e.image e.IC
    { e with image := r.2.1, IC := r.2.2 }
  else if mode = ADDR_MODE_MATRIX then
    let r1 := emit_word 0 e.image e.IC
    let p := parse_matrix_regs operand
    let e1 : Emit :=
      if p.isNone then
        { e with err_count := e.err_count + 1, had_error := true }
      else e
    let rc : Int × Int := p.getD (0, 0)
    let r2 := emit_word (encode_matrix_indices rc.1 rc.2) r1.2.1 r1.2.2
    { e1 with image := r2.2.1, IC := r2.2.2 }
  else e

/-- The function `emit_operands`: the returned flag, the image, IC and the
error count. -/
def emit_operands (src : Option CStr) (src_mode : Int) (dst : Option CStr)
    (dst_mode : Int) (image : Image) (IC : Int) (err_count : Int) :
    Bool × Image × Int × Int :=
  match src, dst with
  | some s, some d =>
    if src_mode = ADDR_MODE_REGISTER ∧ dst_mode = ADDR_MODE_REGISTER then
      let r := emit_word (encode_regs_shared (reg_code s) (reg_code d)) image IC
      (true, r.2.1, r.2.2, err_count)
    else
      let e := emit_operand_block encode_reg_dst_word d dst_mode
        (emit_operand_block encode_reg_src_word s src_mode ⟨image, IC, err_count, false⟩)
      (!e.had_error, e.image, e.IC, e.err_count)
  | some s, none =>
    let e := emit_operand_block encode_reg_src_word s src_mode ⟨image, IC, err_count, false⟩
    (!e.had_error, e.image, e.IC, e.err_count)
  | none, some d =>
    let e := emit_operand_block encode_reg_dst_word d dst_mode ⟨image, IC, err_count, false⟩
    (!e.had_error, e.image, e.IC, e.err_count)
  | none, none => (true, image, IC, err_count)

/-! ## first_pass.c -/

/-- The delimiters `"\t ,"` of the value lists. -/
def VALUE_DELIMS : CStr := ['\t', ' ', ',']

/-- The value of a `char` as a number (`char` is signed). -/
def char_code (c : Char) : Int :=
  if c.toNat < 128 then (c.toNat : Int) else (c.toNat : Int) - 256

/-- The function `handle_data_directive`. -/
def handle_data_directive (operands : CStr) (label : Option CStr) (st : Pass1) :
    Int × Pass1 :=
  let toks := strtok_all operands VALUE_DELIMS
  let e1 : Int := st.error_count + (toks.filter (fun t => !is_valid_data_num t)).length
  if toks.length = 0 then (1, { st with error_count := e1 + 1 })
  else
    let vals := toks.map (fun t => to_short (atoi t))
    let e2 : Int := e1 + (vals.filter (fun v => !is_num_within_range v)).length
    let df : DirectiveFields :=
      { new_directive toks.length with
        label := label, arg_label := none, is_extern := false, is_entry := false,
        data_address := st.dc, data := vals }
    (1, append_directive df { st with error_count := e2, dc := st.dc + toks.length })

/-- The function `handle_string_directive`. -/
def handle_string_directive (operands : CStr) (label : Option CStr) (st : Pass1) :
    Int × Pass1 :=
  match strchr (trim_left operands) DQUOTE with
  | none => (1, { st with error_count := st.error_count + 1 })
  | some q =>
    let start := q.tail
    match strchr start DQUOTE with
    | none => (1, { st with error_count := st.error_count + 1 })
    | some e =>
      let trail := e.tail.dropWhile isspace
      let e1 : Int := if trail ≠ [] then st.error_count + 1 else st.error_count
      let body := cut_at start DQUOTE
      let df : DirectiveFields :=
        { new_directive (body.length + 1) with
          label := label, arg_label := none, is_extern := false, is_entry := false,
          data_address := st.dc, data := body.map char_code ++ [0] }
      (1, append_directive df
        { st with error_count := e1, dc := st.dc + body.length + 1 })

/-- The conversion `%d` of `sscanf`: white space, an optional sign, at least
one digit; the value and the rest of the input. -/
def scan_int (s : CStr) : Option (Int × CStr) :=
  match s.dropWhile isspace with
  | [] => none
  | c :: cs =>
    let digits := if c = '-' ∨ c = '+' then cs else c :: cs
    match digits with
    | [] => none
    | d :: _ =>
      if isdigit d then
        let m : Int := parse_digits 0 digits
        some (ofU32 (toU32 (clamp_long (if c = '-' then -m else m))),
              digits.dropWhile isdigit)
      else none

/-- The call `sscanf(operands, " [%d] [%d] %n", &rows, &cols, &consumed_chars)`:
`none` when it does not return 2, else rows, cols and the consumed count, which
stays 0 when the input stops matching before `%n`. -/
def sscanf_mat (s : CStr) : Option (Int × Int × Nat) :=
  match s.dropWhile isspace with
  | [] => none
  | c1 :: s1 =>
    if c1 ≠ '[' then none else
    match scan_int s1 with
    | none => none
    | some (rows, s2) =>
      match s2 with
      | [] => none
      | c2 :: s3 =>
        if c2 ≠ ']' then none else
        match s3.dropWhile isspace with
        | [] => none
        | c3 :: s4 =>
          if c3 ≠ '[' then none else
          match scan_int s4 with
          | none => none
          | some (cols, s5) =>
            match s5 with
            | [] => some (rows, cols, 0)
            | c4 :: s6 =>
              if c4 ≠ ']' then some (rows, cols, 0)
              else some (rows, cols, s.length - (s6.dropWhile isspace).length)

/-- The function `handle_mat_directive`. The product `rows * cols` is taken
without overflow; a value stored past the allocated payload is dropped. -/
def handle_mat_directive (operands : CStr) (label : Option CStr) (st : Pass1) :
    Int × Pass1 :=
  match sscanf_mat operands with
  | none => (1, { st with error_count := st.error_count + 1 })
  | some (rows, cols, consumed_chars) =>
    if rows ≤ 0 ∨ cols ≤ 0 then (1, { st with error_count := st.error_count + 1 })
    else
      let maximum_cells := rows * cols
      let toks := strtok_all (operands.drop consumed_chars) VALUE_DELIMS
      let e1 : Int := st.error_count + (toks.filter (fun t => !is_valid_data_num t)).length
      let e2 : Int :=
        if maximum_cells = 0 ∧ toks.length > 0 then e1 + 1
        else if (toks.length : Int) > maximum_cells then e1 + 1
        else e1
      let vals := toks.map (fun t => to_short (atoi t))
      let e3 : Int := e2 + (vals.filter (fun v => !is_num_within_range v)).length
      let cells := maximum_cells.toNat
      let df : DirectiveFields :=
        { new_directive maximum_cells with
          label := label, arg_label := none, is_extern := false, is_entry := false,
          data_address := st.dc,
          data := vals.take cells ++ List.replicate (cells - vals.length) 0 }
      (1, append_directive df { st with error_count := e3, dc := st.dc + toks.length })

/-- The statement `if (!add_symbol(sym_table, name, address, type))
(*error_count)++;` of the first pass. -/
def define_symbol (name : CStr) (address : Int) (type : SymbolType) (st : Pass1) : Pass1 :=
  { st with
    sym_table := (add_symbol st.sym_table name address type).2,
    error_count :=
      if (add_symbol st.sym_table name address type).1.isNone then st.error_count + 1
      else st.error_count }

/-- The function `handle_extern_directive`. Without an operand the C code
passes NULL to `safe_strdup`; the model takes the branch `!name` there. -/
def handle_extern_directive (operands : Option CStr) (st : Pass1) : Int × Pass1 :=
  match operands with
  | none => (1, { st with error_count := st.error_count + 1 })
  | some name =>
    let df : DirectiveFields :=
      { new_directive 0 with
        arg_label := some name, is_extern := true, is_entry := false,
        label := none, data_address := -1 }
    (1, append_directive df (define_symbol name 0 SYMBOL_EXTERNAL st))

/-- The function `handle_entry_directive`, with the same treatment of a missing
operand. -/
def handle_entry_directive (operands : Option CStr) (st : Pass1) : Int × Pass1 :=
  match operands with
  | none => (1, { st with error_count := st.error_count + 1 })
  | some name =>
    let df : DirectiveFields :=
      { new_directive 0 with
        arg_label := some name, is_extern := false, is_entry := true,
        label := none, data_address := -1 }
    (1, append_directive df st)

/-- The function `process_directive`: what it returns and the state. -/
def process_directive (directive : CStr) (operands : Option CStr)
    (label : Option CStr) (st : Pass1) : Int × Pass1 :=
  let is_data : Bool :=
    directive = ".data".toList ∨ directive = ".string".toList ∨ directive = ".mat".toList
  let st1 : Pass1 :=
    if is_data then
      match label with
      | some l => define_symbol l st.dc SYMBOL_DATA st
      | none => st
    else st
  if is_data ∧ operands.isNone then
    (1, { st1 with error_count := st1.error_count + 1 })
  else
    let st2 : Pass1 :=
      { st1 with error_count := check_trailing_comma operands st1.error_count }
    if directive = ".data".toList then handle_data_directive (operands.getD []) label st2
    else if directive = ".string".toList then
      handle_string_directive (operands.getD []) label st2
    else if directive = ".mat".toList then handle_mat_directive (operands.getD []) label st2
    else if directive = ".extern".toList then handle_extern_directive operands st2
    else if directive = ".entry".toList then handle_entry_directive operands st2
    else (0, st2)

/-- The block `if (has_label) { if (!add_symbol(sym_table, label_name, start_ic,
SYMBOL_CODE)) (*err_count)++; }` of `process_instruction`; `add_symbol` returns
NULL for a NULL name. -/
def label_step (has_label : Bool) (label_name : Option CStr) (st : Pass1) : Pass1 :=
  if has_label then
    match label_name with
    | some l => define_symbol l st.IC SYMBOL_CODE st
    | none => { st with error_count := st.error_count + 1 }
  else st

/-- The second half of `process_instruction`, which an accepted instruction
reaches: the label is defined at `start_ic`, the length computed, the command
recorded and the words emitted. -/
def encode_instruction (opcode : Int) (src dst : Option CStr) (src_mode dst_mode : Int)
    (has_label : Bool) (label_name : Option CStr) (st : Pass1) : Pass1 :=
  let start_ic := st.IC
  let st1 := label_step has_label label_name st
  let L := compute_instruction_length src_mode dst_mode src dst
  let st2 := record_command start_ic L opcode src dst
    (if has_label then label_name else none) st1
  let f := emit_first_word opcode src_mode dst_mode st2.instruction_image st2.IC
  let o := emit_operands src src_mode dst dst_mode f.2.1 f.2.2 st2.error_count
  { st2 with instruction_image := o.2.1, IC := o.2.2.1, error_count := o.2.2.2 }

/-- The function `process_instruction`: what it returns and the state. -/
def process_instruction (line : CStr) (has_label : Bool) (label_name : Option CStr)
    (st : Pass1) : Int × Pass1 :=
  match parse_opcode_and_operands line with
  | none => (1, { st with error_count := st.error_count + 1 })
  | some (opcode_str, operands_str) =>
    let opcode := opcode_from_string opcode_str
    if opcode < 0 then (1, { st with error_count := st.error_count + 1 })
    else
      let p := parse_two_operands operands_str st.error_count
      if !p.1 then (1, { st with error_count := p.2.2.2 })
      else
        match get_instruction_info opcode with
        | none => (1, { st with error_count := p.2.2.2 })
        | some info =>
          let src := p.2.1
          let dst := p.2.2.1
          let c := check_operand_count info src dst p.2.2.2
          if !c.1 then (1, { st with error_count := c.2 })
          else
            let v := validate_operand_modes info src dst c.2
            if !v.1 then (1, { st with error_count := v.2.2.2 })
            else
              (0, encode_instruction opcode src dst v.2.1 v.2.2.1 has_label label_name
                    { st with error_count := v.2.2.2 })

def relocate_data_symbols (sym_table : List Symbol) (icf : Int) : List Symbol :=
  sym_table.map (fun s =>
    if s.type = SYMBOL_DATA then { s with address := s.address + icf } else s)

def sanitize_line (line : CStr) : CStr := cleanup_line (cut_at line '\n')

def check_label_legality (name : CStr) : Bool :=
  match name with
  | [] => false
  | c :: rest =>
    if !isalpha c then false
    else if !rest.all isalnum then false
    else !is_illegal_name name

/-- The function `consume_label_prefix`: the text after the label (the whole
line without a colon) and the label written to `label_out`, if any. -/
def consume_label_prefix (line : CStr) : CStr × Option CStr :=
  match strchr line ':' with
  | none => (line, none)
  | some colon =>
    let name := cut_at line ':'
    if name.length ≥ MAX_LABEL_LENGTH then (colon.tail, none)
    else if !check_label_legality name then (colon.tail, none)
    else (colon.tail, some name)

/-- The body of the `while (fgets(...))` loop of `first_pass` for one line. -/
def first_pass_line (raw_line : CStr) (st : Pass1) : Pass1 :=
  let line := sanitize_line raw_line
  if line = [] then st
  else
    let lp := consume_label_prefix line
    let label := lp.2
    let t := strtok lp.1 [' ', '\t']
    let operands := strtok_rest t.2
    match t.1 with
    | none => { st with error_count := st.error_count + 1 }
    | some directive =>
      let d := process_directive directive operands label st
      if d.1 ≠ 0 then d.2
      else
        let inst_line : CStr :=
          match operands with
          | some ops => directive ++ [' '] ++ ops
          | none => directive
        (process_instruction inst_line label.isSome label d.2).2

/-- The lines that successive `fgets(raw_line, MAX_LINE_LENGTH, input_file)`
calls deliver: at most 80 characters each, a line ends after its newline.
`cur` is the line being read, last character first, `room` the number of
characters it may still take. -/
def fgets_loop : CStr → CStr → Nat → List CStr
  | [], cur, _ => if cur = [] then [] else [cur.reverse]
  | c :: cs, cur, room =>
    if c = '\n' ∨ room ≤ 1 then (c :: cur).reverse :: fgets_loop cs [] (MAX_LINE_LENGTH - 1)
    else fgets_loop cs (c :: cur) (room - 1)

def fgets_lines (input_file : CStr) : List CStr :=
  fgets_loop input_file [] (MAX_LINE_LENGTH - 1)

/-- The `while` loop of `first_pass` over the lines read. -/
def first_pass_loop (lines : List CStr) (st : Pass1) : Pass1 :=
  lines.foldl (fun s l => first_pass_line l s) st

/-- The state in which `first_pass` enters its loop, from the caller's symbol
table and the globals. -/
def first_pass_init (sym_table : List Symbol) (image : Image)
    (command_list : List CommandFields) (directive_list : List DirectiveFields) : Pass1 :=
  { sym_table := sym_table, instruction_image := image, command_list := command_list,
    directive_list := directive_list, IC := IC_INIT_VALUE, dc := DC_INIT_VALUE,
    error_count := 0 }

/-- The function `first_pass`: what it returns and the state on return, in
which `IC` is `*icf`, `dc` is `*dcf` and the data symbols are relocated. -/
def first_pass (input_file : CStr) (sym_table : List Symbol) (image : Image)
    (command_list : List CommandFields) (directive_list : List DirectiveFields) :
    Int × Pass1 :=
  let st := first_pass_loop (fgets_lines input_file)
    (first_pass_init sym_table image command_list directive_list)
  (if st.error_count ≠ 0 then 1 else 0,
   { st with sym_table := relocate_data_symbols st.sym_table st.IC })

/-- The globals of a freshly started process: a zeroed image. -/
def zero_image : Image := fun _ => 0

/-! ## second_pass.c -/

def ADDRESS_PAYLOAD_SHIFT : Nat := 2
def ARE_ABSOLUTE : Int := 0
def ARE_EXTERNAL : Int := 1
def ARE_RELOCATABLE : Int := 2

/-- Whether `fopen(filename, "w")` succeeds, by file name. -/
abbrev FileSystem := CStr → Bool

/-- An output stream: `none` while the `FILE *` is NULL, else the strings the
`fprintf` calls have written to it so far, in order. -/
abbrev Stream := Option (List CStr)

/-- The function `open_file_with_ext`: whether it returns a stream. -/
def open_file_with_ext (fs : FileSystem) (base ext : CStr) : Bool :=
  if base.length + ext.length ≥ MAX_FILENAME_LENGTH + EXT_LENGTH then false
  else fs (base ++ ext)

/-- What the operand resolution of the second pass updates. -/
structure Pass2 where
  instruction_image : Image
  ext_fp : Stream
  error_count : Int

/-- Whether `idx` is an index of `instruction_image`. -/
def in_image (idx : Int) : Bool := decide (0 ≤ idx) && decide (idx < MAX_WORDS_MEMORY)

def mark_word_absolute (idx : Int) (image : Image) : Option Image :=
  if in_image idx then
    some (set_word image idx.toNat (c_and (image idx.toNat) (c_not ARE_MASK)))
  else none

/-- The line `<name> <letters>\n` of the entries and externals files. -/
def ref_line (name : CStr) (value : Int) : CStr :=
  name ++ [' '] ++ decimal_to_base4_letters value ++ ['\n']

def write_external_reference (fs : FileSystem) (base_filename : CStr)
    (ext_fp : Stream) (sym_name : CStr) (idx : Int) : Stream :=
  let fp : Stream :=
    match ext_fp with
    | some f => some f
    | none => if open_file_with_ext fs base_filename ".ext".toList then some [] else none
  match fp with
  | some f => some (f ++ [ref_line sym_name (IC_INIT_VALUE + idx)])
  | none => none

def encode_symbol_word (fs : FileSystem) (base_filename : CStr) (idx : Int)
    (sym : Symbol) (st : Pass2) : Option Pass2 :=
  if in_image idx then
    if sym.type = SYMBOL_EXTERNAL then
      some { st with
        instruction_image := set_word st.instruction_image idx.toNat ARE_EXTERNAL,
        ext_fp := write_external_reference fs base_filename st.ext_fp sym.name idx }
    else
      let addr := c_and sym.address WORD_MASK
      some { st with
        instruction_image := set_word st.instruction_image idx.toNat
          (c_or (c_shl addr ADDRESS_PAYLOAD_SHIFT) ARE_RELOCATABLE) }
  else none

/-- The function `find_matrix_symbol`: the symbol found and the error count.
The label is assumed to fit `label_buf` after trimming. -/
def find_matrix_symbol (symtab : List Symbol) (operand : CStr) (error_count : Int) :
    Option Symbol × Int :=
  match strchr operand '[' with
  | none => (none, error_count + 1)
  | some _ =>
    if operand.head? = some '[' then (none, error_count + 1)
    else
      let label_buf := trim ((cut_at operand '[').take MAX_LABEL_LENGTH)
      match find_symbol symtab label_buf with
      | none => (none, error_count + 1)
      | some sym => (some sym, error_count)

def resolve_direct_operand (fs : FileSystem) (base_filename : CStr) (label : CStr)
    (idx : Int) (symtab : List Symbol) (st : Pass2) : Option Pass2 :=
  match find_symbol symtab label with
  | none =>
    if in_image idx then
      some { st with error_count := st.error_count + 1,
                     instruction_image := set_word st.instruction_image idx.toNat 0 }
    else none
  | some sym => encode_symbol_word fs base_filename idx sym st

/-- The first half of `resolve_matrix_operand`: the base word at `idx`. -/
def resolve_matrix_base (fs : FileSystem) (base_filename : CStr) (operand : CStr)
    (idx : Int) (symtab : List Symbol) (st : Pass2) : Option Pass2 :=
  let r := find_matrix_symbol symtab operand st.error_count
  let st1 : Pass2 := { st with error_count := r.2 }
  match r.1 with
  | none =>
    if in_image idx then
      some { st1 with instruction_image := set_word st1.instruction_image idx.toNat 0 }
    else none
  | some sym => encode_symbol_word fs base_filename idx sym st1

/-- The function `resolve_matrix_operand`: the state and the advanced `idx`. -/
def resolve_matrix_operand (fs : FileSystem) (base_filename : CStr) (operand : CStr)
    (idx : Int) (symtab : List Symbol) (st : Pass2) : Option (Pass2 × Int) :=
  match resolve_matrix_base fs base_filename operand idx symtab st with
  | none => none
  | some st2 =>
    match mark_word_absolute (idx + 1) st2.instruction_image with
    | none => none
    | some image => some ({ st2 with instruction_image := image }, idx + 1 + 1)

/-- The function `resolve_operand`: the state and the advanced `idx`. -/
def resolve_operand (fs : FileSystem) (base_filename : CStr) (operand : CStr)
    (mode : Int) (idx : Int) (symtab : List Symbol) (st : Pass2) : Option (Pass2 × Int) :=
  if mode = ADDR_MODE_REGISTER ∨ mode = ADDR_MODE_IMMEDIATE then
    match mark_word_absolute idx st.instruction_image with
    | none => none
    | some image => some ({ st with instruction_image := image }, idx + 1)
  else if mode = ADDR_MODE_DIRECT then
    match resolve_direct_operand fs base_filename operand idx symtab st with
    | none => none
    | some st1 => some (st1, idx + 1)
  else if mode = ADDR_MODE_MATRIX then
    resolve_matrix_operand fs base_filename operand idx symtab st
  else some (st, idx + 1)

/-- The body of the loop of `resolve_symbols` for one command. -/
def resolve_command (fs : FileSystem) (base_filename : CStr) (symtab : List Symbol)
    (cmd : CommandFields) (st : Pass2) : Option Pass2 :=
  let src_mode : Int := match cmd.src with
    | some s => addr_mode s
    | none => -1
  let dst_mode : Int := match cmd.dst with
    | some d => addr_mode d
    | none => -1
  let idx := cmd.cmd_address - IC_INIT_VALUE + 1
  if cmd.src.isSome ∧ cmd.dst.isSome ∧ src_mode = ADDR_MODE_REGISTER ∧
      dst_mode = ADDR_MODE_REGISTER then
    match mark_word_absolute idx st.instruction_image with
    | none => none
    | some image => some { st with instruction_image := image }
  else
    let after_src : Option (Pass2 × Int) :=
      match cmd.src with
      | some s => resolve_operand fs base_filename s src_mode idx symtab st
      | none => some (st, idx)
    match after_src with
    | none => none
    | some (st1, idx1) =>
      match cmd.dst with
      | some d =>
        (resolve_operand fs base_filename d dst_mode idx1 symtab st1).map Prod.fst
      | none => some st1

def resolve_symbols (fs : FileSystem) (base_filename : CStr) (symtab : List Symbol) :
    List CommandFields → Pass2 → Option Pass2
  | [], st => some st
  | cmd :: rest, st =>
    match resolve_command fs base_filename symtab cmd st with
    | none => none
    | some st1 => resolve_symbols fs base_filename symtab rest st1

/-- The line `<address letters> <word letters>\n` of the object file. -/
def ob_line (addr word : Int) : CStr :=
  decimal_to_base4_letters addr ++ [' '] ++ decimal_to_base4_letters word ++ ['\n']

/-- The function `write_object`: the lines written to `ob_fp`. -/
def write_object (icf : Int) (directives : List DirectiveFields) (image : Image) :
    List CStr :=
  (List.range (icf - IC_INIT_VALUE).toNat).map
      (fun (i : Nat) => ob_line (IC_INIT_VALUE + (i : Int)) (image i))
    ++ (directives.map (fun df =>
      if df.data_length ≤ 0 then []
      else (List.range df.data_length.toNat).map
        (fun (j : Nat) => ob_line (icf + df.data_address + (j : Int)) (df.data.getD j 0)))).flatten

/-- The body of the loop of `write_entries` for one directive, on the local
`ent_fp` and the error count. -/
def write_entries_step (fs : FileSystem) (base_filename : CStr) (symtab : List Symbol)
    (st : Stream × Int) (df : DirectiveFields) : Stream × Int :=
  if df.is_extern then st
  else
    match df.arg_label with
    | none => st
    | some arg_label =>
      match find_symbol symtab arg_label with
      | none => (st.1, st.2 + 1)
      | some sym =>
        let fp : Stream :=
          match st.1 with
          | some f => some f
          | none =>
            if open_file_with_ext fs base_filename ".ent".toList then some [] else none
        match fp with
        | none => (none, st.2 + 1)
        | some f => (some (f ++ [ref_line sym.name sym.address]), st.2)

/-- The function `write_entries`: the entries stream when the loop is left and
the error count. -/
def write_entries (fs : FileSystem) (base_filename : CStr) (symtab : List Symbol)
    (directives : List DirectiveFields) (error_count : Int) : Stream × Int :=
  directives.foldl (write_entries_step fs base_filename symtab) (none, error_count)

/-- What a second pass leaves: its return value, the code image and the three
output files. -/
structure SecondPassResult where
  ret : Int
  instruction_image : Image
  ob_file : Stream
  ent_file : Stream
  ext_file : Stream

/-- The function `second_pass` on the globals `instruction_image`,
`command_list` and `directive_list`. -/
def second_pass (fs : FileSystem) (symtab : List Symbol) (icf : Int)
    (base_filename : CStr) (image : Image) (command_list : List CommandFields)
    (directive_list : List DirectiveFields) : Option SecondPassResult :=
  if !open_file_with_ext fs base_filename ".ob".toList then
    some { ret := -1, instruction_image := image, ob_file := none, ent_file := none,
           ext_file := none }
  else
    match resolve_symbols fs base_filename symtab command_list
        { instruction_image := image, ext_fp := none, error_count := 0 } with
    | none => none
    | some st =>
      let ob := write_object icf directive_list st.instruction_image
      let ent := write_entries fs base_filename symtab directive_list st.error_count
      some { ret := ent.2, instruction_image := st.instruction_image, ob_file := some ob,
             ent_file := ent.1, ext_file := st.ext_fp }

/-- One file through the first and the second pass, as `main` runs them from a
fresh process: the second pass runs when the first one succeeded and
`icf + dcf` is within the memory bound. -/
def assemble (fs : FileSystem) (base_filename : CStr) (input_file : CStr) :
    Option SecondPassResult :=
  let r := first_pass input_file [] zero_image [] []
  if r.1 ≠ 0 then none
  else if r.2.IC + r.2.dc > MAX_WORDS_MEMORY then none
  else second_pass fs r.2.sym_table r.2.IC base_filename r.2.instruction_image
    r.2.command_list r.2.directive_list

/-! ## Notions used in the statements -/

/-- The mode that the first and the second pass compute for an operand. -/
def mode_of (operand : Option CStr) : Int :=
  match operand with
  | some s => addr_mode s
  | none => -1

/-- The number of extra words of one present operand. -/
def operand_words (mode : Int) : Int := if mode = ADDR_MODE_MATRIX then 2 else 1

/-- The length rule in the words of the specification: one opcode word; one
shared word when both operands are registers; otherwise two words for a MATRIX
operand and one for any other present operand. -/
def spec_length (src_mode dst_mode : Int) (src dst : Option CStr) : Int :=
  if src.isSome ∧ dst.isSome ∧ src_mode = 3 ∧ dst_mode = 3 then 1 + 1
  else
    1 + (match src with
         | some _ => if src_mode = 2 then 2 else 1
         | none => 0)
      + (match dst with
         | some _ => if dst_mode = 2 then 2 else 1
         | none => 0)

/-- How one step of the first pass may change the symbol table: not at all, or
by one new head whose address is the data counter (DATA), the instruction
counter (CODE) or 0 (EXTERNAL) of the state before. -/
def sym_step (st st1 : Pass1) : Prop :=
  st1.sym_table = st.sym_table ∨
  ∃ s, st1.sym_table = s :: st.sym_table ∧
    ((s.type = SYMBOL_DATA ∧ s.address = st.dc) ∨
     (s.type = SYMBOL_CODE ∧ s.address = st.IC) ∨
     (s.type = SYMBOL_EXTERNAL ∧ s.address = 0))

/-- The code image holds only words with A/R/E = 00. -/
def all_absolute (image : Image) : Prop := ∀ i, image i % 4 = 0

/-- The words of a recorded command, from its operand texts, as the second
pass counts them. -/
def cmd_words (cmd : CommandFields) : Int :=
  compute_instruction_length (mode_of cmd.src) (mode_of cmd.dst) cmd.src cmd.dst

/-- The recorded commands lie one after the other inside the addresses
`100 .. hi`, each with the length that its operands give. -/
def commands_tile (cs : List CommandFields) (hi : Int) : Prop :=
  List.Pairwise (fun a b => a.cmd_address + a.length ≤ b.cmd_address) cs ∧
  ∀ c ∈ cs, 100 ≤ c.cmd_address ∧ c.length = cmd_words c ∧ c.cmd_address + c.length ≤ hi

/-- The externals line of a reference `(name, idx)`: the name and the address
`100 + idx` of the referring word. -/
def ext_line (r : CStr × Nat) : CStr := ref_line r.1 (IC_INIT_VALUE + (r.2 : Int))

/-- The indices below `n` of the code words whose A/R/E field is External (01),
in increasing order. -/
def external_words (image : Image) (n : Nat) : List Nat :=
  (List.range n).filter (fun i => decide (image i % 4 = 1))

/-- The second pass has stored one word, at index `n`: either an External word,
together with one call of `write_external_reference` for an EXTERNAL symbol of
the table at the index of that word, or a word with A/R/E 00 or 10 and no call. -/
def one_word (fs : FileSystem) (base_filename : CStr) (symtab : List Symbol)
    (st st1 : Pass2) (n : Nat) : Prop :=
  (∀ i, i ≠ n → st1.instruction_image i = st.instruction_image i) ∧
  ((st1.instruction_image n % 4 = 1 ∧
      ∃ sym, sym ∈ symtab ∧ sym.type = SYMBOL_EXTERNAL ∧
        st1.ext_fp = write_external_reference fs base_filename st.ext_fp sym.name (n : Int)) ∨
   ((st1.instruction_image n % 4 = 0 ∨ st1.instruction_image n % 4 = 2) ∧
      st1.ext_fp = st.ext_fp))

/-- The state of the operand resolution when all words below index `f` are
done: when the externals file can be opened, its lines are those of the
references `refs`; these are the External words below `f` in address order, and
they name EXTERNAL symbols; the words from `f` on still have A/R/E 00, and no
word has A/R/E 11. -/
def ext_inv (fs : FileSystem) (base_filename : CStr) (symtab : List Symbol)
    (st : Pass2) (f : Nat) (refs : List (CStr × Nat)) : Prop :=
  (open_file_with_ext fs base_filename ".ext".toList = true →
    st.ext_fp.getD [] = refs.map ext_line) ∧
  refs.map Prod.snd = external_words st.instruction_image f ∧
  (∀ r, r ∈ refs → ∃ sym, sym ∈ symtab ∧ sym.type = SYMBOL_EXTERNAL ∧ sym.name = r.1) ∧
  (∀ i, f ≤ i → st.instruction_image i % 4 = 0) ∧
  (∀ i, st.instruction_image i % 4 = 0 ∨ st.instruction_image i % 4 = 1 ∨
    st.instruction_image i % 4 = 2)

/-- The recorded commands after a first pass: first the commands that lie in
order inside the code image, then, if the image filled up, the commands that
did not fit it any more. -/
def commands_split (cs : List CommandFields) (IC : Int) : Prop :=
  ∃ good bad, cs = good ++ bad ∧ commands_tile good IC ∧
    (∀ c ∈ bad, 100 ≤ c.cmd_address ∧ c.length = cmd_words c ∧
      356 < c.cmd_address + c.length) ∧
    (bad ≠ [] → IC = 356)
/-- The state that `first_pass` leaves for the first file of a fresh process:
empty symbol table, zeroed code image, empty command and directive lists. -/
def first_pass_fresh (input_file : CStr) : Pass1 :=
  (first_pass input_file [] zero_image [] []).2

/-- The call `second_pass(symtab, icf, base_filename)` that `main` makes on the
state a first pass has left. -/
def second_pass_after (fs : FileSystem) (base_filename : CStr) (p1 : Pass1) :
    Option SecondPassResult :=
  second_pass fs p1.sym_table p1.IC base_filename p1.instruction_image p1.command_list
    p1.directive_list

/-- A `.data` line of 37 values. -/
def data_line_37 : CStr :=
  ".data 1,1,1,1,1,1,1,1,1,1,1,1,1,1,1,1,1,1,1,1,1,1,1,1,1,1,1,1,1,1,1,1,1,1,1,1,1\n".toList

/-- A source file of 256 words: one `jmp M` (two code words), 154 data words,
and the label `M` on a `.mat` without values, which gets the address 256. -/
def program_address_256 : CStr :=
  "jmp M\n".toList ++ data_line_37 ++ data_line_37 ++ data_line_37 ++ data_line_37
    ++ ".data 1,1,1,1,1,1\n".toList ++ "M: .mat [1][1]\n".toList

/-- The invariant of the first pass on the code side of its state. -/
def code_inv (st : Pass1) : Prop :=
  100 ≤ st.IC ∧ st.IC ≤ 356 ∧ all_absolute st.instruction_image ∧
  commands_split st.command_list st.IC

/-! ## Notions used in the statements about operands and directives -/

/-- The eight register names. -/
def REGISTER_NAMES : List CStr :=
  ["r0".toList, "r1".toList, "r2".toList, "r3".toList, "r4".toList, "r5".toList,
   "r6".toList, "r7".toList]

/-- The sixteen mnemonics of the instruction table. -/
def MNEMONICS : List CStr := instruction_info_table.map (fun e => e.name)

/-- Whether bit `1 << mode` is set in an addressing-mode mask (two's
complement, for a mode in 0..3). -/
def mode_allowed (mask mode : Int) : Bool := decide (mask / 2 ^ mode.toNat % 2 = 1)

/-- The table entry of `lea`. -/
def LEA_INFO : InstructionInfo := ⟨4, "lea".toList, 6, 14⟩

/-- The mnemonics that take one operand. -/
def SINGLE_OPERAND : List CStr :=
  ["clr".toList, "not".toList, "inc".toList, "dec".toList, "jmp".toList,
   "bne".toList, "jsr".toList, "red".toList, "prn".toList]

/-- The number that a string of decimal digits denotes. -/
def decimal_value (ds : CStr) : Nat :=
  ds.foldl (fun acc c => acc * 10 + (c.toNat - 48)) 0

/-- The integer that a literal denotes: an optional sign followed by at least
one decimal digit; `none` for any other text. -/
def literal_value (text : CStr) : Option Int :=
  match text with
  | [] => none
  | c :: cs =>
    if c = '-' then
      (if cs ≠ [] ∧ cs.all isdigit = true then some (-(decimal_value cs : Int)) else none)
    else if c = '+' then
      (if cs ≠ [] ∧ cs.all isdigit = true then some (decimal_value cs : Int) else none)
    else if (c :: cs).all isdigit = true then some (decimal_value (c :: cs) : Int)
    else none

/-- A source whose 51 instructions of five words leave one free word in the
code image, followed by `prn #5`, which needs two. -/
def program_full_image : CStr :=
  (List.replicate 51 "mov M[r1][r2], M[r1][r2]\n".toList).flatten ++ "prn #5\n".toList

/-- A list of value tokens written out with a separator between neighbours. -/
def join_values (sep : CStr) : List CStr → CStr
  | [] => []
  | [t] => t
  | t :: t2 :: ts => t ++ sep ++ join_values sep (t2 :: ts)

/-- A source whose 256 `.entry` lines fill the directive list, followed by a
`.data` line and a `.string` line. -/
def program_full_lists : CStr :=
  (List.replicate 256 ".entry X\n".toList).flatten ++ ".data 5\n.string \"ab\"\n".toList

/-- The source line `.string "s"`, without its newline. -/
def string_line (s : CStr) : CStr := ".string ".toList ++ DQUOTE :: s ++ [DQUOTE]

/-! ## Notions used in the statements about `.mat` and the symbol table -/

/-- A name of 31 characters. -/
def NAME31 : CStr := "aaaaaaaaaabbbbbbbbbbccccccccccd".toList

/-- Another name of 31 characters with the same first 30 characters. -/
def NAME31_OTHER : CStr := "aaaaaaaaaabbbbbbbbbbcccccccccce".toList

/-- The first 30 characters of both. -/
def NAME30 : CStr := "aaaaaaaaaabbbbbbbbbbcccccccccc".toList

/-- The directive names without their dot. -/
def DIRECTIVE_NAMES : List CStr :=
  ["data".toList, "string".toList, "mat".toList, "extern".toList, "entry".toList]

/-- The operand text of a `.mat` line: the two dimensions in brackets, white
space, and the values written out with a separator. -/
def mat_operands (rt ct ws sep : CStr) (toks : List CStr) : CStr :=
  '[' :: (rt ++ ']' :: '[' :: (ct ++ ']' :: (ws ++ join_values sep toks)))

/-! ## preprocessor.c -/

def MACRO_START_DIRECTIVE : CStr := "mcro".toList
def MACRO_END_DIRECTIVE : CStr := "mcroend".toList

/-- The delimiters `" \t"` of the preprocessor's tokens. -/
def BLANKS : CStr := [' ', '\t']

/-- One macro; the list of macros is the linked list, head first. -/
structure Macro where
  name : CStr
  body : CStr
  line_number : Int
deriving DecidableEq, Repr

def macro_find : List Macro → CStr → Option Macro
  | [], _ => none
  | temp :: next, name => if name = temp.name then some temp else macro_find next name

def macro_is_already_defined (head : List Macro) (name : CStr) : Bool :=
  (macro_find head name).isSome

/-- The function `macro_create`: the new node, or `none` for NULL. -/
def macro_create (head : List Macro) (name body : CStr) (line_number : Int) :
    Option Macro :=
  if macro_is_already_defined head name then none
  else some { name := name, body := body, line_number := line_number }

/-- The function `macro_push`: what it returns and the list afterwards. -/
def macro_push (head : List Macro) (macro_node : Macro) : Int × List Macro :=
  if macro_is_already_defined head macro_node.name then (-1, head)
  else (0, head ++ [macro_node])

/-- The function `begin_macro_definition`: `none` when it returns false, else
the name written to `macro_name_out` (assumed to fit its buffer) and the line
number written to `start_line_out`. -/
def begin_macro_definition (line : CStr) (line_num : Int) (head : List Macro) :
    Option (CStr × Int) :=
  let t1 := strtok line BLANKS
  let name := strtok t1.2 BLANKS
  let extra := strtok name.2 BLANKS
  match name.1 with
  | none => none
  | some nm =>
    if extra.1.isSome then none
    else if is_illegal_name nm then none
    else if macro_is_already_defined head nm then none
    else some (nm, line_num)

/-- The function `end_macro_definition`: `none` when it returns false, else the
list of macros afterwards. -/
def end_macro_definition (macro_name body : CStr) (start_line : Int) (head : List Macro) :
    Option (List Macro) :=
  match macro_create head macro_name body start_line with
  | none => none
  | some m => some (macro_push head m).2

def has_extra_after_macro (line : CStr) : Bool :=
  (strtok (strtok line BLANKS).2 BLANKS).1.isSome

/-- The function `expand_macro_or_emit_line`: what it returns and the text of
`out` afterwards. -/
def expand_macro_or_emit_line (line first_token : CStr) (out : CStr) (head : List Macro)
    (line_num : Int) : Bool × CStr :=
  match macro_find head first_token with
  | some m =>
    if has_extra_after_macro line then (false, out)
    else if m.line_number > line_num then (false, out)
    else (true, out ++ m.body)
  | none =>
    if first_token.length > 1 ∧ first_token.getLast? = some ':' then
      let second_token := strtok (strtok line BLANKS).2 BLANKS
      match second_token.1 with
      | none => (true, out ++ line ++ ['\n'])
      | some second =>
        match macro_find head second with
        | none => (true, out ++ line ++ ['\n'])
        | some m =>
          if (strtok second_token.2 BLANKS).1.isSome then (false, out)
          else if m.line_number > line_num then (false, out)
          else (true, out ++ first_token ++ [' '] ++ m.body)
    else (true, out ++ line ++ ['\n'])

/-- The function `append_body_line`, with `realloc` succeeding. -/
def append_body_line (body line : CStr) : CStr := body ++ line ++ ['\n']

/-- The locals of `macro_scan` that live across lines, with the text written to
`out` and the list of macros. -/
structure ScanState where
  out : CStr
  head : List Macro
  macro_name : CStr
  body : CStr
  line_number : Int
  start_line : Int
  inside_macro : Bool
deriving DecidableEq, Repr

/-- The body of the `while (fgets(...))` loop of `macro_scan` for one line read:
`false` when the function returns false there. -/
def macro_scan_line (raw : CStr) (st : ScanState) : Bool × ScanState :=
  let st := { st with line_number := st.line_number + 1 }
  let line := cut_at raw '\n'
  match (strtok line BLANKS).1 with
  | none => (true, st)
  | some token =>
    if st.inside_macro then
      if token = MACRO_END_DIRECTIVE then
        if has_extra_after_macro line then (false, st)
        else
          match end_macro_definition st.macro_name st.body st.start_line st.head with
          | none => (false, { st with body := [] })
          | some head => (true, { st with head := head, body := [], inside_macro := false })
      else (true, { st with body := append_body_line st.body line })
    else if token = MACRO_START_DIRECTIVE then
      match begin_macro_definition line st.line_number st.head with
      | none => (false, st)
      | some (name, start) =>
        (true, { st with macro_name := name, start_line := start, inside_macro := true })
    else if token = MACRO_END_DIRECTIVE then (false, st)
    else
      let r := expand_macro_or_emit_line line token st.out st.head st.line_number
      (r.1, { st with out := r.2 })

/-- The loop of `macro_scan` over the lines read and the test at end of file. -/
def macro_scan_loop : List CStr → ScanState → Bool × ScanState
  | [], st => (!st.inside_macro, st)
  | raw :: rest, st =>
    match macro_scan_line raw st with
    | (false, st1) => (false, st1)
    | (true, st1) => macro_scan_loop rest st1

/-- The function `macro_scan` on the text of `in`, from an empty `out` and an
empty list of macros: what it returns, the text of `out` and the list. -/
def macro_scan (input : CStr) : Bool × CStr × List Macro :=
  let r := macro_scan_loop (fgets_lines input)
    { out := [], head := [], macro_name := [], body := [], line_number := 0,
      start_line := 0, inside_macro := false }
  (r.1, r.2.out, r.2.head)

/-- The function `cleanup_file`: the text written to `out`. -/
def cleanup_file (input : CStr) : CStr :=
  ((((fgets_lines input).map cleanup_line).filter (fun l => l ≠ [])).map
    (fun l => l ++ ['\n'])).flatten

/-- The function `preprocess_file` for a source file that can be read and an
output file that can be created: what it returns and the text of the `.am`
file. -/
def preprocess_file (source : CStr) : Int × CStr :=
  let trimmed := cleanup_file source
  if trimmed = [] then (0, [])
  else
    let r := macro_scan trimmed
    (if r.1 then 0 else 1, r.2.1)

/-! ## Notions used in the statements about the preprocessor -/

/-- The blank-separated words of a line. -/
def words (l : CStr) : List CStr := strtok_all l BLANKS

/-- The text of a list of lines, each followed by one newline. -/
def text_of (lines : List CStr) : CStr := (lines.map (fun l => l ++ ['\n'])).flatten

/-- The body, as a list of lines, of the first completed definition with a
given name. -/
def spec_body (defined : List (CStr × List CStr)) (name : CStr) : Option (List CStr) :=
  (defined.find? (fun d => decide (d.1 = name))).map (fun d => d.2)

/-- The expansion that the specification describes, line by line: `defined`
holds the completed definitions (name and body lines) and `cur` the definition
that is open, if any. Lines of a definition produce no output; a line that is
only the name of a defined macro produces its body; with `label_calls`, a line
of two words, a label and the name of a defined macro, produces the label, one
space and the body; every other line is copied. -/
def spec_expand (label_calls : Bool) :
    List CStr → List (CStr × List CStr) → Option (CStr × List CStr) → CStr
  | [], _, _ => []
  | l :: rest, defined, some (name, body) =>
    if (words l).head? = some MACRO_END_DIRECTIVE then
      spec_expand label_calls rest (defined ++ [(name, body)]) none
    else spec_expand label_calls rest defined (some (name, body ++ [l]))
  | l :: rest, defined, none =>
    if (words l).head? = some MACRO_START_DIRECTIVE then
      spec_expand label_calls rest defined (some ((words l).getD 1 [], []))
    else
      match words l with
      | [m] =>
        (match spec_body defined m with
         | some body => text_of body
         | none => l ++ ['\n']) ++ spec_expand label_calls rest defined none
      | [lab, m] =>
        (match spec_body defined m with
         | some body =>
           if label_calls = true ∧ lab.length > 1 ∧ lab.getLast? = some ':' then
             lab ++ [' '] ++ text_of body
           else l ++ ['\n']
         | none => l ++ ['\n']) ++ spec_expand label_calls rest defined none
      | _ => l ++ ['\n'] ++ spec_expand label_calls rest defined none

/-- The lines that `fgets` delivers for one line of at most 80 characters that
is followed by a newline: a line of exactly 80 characters fills the buffer, and
its newline is delivered on its own. -/
def line_chunks (l : CStr) : List CStr :=
  if l.length = 80 then [l, ['\n']] else [l ++ ['\n']]

/-- How the state of `macro_scan` corresponds to the completed definitions and
the open definition of the specification's expansion. -/
def scan_rel (st : ScanState) (defined : List (CStr × List CStr))
    (cur : Option (CStr × List CStr)) : Prop :=
  st.head.map (fun m => (m.name, m.body)) = defined.map (fun d => (d.1, text_of d.2)) ∧
  (match cur with
   | none => st.inside_macro = false ∧ st.body = []
   | some (name, body) =>
     st.inside_macro = true ∧ st.macro_name = name ∧ st.body = text_of body)

/-- The lines of a source with a definition whose body names the macro itself, a
call after a label, a call and a plain line. -/
def EXPANSION_EXAMPLE : List CStr :=
  ["mcro M".toList, "inc r1".toList, "M".toList, "mcroend".toList, "L: M".toList,
   "M".toList, "stop".toList]

/-! ## helpers.c: `decimal_to_binary` -/

/-- The function `to_twos_complement`: `(unsigned int)(~value + 1)`. -/
def to_twos_complement (value : Int) : Nat := toU32 (c_not value + 1)

/-- The loop of `decimal_to_binary` with `n` characters still to write, from
the last one down: `buf` holds the characters written so far. -/
def decimal_to_binary_loop : Nat → Nat → CStr → CStr
  | 0, _, buf => buf
  | n + 1, working_value, buf =>
    decimal_to_binary_loop n (working_value / 2)
      ((if working_value % 2 ≠ 0 then '1' else '0') :: buf)

/-- The function `decimal_to_binary`, with `safe_calloc` succeeding: `none` for
NULL. -/
def decimal_to_binary (value bits : Int) : Option CStr :=
  if bits ≤ 0 then none
  else
    let working_value : Nat :=
      if value < 0 then to_twos_complement value else toU32 value
    some (decimal_to_binary_loop bits.toNat working_value [])

/-! ## assembler.c -/

/-- What lives across the iterations of the loop of `main`: its local `symtab`
and the globals `instruction_image`, `command_list` and `directive_list`. -/
structure Session where
  symtab : List Symbol
  instruction_image : Image
  command_list : List CommandFields
  directive_list : List DirectiveFields

/-- The variables of `main` and the globals when the process starts. -/
def Session.start : Session :=
  { symtab := [], instruction_image := zero_image, command_list := [], directive_list := [] }

/-- Where the body of the loop of `main` leaves a file. -/
inductive FileStage where
  | preprocess_failed
  | first_pass_failed
  | memory_overflow
  | second_pass_failed
  | complete
deriving DecidableEq, Repr

/-- What the body of the loop of `main` does with one file: the stage that it
reaches, the state that the first pass leaves, if it runs, and the result of
the second pass, if it runs. -/
structure FileReport where
  stage : FileStage
  pass1 : Option Pass1
  second : Option SecondPassResult

/-- The body of the loop of `main` for one file name and the text of its `.as`
file, for files that can be opened: the report and the session afterwards;
`none` when the second pass writes outside the code image. -/
def main_file (fs : FileSystem) (s : Session) (base source : CStr) :
    Option (FileReport × Session) :=
  let pp := preprocess_file source
  if pp.1 ≠ 0 then some (⟨FileStage.preprocess_failed, none, none⟩, s)
  else
    let r := first_pass pp.2 s.symtab s.instruction_image s.command_list s.directive_list
    let after_first : Session :=
      { symtab := r.2.sym_table, instruction_image := r.2.instruction_image,
        command_list := r.2.command_list, directive_list := [] }
    if r.1 ≠ 0 then some (⟨FileStage.first_pass_failed, some r.2, none⟩, after_first)
    else if r.2.IC + r.2.dc > MAX_WORDS_MEMORY then
      some (⟨FileStage.memory_overflow, some r.2, none⟩, after_first)
    else
      match second_pass fs r.2.sym_table r.2.IC base r.2.instruction_image
          r.2.command_list r.2.directive_list with
      | none => none
      | some r2 =>
        some (⟨if r2.ret ≠ 0 then FileStage.second_pass_failed else FileStage.complete,
                some r.2, some r2⟩,
              { symtab := r.2.sym_table, instruction_image := r2.instruction_image,
                command_list := [], directive_list := [] })

/-- The loop of `main` over the files of the command line, each given by its
name and the text of its `.as` file: the reports in order. -/
def main_loop (fs : FileSystem) : List (CStr × CStr) → Session → Option (List FileReport)
  | [], _ => some []
  | (base, source) :: rest, s =>
    match main_file fs s base source with
    | none => none
    | some (report, s1) =>
      match main_loop fs rest s1 with
      | none => none
      | some reports => some (report :: reports)

/-- The function `main` on the files of the command line. -/
def main (fs : FileSystem) (files : List (CStr × CStr)) : Option (List FileReport) :=
  main_loop fs files Session.start

/-! ## Notions used in the statements about the memory bound and the session -/

/-- A source file of 156 data words and no code. -/
def program_156_words : CStr :=
  data_line_37 ++ data_line_37 ++ data_line_37 ++ data_line_37
    ++ ".data 1,1,1,1,1,1,1,1\n".toList

/-- A source file of 157 data words and no code. -/
def program_157_words : CStr :=
  data_line_37 ++ data_line_37 ++ data_line_37 ++ data_line_37
    ++ ".data 1,1,1,1,1,1,1,1,1\n".toList

/-- The stage that `main` reaches for each file of the command line. -/
def stages (fs : FileSystem) (files : List (CStr × CStr)) : Option (List FileStage) :=
  (main fs files).map (fun reports => reports.map (fun r => r.stage))

/-! ## Notions used in the statement about duplicate macros -/

/-- Whether a definition is open after a line, from whether one was open before
it: a line whose first word is `mcro` opens a definition when none is open, and
a line whose first word is `mcroend` closes the open one. -/
def inside_step (l : CStr) (inside : Bool) : Bool :=
  match (words l).head? with
  | none => inside
  | some t =>
    if inside then decide (t ≠ MACRO_END_DIRECTIVE) else decide (t = MACRO_START_DIRECTIVE)

/-- Whether a definition is open after a list of lines. -/
def inside_after (lines : List CStr) (inside : Bool) : Bool :=
  lines.foldl (fun b l => inside_step l b) inside

/-- The macro `name` is in the list of macros, or it is the definition that is
open. -/
def macro_known (st : ScanState) (name : CStr) : Prop :=
  macro_find st.head name ≠ none ∨ (st.inside_macro = true ∧ st.macro_name = name)

/-- The state in which `macro_scan` enters its loop. -/
def scan_start : ScanState :=
  { out := [], head := [], macro_name := [], body := [], line_number := 0,
    start_line := 0, inside_macro := false }

/-! ## Notions used in the statements about the tiling of the segments -/

/-- The commands lie one right after the other from address `lo` to address
`hi`, each with at least one word. -/
def commands_chain : List CommandFields → Int → Int → Bool
  | [], lo, hi => decide (lo = hi)
  | c :: rest, lo, hi =>
    decide (c.cmd_address = lo) && decide (1 ≤ c.length) &&
      commands_chain rest (lo + c.length) hi

/-- The command `c` claims the address `a`. -/
def claims (c : CommandFields) (a : Int) : Bool :=
  decide (c.cmd_address ≤ a) && decide (a < c.cmd_address + c.length)

/-- The directives lie one right after the other in the data segment from
`lo` to `hi`: the payload of each has the length `data_length`, and a directive
with a payload starts where the payloads before it end. -/
def data_chain : List DirectiveFields → Int → Int → Bool
  | [], lo, hi => decide (lo = hi)
  | df :: rest, lo, hi =>
    decide (0 ≤ df.data_length) && decide ((df.data.length : Int) = df.data_length) &&
      (decide (df.data_length = 0) || decide (df.data_address = lo)) &&
      data_chain rest (lo + df.data_length) hi

/-- The directive word and the operand text that `first_pass` takes from a
line that it has read. -/
def line_directive (raw_line : CStr) : Option CStr × Option CStr :=
  let lp := consume_label_prefix (sanitize_line raw_line)
  let t := strtok lp.1 [' ', '\t']
  (t.1, strtok_rest t.2)

/-- The operand text of a `.mat` line gives as many values as the matrix has
cells, when its dimensions are accepted. -/
def mat_exact (operands : CStr) : Bool :=
  match sscanf_mat operands with
  | none => true
  | some (rows, cols, consumed) =>
    decide (rows ≤ 0 ∨ cols ≤ 0 ∨
      ((strtok_all (operands.drop consumed) VALUE_DELIMS).length : Int) = rows * cols)

/-- Every `.mat` line among the lines read gives as many values as its matrix
has cells. -/
def mat_lines_exact (lines : List CStr) : Prop :=
  ∀ raw ∈ lines, (line_directive raw).1 = some ".mat".toList →
    mat_exact ((line_directive raw).2.getD []) = true

instance (lines : List CStr) : Decidable (mat_lines_exact lines) := by
  unfold mat_lines_exact
  exact inferInstance

/-- A source with one directive of each kind and one instruction. -/
def TILING_EXAMPLE : CStr :=
  "X: .data 5, 6\n.entry X\nM: .mat [1][2] 7, 8\nstop\nS: .string \"a\"\n".toList

/-- What one line may do to the lists and to DC: nothing; or one command more;
or one directive whose payload has the length `data_length` and starts at DC,
the directive being appended or, when the lists hold 256 records, dropped. DC
is then advanced by the payload length, under the condition `exact` where the
line is a `.mat` line. -/
def list_step (exact : Prop) (st st1 : Pass1) : Prop :=
  (st1.directive_list = st.directive_list ∧ st1.dc = st.dc ∧
    (st1.command_list = st.command_list ∨ ∃ c, st1.command_list = st.command_list ++ [c])) ∨
  (st1.command_list = st.command_list ∧
    ∃ df, 0 ≤ df.data_length ∧ (df.data.length : Int) = df.data_length ∧
      (df.data_length = 0 ∨ df.data_address = st.dc) ∧
      (exact → st1.dc = st.dc + df.data_length) ∧
      (st1.directive_list = st.directive_list ++ [df] ∨
        (256 ≤ command_count st + directive_count st ∧
          st1.directive_list = st.directive_list)))

/-- A source with instructions of one, two and three words around a
directive. -/
def CHAIN_EXAMPLE : CStr :=
  "MAIN: mov #-1, r3\nX: .data 5\nclr M[r1][r2]\njmp MAIN\nstop\n".toList

end Asm

/-! # Theorems -/

namespace Asm

open SymbolType
/-! ## Bit-level facts -/

/-- The operation `x & (2^k - 1)` keeps the low `k` bits. -/
theorem c_and_low (x : Int) (k : Nat) (hk : k ≤ 31) :
    c_and x ((2 : Int) ^ k - 1) = x % (2 : Int) ^ k := by
  have hpow : (2 : Nat) ^ k ≤ 2 ^ 31 := Nat.pow_le_pow_right (by decide) hk
  have hpos : 0 < (2 : Nat) ^ k := Nat.pow_pos (by decide)
  have hcast : ((2 : Int) ^ k) = (((2 : Nat) ^ k : Nat) : Int) := by push_cast; rfl
  have hm : toU32 ((2 : Int) ^ k - 1) = 2 ^ k - 1 := by
    unfold toU32
    rw [hcast]
    have : (0 : Int) ≤ ((2 ^ k : Nat) : Int) - 1 := by omega
    rw [Int.emod_eq_of_lt this (by omega)]
    omega
  unfold c_and
  rw [hm, Nat.and_pow_two_sub_one_eq_mod]
  unfold toU32 ofU32
  have hdvd : (2 : Nat) ^ k ∣ 4294967296 := by
    have : (4294967296 : Nat) = 2 ^ 32 := by norm_num
    rw [this]
    exact Nat.pow_dvd_pow 2 (by omega)
  have h1 : (x % 4294967296).toNat % 2 ^ k < 2 ^ k := Nat.mod_lt _ hpos
  have h2 : (x % 4294967296).toNat % 2 ^ k % 4294967296 = (x % 4294967296).toNat % 2 ^ k :=
    Nat.mod_eq_of_lt (by omega)
  rw [h2, if_pos (by omega)]
  rw [hcast]
  have h3 : 0 ≤ x % 4294967296 := Int.emod_nonneg _ (by decide)
  have h4 : ((x % 4294967296).toNat : Int) = x % 4294967296 := Int.toNat_of_nonneg h3
  push_cast
  rw [h4]
  have hd2 : (((2:Nat) ^ k : Nat) : Int) ∣ 4294967296 := by
    exact_mod_cast Int.natCast_dvd_natCast.mpr hdvd
  push_cast at hd2
  exact Int.emod_emod_of_dvd x hd2

theorem c_and_WORD_MASK (x : Int) : c_and x WORD_MASK = x % 1024 := by
  simpa [WORD_MASK] using c_and_low x 10 (by decide)

theorem c_and_IMM_MASK (x : Int) : c_and x IMM_MASK = x % 256 := by
  simpa [IMM_MASK] using c_and_low x 8 (by decide)

theorem c_and_NIBBLE_MASK (x : Int) : c_and x NIBBLE_MASK = x % 16 := by
  simpa [NIBBLE_MASK] using c_and_low x 4 (by decide)

theorem c_and_ADDR_MODE_MASK (x : Int) : c_and x ADDR_MODE_MASK = x % 4 := by
  simpa [ADDR_MODE_MASK] using c_and_low x 2 (by decide)

/-- A left shift of a small non-negative value is a multiplication. -/
theorem c_shl_small (a : Int) (k : Nat) (h0 : 0 ≤ a) (h1 : a * 2 ^ k < 2147483648) :
    c_shl a k = a * 2 ^ k := by
  have hk : (1 : Int) ≤ 2 ^ k := by
    have : (0:Int) < 2 ^ k := by positivity
    omega
  have ha : a < 4294967296 := by nlinarith
  unfold c_shl
  have : toU32 a = a.toNat := by
    unfold toU32; rw [Int.emod_eq_of_lt h0 ha]
  rw [this, Nat.shiftLeft_eq]
  unfold ofU32
  have hn : ((a.toNat * 2 ^ k : Nat) : Int) = a * 2 ^ k := by
    push_cast; rw [Int.toNat_of_nonneg h0]
  have hlt : a.toNat * 2 ^ k < 2147483648 := by
    have : ((a.toNat * 2 ^ k : Nat) : Int) < 2147483648 := by rw [hn]; exact h1
    exact_mod_cast this
  rw [Nat.mod_eq_of_lt (by omega), if_pos hlt, hn]

theorem ofU32_emod4 (n : Nat) : ofU32 n % 4 = ((n % 4 : Nat) : Int) := by
  unfold ofU32
  split <;> omega

/-- Clearing the A/R/E bits leaves a multiple of 4. -/
theorem c_and_not_ARE_MASK (w : Int) : c_and w (c_not ARE_MASK) % 4 = 0 := by
  unfold c_and
  rw [ofU32_emod4]
  have h : toU32 (c_not ARE_MASK) = 4294967292 := by decide
  rw [h]
  have : (toU32 w &&& 4294967292) % 2 ^ 2 = 0 := by
    apply Nat.eq_of_testBit_eq
    intro i
    rw [Nat.testBit_mod_two_pow, Nat.testBit_and]
    rcases i with _ | _ | i
    · simp
    · simp
      intro _
      decide
    · simp
  have h4 : (toU32 w &&& 4294967292) % 4 = 0 := this
  rw [h4]; rfl

/-- The word packed from in-range fields, as arithmetic. -/
theorem first_word_fin (o : Fin 16) (s d : Fin 4) :
    first_word o.val s.val d.val = ((o.val * 64 + s.val * 16 + d.val * 4 : Nat) : Int) := by
  revert o s d
  decide

/-- Two register fields packed into one word, as arithmetic. -/
theorem pack_regs_fin (a b : Fin 16) :
    c_or (c_shl (a.val : Int) REG_SRC_SHIFT) (c_shl (b.val : Int) REG_DST_SHIFT)
      = ((a.val * 64 + b.val * 4 : Nat) : Int) := by
  revert a b
  decide
/-! ## The base-4 letter encoding -/

theorem base4_letter_code (x : Int) :
    ((base4_letter (x % 4)).toNat : Int) - 97 = x % 4 := by
  have h : x % 4 = 0 ∨ x % 4 = 1 ∨ x % 4 = 2 ∨ x % 4 = 3 := by omega
  rcases h with h | h | h | h <;> rw [h] <;> decide

theorem base4_letter_mem (x : Int) :
    base4_letter x = 'a' ∨ base4_letter x = 'b' ∨ base4_letter x = 'c' ∨
      base4_letter x = 'd' := by
  unfold base4_letter
  split
  · exact Or.inl rfl
  · split
    · exact Or.inr (Or.inl rfl)
    · split
      · exact Or.inr (Or.inr (Or.inl rfl))
      · exact Or.inr (Or.inr (Or.inr rfl))

theorem base4_letters_unfold (v : Int) :
    decimal_to_base4_letters v =
      [base4_letter (v % 1024 / 4 / 4 / 4 / 4 % 4), base4_letter (v % 1024 / 4 / 4 / 4 % 4),
       base4_letter (v % 1024 / 4 / 4 % 4), base4_letter (v % 1024 / 4 % 4),
       base4_letter (v % 1024 % 4)] := by
  unfold decimal_to_base4_letters
  rw [c_and_WORD_MASK]
  rfl

theorem base4_value_letters (v : Int) :
    base4_value (decimal_to_base4_letters v) = v % 1024 := by
  rw [base4_letters_unfold]
  simp only [base4_value, List.foldl]
  have h1 := base4_letter_code (v % 1024 / 4 / 4 / 4 / 4)
  have h2 := base4_letter_code (v % 1024 / 4 / 4 / 4)
  have h3 := base4_letter_code (v % 1024 / 4 / 4)
  have h4 := base4_letter_code (v % 1024 / 4)
  have h5 := base4_letter_code (v % 1024)
  omega

/-- C4 (base-4 bijection): for every `v` in 0..1023 the text
`decimal_to_base4_letters v` has exactly five characters, each of them one of
`a`, `b`, `c`, `d`; read as a base-4 numeral, most significant digit first, it
gives back `v`; and a 10-bit value with the same text is `v` itself. -/
theorem base4_bijection (v : Int) (h0 : 0 ≤ v) (h1 : v ≤ 1023) :
    (decimal_to_base4_letters v).length = 5 ∧
    (∀ c ∈ decimal_to_base4_letters v, c = 'a' ∨ c = 'b' ∨ c = 'c' ∨ c = 'd') ∧
    base4_value (decimal_to_base4_letters v) = v ∧
    (∀ w : Int, 0 ≤ w → w ≤ 1023 →
      decimal_to_base4_letters w = decimal_to_base4_letters v → w = v) := by
  refine ⟨?_, ?_, ?_, ?_⟩
  · rw [base4_letters_unfold]; rfl
  · intro c hc
    rw [base4_letters_unfold] at hc
    simp only [List.mem_cons, List.mem_singleton, List.not_mem_nil, or_false] at hc
    rcases hc with h | h | h | h | h <;> rw [h] <;> exact base4_letter_mem _
  · rw [base4_value_letters]; omega
  · intro w hw0 hw1 heq
    have hw := base4_value_letters w
    have hv := base4_value_letters v
    rw [heq] at hw
    omega

theorem base4_bijection_witness :
    (decimal_to_base4_letters 1020).length = 5 ∧
    (∀ c ∈ decimal_to_base4_letters 1020, c = 'a' ∨ c = 'b' ∨ c = 'c' ∨ c = 'd') ∧
    base4_value (decimal_to_base4_letters 1020) = 1020 ∧
    (∀ w : Int, 0 ≤ w → w ≤ 1023 →
      decimal_to_base4_letters w = decimal_to_base4_letters 1020 → w = 1020) :=
  base4_bijection 1020 (by decide) (by decide)
/-! ## The words of the first pass -/

theorem emit_word_in_range (value : Int) (image : Image) (IC : Int)
    (h0 : 100 ≤ IC) (h1 : IC < 356) :
    emit_word value image IC =
      (IC - 100, set_word image (IC - 100).toNat (value % 1024), IC + 1) := by
  unfold emit_word
  simp only [IC_INIT_VALUE, MAX_WORDS_MEMORY, c_and_WORD_MASK]
  rw [if_neg (by omega)]

theorem emit_word_full (value : Int) (image : Image) (IC : Int) (h1 : 356 ≤ IC) :
    emit_word value image IC = (-1, image, IC) := by
  unfold emit_word
  simp only [IC_INIT_VALUE, MAX_WORDS_MEMORY]
  rw [if_pos (by omega)]

theorem first_word_arith (opcode src_mode dst_mode : Int)
    (ho : 0 ≤ opcode ∧ opcode ≤ 15) (hs : 0 ≤ src_mode ∧ src_mode ≤ 3)
    (hd : 0 ≤ dst_mode ∧ dst_mode ≤ 3) :
    first_word opcode src_mode dst_mode = opcode * 64 + src_mode * 16 + dst_mode * 4 := by
  have h := first_word_fin ⟨opcode.toNat, by omega⟩ ⟨src_mode.toNat, by omega⟩
    ⟨dst_mode.toNat, by omega⟩
  simp only [Int.toNat_of_nonneg ho.1, Int.toNat_of_nonneg hs.1,
    Int.toNat_of_nonneg hd.1] at h
  rw [h]
  push_cast
  rw [Int.toNat_of_nonneg ho.1, Int.toNat_of_nonneg hs.1, Int.toNat_of_nonneg hd.1]

/-- C2 (first-word layout): for an opcode in 0..15 and addressing modes in
0..3, `emit_first_word` at an IC inside the code image stores at index
`IC - 100` a 10-bit word whose bits 9..6 are the opcode, bits 5..4 the source
mode, bits 3..2 the destination mode and bits 1..0 zero, and advances IC by
one. -/
theorem first_word_layout (opcode src_mode dst_mode : Int) (image : Image) (IC : Int)
    (ho : 0 ≤ opcode ∧ opcode ≤ 15) (hs : 0 ≤ src_mode ∧ src_mode ≤ 3)
    (hd : 0 ≤ dst_mode ∧ dst_mode ≤ 3) (hIC : 100 ≤ IC ∧ IC < 356) :
    (emit_first_word opcode src_mode dst_mode image IC).1 = 1 ∧
    (emit_first_word opcode src_mode dst_mode image IC).2.2 = IC + 1 ∧
    0 ≤ (emit_first_word opcode src_mode dst_mode image IC).2.1 (IC - 100).toNat ∧
    (emit_first_word opcode src_mode dst_mode image IC).2.1 (IC - 100).toNat < 1024 ∧
    (emit_first_word opcode src_mode dst_mode image IC).2.1 (IC - 100).toNat / 64 = opcode ∧
    (emit_first_word opcode src_mode dst_mode image IC).2.1 (IC - 100).toNat / 16 % 4
      = src_mode ∧
    (emit_first_word opcode src_mode dst_mode image IC).2.1 (IC - 100).toNat / 4 % 4
      = dst_mode ∧
    (emit_first_word opcode src_mode dst_mode image IC).2.1 (IC - 100).toNat % 4 = 0 := by
  unfold emit_first_word
  simp only [emit_word_in_range _ image IC hIC.1 hIC.2, c_and_WORD_MASK,
    first_word_arith opcode src_mode dst_mode ho hs hd, set_word, if_true]
  refine ⟨trivial, trivial, ?_, ?_, ?_, ?_, ?_, ?_⟩ <;> omega

theorem first_word_layout_witness :
    (emit_first_word 15 0 3 zero_image 100).1 = 1 ∧
    (emit_first_word 15 0 3 zero_image 100).2.2 = 100 + 1 ∧
    0 ≤ (emit_first_word 15 0 3 zero_image 100).2.1 (100 - 100 : Int).toNat ∧
    (emit_first_word 15 0 3 zero_image 100).2.1 (100 - 100 : Int).toNat < 1024 ∧
    (emit_first_word 15 0 3 zero_image 100).2.1 (100 - 100 : Int).toNat / 64 = 15 ∧
    (emit_first_word 15 0 3 zero_image 100).2.1 (100 - 100 : Int).toNat / 16 % 4 = 0 ∧
    (emit_first_word 15 0 3 zero_image 100).2.1 (100 - 100 : Int).toNat / 4 % 4 = 3 ∧
    (emit_first_word 15 0 3 zero_image 100).2.1 (100 - 100 : Int).toNat % 4 = 0 :=
  first_word_layout 15 0 3 zero_image 100 (by decide) (by decide) (by decide) (by decide)
/-! ## The length law -/

theorem emit_word_IC (value : Int) (image : Image) (IC : Int)
    (h0 : 100 ≤ IC) (h1 : IC ≤ 356) :
    (emit_word value image IC).2.2 = min (IC + 1) 356 := by
  unfold emit_word
  simp only [IC_INIT_VALUE, MAX_WORDS_MEMORY]
  split <;> simp only [] <;> omega

theorem addr_mode_range (operand : CStr) :
    addr_mode operand = 0 ∨ addr_mode operand = 1 ∨ addr_mode operand = 2 ∨
      addr_mode operand = 3 := by
  unfold addr_mode
  simp only [ADDR_MODE_IMMEDIATE, ADDR_MODE_REGISTER, ADDR_MODE_MATRIX, ADDR_MODE_DIRECT]
  split
  · exact Or.inl rfl
  · split
    · exact Or.inr (Or.inr (Or.inr rfl))
    · split
      · exact Or.inr (Or.inr (Or.inl rfl))
      · exact Or.inr (Or.inl rfl)

theorem emit_operand_block_IC (encode_reg : Int → Int) (operand : CStr) (e : Emit)
    (h0 : 100 ≤ e.IC) (h1 : e.IC ≤ 356) :
    (emit_operand_block encode_reg operand (addr_mode operand) e).IC
      = min (e.IC + operand_words (addr_mode operand)) 356 := by
  unfold emit_operand_block operand_words
  simp only [ADDR_MODE_IMMEDIATE, ADDR_MODE_REGISTER, ADDR_MODE_MATRIX, ADDR_MODE_DIRECT]
  rcases addr_mode_range operand with h | h | h | h <;> rw [h] <;> simp only [] <;>
    norm_num
  · rw [emit_word_IC _ _ _ (by split <;> exact h0) (by split <;> exact h1)]
    split <;> rfl
  · rw [emit_word_IC _ _ _ h0 h1]
  · have hb := emit_word_IC 0 e.image e.IC h0 h1
    rw [emit_word_IC _ _ _ (by rw [hb]; omega) (by rw [hb]; omega), hb]
    omega
  · rw [emit_word_IC _ _ _ h0 h1]

theorem emit_first_word_IC (opcode src_mode dst_mode : Int) (image : Image) (IC : Int)
    (h0 : 100 ≤ IC) (h1 : IC ≤ 356) :
    (emit_first_word opcode src_mode dst_mode image IC).2.2 = min (IC + 1) 356 := by
  unfold emit_first_word
  exact emit_word_IC _ _ _ h0 h1

theorem compute_instruction_length_pos (src dst : Option CStr) :
    1 ≤ compute_instruction_length (mode_of src) (mode_of dst) src dst := by
  unfold compute_instruction_length
  split
  · omega
  · have h1 : (0 : Int) ≤ (if src.isSome then
        (if mode_of src = ADDR_MODE_MATRIX then 2 else 1) else 0) := by
      split
      · split <;> omega
      · omega
    have h2 : (0 : Int) ≤ (if dst.isSome then
        (if mode_of dst = ADDR_MODE_MATRIX then 2 else 1) else 0) := by
      split
      · split <;> omega
      · omega
    omega

/-- The IC after `emit_operands`, also when the code image fills up. -/
theorem emit_operands_IC (src dst : Option CStr) (image : Image) (IC err : Int)
    (h0 : 100 ≤ IC) (h1 : IC ≤ 356) :
    (emit_operands src (mode_of src) dst (mode_of dst) image IC err).2.2.1
      = min (IC + (compute_instruction_length (mode_of src) (mode_of dst) src dst - 1))
          356 := by
  unfold emit_operands compute_instruction_length
  rcases src with _ | s <;> rcases dst with _ | d <;>
    simp only [mode_of, Option.isSome_none, Option.isSome_some, false_and, and_false,
      true_and, if_false, if_true, Bool.false_eq_true]
  · omega
  · rw [emit_operand_block_IC _ _ _ h0 h1]
    simp only [operand_words]
    split <;> omega
  · rw [emit_operand_block_IC _ _ _ h0 h1]
    simp only [operand_words]
    split <;> omega
  · by_cases hr : addr_mode s = ADDR_MODE_REGISTER ∧ addr_mode d = ADDR_MODE_REGISTER
    · rw [if_pos hr, if_pos hr]
      simp only []
      rw [emit_word_IC _ _ _ h0 h1]
      omega
    · rw [if_neg hr, if_neg hr]
      simp only []
      have hb := emit_operand_block_IC encode_reg_src_word s ⟨image, IC, err, false⟩ h0 h1
      simp only [] at hb
      rw [emit_operand_block_IC _ _ _ (by rw [hb]; simp only [operand_words]; split <;> omega)
        (by rw [hb]; omega), hb]
      simp only [operand_words]
      split <;> split <;> omega

/-- The IC after the first word and the operand words of an instruction, also
when the code image fills up. -/
theorem emit_instruction_IC (opcode : Int) (src dst : Option CStr) (image : Image)
    (IC err : Int) (h0 : 100 ≤ IC) (h1 : IC ≤ 356) :
    (emit_operands src (mode_of src) dst (mode_of dst)
        (emit_first_word opcode (mode_of src) (mode_of dst) image IC).2.1
        (emit_first_word opcode (mode_of src) (mode_of dst) image IC).2.2 err).2.2.1
      = min (IC + compute_instruction_length (mode_of src) (mode_of dst) src dst) 356 := by
  have hf := emit_first_word_IC opcode (mode_of src) (mode_of dst) image IC h0 h1
  have hp := compute_instruction_length_pos src dst
  rw [emit_operands_IC _ _ _ _ _ (by rw [hf]; omega) (by rw [hf]; omega), hf]
  omega

/-- What `validate_operand_modes` writes to its out parameters when it
accepts. -/
theorem validate_operand_modes_modes (info : InstructionInfo) (src dst : Option CStr)
    (err0 src_mode dst_mode err1 : Int)
    (hv : validate_operand_modes info src dst err0 = (true, src_mode, dst_mode, err1)) :
    src_mode = mode_of src ∧ dst_mode = mode_of dst ∧ err1 = err0 := by
  unfold validate_operand_modes at hv
  simp only [] at hv
  split at hv
  · simp at hv
  · split at hv
    · simp at hv
    · simp only [Prod.mk.injEq, true_and] at hv
      obtain ⟨h1, h2, h3⟩ := hv
      refine ⟨?_, ?_, h3.symm⟩
      · rw [← h1]; cases src <;> rfl
      · rw [← h2]; cases dst <;> rfl

theorem compute_instruction_length_spec (src_mode dst_mode : Int) (src dst : Option CStr) :
    compute_instruction_length src_mode dst_mode src dst
      = spec_length src_mode dst_mode src dst := by
  unfold compute_instruction_length spec_length
  simp only [ADDR_MODE_REGISTER, ADDR_MODE_MATRIX]
  cases src <;> cases dst <;> simp

/-- C1 (length law): for the operands and modes of an instruction that
`validate_operand_modes` accepted, at an IC from which the whole instruction
fits the code image, `emit_first_word` followed by `emit_operands` advances IC
by exactly `compute_instruction_length`, and that length is the one of the
specification's rule. The operand texts are arbitrary, so this covers the
instructions for which `emit_operands` reports an invalid immediate or an
invalid matrix syntax. -/
theorem length_law (info : InstructionInfo) (src dst : Option CStr)
    (err0 src_mode dst_mode err1 opcode : Int) (image : Image) (IC err : Int)
    (hv : validate_operand_modes info src dst err0 = (true, src_mode, dst_mode, err1))
    (h0 : 100 ≤ IC)
    (h1 : IC - 100 + compute_instruction_length src_mode dst_mode src dst ≤ 256) :
    (emit_operands src src_mode dst dst_mode
        (emit_first_word opcode src_mode dst_mode image IC).2.1
        (emit_first_word opcode src_mode dst_mode image IC).2.2 err).2.2.1
      = IC + compute_instruction_length src_mode dst_mode src dst ∧
    compute_instruction_length src_mode dst_mode src dst
      = spec_length src_mode dst_mode src dst := by
  obtain ⟨hs, hd, _⟩ := validate_operand_modes_modes info src dst err0 src_mode dst_mode err1 hv
  subst hs hd
  refine ⟨?_, compute_instruction_length_spec _ _ _ _⟩
  have hp := compute_instruction_length_pos src dst
  rw [emit_instruction_IC opcode src dst image IC err h0 (by omega)]
  omega

theorem length_law_witness :
    (emit_operands (some "K[r9][r1]".toList) 2 (some "#x".toList) 0
        (emit_first_word 1 2 0 zero_image 100).2.1
        (emit_first_word 1 2 0 zero_image 100).2.2 0).2.2.1
      = 100 + compute_instruction_length 2 0 (some "K[r9][r1]".toList) (some "#x".toList) ∧
    compute_instruction_length 2 0 (some "K[r9][r1]".toList) (some "#x".toList)
      = spec_length 2 0 (some "K[r9][r1]".toList) (some "#x".toList) :=
  length_law ⟨1, "cmp".toList, MASK_ALL, MASK_ALL⟩ (some "K[r9][r1]".toList)
    (some "#x".toList) 0 2 0 0 1 zero_image 100 0 (by decide) (by decide) (by decide)
/-! ## The symbol table during the first pass -/

theorem add_symbol_table (head : List Symbol) (name : CStr) (address : Int)
    (type : SymbolType) :
    (add_symbol head name address type).2 = head ∨
    ∃ s, (add_symbol head name address type).2 = s :: head ∧ s.type = type ∧
      s.address = address := by
  unfold add_symbol
  split
  · exact Or.inl rfl
  · split
    · exact Or.inl rfl
    · split
      · exact Or.inl rfl
      · exact Or.inr ⟨_, rfl, rfl, rfl⟩

@[simp] theorem append_directive_sym_table (df : DirectiveFields) (st : Pass1) :
    (append_directive df st).sym_table = st.sym_table := by
  unfold append_directive; split <;> rfl

@[simp] theorem append_command_sym_table (cf : CommandFields) (st : Pass1) :
    (append_command cf st).sym_table = st.sym_table := by
  unfold append_command; split <;> rfl

theorem handle_data_directive_sym_table (operands : CStr) (label : Option CStr)
    (st : Pass1) : (handle_data_directive operands label st).2.sym_table = st.sym_table := by
  unfold handle_data_directive
  simp only []
  split <;> simp

theorem handle_string_directive_sym_table (operands : CStr) (label : Option CStr)
    (st : Pass1) :
    (handle_string_directive operands label st).2.sym_table = st.sym_table := by
  unfold handle_string_directive
  split
  · rfl
  · dsimp only
    split
    · rfl
    · simp

theorem handle_mat_directive_sym_table (operands : CStr) (label : Option CStr)
    (st : Pass1) : (handle_mat_directive operands label st).2.sym_table = st.sym_table := by
  unfold handle_mat_directive
  split
  · rfl
  · dsimp only
    split
    · rfl
    · simp

theorem handle_entry_directive_sym_table (operands : Option CStr) (st : Pass1) :
    (handle_entry_directive operands st).2.sym_table = st.sym_table := by
  unfold handle_entry_directive
  split
  · rfl
  · simp

theorem define_symbol_sym_step_data (name : CStr) (st : Pass1) :
    sym_step st (define_symbol name st.dc SYMBOL_DATA st) := by
  rcases add_symbol_table st.sym_table name st.dc SYMBOL_DATA with h | ⟨s, h1, h2, h3⟩
  · exact Or.inl h
  · exact Or.inr ⟨s, h1, Or.inl ⟨h2, h3⟩⟩

theorem define_symbol_sym_step_code (name : CStr) (st : Pass1) :
    sym_step st (define_symbol name st.IC SYMBOL_CODE st) := by
  rcases add_symbol_table st.sym_table name st.IC SYMBOL_CODE with h | ⟨s, h1, h2, h3⟩
  · exact Or.inl h
  · exact Or.inr ⟨s, h1, Or.inr (Or.inl ⟨h2, h3⟩)⟩

theorem define_symbol_sym_step_external (name : CStr) (st : Pass1) :
    sym_step st (define_symbol name 0 SYMBOL_EXTERNAL st) := by
  rcases add_symbol_table st.sym_table name 0 SYMBOL_EXTERNAL with h | ⟨s, h1, h2, h3⟩
  · exact Or.inl h
  · exact Or.inr ⟨s, h1, Or.inr (Or.inr ⟨h2, h3⟩)⟩

theorem define_symbol_code (name : CStr) (address : Int) (type : SymbolType) (st : Pass1) :
    (define_symbol name address type st).IC = st.IC ∧
    (define_symbol name address type st).instruction_image = st.instruction_image ∧
    (define_symbol name address type st).command_list = st.command_list :=
  ⟨rfl, rfl, rfl⟩

theorem sym_step_of_table_eq (st st1 st2 : Pass1) (h : sym_step st st1)
    (h2 : st2.sym_table = st1.sym_table) : sym_step st st2 := by
  unfold sym_step at *
  rw [h2]
  exact h

/-- A step seen from a state that differs in the error count only. -/
theorem sym_step_of_source_eq (st0 st st1 : Pass1) (h : sym_step st st1)
    (h1 : st.sym_table = st0.sym_table) (h2 : st.dc = st0.dc) (h3 : st.IC = st0.IC) :
    sym_step st0 st1 := by
  unfold sym_step at *
  rw [← h1, ← h2, ← h3]
  exact h

theorem handle_extern_directive_sym_step (operands : Option CStr) (st : Pass1) :
    sym_step st (handle_extern_directive operands st).2 := by
  unfold handle_extern_directive
  split
  · exact Or.inl rfl
  · rename_i name
    exact sym_step_of_table_eq _ _ _ (define_symbol_sym_step_external name st) (by simp)

theorem process_directive_sym_step (directive : CStr) (operands : Option CStr)
    (label : Option CStr) (st : Pass1) :
    sym_step st (process_directive directive operands label st).2 := by
  unfold process_directive
  by_cases hd : directive = ".data".toList ∨ directive = ".string".toList ∨
      directive = ".mat".toList
  · -- a data directive: only the label may be added, at the data counter
    have hdec : decide (directive = ".data".toList ∨ directive = ".string".toList ∨
      directive = ".mat".toList) = true := decide_eq_true hd
    simp only [hdec, if_true]
    have hlab : sym_step st (match label with
        | some l => define_symbol l st.dc SYMBOL_DATA st
        | none => st) := by
      cases label with
      | none => exact Or.inl rfl
      | some l => exact define_symbol_sym_step_data l st
    refine sym_step_of_table_eq _ _ _ hlab ?_
    split
    · rfl
    · rcases hd with h | h | h
      · rw [if_pos h, handle_data_directive_sym_table]
      · have h1 : directive ≠ ".data".toList := by rw [h]; decide
        rw [if_neg h1, if_pos h, handle_string_directive_sym_table]
      · have h1 : directive ≠ ".data".toList := by rw [h]; decide
        have h2 : directive ≠ ".string".toList := by rw [h]; decide
        rw [if_neg h1, if_neg h2, if_pos h, handle_mat_directive_sym_table]
  · have hdec : decide (directive = ".data".toList ∨ directive = ".string".toList ∨
      directive = ".mat".toList) = false := decide_eq_false hd
    simp only [hdec]
    push_neg at hd
    simp only [Bool.false_eq_true, false_and, if_false, if_neg hd.1, if_neg hd.2.1,
      if_neg hd.2.2]
    split
    · exact sym_step_of_source_eq _ _ _ (handle_extern_directive_sym_step _ _) rfl rfl rfl
    · split
      · exact Or.inl (handle_entry_directive_sym_table _ _)
      · exact Or.inl rfl

/-! ### The directives leave the code side of the state alone -/

theorem append_directive_code (df : DirectiveFields) (st : Pass1) :
    (append_directive df st).IC = st.IC ∧
    (append_directive df st).instruction_image = st.instruction_image ∧
    (append_directive df st).command_list = st.command_list := by
  unfold append_directive; split <;> exact ⟨rfl, rfl, rfl⟩

theorem handle_data_directive_code (operands : CStr) (label : Option CStr) (st : Pass1) :
    (handle_data_directive operands label st).2.IC = st.IC ∧
    (handle_data_directive operands label st).2.instruction_image = st.instruction_image ∧
    (handle_data_directive operands label st).2.command_list = st.command_list := by
  unfold handle_data_directive
  dsimp only
  split
  · exact ⟨rfl, rfl, rfl⟩
  · exact append_directive_code _ _

theorem handle_string_directive_code (operands : CStr) (label : Option CStr) (st : Pass1) :
    (handle_string_directive operands label st).2.IC = st.IC ∧
    (handle_string_directive operands label st).2.instruction_image = st.instruction_image ∧
    (handle_string_directive operands label st).2.command_list = st.command_list := by
  unfold handle_string_directive
  split
  · exact ⟨rfl, rfl, rfl⟩
  · dsimp only
    split
    · exact ⟨rfl, rfl, rfl⟩
    · exact append_directive_code _ _

theorem handle_mat_directive_code (operands : CStr) (label : Option CStr) (st : Pass1) :
    (handle_mat_directive operands label st).2.IC = st.IC ∧
    (handle_mat_directive operands label st).2.instruction_image = st.instruction_image ∧
    (handle_mat_directive operands label st).2.command_list = st.command_list := by
  unfold handle_mat_directive
  split
  · exact ⟨rfl, rfl, rfl⟩
  · dsimp only
    split
    · exact ⟨rfl, rfl, rfl⟩
    · exact append_directive_code _ _

theorem handle_extern_directive_code (operands : Option CStr) (st : Pass1) :
    (handle_extern_directive operands st).2.IC = st.IC ∧
    (handle_extern_directive operands st).2.instruction_image = st.instruction_image ∧
    (handle_extern_directive operands st).2.command_list = st.command_list := by
  unfold handle_extern_directive
  split
  · exact ⟨rfl, rfl, rfl⟩
  · exact append_directive_code _ _

theorem handle_entry_directive_code (operands : Option CStr) (st : Pass1) :
    (handle_entry_directive operands st).2.IC = st.IC ∧
    (handle_entry_directive operands st).2.instruction_image = st.instruction_image ∧
    (handle_entry_directive operands st).2.command_list = st.command_list := by
  unfold handle_entry_directive
  split
  · exact ⟨rfl, rfl, rfl⟩
  · exact append_directive_code _ _

theorem process_directive_code (directive : CStr) (operands : Option CStr)
    (label : Option CStr) (st : Pass1) :
    (process_directive directive operands label st).2.IC = st.IC ∧
    (process_directive directive operands label st).2.instruction_image
      = st.instruction_image ∧
    (process_directive directive operands label st).2.command_list = st.command_list := by
  unfold process_directive
  dsimp only
  have h1 : (if decide (directive = ".data".toList ∨ directive = ".string".toList ∨
          directive = ".mat".toList) = true then
        (match label with
          | some l => define_symbol l st.dc SYMBOL_DATA st
          | none => st) else st).IC = st.IC ∧
      (if decide (directive = ".data".toList ∨ directive = ".string".toList ∨
          directive = ".mat".toList) = true then
        (match label with
          | some l => define_symbol l st.dc SYMBOL_DATA st
          | none => st) else st).instruction_image = st.instruction_image ∧
      (if decide (directive = ".data".toList ∨ directive = ".string".toList ∨
          directive = ".mat".toList) = true then
        (match label with
          | some l => define_symbol l st.dc SYMBOL_DATA st
          | none => st) else st).command_list = st.command_list := by
    split
    · cases label <;> exact ⟨rfl, rfl, rfl⟩
    · exact ⟨rfl, rfl, rfl⟩
  obtain ⟨ha, hb, hc⟩ := h1
  split
  · exact ⟨ha, hb, hc⟩
  · split
    · obtain ⟨x, y, z⟩ := handle_data_directive_code (operands.getD []) label _
      rw [x, y, z]; exact ⟨ha, hb, hc⟩
    · split
      · obtain ⟨x, y, z⟩ := handle_string_directive_code (operands.getD []) label _
        rw [x, y, z]; exact ⟨ha, hb, hc⟩
      · split
        · obtain ⟨x, y, z⟩ := handle_mat_directive_code (operands.getD []) label _
          rw [x, y, z]; exact ⟨ha, hb, hc⟩
        · split
          · obtain ⟨x, y, z⟩ := handle_extern_directive_code operands _
            rw [x, y, z]; exact ⟨ha, hb, hc⟩
          · split
            · obtain ⟨x, y, z⟩ := handle_entry_directive_code operands _
              rw [x, y, z]; exact ⟨ha, hb, hc⟩
            · exact ⟨ha, hb, hc⟩

/-! ### What an instruction line does to the state -/

theorem validate_operand_modes_accept (info : InstructionInfo) (src dst : Option CStr)
    (err0 : Int) (h : (validate_operand_modes info src dst err0).1 = true) :
    (validate_operand_modes info src dst err0).2.1 = mode_of src ∧
    (validate_operand_modes info src dst err0).2.2.1 = mode_of dst ∧
    (validate_operand_modes info src dst err0).2.2.2 = err0 := by
  have := validate_operand_modes_modes info src dst err0
    (validate_operand_modes info src dst err0).2.1
    (validate_operand_modes info src dst err0).2.2.1
    (validate_operand_modes info src dst err0).2.2.2 (by rw [← h])
  exact ⟨this.1, this.2.1, this.2.2⟩

/-- A line handed to `process_instruction` is either rejected, and then only
the error count changes, or encoded from the state it arrived in, with the
modes that `addr_mode` gives for its operands. -/
theorem process_instruction_cases (line : CStr) (has_label : Bool)
    (label_name : Option CStr) (st : Pass1) :
    (∃ e, process_instruction line has_label label_name st
        = (1, { st with error_count := e })) ∨
    (∃ opcode src dst e, process_instruction line has_label label_name st
        = (0, encode_instruction opcode src dst (mode_of src) (mode_of dst) has_label
            label_name { st with error_count := e })) := by
  unfold process_instruction
  split
  · exact Or.inl ⟨_, rfl⟩
  · dsimp only
    split
    · exact Or.inl ⟨_, rfl⟩
    · split
      · exact Or.inl ⟨_, rfl⟩
      · split
        · exact Or.inl ⟨_, rfl⟩
        · split
          · exact Or.inl ⟨_, rfl⟩
          · split
            · exact Or.inl ⟨_, rfl⟩
            · rename_i hv
              right
              simp only [Bool.not_eq_true, Bool.not_eq_false, Bool.not_eq_eq_eq_not,
                Bool.not_false, Bool.not_true] at hv
              obtain ⟨h1, h2, _⟩ := validate_operand_modes_accept _ _ _ _ hv
              exact ⟨_, _, _, _, by rw [h1, h2]⟩

theorem handle_data_directive_fst (operands : CStr) (label : Option CStr) (st : Pass1) :
    (handle_data_directive operands label st).1 = 1 := by
  unfold handle_data_directive; dsimp only; split <;> rfl

theorem handle_string_directive_fst (operands : CStr) (label : Option CStr) (st : Pass1) :
    (handle_string_directive operands label st).1 = 1 := by
  unfold handle_string_directive
  split
  · rfl
  · dsimp only
    split <;> rfl

theorem handle_mat_directive_fst (operands : CStr) (label : Option CStr) (st : Pass1) :
    (handle_mat_directive operands label st).1 = 1 := by
  unfold handle_mat_directive
  split
  · rfl
  · dsimp only
    split <;> rfl

theorem handle_extern_directive_fst (operands : Option CStr) (st : Pass1) :
    (handle_extern_directive operands st).1 = 1 := by
  unfold handle_extern_directive; split <;> rfl

theorem handle_entry_directive_fst (operands : Option CStr) (st : Pass1) :
    (handle_entry_directive operands st).1 = 1 := by
  unfold handle_entry_directive; split <;> rfl

/-- When `process_directive` returns 0 (the line is no directive) it has
changed the error count only. -/
theorem process_directive_zero (directive : CStr) (operands : Option CStr)
    (label : Option CStr) (st : Pass1)
    (h : (process_directive directive operands label st).1 = 0) :
    ∃ e, (process_directive directive operands label st).2 = { st with error_count := e } := by
  unfold process_directive at h ⊢
  dsimp only at h ⊢
  by_cases hd : directive = ".data".toList ∨ directive = ".string".toList ∨
      directive = ".mat".toList
  · exfalso
    have hdec : decide (directive = ".data".toList ∨ directive = ".string".toList ∨
      directive = ".mat".toList) = true := decide_eq_true hd
    simp only [hdec, if_true, true_and] at h
    split at h
    · simp at h
    · rcases hd with hh | hh | hh
      · rw [if_pos hh, handle_data_directive_fst] at h; simp at h
      · have h1 : directive ≠ ".data".toList := by rw [hh]; decide
        rw [if_neg h1, if_pos hh, handle_string_directive_fst] at h; simp at h
      · have h1 : directive ≠ ".data".toList := by rw [hh]; decide
        have h2 : directive ≠ ".string".toList := by rw [hh]; decide
        rw [if_neg h1, if_neg h2, if_pos hh, handle_mat_directive_fst] at h; simp at h
  · have hdec : decide (directive = ".data".toList ∨ directive = ".string".toList ∨
      directive = ".mat".toList) = false := decide_eq_false hd
    push_neg at hd
    simp only [hdec, Bool.false_eq_true, false_and, if_false, if_neg hd.1, if_neg hd.2.1,
      if_neg hd.2.2] at h ⊢
    split at h
    · rw [handle_extern_directive_fst] at h; simp at h
    · split at h
      · rw [handle_entry_directive_fst] at h; simp at h
      · rename_i h1 h2
        rw [if_neg h1, if_neg h2]
        exact ⟨_, rfl⟩

/-! ### The effect of encoding an instruction -/

theorem append_command_rest (cf : CommandFields) (st : Pass1) :
    (append_command cf st).IC = st.IC ∧
    (append_command cf st).instruction_image = st.instruction_image ∧
    (append_command cf st).dc = st.dc ∧
    (append_command cf st).directive_list = st.directive_list ∧
    (append_command cf st).error_count = st.error_count := by
  unfold append_command; split <;> exact ⟨rfl, rfl, rfl, rfl, rfl⟩

theorem label_step_rest (has_label : Bool) (label_name : Option CStr) (st : Pass1) :
    (label_step has_label label_name st).IC = st.IC ∧
    (label_step has_label label_name st).instruction_image = st.instruction_image ∧
    (label_step has_label label_name st).dc = st.dc ∧
    (label_step has_label label_name st).directive_list = st.directive_list ∧
    (label_step has_label label_name st).command_list = st.command_list := by
  unfold label_step
  split
  · cases label_name <;> exact ⟨rfl, rfl, rfl, rfl, rfl⟩
  · exact ⟨rfl, rfl, rfl, rfl, rfl⟩

theorem label_step_sym_step (has_label : Bool) (label_name : Option CStr) (st : Pass1) :
    sym_step st (label_step has_label label_name st) := by
  unfold label_step
  split
  · cases label_name with
    | none => exact Or.inl rfl
    | some l => exact define_symbol_sym_step_code l st
  · exact Or.inl rfl

theorem encode_instruction_eq (opcode : Int) (src dst : Option CStr)
    (src_mode dst_mode : Int) (has_label : Bool) (label_name : Option CStr) (st : Pass1) :
    encode_instruction opcode src dst src_mode dst_mode has_label label_name st =
      { record_command st.IC (compute_instruction_length src_mode dst_mode src dst) opcode
          src dst (if has_label then label_name else none)
          (label_step has_label label_name st) with
        instruction_image := (emit_operands src src_mode dst dst_mode
          (emit_first_word opcode src_mode dst_mode st.instruction_image st.IC).2.1
          (emit_first_word opcode src_mode dst_mode st.instruction_image st.IC).2.2
          (label_step has_label label_name st).error_count).2.1
        IC := (emit_operands src src_mode dst dst_mode
          (emit_first_word opcode src_mode dst_mode st.instruction_image st.IC).2.1
          (emit_first_word opcode src_mode dst_mode st.instruction_image st.IC).2.2
          (label_step has_label label_name st).error_count).2.2.1
        error_count := (emit_operands src src_mode dst dst_mode
          (emit_first_word opcode src_mode dst_mode st.instruction_image st.IC).2.1
          (emit_first_word opcode src_mode dst_mode st.instruction_image st.IC).2.2
          (label_step has_label label_name st).error_count).2.2.2 } := by
  have hl := label_step_rest has_label label_name st
  have ha := append_command_rest
    { label := (if has_label then label_name else none), cmd_address := st.IC,
      length := compute_instruction_length src_mode dst_mode src dst,
      opcode := opcode, src := src, dst := dst } (label_step has_label label_name st)
  unfold encode_instruction
  dsimp only
  unfold record_command
  rw [ha.1, ha.2.1, ha.2.2.2.2, hl.1, hl.2.1]

/-! ### The three things a line can do -/

theorem process_instruction_line_cases (line : CStr) (has_label : Bool)
    (label_name : Option CStr) (st : Pass1) (e0 : Int) :
    (∃ e, (process_instruction line has_label label_name
        { st with error_count := e0 }).2 = { st with error_count := e }) ∨
    (∃ directive operands label,
      (process_instruction line has_label label_name { st with error_count := e0 }).2
        = (process_directive directive operands label st).2) ∨
    (∃ opcode src dst e has_label1 label_name1,
      (process_instruction line has_label label_name { st with error_count := e0 }).2 =
        encode_instruction opcode src dst (mode_of src) (mode_of dst) has_label1 label_name1
          { st with error_count := e }) := by
  rcases process_instruction_cases line has_label label_name
    { st with error_count := e0 } with ⟨e2, h⟩ | ⟨opcode, src, dst, e2, h⟩
  · rw [h]
    exact Or.inl ⟨e2, rfl⟩
  · rw [h]
    exact Or.inr (Or.inr ⟨opcode, src, dst, e2, _, _, rfl⟩)

/-- A line of the first pass changes the error count only (an empty line, a
line without a first token, a rejected instruction), or is handled by
`process_directive`, or is encoded as an instruction. -/
theorem first_pass_line_cases (raw_line : CStr) (st : Pass1) :
    (∃ e, first_pass_line raw_line st = { st with error_count := e }) ∨
    (∃ directive operands label,
      first_pass_line raw_line st = (process_directive directive operands label st).2) ∨
    (∃ opcode src dst e has_label label_name,
      first_pass_line raw_line st =
        encode_instruction opcode src dst (mode_of src) (mode_of dst) has_label label_name
          { st with error_count := e }) := by
  unfold first_pass_line
  dsimp only
  split
  · exact Or.inl ⟨st.error_count, rfl⟩
  · split
    · exact Or.inl ⟨_, rfl⟩
    · rename_i directive _
      split
      · exact Or.inr (Or.inl ⟨_, _, _, rfl⟩)
      · rename_i h0
        simp only [ne_eq, not_not] at h0
        obtain ⟨e, he⟩ := process_directive_zero _ _ _ _ h0
        rw [he]
        exact process_instruction_line_cases _ _ _ _ _

theorem encode_instruction_sym_step (opcode : Int) (src dst : Option CStr)
    (src_mode dst_mode : Int) (has_label : Bool) (label_name : Option CStr) (st : Pass1) :
    sym_step st (encode_instruction opcode src dst src_mode dst_mode has_label label_name st) := by
  refine sym_step_of_table_eq _ _ _ (label_step_sym_step has_label label_name st) ?_
  rw [encode_instruction_eq]
  unfold record_command
  simp

theorem first_pass_line_sym_step (raw_line : CStr) (st : Pass1) :
    sym_step st (first_pass_line raw_line st) := by
  rcases first_pass_line_cases raw_line st with ⟨e, h⟩ | ⟨d, o, l, h⟩ |
      ⟨opcode, src, dst, e, hl, ln, h⟩ <;> rw [h]
  · exact Or.inl rfl
  · exact process_directive_sym_step d o l st
  · exact sym_step_of_source_eq _ _ _ (encode_instruction_sym_step _ _ _ _ _ _ _ _) rfl rfl rfl

theorem first_pass_loop_append (l1 l2 : List CStr) (st : Pass1) :
    first_pass_loop (l1 ++ l2) st = first_pass_loop l2 (first_pass_loop l1 st) := by
  unfold first_pass_loop
  rw [List.foldl_append]

/-- The symbol table only grows at its head. -/
theorem first_pass_loop_suffix (lines : List CStr) (st : Pass1) :
    ∃ new, (first_pass_loop lines st).sym_table = new ++ st.sym_table := by
  induction lines generalizing st with
  | nil => exact ⟨[], rfl⟩
  | cons l rest ih =>
    obtain ⟨new, h⟩ := ih (first_pass_line l st)
    have hs := first_pass_line_sym_step l st
    unfold first_pass_loop at h ⊢
    rw [List.foldl_cons, h]
    rcases hs with h1 | ⟨s, h1, _⟩
    · exact ⟨new, by rw [h1]⟩
    · exact ⟨new ++ [s], by rw [h1]; simp⟩

theorem relocate_reverse_index (new old : List Symbol) (s : Symbol) (icf : Int) :
    (relocate_data_symbols (new ++ s :: old) icf).reverse[old.length]? =
      some (if s.type = SYMBOL_DATA then { s with address := s.address + icf } else s) := by
  unfold relocate_data_symbols
  simp only [List.map_append, List.map_cons, List.reverse_append, List.reverse_cons,
    List.append_assoc, List.singleton_append]
  rw [List.getElem?_append_right (by simp)]
  simp

/-- C3 (relocation law): in a first pass that starts from an empty symbol
table, a symbol `s` that the `k`-th line read adds to the table (the table
after that line is `s` in front of the table before it) has, at the time it is
added, the data counter as its address when its kind is DATA, the instruction
counter when it is CODE and 0 when it is EXTERNAL; when `first_pass` returns,
the symbol stands at the same place of the table (counted from the oldest
symbol), with address `ICF + d` for a DATA symbol added at data counter `d`, and
unchanged for a CODE or EXTERNAL symbol. -/
theorem relocation_law (input_file : CStr) (image : Image)
    (command_list : List CommandFields) (directive_list : List DirectiveFields)
    (k : Nat) (s : Symbol)
    (hadd : (first_pass_loop ((fgets_lines input_file).take (k + 1))
              (first_pass_init [] image command_list directive_list)).sym_table
          = s :: (first_pass_loop ((fgets_lines input_file).take k)
              (first_pass_init [] image command_list directive_list)).sym_table) :
    (s.type = SYMBOL_DATA →
      s.address = (first_pass_loop ((fgets_lines input_file).take k)
          (first_pass_init [] image command_list directive_list)).dc ∧
      (first_pass input_file [] image command_list directive_list).2.sym_table.reverse[
          (first_pass_loop ((fgets_lines input_file).take k)
            (first_pass_init [] image command_list directive_list)).sym_table.length]?
        = some { name := s.name, type := SYMBOL_DATA,
                 address := (first_pass input_file [] image command_list directive_list).2.IC
                   + (first_pass_loop ((fgets_lines input_file).take k)
                       (first_pass_init [] image command_list directive_list)).dc }) ∧
    (s.type = SYMBOL_CODE →
      s.address = (first_pass_loop ((fgets_lines input_file).take k)
          (first_pass_init [] image command_list directive_list)).IC ∧
      (first_pass input_file [] image command_list directive_list).2.sym_table.reverse[
          (first_pass_loop ((fgets_lines input_file).take k)
            (first_pass_init [] image command_list directive_list)).sym_table.length]?
        = some s) ∧
    (s.type = SYMBOL_EXTERNAL →
      s.address = 0 ∧
      (first_pass input_file [] image command_list directive_list).2.sym_table.reverse[
          (first_pass_loop ((fgets_lines input_file).take k)
            (first_pass_init [] image command_list directive_list)).sym_table.length]?
        = some s) := by
  generalize hinit : first_pass_init [] image command_list directive_list = init at hadd ⊢
  generalize hlines : fgets_lines input_file = lines at hadd ⊢
  -- the line that adds the symbol
  have hk : k < lines.length := by
    by_contra hk
    rw [List.take_of_length_le (by omega), List.take_of_length_le (by omega)] at hadd
    have := congrArg List.length hadd
    simp at this
  have htake : lines.take (k + 1) = lines.take k ++ [lines[k]] := by
    rw [List.take_succ, List.getElem?_eq_getElem hk]; rfl
  have hstep : first_pass_loop (lines.take (k + 1)) init
      = first_pass_line lines[k] (first_pass_loop (lines.take k) init) := by
    rw [htake, first_pass_loop_append]; rfl
  have hsym := first_pass_line_sym_step lines[k] (first_pass_loop (lines.take k) init)
  rw [← hstep] at hsym
  have hs : (s.type = SYMBOL_DATA ∧ s.address = (first_pass_loop (lines.take k) init).dc) ∨
      (s.type = SYMBOL_CODE ∧ s.address = (first_pass_loop (lines.take k) init).IC) ∨
      (s.type = SYMBOL_EXTERNAL ∧ s.address = 0) := by
    rcases hsym with h | ⟨s1, h1, h2⟩
    · rw [hadd] at h
      have := congrArg List.length h
      simp at this
    · rw [hadd] at h1
      have : s = s1 := by injection h1
      rw [this]; exact h2
  -- the rest of the pass leaves it in place
  have hall : first_pass_loop lines init
      = first_pass_loop (lines.drop (k + 1)) (first_pass_loop (lines.take (k + 1)) init) := by
    rw [← first_pass_loop_append, List.take_append_drop]
  obtain ⟨new, hnew⟩ := first_pass_loop_suffix (lines.drop (k + 1))
    (first_pass_loop (lines.take (k + 1)) init)
  rw [← hall, hadd] at hnew
  have hfin : (first_pass input_file [] image command_list directive_list).2.sym_table
      = relocate_data_symbols (new ++ s :: (first_pass_loop (lines.take k) init).sym_table)
          (first_pass_loop lines init).IC := by
    unfold first_pass
    simp only [hinit, hlines, hnew]
  have hIC : (first_pass input_file [] image command_list directive_list).2.IC
      = (first_pass_loop lines init).IC := by
    unfold first_pass
    simp only [hinit, hlines]
  rw [hfin, hIC, relocate_reverse_index]
  refine ⟨?_, ?_, ?_⟩
  · intro ht
    rcases hs with ⟨_, h⟩ | ⟨h, _⟩ | ⟨h, _⟩
    · refine ⟨h, ?_⟩
      rw [if_pos ht, ← h, Int.add_comm, ← ht]
    · rw [ht] at h; cases h
    · rw [ht] at h; cases h
  · intro ht
    rcases hs with ⟨h, _⟩ | ⟨_, h⟩ | ⟨h, _⟩
    · rw [ht] at h; cases h
    · refine ⟨h, ?_⟩
      rw [if_neg (by rw [ht]; decide)]
    · rw [ht] at h; cases h
  · intro ht
    rcases hs with ⟨h, _⟩ | ⟨h, _⟩ | ⟨_, h⟩
    · rw [ht] at h; cases h
    · rw [ht] at h; cases h
    · refine ⟨h, ?_⟩
      rw [if_neg (by rw [ht]; decide)]

set_option maxRecDepth 100000 in
theorem relocation_law_witness :
    ((first_pass_loop ((fgets_lines "X: .data 7\nY: .data 8, 9\n".toList).take (1 + 1))
        (first_pass_init [] zero_image [] [])).sym_table
      = ⟨"Y".toList, 1, SYMBOL_DATA⟩ ::
        (first_pass_loop ((fgets_lines "X: .data 7\nY: .data 8, 9\n".toList).take 1)
          (first_pass_init [] zero_image [] [])).sym_table) ∧
    ((first_pass "X: .data 7\nY: .data 8, 9\n".toList [] zero_image [] []).2.IC = 100 ∧
      (first_pass "X: .data 7\nY: .data 8, 9\n".toList [] zero_image [] []).2.sym_table
        = [⟨"Y".toList, 101, SYMBOL_DATA⟩, ⟨"X".toList, 100, SYMBOL_DATA⟩]) ∧
    ((1 : Int) = (first_pass_loop ((fgets_lines "X: .data 7\nY: .data 8, 9\n".toList).take 1)
          (first_pass_init [] zero_image [] [])).dc ∧
      (first_pass "X: .data 7\nY: .data 8, 9\n".toList [] zero_image [] []).2.sym_table.reverse[
          (first_pass_loop ((fgets_lines "X: .data 7\nY: .data 8, 9\n".toList).take 1)
            (first_pass_init [] zero_image [] [])).sym_table.length]?
        = some { name := "Y".toList, type := SYMBOL_DATA,
                 address := (first_pass "X: .data 7\nY: .data 8, 9\n".toList [] zero_image
                     [] []).2.IC
                   + (first_pass_loop
                       ((fgets_lines "X: .data 7\nY: .data 8, 9\n".toList).take 1)
                       (first_pass_init [] zero_image [] [])).dc }) :=
  ⟨by decide, by decide,
   (relocation_law "X: .data 7\nY: .data 8, 9\n".toList zero_image [] [] 1
      ⟨"Y".toList, 1, SYMBOL_DATA⟩ (by decide)).1 rfl⟩

/-! ## Every word of the first pass has A/R/E = 00 -/

theorem first_word_mod4 (opcode src_mode dst_mode : Int) :
    first_word opcode src_mode dst_mode % 4 = 0 := by
  unfold first_word
  rw [c_and_ADDR_MODE_MASK, c_and_ADDR_MODE_MASK, OPCODE_MASK, c_and_NIBBLE_MASK]
  have ho : 0 ≤ opcode % 16 ∧ opcode % 16 < 16 := by omega
  have hs : 0 ≤ src_mode % 4 ∧ src_mode % 4 < 4 := by omega
  have hd : 0 ≤ dst_mode % 4 ∧ dst_mode % 4 < 4 := by omega
  have h := first_word_fin ⟨(opcode % 16).toNat, by omega⟩ ⟨(src_mode % 4).toNat, by omega⟩
    ⟨(dst_mode % 4).toNat, by omega⟩
  unfold first_word at h
  simp only [Int.toNat_of_nonneg ho.1, Int.toNat_of_nonneg hs.1,
    Int.toNat_of_nonneg hd.1] at h
  have e1 : c_and (opcode % 16) OPCODE_MASK = opcode % 16 := by
    rw [OPCODE_MASK, c_and_NIBBLE_MASK]; omega
  have e2 : c_and (src_mode % 4) ADDR_MODE_MASK = src_mode % 4 := by
    rw [c_and_ADDR_MODE_MASK]; omega
  have e3 : c_and (dst_mode % 4) ADDR_MODE_MASK = dst_mode % 4 := by
    rw [c_and_ADDR_MODE_MASK]; omega
  rw [e1, e2, e3] at h
  rw [h]
  omega

theorem pack_regs_mod4 (a b : Int) :
    c_or (c_shl (c_and a NIBBLE_MASK) REG_SRC_SHIFT)
      (c_shl (c_and b NIBBLE_MASK) REG_DST_SHIFT) % 4 = 0 := by
  rw [c_and_NIBBLE_MASK, c_and_NIBBLE_MASK]
  have ha : 0 ≤ a % 16 ∧ a % 16 < 16 := by omega
  have hb : 0 ≤ b % 16 ∧ b % 16 < 16 := by omega
  have h := pack_regs_fin ⟨(a % 16).toNat, by omega⟩ ⟨(b % 16).toNat, by omega⟩
  simp only [Int.toNat_of_nonneg ha.1, Int.toNat_of_nonneg hb.1] at h
  rw [h]
  omega

theorem encode_regs_shared_mod4 (a b : Int) : encode_regs_shared a b % 4 = 0 :=
  pack_regs_mod4 a b

theorem encode_matrix_indices_mod4 (a b : Int) : encode_matrix_indices a b % 4 = 0 :=
  pack_regs_mod4 a b

theorem encode_immediate8_eq (val : Int) : encode_immediate8 val = val % 256 * 4 := by
  unfold encode_immediate8
  rw [c_and_IMM_MASK, IMM_DATA_SHIFT, c_shl_small _ _ (by omega) (by norm_num; omega)]
  norm_num

theorem encode_reg_src_word_eq (r : Int) : encode_reg_src_word r = r % 16 * 64 := by
  unfold encode_reg_src_word
  rw [c_and_NIBBLE_MASK, REG_SRC_SHIFT, c_shl_small _ _ (by omega) (by norm_num; omega)]
  norm_num

theorem encode_reg_dst_word_eq (r : Int) : encode_reg_dst_word r = r % 16 * 4 := by
  unfold encode_reg_dst_word
  rw [c_and_NIBBLE_MASK, REG_DST_SHIFT, c_shl_small _ _ (by omega) (by norm_num; omega)]
  norm_num

theorem emit_word_absolute (value : Int) (image : Image) (IC : Int)
    (h : all_absolute image) (hv : value % 4 = 0) :
    all_absolute (emit_word value image IC).2.1 := by
  unfold emit_word
  dsimp only
  split
  · exact h
  · intro i
    simp only [set_word, c_and_WORD_MASK]
    split
    · omega
    · exact h i

theorem emit_first_word_absolute (opcode src_mode dst_mode : Int) (image : Image) (IC : Int)
    (h : all_absolute image) :
    all_absolute (emit_first_word opcode src_mode dst_mode image IC).2.1 := by
  unfold emit_first_word
  apply emit_word_absolute _ _ _ h
  rw [c_and_WORD_MASK]
  have := first_word_mod4 opcode src_mode dst_mode
  omega

theorem emit_operand_block_absolute (encode_reg : Int → Int)
    (henc : ∀ r, encode_reg r % 4 = 0) (operand : CStr) (mode : Int) (e : Emit)
    (h : all_absolute e.image) :
    all_absolute (emit_operand_block encode_reg operand mode e).image := by
  unfold emit_operand_block
  split
  · exact emit_word_absolute _ _ _ h (henc _)
  · split
    · dsimp only
      apply emit_word_absolute
      · split <;> exact h
      · rw [encode_immediate8_eq]; omega
    · split
      · exact emit_word_absolute _ _ _ h rfl
      · split
        · dsimp only
          apply emit_word_absolute
          · exact emit_word_absolute _ _ _ h rfl
          · exact encode_matrix_indices_mod4 _ _
        · exact h

theorem emit_operands_absolute (src : Option CStr) (src_mode : Int) (dst : Option CStr)
    (dst_mode : Int) (image : Image) (IC err : Int) (h : all_absolute image) :
    all_absolute (emit_operands src src_mode dst dst_mode image IC err).2.1 := by
  have hs : ∀ r, encode_reg_src_word r % 4 = 0 := by
    intro r; rw [encode_reg_src_word_eq]; omega
  have hd : ∀ r, encode_reg_dst_word r % 4 = 0 := by
    intro r; rw [encode_reg_dst_word_eq]; omega
  unfold emit_operands
  split
  · split
    · exact emit_word_absolute _ _ _ h (encode_regs_shared_mod4 _ _)
    · exact emit_operand_block_absolute _ hd _ _ _
        (emit_operand_block_absolute _ hs _ _ _ h)
  · exact emit_operand_block_absolute _ hs _ _ _ h
  · exact emit_operand_block_absolute _ hd _ _ _ h
  · exact h

/-! ## The invariant of the first pass on the code image and the commands -/

theorem commands_tile_mono (cs : List CommandFields) (hi hi1 : Int)
    (h : commands_tile cs hi) (hle : hi ≤ hi1) : commands_tile cs hi1 := by
  refine ⟨h.1, ?_⟩
  intro c hc
  obtain ⟨a, b, d⟩ := h.2 c hc
  exact ⟨a, b, by omega⟩

theorem commands_tile_append (cs : List CommandFields) (cf : CommandFields) (hi : Int)
    (h : commands_tile cs hi) (ha : cf.cmd_address = hi) (h100 : 100 ≤ hi)
    (hl : cf.length = cmd_words cf) (hpos : 0 ≤ cf.length) :
    commands_tile (cs ++ [cf]) (hi + cf.length) := by
  refine ⟨?_, ?_⟩
  · rw [List.pairwise_append]
    refine ⟨h.1, List.pairwise_singleton _ _, ?_⟩
    intro a haa b hb
    rw [List.mem_singleton] at hb
    rw [hb, ha]
    exact (h.2 a haa).2.2
  · intro c hc
    rw [List.mem_append, List.mem_singleton] at hc
    rcases hc with hc | hc
    · obtain ⟨a, b, d⟩ := h.2 c hc
      exact ⟨a, b, by omega⟩
    · rw [hc]
      exact ⟨by omega, hl, by omega⟩

theorem code_inv_init (sym_table : List Symbol) (directive_list : List DirectiveFields) :
    code_inv (first_pass_init sym_table zero_image [] directive_list) := by
  refine ⟨by show (100:Int) ≤ 100; decide, by show (100:Int) ≤ 356; decide, fun _ => rfl,
    [], [], rfl, ⟨List.Pairwise.nil, ?_⟩, ?_, fun h => absurd rfl h⟩
  · intro c hc
    cases hc
  · intro c hc
    cases hc

theorem code_inv_of_code_eq (st st1 : Pass1) (h : code_inv st) (h1 : st1.IC = st.IC)
    (h2 : st1.instruction_image = st.instruction_image)
    (h3 : st1.command_list = st.command_list) : code_inv st1 := by
  unfold code_inv at *
  rw [h1, h2, h3]
  exact h

theorem encode_instruction_code_inv (opcode : Int) (src dst : Option CStr)
    (has_label : Bool) (label_name : Option CStr) (st : Pass1) (h : code_inv st) :
    code_inv (encode_instruction opcode src dst (mode_of src) (mode_of dst) has_label
      label_name st) := by
  obtain ⟨h0, h1, h2, good, bad, hcs, htile, hbad, hfull⟩ := h
  rw [encode_instruction_eq]
  have hIC := emit_instruction_IC opcode src dst st.instruction_image st.IC
    (label_step has_label label_name st).error_count h0 h1
  have hpos := compute_instruction_length_pos src dst
  refine ⟨?_, ?_, ?_, ?_⟩
  · show 100 ≤ (emit_operands _ _ _ _ _ _ _).2.2.1
    rw [hIC]; omega
  · show (emit_operands _ _ _ _ _ _ _).2.2.1 ≤ 356
    rw [hIC]; omega
  · exact emit_operands_absolute _ _ _ _ _ _ _ (emit_first_word_absolute _ _ _ _ _ h2)
  · show commands_split (record_command _ _ _ _ _ _ _).command_list
      (emit_operands _ _ _ _ _ _ _).2.2.1
    rw [hIC]
    unfold record_command append_command
    split
    · -- the command list is full: the command is dropped
      rw [(label_step_rest has_label label_name st).2.2.2.2, hcs]
      refine ⟨good, bad, rfl, commands_tile_mono _ _ _ htile (by omega), hbad, ?_⟩
      intro hne
      have := hfull hne
      omega
    · show commands_split ((label_step has_label label_name st).command_list ++ [_]) _
      rw [(label_step_rest has_label label_name st).2.2.2.2, hcs]
      by_cases hfit : st.IC + compute_instruction_length (mode_of src) (mode_of dst) src dst
          ≤ 356
      · -- the instruction fits: it extends the tiling
        have hb : bad = [] := by
          by_contra hne
          have := hfull hne
          omega
        rw [hb, List.append_nil, min_eq_left hfit]
        refine ⟨good ++ [_], [], (List.append_nil _).symm, ?_, ?_, fun h => absurd rfl h⟩
        · exact commands_tile_append _ _ _ htile rfl h0 rfl
            (by show (0:Int) ≤ compute_instruction_length _ _ _ _; omega)
        · intro c hc
          cases hc
      · -- the image fills up
        rw [min_eq_right (by omega), List.append_assoc]
        refine ⟨good, bad ++ [_], rfl, commands_tile_mono _ _ _ htile h1, ?_, fun _ => rfl⟩
        intro c hc
        rw [List.mem_append, List.mem_singleton] at hc
        rcases hc with hc | hc
        · exact hbad c hc
        · rw [hc]
          exact ⟨h0, rfl, by show 356 < st.IC + compute_instruction_length _ _ _ _; omega⟩

theorem first_pass_line_code_inv (raw_line : CStr) (st : Pass1) (h : code_inv st) :
    code_inv (first_pass_line raw_line st) := by
  rcases first_pass_line_cases raw_line st with ⟨e, he⟩ | ⟨d, o, l, he⟩ |
      ⟨opcode, src, dst, e, hl, ln, he⟩ <;> rw [he]
  · exact code_inv_of_code_eq _ _ h rfl rfl rfl
  · obtain ⟨a, b, c⟩ := process_directive_code d o l st
    exact code_inv_of_code_eq _ _ h a b c
  · exact encode_instruction_code_inv _ _ _ _ _ _
      (code_inv_of_code_eq st { st with error_count := e } h rfl rfl rfl)

theorem first_pass_loop_code_inv (lines : List CStr) (st : Pass1) (h : code_inv st) :
    code_inv (first_pass_loop lines st) := by
  induction lines generalizing st with
  | nil => exact h
  | cons l rest ih =>
    unfold first_pass_loop
    rw [List.foldl_cons]
    exact ih _ (first_pass_line_code_inv l st h)

/-- The code side of the state that `first_pass` returns from a fresh process. -/
theorem first_pass_code_inv (input_file : CStr) (sym_table : List Symbol)
    (directive_list : List DirectiveFields) :
    code_inv (first_pass input_file sym_table zero_image [] directive_list).2 := by
  unfold first_pass
  exact code_inv_of_code_eq _ _
    (first_pass_loop_code_inv _ _ (code_inv_init sym_table directive_list)) rfl rfl rfl

/-! ## The words of the second pass -/

/-- The word of a local symbol: the address in bits 2 and up, A/R/E = 10. -/
theorem relocatable_word (a : Int) :
    c_or (c_shl (c_and a WORD_MASK) ADDRESS_PAYLOAD_SHIFT) ARE_RELOCATABLE
      = a % 1024 * 4 + 2 := by
  rw [c_and_WORD_MASK, ADDRESS_PAYLOAD_SHIFT,
    c_shl_small _ _ (by omega) (by norm_num; omega)]
  have h0 : 0 ≤ a % 1024 := by omega
  have h1 : a % 1024 < 1024 := by omega
  generalize a % 1024 = x at h0 h1
  obtain ⟨n, rfl⟩ := Int.eq_ofNat_of_zero_le h0
  have hn : n < 1024 := by omega
  unfold c_or
  have e1 : toU32 ((n : Int) * 2 ^ 2) = 2 ^ 2 * n := by
    unfold toU32
    rw [Int.emod_eq_of_lt (by omega) (by omega)]
    omega
  have e2 : toU32 ARE_RELOCATABLE = 2 := by decide
  rw [e1, e2, ← Nat.mul_add_lt_is_or (by decide)]
  unfold ofU32
  rw [Nat.mod_eq_of_lt (by omega), if_pos (by omega)]
  push_cast
  ring

theorem find_symbol_mem (symtab : List Symbol) (name : CStr) (sym : Symbol)
    (h : find_symbol symtab name = some sym) : sym ∈ symtab ∧ sym.name = name := by
  induction symtab with
  | nil => simp [find_symbol] at h
  | cons s rest ih =>
    unfold find_symbol at h
    split at h
    · rename_i hn
      injection h with h
      rw [← h]
      exact ⟨List.mem_cons_self _ _, hn⟩
    · exact ⟨List.mem_cons_of_mem _ (ih h).1, (ih h).2⟩

theorem in_image_nat (n : Nat) (h : n < 256) : in_image (n : Int) = true := by
  unfold in_image MAX_WORDS_MEMORY
  simp only [Bool.and_eq_true, decide_eq_true_eq]
  omega

theorem write_external_reference_open (fs : FileSystem) (base_filename : CStr)
    (ext_fp : Stream) (sym_name : CStr) (n : Nat)
    (hopen : open_file_with_ext fs base_filename ".ext".toList = true) :
    write_external_reference fs base_filename ext_fp sym_name (n : Int)
      = some (ext_fp.getD [] ++ [ext_line (sym_name, n)]) := by
  unfold write_external_reference ext_line
  cases ext_fp with
  | none =>
    simp only [hopen, if_true]
    rfl
  | some f => rfl

theorem one_word_set (fs : FileSystem) (base_filename : CStr) (symtab : List Symbol)
    (st : Pass2) (n : Nat) (w : Int) (hw : w % 4 = 0 ∨ w % 4 = 2) :
    one_word fs base_filename symtab st
      { st with instruction_image := set_word st.instruction_image n w } n := by
  refine ⟨?_, Or.inr ⟨?_, rfl⟩⟩
  · intro i hi
    simp [set_word, hi]
  · simpa [set_word] using hw

theorem mark_word_absolute_one_word (fs : FileSystem) (base_filename : CStr)
    (symtab : List Symbol) (st : Pass2) (n : Nat) (hn : n < 256) :
    ∃ image, mark_word_absolute (n : Int) st.instruction_image = some image ∧
      one_word fs base_filename symtab st { st with instruction_image := image } n := by
  unfold mark_word_absolute
  rw [in_image_nat n hn, if_pos rfl]
  refine ⟨_, rfl, ?_⟩
  simp only [Int.toNat_ofNat]
  exact one_word_set fs base_filename symtab st n _ (Or.inl (c_and_not_ARE_MASK _))

theorem encode_symbol_word_one_word (fs : FileSystem) (base_filename : CStr)
    (symtab : List Symbol) (sym : Symbol) (hmem : sym ∈ symtab) (st : Pass2) (n : Nat)
    (hn : n < 256) :
    ∃ st1, encode_symbol_word fs base_filename (n : Int) sym st = some st1 ∧
      one_word fs base_filename symtab st st1 n ∧ st1.error_count = st.error_count := by
  unfold encode_symbol_word
  rw [in_image_nat n hn, if_pos rfl]
  split
  · rename_i hext
    refine ⟨_, rfl, ⟨?_, Or.inl ⟨?_, sym, hmem, hext, ?_⟩⟩, rfl⟩
    · intro i hi
      simp [set_word, hi]
    · simp [set_word, ARE_EXTERNAL]
    · rfl
  · refine ⟨_, rfl, ?_, rfl⟩
    simp only [Int.toNat_ofNat]
    apply one_word_set
    rw [relocatable_word]
    omega

theorem resolve_direct_operand_one_word (fs : FileSystem) (base_filename : CStr)
    (symtab : List Symbol) (label : CStr) (st : Pass2) (n : Nat) (hn : n < 256) :
    ∃ st1, resolve_direct_operand fs base_filename label (n : Int) symtab st = some st1 ∧
      one_word fs base_filename symtab st st1 n := by
  unfold resolve_direct_operand
  split
  · rw [in_image_nat n hn, if_pos rfl]
    refine ⟨_, rfl, ?_⟩
    simp only [Int.toNat_ofNat]
    exact ⟨fun i hi => by simp [set_word, hi], Or.inr ⟨by simp [set_word], rfl⟩⟩
  · rename_i sym hfind
    obtain ⟨st1, h1, h2, _⟩ := encode_symbol_word_one_word fs base_filename symtab sym
      (find_symbol_mem _ _ _ hfind).1 st n hn
    exact ⟨st1, h1, h2⟩

/-! ## The externals lines and the External words -/

theorem filter_range_stable (p q : Nat → Bool) (f n : Nat) (hfn : f ≤ n)
    (h1 : ∀ i, i < f → q i = p i) (h2 : ∀ i, f ≤ i → i < n → q i = false) :
    (List.range n).filter q = (List.range f).filter p := by
  induction n, hfn using Nat.le_induction with
  | base =>
    apply List.filter_congr
    intro x hx
    exact h1 x (List.mem_range.mp hx)
  | succ n hn ih =>
    rw [List.range_succ, List.filter_append, ih (fun i hi hlt => h2 i hi (by omega))]
    simp [h2 n hn (by omega)]

theorem external_words_succ (image : Image) (n : Nat) :
    external_words image (n + 1)
      = external_words image n ++ (if image n % 4 = 1 then [n] else []) := by
  unfold external_words
  rw [List.range_succ, List.filter_append]
  congr 1
  by_cases h : image n % 4 = 1 <;> simp [h]

/-- The frontier may move over words that are still absolute. -/
theorem ext_inv_advance (fs : FileSystem) (base_filename : CStr) (symtab : List Symbol)
    (st : Pass2) (f f1 : Nat) (refs : List (CStr × Nat))
    (h : ext_inv fs base_filename symtab st f refs) (hle : f ≤ f1) :
    ext_inv fs base_filename symtab st f1 refs := by
  obtain ⟨h1, h2, h3, h4, h5⟩ := h
  refine ⟨h1, ?_, h3, fun i hi => h4 i (by omega), h5⟩
  rw [h2]
  unfold external_words
  symm
  apply filter_range_stable _ _ f f1 hle (fun _ _ => rfl)
  intro i hi _
  have := h4 i hi
  simp [this]

/-- One stored word at the frontier keeps the invariant. -/
theorem ext_inv_one_word (fs : FileSystem) (base_filename : CStr) (symtab : List Symbol)
    (st st1 : Pass2) (n : Nat) (refs : List (CStr × Nat))
    (h : ext_inv fs base_filename symtab st n refs)
    (hw : one_word fs base_filename symtab st st1 n) :
    ∃ refs1, ext_inv fs base_filename symtab st1 (n + 1) refs1 := by
  obtain ⟨h1, h2, h3, h4, h5⟩ := h
  obtain ⟨hsame, hcase⟩ := hw
  have hbelow : external_words st1.instruction_image n = external_words st.instruction_image n := by
    unfold external_words
    apply List.filter_congr
    intro x hx
    rw [hsame x (by have := List.mem_range.mp hx; omega)]
  have habove : ∀ i, n + 1 ≤ i → st1.instruction_image i % 4 = 0 := by
    intro i hi
    rw [hsame i (by omega)]
    exact h4 i (by omega)
  have hall : ∀ w : Int, (w % 4 = 0 ∨ w % 4 = 1 ∨ w % 4 = 2) →
      ∀ i, st1.instruction_image n = w → (st1.instruction_image i % 4 = 0 ∨
        st1.instruction_image i % 4 = 1 ∨ st1.instruction_image i % 4 = 2) := by
    intro w hw i hn
    by_cases hi : i = n
    · rw [hi, hn]; exact hw
    · rw [hsame i hi]; exact h5 i
  rcases hcase with ⟨hext, sym, hmem, htype, hfp⟩ | ⟨habs, hfp⟩
  · refine ⟨refs ++ [(sym.name, n)], ?_, ?_, ?_, habove, ?_⟩
    · intro hopen
      rw [hfp, write_external_reference_open fs base_filename _ _ _ hopen, h1 hopen]; simp
    · rw [external_words_succ, hbelow, if_pos hext, ← h2]; simp
    · intro r hr
      rw [List.mem_append, List.mem_singleton] at hr
      rcases hr with hr | hr
      · exact h3 r hr
      · exact ⟨sym, hmem, htype, by rw [hr]⟩
    · intro i
      exact hall _ (Or.inr (Or.inl hext)) i rfl
  · refine ⟨refs, ?_, ?_, h3, habove, ?_⟩
    · intro hopen
      rw [hfp, h1 hopen]
    · rw [external_words_succ, hbelow, if_neg (by omega), ← h2]; simp
    · intro i
      exact hall _ (by omega) i rfl

theorem ext_inv_of_eq (fs : FileSystem) (base_filename : CStr) (symtab : List Symbol)
    (st st1 : Pass2) (f : Nat) (refs : List (CStr × Nat))
    (h : ext_inv fs base_filename symtab st f refs)
    (h1 : st1.instruction_image = st.instruction_image) (h2 : st1.ext_fp = st.ext_fp) :
    ext_inv fs base_filename symtab st1 f refs := by
  unfold ext_inv at *
  rw [h1, h2]
  exact h

theorem one_word_of_eq (fs : FileSystem) (base_filename : CStr) (symtab : List Symbol)
    (st0 st st1 : Pass2) (n : Nat) (h : one_word fs base_filename symtab st st1 n)
    (h1 : st.instruction_image = st0.instruction_image) (h2 : st.ext_fp = st0.ext_fp) :
    one_word fs base_filename symtab st0 st1 n := by
  unfold one_word at *
  rw [← h1, ← h2]
  exact h

theorem find_matrix_symbol_mem (symtab : List Symbol) (operand : CStr) (e : Int)
    (sym : Symbol) (h : (find_matrix_symbol symtab operand e).1 = some sym) :
    sym ∈ symtab := by
  unfold find_matrix_symbol at h
  split at h
  · simp at h
  · split at h
    · simp at h
    · dsimp only at h
      split at h
      · simp at h
      · rename_i s hs
        simp only [Option.some.injEq] at h
        rw [← h]
        exact (find_symbol_mem _ _ _ hs).1

theorem resolve_matrix_base_one_word (fs : FileSystem) (base_filename : CStr)
    (symtab : List Symbol) (operand : CStr) (st : Pass2) (n : Nat) (hn : n < 256) :
    ∃ st2, resolve_matrix_base fs base_filename operand (n : Int) symtab st = some st2 ∧
      one_word fs base_filename symtab st st2 n := by
  unfold resolve_matrix_base
  dsimp only
  split
  · rw [in_image_nat n hn, if_pos rfl]
    refine ⟨_, rfl, ?_⟩
    simp only [Int.toNat_ofNat]
    exact ⟨fun i hi => by simp [set_word, hi], Or.inr ⟨by simp [set_word], rfl⟩⟩
  · rename_i sym hsym
    obtain ⟨st2, h1, h2, _⟩ := encode_symbol_word_one_word fs base_filename symtab sym
      (find_matrix_symbol_mem _ _ _ _ hsym)
      { instruction_image := st.instruction_image, ext_fp := st.ext_fp,
        error_count := (find_matrix_symbol symtab operand st.error_count).2 }
      n hn
    exact ⟨st2, h1, one_word_of_eq _ _ _ _ _ _ _ h2 rfl rfl⟩

/-- The two words of a MATRIX operand. -/
theorem resolve_matrix_operand_inv (fs : FileSystem) (base_filename : CStr)
    (symtab : List Symbol) (operand : CStr) (st : Pass2) (n : Nat)
    (refs : List (CStr × Nat)) (h : ext_inv fs base_filename symtab st n refs)
    (hn : n + 2 ≤ 256) :
    ∃ st1 refs1, resolve_matrix_operand fs base_filename operand (n : Int) symtab st
        = some (st1, ((n + 2 : Nat) : Int)) ∧
      ext_inv fs base_filename symtab st1 (n + 2) refs1 := by
  unfold resolve_matrix_operand
  obtain ⟨st2, hst2, hw2⟩ := resolve_matrix_base_one_word fs base_filename symtab operand
    st n (by omega)
  rw [hst2]
  dsimp only
  obtain ⟨refs2, hinv2⟩ := ext_inv_one_word fs base_filename symtab st st2 n refs h hw2
  obtain ⟨image, him, hw3⟩ := mark_word_absolute_one_word fs base_filename symtab st2 (n + 1) (by omega)
  have hcast : ((n : Int) + 1) = ((n + 1 : Nat) : Int) := by push_cast; rfl
  rw [hcast, him]
  dsimp only
  obtain ⟨refs3, hinv3⟩ := ext_inv_one_word fs base_filename symtab st2 _ (n + 1) refs2 hinv2 hw3
  refine ⟨_, refs3, ?_, hinv3⟩
  congr 2

/-- The words of one operand, for the mode that `addr_mode` gives it. -/
theorem resolve_operand_inv (fs : FileSystem) (base_filename : CStr)
    (symtab : List Symbol) (operand : CStr) (st : Pass2) (n : Nat)
    (refs : List (CStr × Nat)) (h : ext_inv fs base_filename symtab st n refs)
    (hn : (n : Int) + operand_words (addr_mode operand) ≤ 256) :
    ∃ st1 refs1, ∃ m : Nat, resolve_operand fs base_filename operand (addr_mode operand)
        (n : Int) symtab st = some (st1, (m : Int)) ∧
      (m : Int) = (n : Int) + operand_words (addr_mode operand) ∧
      ext_inv fs base_filename symtab st1 m refs1 := by
  unfold resolve_operand
  unfold operand_words at hn ⊢
  simp only [ADDR_MODE_REGISTER, ADDR_MODE_IMMEDIATE, ADDR_MODE_DIRECT, ADDR_MODE_MATRIX]
    at hn ⊢
  rcases addr_mode_range operand with hm | hm | hm | hm <;> rw [hm] at hn ⊢ <;>
    norm_num at hn ⊢
  · obtain ⟨image, him, hw⟩ := mark_word_absolute_one_word fs base_filename symtab st n (by omega)
    obtain ⟨refs1, hinv⟩ := ext_inv_one_word fs base_filename symtab st _ n refs h hw
    rw [him]
    exact ⟨_, refs1, n + 1, by push_cast; rfl, by push_cast; rfl, hinv⟩
  · obtain ⟨st1, hst1, hw⟩ := resolve_direct_operand_one_word fs base_filename symtab
      operand st n (by omega)
    obtain ⟨refs1, hinv⟩ := ext_inv_one_word fs base_filename symtab st _ n refs h hw
    rw [hst1]
    exact ⟨_, refs1, n + 1, by push_cast; rfl, by push_cast; rfl, hinv⟩
  · obtain ⟨st1, refs1, hst1, hinv⟩ := resolve_matrix_operand_inv fs base_filename symtab
      operand st n refs h (by omega)
    exact ⟨st1, refs1, n + 2, hst1, by push_cast; rfl, hinv⟩
  · obtain ⟨image, him, hw⟩ := mark_word_absolute_one_word fs base_filename symtab st n (by omega)
    obtain ⟨refs1, hinv⟩ := ext_inv_one_word fs base_filename symtab st _ n refs h hw
    rw [him]
    exact ⟨_, refs1, n + 1, by push_cast; rfl, by push_cast; rfl, hinv⟩

/-- The extra words of one command, resolved from a frontier at or below its
first extra word. -/
theorem resolve_command_inv (fs : FileSystem) (base_filename : CStr)
    (symtab : List Symbol) (cmd : CommandFields) (st : Pass2) (f a : Nat)
    (refs : List (CStr × Nat)) (h : ext_inv fs base_filename symtab st f refs)
    (ha : (a : Int) = cmd.cmd_address - 100) (hf : f ≤ a + 1)
    (hfit : (a : Int) + cmd_words cmd ≤ 256) :
    ∃ st1 refs1, ∃ m : Nat, resolve_command fs base_filename symtab cmd st = some st1 ∧
      (m : Int) = (a : Int) + cmd_words cmd ∧
      ext_inv fs base_filename symtab st1 m refs1 := by
  have h1 := ext_inv_advance fs base_filename symtab st f (a + 1) refs h hf
  have hidx : cmd.cmd_address - IC_INIT_VALUE + 1 = ((a + 1 : Nat) : Int) := by
    rw [IC_INIT_VALUE]; push_cast; omega
  obtain ⟨label, addr, len, opcode, src, dst⟩ := cmd
  unfold resolve_command
  unfold cmd_words compute_instruction_length at hfit ⊢
  simp only [hidx] at hfit ⊢
  rcases src with _ | s <;> rcases dst with _ | d <;>
    simp only [mode_of, Option.isSome_none, Option.isSome_some, false_and, and_false,
      true_and, if_false, if_true, Bool.false_eq_true] at hfit ⊢
  · exact ⟨st, refs, a + 1, rfl, by push_cast; ring, h1⟩
  · have hw : operand_words (addr_mode d) = (if addr_mode d = ADDR_MODE_MATRIX then 2 else 1) := rfl
    obtain ⟨st1, refs1, m, hr, hm, hinv⟩ := resolve_operand_inv fs base_filename symtab d st
      (a + 1) refs h1 (by rw [hw]; push_cast; omega)
    rw [hr]
    exact ⟨st1, refs1, m, rfl, by rw [hm, hw]; push_cast; ring, hinv⟩
  · have hw : operand_words (addr_mode s) = (if addr_mode s = ADDR_MODE_MATRIX then 2 else 1) := rfl
    obtain ⟨st1, refs1, m, hr, hm, hinv⟩ := resolve_operand_inv fs base_filename symtab s st
      (a + 1) refs h1 (by rw [hw]; push_cast; omega)
    rw [hr]
    exact ⟨st1, refs1, m, rfl, by rw [hm, hw]; push_cast; ring, hinv⟩
  · by_cases hr : addr_mode s = ADDR_MODE_REGISTER ∧ addr_mode d = ADDR_MODE_REGISTER
    · rw [if_pos hr] at hfit ⊢
      obtain ⟨image, him, hw⟩ := mark_word_absolute_one_word fs base_filename symtab st (a + 1) (by omega)
      obtain ⟨refs1, hinv⟩ := ext_inv_one_word fs base_filename symtab st _ (a + 1) refs h1 hw
      rw [him]
      exact ⟨_, refs1, a + 1 + 1, rfl, by rw [if_pos hr]; push_cast; ring, hinv⟩
    · rw [if_neg hr] at hfit ⊢
      have hws : operand_words (addr_mode s)
          = (if addr_mode s = ADDR_MODE_MATRIX then 2 else 1) := rfl
      have hwd : operand_words (addr_mode d)
          = (if addr_mode d = ADDR_MODE_MATRIX then 2 else 1) := rfl
      have hpd : 1 ≤ operand_words (addr_mode d) := by rw [hwd]; split <;> omega
      have hps : 1 ≤ operand_words (addr_mode s) := by rw [hws]; split <;> omega
      obtain ⟨st1, refs1, m, hr1, hm, hinv⟩ := resolve_operand_inv fs base_filename symtab s
        st (a + 1) refs h1 (by rw [← hwd, ← hws] at hfit; push_cast; omega)
      rw [hr1]
      dsimp only
      obtain ⟨st2, refs2, m2, hr2, hm2, hinv2⟩ := resolve_operand_inv fs base_filename symtab
        d st1 m refs1 hinv (by rw [← hwd, ← hws] at hfit; push_cast at hm; omega)
      rw [hr2]
      refine ⟨st2, refs2, m2, rfl, ?_, hinv2⟩
      rw [if_neg hr, hm2, hm, hws, hwd]; push_cast; ring

/-- The loop of `resolve_symbols` over commands that lie in order inside the
code image. -/
theorem resolve_symbols_inv (fs : FileSystem) (base_filename : CStr)
    (symtab : List Symbol) (cs : List CommandFields) (hi : Int) (htile : commands_tile cs hi)
    (hhi : hi ≤ 356) (st : Pass2) (f : Nat) (refs : List (CStr × Nat))
    (h : ext_inv fs base_filename symtab st f refs)
    (hf : ∀ c ∈ cs, (f : Int) ≤ c.cmd_address - 100 + 1) (hfhi : (f : Int) ≤ hi - 100) :
    ∃ st1 refs1, ∃ m : Nat, resolve_symbols fs base_filename symtab cs st = some st1 ∧
      (m : Int) ≤ hi - 100 ∧ ext_inv fs base_filename symtab st1 m refs1 := by
  induction cs generalizing st f refs with
  | nil => exact ⟨st, refs, f, rfl, hfhi, h⟩
  | cons c rest ih =>
    obtain ⟨hpair, hall⟩ := htile
    obtain ⟨c100, clen, chi⟩ := hall c (List.mem_cons_self _ _)
    have hfc := hf c (List.mem_cons_self _ _)
    obtain ⟨a, ha⟩ := Int.eq_ofNat_of_zero_le (show 0 ≤ c.cmd_address - 100 by omega)
    obtain ⟨st1, refs1, m, hr, hm, hinv⟩ := resolve_command_inv fs base_filename symtab c st
      f a refs h ha.symm (by omega) (by rw [← clen]; omega)
    rw [List.pairwise_cons] at hpair
    obtain ⟨st2, refs2, m2, hr2, hm2, hinv2⟩ := ih
      ⟨hpair.2, fun x hx => hall x (List.mem_cons_of_mem _ hx)⟩ st1 m refs1 hinv (by
        intro x hx
        have := hpair.1 x hx
        rw [hm, ← clen]; omega) (by rw [hm, ← clen]; omega)
    refine ⟨st2, refs2, m2, ?_, hm2, hinv2⟩
    unfold resolve_symbols
    rw [hr]
    exact hr2

/-! ## Commands that did not fit the code image -/

theorem mark_word_absolute_range (idx : Int) (image image1 : Image)
    (h : mark_word_absolute idx image = some image1) : 0 ≤ idx ∧ idx < 256 := by
  unfold mark_word_absolute at h
  split at h
  · rename_i hin
    unfold in_image MAX_WORDS_MEMORY at hin
    simpa using hin
  · simp at h

theorem encode_symbol_word_range (fs : FileSystem) (base_filename : CStr) (idx : Int)
    (sym : Symbol) (st st1 : Pass2)
    (h : encode_symbol_word fs base_filename idx sym st = some st1) :
    0 ≤ idx ∧ idx < 256 := by
  unfold encode_symbol_word at h
  split at h
  · rename_i hin
    unfold in_image MAX_WORDS_MEMORY at hin
    simpa using hin
  · simp at h

theorem resolve_direct_operand_range (fs : FileSystem) (base_filename : CStr)
    (label : CStr) (idx : Int) (symtab : List Symbol) (st st1 : Pass2)
    (h : resolve_direct_operand fs base_filename label idx symtab st = some st1) :
    0 ≤ idx ∧ idx < 256 := by
  unfold resolve_direct_operand at h
  split at h
  · split at h
    · rename_i hin
      unfold in_image MAX_WORDS_MEMORY at hin
      simpa using hin
    · simp at h
  · exact encode_symbol_word_range _ _ _ _ _ _ h

theorem resolve_matrix_base_range (fs : FileSystem) (base_filename : CStr)
    (operand : CStr) (idx : Int) (symtab : List Symbol) (st st1 : Pass2)
    (h : resolve_matrix_base fs base_filename operand idx symtab st = some st1) :
    0 ≤ idx ∧ idx < 256 := by
  unfold resolve_matrix_base at h
  dsimp only at h
  split at h
  · split at h
    · rename_i hin
      unfold in_image MAX_WORDS_MEMORY at hin
      simpa using hin
    · simp at h
  · exact encode_symbol_word_range _ _ _ _ _ _ h

theorem resolve_matrix_operand_range (fs : FileSystem) (base_filename : CStr)
    (operand : CStr) (idx : Int) (symtab : List Symbol) (st st1 : Pass2) (idx1 : Int)
    (h : resolve_matrix_operand fs base_filename operand idx symtab st = some (st1, idx1)) :
    0 ≤ idx ∧ idx1 = idx + 2 ∧ idx1 ≤ 256 := by
  unfold resolve_matrix_operand at h
  split at h
  · simp at h
  · rename_i st2 hbase
    have hb := resolve_matrix_base_range _ _ _ _ _ _ _ hbase
    split at h
    · simp at h
    · rename_i image hmark
      have hr := mark_word_absolute_range _ _ _ hmark
      simp only [Option.some.injEq, Prod.mk.injEq] at h
      obtain ⟨_, h⟩ := h
      refine ⟨hb.1, by omega, by omega⟩

/-- When `resolve_operand` returns, the words of the operand were inside the
code image. -/
theorem resolve_operand_range (fs : FileSystem) (base_filename : CStr) (operand : CStr)
    (idx : Int) (symtab : List Symbol) (st st1 : Pass2) (idx1 : Int)
    (h : resolve_operand fs base_filename operand (addr_mode operand) idx symtab st
      = some (st1, idx1)) :
    0 ≤ idx ∧ idx1 = idx + operand_words (addr_mode operand) ∧ idx1 ≤ 256 := by
  unfold resolve_operand at h
  unfold operand_words
  simp only [ADDR_MODE_REGISTER, ADDR_MODE_IMMEDIATE, ADDR_MODE_DIRECT, ADDR_MODE_MATRIX]
    at h ⊢
  rcases addr_mode_range operand with hm | hm | hm | hm <;> rw [hm] at h ⊢ <;>
    norm_num at h ⊢
  · split at h
    · simp at h
    · rename_i image hmark
      have hr := mark_word_absolute_range _ _ _ hmark
      simp only [Option.some.injEq, Prod.mk.injEq] at h
      omega
  · split at h
    · simp at h
    · rename_i st2 hd
      have hr := resolve_direct_operand_range _ _ _ _ _ _ _ hd
      simp only [Option.some.injEq, Prod.mk.injEq] at h
      omega
  · exact resolve_matrix_operand_range _ _ _ _ _ _ _ _ h
  · split at h
    · simp at h
    · rename_i image hmark
      have hr := mark_word_absolute_range _ _ _ hmark
      simp only [Option.some.injEq, Prod.mk.injEq] at h
      omega

/-- A command that reaches past the code image either stops the second pass at
a store outside the image or has no extra word. -/
theorem resolve_command_bad (fs : FileSystem) (base_filename : CStr)
    (symtab : List Symbol) (cmd : CommandFields) (st st1 : Pass2)
    (hbad : 356 < cmd.cmd_address + cmd_words cmd)
    (h : resolve_command fs base_filename symtab cmd st = some st1) : st1 = st := by
  obtain ⟨label, addr, len, opcode, src, dst⟩ := cmd
  unfold resolve_command at h
  unfold cmd_words compute_instruction_length at hbad
  simp only [IC_INIT_VALUE] at h
  rcases src with _ | s <;> rcases dst with _ | d <;>
    simp only [mode_of, Option.isSome_none, Option.isSome_some, false_and, and_false,
      true_and, if_false, if_true, Bool.false_eq_true] at hbad h
  · simp only [Option.some.injEq] at h
    exact h.symm
  · exfalso
    cases hr : resolve_operand fs base_filename d (addr_mode d) (addr - 100 + 1) symtab st with
    | none => rw [hr] at h; simp at h
    | some p =>
      obtain ⟨a, b, c⟩ := resolve_operand_range _ _ _ _ _ _ p.1 p.2 hr
      unfold operand_words at b
      omega
  · exfalso
    cases hr : resolve_operand fs base_filename s (addr_mode s) (addr - 100 + 1) symtab st with
    | none => rw [hr] at h; simp at h
    | some p =>
      obtain ⟨a, b, c⟩ := resolve_operand_range _ _ _ _ _ _ p.1 p.2 hr
      unfold operand_words at b
      omega
  · exfalso
    by_cases hreg : addr_mode s = ADDR_MODE_REGISTER ∧ addr_mode d = ADDR_MODE_REGISTER
    · rw [if_pos hreg] at hbad h
      split at h
      · simp at h
      · rename_i image hmark
        have := mark_word_absolute_range _ _ _ hmark
        omega
    · rw [if_neg hreg] at hbad h
      cases hr : resolve_operand fs base_filename s (addr_mode s) (addr - 100 + 1) symtab st with
      | none => rw [hr] at h; simp at h
      | some p =>
        obtain ⟨a, b, c⟩ := resolve_operand_range _ _ _ _ _ _ p.1 p.2 hr
        rw [hr] at h
        dsimp only at h
        cases hr2 : resolve_operand fs base_filename d (addr_mode d) p.2 symtab p.1 with
        | none => rw [hr2] at h; simp at h
        | some q =>
          obtain ⟨a2, b2, c2⟩ := resolve_operand_range _ _ _ _ _ _ q.1 q.2 hr2
          unfold operand_words at b b2
          omega

theorem resolve_symbols_bad (fs : FileSystem) (base_filename : CStr)
    (symtab : List Symbol) (cs : List CommandFields) (st st1 : Pass2)
    (hbad : ∀ c ∈ cs, 356 < c.cmd_address + cmd_words c)
    (h : resolve_symbols fs base_filename symtab cs st = some st1) : st1 = st := by
  induction cs generalizing st with
  | nil =>
    unfold resolve_symbols at h
    simp only [Option.some.injEq] at h
    exact h.symm
  | cons c rest ih =>
    unfold resolve_symbols at h
    split at h
    · simp at h
    · rename_i st2 hc
      have h2 := resolve_command_bad fs base_filename symtab c st st2
        (hbad c (List.mem_cons_self _ _)) hc
      rw [h2] at h
      exact ih st (fun x hx => hbad x (List.mem_cons_of_mem _ hx)) h

theorem resolve_symbols_append (fs : FileSystem) (base_filename : CStr)
    (symtab : List Symbol) (l1 l2 : List CommandFields) (st : Pass2) :
    resolve_symbols fs base_filename symtab (l1 ++ l2) st
      = (resolve_symbols fs base_filename symtab l1 st).bind
          (resolve_symbols fs base_filename symtab l2) := by
  induction l1 generalizing st with
  | nil => rfl
  | cons c rest ih =>
    simp only [List.cons_append, resolve_symbols]
    cases resolve_command fs base_filename symtab c st with
    | none => rfl
    | some st2 => exact ih st2

/-- The operand resolution after a first pass from a fresh process: it runs to
its end when the code fits the image, and whenever it does, the state it
leaves satisfies the invariant up to the end of the image. -/
theorem resolve_after_first_pass (fs : FileSystem) (base_filename : CStr)
    (input_file : CStr) (sym_table : List Symbol) (directive_list : List DirectiveFields) :
    ((first_pass input_file sym_table zero_image [] directive_list).2.IC < 356 →
      ∃ st1, resolve_symbols fs base_filename
        (first_pass input_file sym_table zero_image [] directive_list).2.sym_table
        (first_pass input_file sym_table zero_image [] directive_list).2.command_list
        { instruction_image :=
            (first_pass input_file sym_table zero_image [] directive_list).2.instruction_image,
          ext_fp := none, error_count := 0 } = some st1) ∧
    ∀ st1, resolve_symbols fs base_filename
        (first_pass input_file sym_table zero_image [] directive_list).2.sym_table
        (first_pass input_file sym_table zero_image [] directive_list).2.command_list
        { instruction_image :=
            (first_pass input_file sym_table zero_image [] directive_list).2.instruction_image,
          ext_fp := none, error_count := 0 } = some st1 →
      ∃ refs, ext_inv fs base_filename
        (first_pass input_file sym_table zero_image [] directive_list).2.sym_table st1 256
        refs := by
  obtain ⟨h0, h1, h2, good, bad, hcs, htile, hbad, hfull⟩ :=
    first_pass_code_inv input_file sym_table directive_list
  generalize (first_pass input_file sym_table zero_image [] directive_list).2 = p1 at *
  have hinit : ext_inv fs base_filename p1.sym_table
      { instruction_image := p1.instruction_image, ext_fp := none, error_count := 0 } 0 [] := by
    refine ⟨fun _ => rfl, rfl, ?_, fun i _ => h2 i, fun i => Or.inl (h2 i)⟩
    intro r hr
    cases hr
  obtain ⟨stg, refs, m, hg, hm, hinv⟩ := resolve_symbols_inv fs base_filename p1.sym_table
    good p1.IC htile h1 _ 0 [] hinit (fun c hc => by
      have := (htile.2 c hc).1
      push_cast; omega) (by push_cast; omega)
  rw [hcs, resolve_symbols_append, hg]
  refine ⟨?_, ?_⟩
  · intro hlt
    have hb : bad = [] := by
      by_contra hne
      have := hfull hne
      omega
    rw [hb]
    exact ⟨stg, rfl⟩
  · intro st1 hst1
    have : st1 = stg := resolve_symbols_bad fs base_filename p1.sym_table bad stg st1
      (fun c hc => by
        obtain ⟨_, b, c⟩ := hbad c hc
        rw [← b]; exact c) hst1
    rw [this]
    exact ⟨refs, ext_inv_advance fs base_filename p1.sym_table stg m 256 refs hinv (by omega)⟩

/-! ## Direct operands -/

/-- What `resolve_direct_operand` stores at an index inside the code image:
0 with one more error for an unknown label, 01 for an EXTERNAL symbol, and the
low ten bits of the address above A/R/E = 10 for any other symbol, which is
`((a & 0xFF) << 2) | 2` for an address below 256. -/
theorem direct_operand_word (fs : FileSystem) (base_filename : CStr) (label : CStr)
    (n : Nat) (hn : n < 256) (symtab : List Symbol) (st : Pass2) :
    (find_symbol symtab label = none →
      ∃ st1, resolve_direct_operand fs base_filename label (n : Int) symtab st = some st1 ∧
        st1.instruction_image n = 0 ∧ st1.error_count = st.error_count + 1) ∧
    (∀ sym, find_symbol symtab label = some sym → sym.type = SYMBOL_EXTERNAL →
      ∃ st1, resolve_direct_operand fs base_filename label (n : Int) symtab st = some st1 ∧
        st1.instruction_image n = 1 ∧ st1.error_count = st.error_count) ∧
    (∀ sym, find_symbol symtab label = some sym → sym.type ≠ SYMBOL_EXTERNAL →
      ∃ st1, resolve_direct_operand fs base_filename label (n : Int) symtab st = some st1 ∧
        st1.instruction_image n = sym.address % 1024 * 4 + 2 ∧
        st1.error_count = st.error_count ∧
        (0 ≤ sym.address → sym.address < 256 →
          st1.instruction_image n
            = c_or (c_shl (c_and sym.address IMM_MASK) 2) ARE_RELOCATABLE)) := by
  refine ⟨?_, ?_, ?_⟩
  · intro hnone
    unfold resolve_direct_operand
    rw [hnone]
    simp only [in_image_nat n hn, if_true]
    exact ⟨_, rfl, by simp [set_word], rfl⟩
  · intro sym hsym hext
    unfold resolve_direct_operand encode_symbol_word
    rw [hsym]
    simp only [in_image_nat n hn, if_true, if_pos hext]
    exact ⟨_, rfl, by simp [set_word, ARE_EXTERNAL], rfl⟩
  · intro sym hsym hext
    unfold resolve_direct_operand encode_symbol_word
    rw [hsym]
    simp only [in_image_nat n hn, if_true, if_neg hext]
    refine ⟨_, rfl, by simp [set_word, relocatable_word], rfl, ?_⟩
    intro h0 h1
    have e : c_or (c_shl (c_and sym.address IMM_MASK) 2) ARE_RELOCATABLE
        = c_or (c_shl (c_and sym.address WORD_MASK) ADDRESS_PAYLOAD_SHIFT) ARE_RELOCATABLE := by
      rw [c_and_IMM_MASK, c_and_WORD_MASK, Int.emod_eq_of_lt h0 h1,
        Int.emod_eq_of_lt h0 (by omega)]
      rfl
    rw [e]
    simp [set_word]

/-- C5 (direct-operand patching), the code at the failing input: for a local
symbol at address 256 `resolve_direct_operand` stores the word 1026, which has
bit 10 set, and not the word `((256 & 0xFF) << 2) | 2 = 2` of the claim; the
source `program_address_256` goes through both passes without an error and
leaves that word at index 1 of the code image. -/
theorem direct_patch_address_256 :
    (resolve_direct_operand (fun _ => true) "f".toList "M".toList 1
        [⟨"M".toList, 256, SYMBOL_DATA⟩]
        { instruction_image := zero_image, ext_fp := none, error_count := 0 }).map
      (fun st => st.instruction_image 1) = some 1026 ∧
    c_or (c_shl (c_and 256 IMM_MASK) 2) ARE_RELOCATABLE = 2 ∧
    (first_pass_fresh program_address_256).sym_table = [⟨"M".toList, 256, SYMBOL_DATA⟩] ∧
    (assemble (fun _ => true) "f".toList program_address_256).map
      (fun r => (r.ret, r.instruction_image 1)) = some (0, 1026) := by
  refine ⟨by decide, by decide, by decide, by decide⟩

/-! ## The A/R/E field after the second pass -/

theorem second_pass_after_total (fs : FileSystem) (base_filename input_file : CStr)
    (hfit : (first_pass_fresh input_file).IC < 356) :
    ∃ r, second_pass_after fs base_filename (first_pass_fresh input_file) = some r := by
  unfold second_pass_after second_pass first_pass_fresh at *
  split
  · exact ⟨_, rfl⟩
  · obtain ⟨st1, h⟩ := (resolve_after_first_pass fs base_filename input_file [] []).1 hfit
    rw [h]
    exact ⟨_, rfl⟩

/-- What a second pass after a fresh first pass leaves of the operand
resolution. -/
theorem second_pass_after_inv (fs : FileSystem) (base_filename input_file : CStr)
    (r : SecondPassResult)
    (h : second_pass_after fs base_filename (first_pass_fresh input_file) = some r) :
    ∃ refs, ext_inv fs base_filename (first_pass_fresh input_file).sym_table
      { instruction_image := r.instruction_image, ext_fp := r.ext_file,
        error_count := 0 } 256 refs := by
  unfold second_pass_after second_pass at h
  split at h
  · -- the object file cannot be created: the image is the one of the first pass
    simp only [Option.some.injEq] at h
    rw [← h]
    have hab := (first_pass_code_inv input_file [] []).2.2.1
    refine ⟨[], fun _ => rfl, ?_, ?_, fun i _ => hab i, fun i => Or.inl (hab i)⟩
    · symm
      unfold external_words
      show List.filter _ _ = []
      rw [List.filter_eq_nil_iff]
      intro i _
      have := hab i
      unfold first_pass_fresh
      simp [this]
    · intro x hx
      cases hx
  · split at h
    · simp at h
    · rename_i st hst
      obtain ⟨refs, hinv⟩ := (resolve_after_first_pass fs base_filename input_file [] []).2 st hst
      simp only [Option.some.injEq] at h
      rw [← h]
      exact ⟨refs, ext_inv_of_eq _ _ _ _ _ _ _ hinv rfl rfl⟩

/-- C6 (A/R/E law): for every source, the second pass after a first pass from
a fresh process runs to its end whenever the code fits the code image
(`ICF < 356`); and whenever it has run, every extra word of every recorded
command (the words at offsets 1 .. length - 1 from the command's address) has
its two low bits equal to 00, 01 or 10, never 11. -/
theorem are_law (fs : FileSystem) (base_filename input_file : CStr) :
    ((first_pass_fresh input_file).IC < 356 →
      ∃ r, second_pass_after fs base_filename (first_pass_fresh input_file) = some r) ∧
    ∀ r, second_pass_after fs base_filename (first_pass_fresh input_file) = some r →
      ∀ cmd, cmd ∈ (first_pass_fresh input_file).command_list →
        ∀ k : Int, 1 ≤ k → k < cmd.length →
          r.instruction_image (cmd.cmd_address - 100 + k).toNat % 4 = 0 ∨
          r.instruction_image (cmd.cmd_address - 100 + k).toNat % 4 = 1 ∨
          r.instruction_image (cmd.cmd_address - 100 + k).toNat % 4 = 2 := by
  refine ⟨second_pass_after_total fs base_filename input_file, ?_⟩
  intro r hr cmd _ k _ _
  obtain ⟨refs, hinv⟩ := second_pass_after_inv fs base_filename input_file r hr
  exact hinv.2.2.2.2 _

set_option maxRecDepth 100000 in
theorem are_law_witness :
    (first_pass_fresh ".extern K\nmov K[r1][r2], r0\n".toList).IC < 356 ∧
    (second_pass_after (fun _ => true) "f".toList
        (first_pass_fresh ".extern K\nmov K[r1][r2], r0\n".toList)).map
      (fun r => (List.range 4).map r.instruction_image) = some [44, 1, 72, 0] ∧
    (((first_pass_fresh ".extern K\nmov K[r1][r2], r0\n".toList).IC < 356 →
      ∃ r, second_pass_after (fun _ => true) "f".toList
        (first_pass_fresh ".extern K\nmov K[r1][r2], r0\n".toList) = some r) ∧
    ∀ r, second_pass_after (fun _ => true) "f".toList
        (first_pass_fresh ".extern K\nmov K[r1][r2], r0\n".toList) = some r →
      ∀ cmd, cmd ∈ (first_pass_fresh ".extern K\nmov K[r1][r2], r0\n".toList).command_list →
        ∀ k : Int, 1 ≤ k → k < cmd.length →
          r.instruction_image (cmd.cmd_address - 100 + k).toNat % 4 = 0 ∨
          r.instruction_image (cmd.cmd_address - 100 + k).toNat % 4 = 1 ∨
          r.instruction_image (cmd.cmd_address - 100 + k).toNat % 4 = 2) :=
  ⟨by decide, by decide,
   are_law (fun _ => true) "f".toList ".extern K\nmov K[r1][r2], r0\n".toList⟩

/-! ## External references -/

/-- An operand that names an EXTERNAL symbol: the word at `idx` becomes 01 and
`write_external_reference` is called once, for that symbol and that index. -/
theorem resolve_operand_external (fs : FileSystem) (base_filename : CStr)
    (symtab : List Symbol) (operand : CStr) (st : Pass2) (n : Nat) (sym : Symbol)
    (hn : n + 2 ≤ 256)
    (hsym : (addr_mode operand = ADDR_MODE_DIRECT ∧ find_symbol symtab operand = some sym) ∨
      (addr_mode operand = ADDR_MODE_MATRIX ∧
        (find_matrix_symbol symtab operand st.error_count).1 = some sym))
    (hext : sym.type = SYMBOL_EXTERNAL) :
    ∃ st1 m, resolve_operand fs base_filename operand (addr_mode operand) (n : Int) symtab st
        = some (st1, m) ∧
      st1.instruction_image n = ARE_EXTERNAL ∧
      st1.ext_fp = write_external_reference fs base_filename st.ext_fp sym.name (n : Int) := by
  rcases hsym with ⟨hm, hf⟩ | ⟨hm, hf⟩
  · have hres : resolve_operand fs base_filename operand (addr_mode operand) (n : Int)
        symtab st = some ({ st with
          instruction_image := set_word st.instruction_image n ARE_EXTERNAL,
          ext_fp := write_external_reference fs base_filename st.ext_fp sym.name (n : Int) },
          (n : Int) + 1) := by
      unfold resolve_operand
      rw [hm]
      simp only [ADDR_MODE_REGISTER, ADDR_MODE_IMMEDIATE, ADDR_MODE_DIRECT, ADDR_MODE_MATRIX]
      norm_num
      unfold resolve_direct_operand encode_symbol_word
      rw [hf]
      simp only [in_image_nat n (by omega), if_true, if_pos hext, Int.toNat_ofNat]
    exact ⟨_, _, hres, by simp [set_word], rfl⟩
  · have hcast : ((n : Int) + 1) = ((n + 1 : Nat) : Int) := by push_cast; rfl
    have hres : resolve_operand fs base_filename operand (addr_mode operand) (n : Int)
        symtab st = some ({
          instruction_image := set_word (set_word st.instruction_image n ARE_EXTERNAL) (n + 1)
            (c_and (set_word st.instruction_image n ARE_EXTERNAL (n + 1)) (c_not ARE_MASK)),
          ext_fp := write_external_reference fs base_filename st.ext_fp sym.name (n : Int),
          error_count := (find_matrix_symbol symtab operand st.error_count).2 },
          (n : Int) + 1 + 1) := by
      unfold resolve_operand
      rw [hm]
      simp only [ADDR_MODE_REGISTER, ADDR_MODE_IMMEDIATE, ADDR_MODE_DIRECT, ADDR_MODE_MATRIX]
      norm_num
      unfold resolve_matrix_operand resolve_matrix_base encode_symbol_word mark_word_absolute
      simp only [hf, in_image_nat n (by omega), if_true, if_pos hext, hcast,
        in_image_nat (n + 1) (by omega), Int.toNat_ofNat]
    exact ⟨_, _, hres, by simp [set_word], rfl⟩

/-- C7 (external references), as amended: when the externals file can be
opened, (1) every DIRECT or MATRIX operand whose label is an EXTERNAL symbol
makes `resolve_operand` store the External word 01 at the operand's index `idx`
and append exactly one line `<name> <base4(100 + idx)>` to the externals
output; (2) the second pass after a first pass from a fresh process runs to its
end whenever the code fits the code image; and (3) whenever it has run, the
externals lines are the lines of a list of references `(name, idx)` whose
indices are exactly the indices of the code words with A/R/E = 01, in
increasing order, each name being the name of an EXTERNAL symbol of the
table. -/
theorem external_references (fs : FileSystem) (base_filename input_file : CStr)
    (hopen : open_file_with_ext fs base_filename ".ext".toList = true) :
    (∀ (symtab : List Symbol) (operand : CStr) (st : Pass2) (n : Nat) (sym : Symbol),
      n + 2 ≤ 256 →
      ((addr_mode operand = ADDR_MODE_DIRECT ∧ find_symbol symtab operand = some sym) ∨
        (addr_mode operand = ADDR_MODE_MATRIX ∧
          (find_matrix_symbol symtab operand st.error_count).1 = some sym)) →
      sym.type = SYMBOL_EXTERNAL →
      ∃ st1 m, resolve_operand fs base_filename operand (addr_mode operand) (n : Int)
          symtab st = some (st1, m) ∧
        st1.instruction_image n = ARE_EXTERNAL ∧
        st1.ext_fp = some (st.ext_fp.getD [] ++ [ref_line sym.name (100 + (n : Int))])) ∧
    ((first_pass_fresh input_file).IC < 356 →
      ∃ r, second_pass_after fs base_filename (first_pass_fresh input_file) = some r) ∧
    (∀ r, second_pass_after fs base_filename (first_pass_fresh input_file) = some r →
      ∃ refs : List (CStr × Nat),
        r.ext_file.getD [] = refs.map (fun x => ref_line x.1 (100 + (x.2 : Int))) ∧
        refs.map Prod.snd
          = (List.range 256).filter (fun i => decide (r.instruction_image i % 4 = 1)) ∧
        ∀ x, x ∈ refs → ∃ sym, sym ∈ (first_pass_fresh input_file).sym_table ∧
          sym.type = SYMBOL_EXTERNAL ∧ sym.name = x.1) := by
  refine ⟨?_, second_pass_after_total fs base_filename input_file, ?_⟩
  · intro symtab operand st n sym hn hsym hext
    obtain ⟨st1, m, h1, h2, h3⟩ := resolve_operand_external fs base_filename symtab operand
      st n sym hn hsym hext
    refine ⟨st1, m, h1, h2, ?_⟩
    rw [h3, write_external_reference_open fs base_filename _ _ _ hopen]
    rfl
  · intro r hr
    obtain ⟨refs, h1, h2, h3, _, _⟩ := second_pass_after_inv fs base_filename input_file r hr
    exact ⟨refs, h1 hopen, h2, h3⟩

/-- C7 as stated fails when the externals file cannot be opened: for the
source `.extern K`, `jmp K` and a file system in which every file but `f.ext`
can be created, the second pass returns 0, the word at index 1 (address 101)
is External, and no externals line is written. -/
theorem external_reference_without_line :
    (second_pass_after (fun name => decide (name ≠ "f.ext".toList)) "f".toList
        (first_pass_fresh ".extern K\njmp K\n".toList)).map
      (fun r => (r.ret, r.instruction_image 1, r.ext_file)) = some (0, 1, none) := by
  decide

set_option maxRecDepth 100000 in
theorem external_references_witness :
    open_file_with_ext (fun _ => true) "f".toList ".ext".toList = true ∧
    (second_pass_after (fun _ => true) "f".toList
        (first_pass_fresh ".extern K\njmp K\nmov K[r1][r2], K\n".toList)).map
      (fun r => (r.ret, r.ext_file, (List.range 256).filter
        (fun i => decide (r.instruction_image i % 4 = 1))))
      = some (0, some ["K abcbb\n".toList, "K abcbd\n".toList, "K abccb\n".toList],
          [1, 3, 5]) ∧
    ((first_pass_fresh ".extern K\njmp K\nmov K[r1][r2], K\n".toList).IC < 356 →
      ∃ r, second_pass_after (fun _ => true) "f".toList
        (first_pass_fresh ".extern K\njmp K\nmov K[r1][r2], K\n".toList) = some r) :=
  ⟨by decide, by decide,
   (external_references (fun _ => true) "f".toList
      ".extern K\njmp K\nmov K[r1][r2], K\n".toList (by decide)).2.1⟩

/-! ## The entries file -/

/-- The step of `write_entries` for a directive with an argument label that is
not marked `is_extern`, with the entries file open or openable: a label found
in the table gives its line and no error, whatever the kind of the symbol; a
label that is not found gives an error and no line. -/
theorem write_entries_step_entry (fs : FileSystem) (base_filename : CStr)
    (symtab : List Symbol) (fp : Stream) (e : Int) (df : DirectiveFields) (L : CStr)
    (hopen : open_file_with_ext fs base_filename ".ent".toList = true)
    (hx : DirectiveFields.is_extern df = false) (hl : df.arg_label = some L) :
    (∀ sym, find_symbol symtab L = some sym →
      write_entries_step fs base_filename symtab (fp, e) df
        = (some (fp.getD [] ++ [ref_line L sym.address]), e)) ∧
    (find_symbol symtab L = none →
      write_entries_step fs base_filename symtab (fp, e) df = (fp, e + 1)) := by
  unfold write_entries_step
  rw [hx, hl]
  simp only [Bool.false_eq_true, if_false]
  refine ⟨?_, ?_⟩
  · intro sym hsym
    rw [hsym]
    have hname := (find_symbol_mem _ _ _ hsym).2
    cases fp with
    | none => simp only [hopen, if_true, hname]; rfl
    | some f => simp only [hname]; rfl
  · intro hnone
    rw [hnone]

theorem write_entries_append (fs : FileSystem) (base_filename : CStr)
    (symtab : List Symbol) (before : List DirectiveFields) (df : DirectiveFields)
    (error_count : Int) :
    write_entries fs base_filename symtab (before ++ [df]) error_count
      = write_entries_step fs base_filename symtab
          (write_entries fs base_filename symtab before error_count) df := by
  unfold write_entries
  rw [List.foldl_append]
  rfl

/-- C8 (extern + entry conflict), as amended: when `write_entries` comes to a
`.entry X` directive whose label X is in the symbol table with kind EXTERNAL
(after any directives before it, the entries file being openable), it counts
no error and appends the line `X <base4(address of X)>` to the entries
output. -/
theorem entry_of_external_is_written (fs : FileSystem) (base_filename : CStr)
    (symtab : List Symbol) (before : List DirectiveFields) (df : DirectiveFields)
    (error_count : Int) (X : CStr) (sym : Symbol)
    (hopen : open_file_with_ext fs base_filename ".ent".toList = true)
    (_hentry : df.is_entry = true) (hx : DirectiveFields.is_extern df = false)
    (hl : df.arg_label = some X) (hfind : find_symbol symtab X = some sym)
    (_hext : sym.type = SYMBOL_EXTERNAL) :
    (write_entries fs base_filename symtab (before ++ [df]) error_count).2
      = (write_entries fs base_filename symtab before error_count).2 ∧
    (write_entries fs base_filename symtab (before ++ [df]) error_count).1
      = some ((write_entries fs base_filename symtab before error_count).1.getD []
          ++ [ref_line X sym.address]) := by
  rw [write_entries_append]
  have h := (write_entries_step_entry fs base_filename symtab
    (write_entries fs base_filename symtab before error_count).1
    (write_entries fs base_filename symtab before error_count).2 df X hopen hx hl).1 sym hfind
  rw [show write_entries fs base_filename symtab before error_count
    = ((write_entries fs base_filename symtab before error_count).1,
       (write_entries fs base_filename symtab before error_count).2) from rfl, h]
  exact ⟨rfl, rfl⟩

/-- C8 as stated fails: the source `.extern X`, `.entry X` passes the first
pass, the second pass returns 0 (no error), and the entries output holds the
line `X aaaaa`. -/
theorem extern_entry_conflict_undetected :
    (first_pass ".extern X\n.entry X\n".toList [] zero_image [] []).1 = 0 ∧
    (first_pass_fresh ".extern X\n.entry X\n".toList).sym_table
      = [⟨"X".toList, 0, SYMBOL_EXTERNAL⟩] ∧
    (second_pass_after (fun _ => true) "f".toList
        (first_pass_fresh ".extern X\n.entry X\n".toList)).map
      (fun r => (r.ret, r.ent_file)) = some (0, some ["X aaaaa\n".toList]) := by
  refine ⟨by decide, by decide, by decide⟩

theorem entry_of_external_is_written_witness :
    open_file_with_ext (fun _ => true) "f".toList ".ent".toList = true ∧
    find_symbol [⟨"X".toList, 0, SYMBOL_EXTERNAL⟩] "X".toList
      = some ⟨"X".toList, 0, SYMBOL_EXTERNAL⟩ ∧
    (write_entries (fun _ => true) "f".toList [⟨"X".toList, 0, SYMBOL_EXTERNAL⟩]
        ([] ++ [{ label := none, data := [], data_length := 0, data_address := -1,
                  arg_label := some "X".toList, is_extern := false, is_entry := true }])
        0).2
      = (write_entries (fun _ => true) "f".toList [⟨"X".toList, 0, SYMBOL_EXTERNAL⟩] [] 0).2 ∧
    (write_entries (fun _ => true) "f".toList [⟨"X".toList, 0, SYMBOL_EXTERNAL⟩]
        ([] ++ [{ label := none, data := [], data_length := 0, data_address := -1,
                  arg_label := some "X".toList, is_extern := false, is_entry := true }])
        0).1
      = some ((write_entries (fun _ => true) "f".toList [⟨"X".toList, 0, SYMBOL_EXTERNAL⟩]
          [] 0).1.getD [] ++ [ref_line "X".toList 0]) :=
  ⟨by decide, by decide,
   entry_of_external_is_written (fun _ => true) "f".toList [⟨"X".toList, 0, SYMBOL_EXTERNAL⟩]
     [] _ 0 "X".toList ⟨"X".toList, 0, SYMBOL_EXTERNAL⟩ (by decide) rfl rfl rfl (by decide) rfl⟩

/-- C9 (entry completeness): when `write_entries` comes to a `.entry L`
directive (after any directives before it, the entries file being openable),
either `L` is in the symbol table, exactly the line `L <base4(address of L)>`
is appended to the entries output and the error count is unchanged, or `L` is
not in the table, the entries output is unchanged and the error count is
incremented by one; the two cases exclude each other. -/
theorem entry_completeness (fs : FileSystem) (base_filename : CStr)
    (symtab : List Symbol) (before : List DirectiveFields) (df : DirectiveFields)
    (error_count : Int) (L : CStr)
    (hopen : open_file_with_ext fs base_filename ".ent".toList = true)
    (_hentry : df.is_entry = true) (hx : DirectiveFields.is_extern df = false)
    (hl : df.arg_label = some L) :
    ((∃ sym, find_symbol symtab L = some sym ∧
        (write_entries fs base_filename symtab (before ++ [df]) error_count).1.getD []
          = (write_entries fs base_filename symtab before error_count).1.getD []
              ++ [ref_line L sym.address] ∧
        (write_entries fs base_filename symtab (before ++ [df]) error_count).2
          = (write_entries fs base_filename symtab before error_count).2) ∨
     (find_symbol symtab L = none ∧
        (write_entries fs base_filename symtab (before ++ [df]) error_count).1.getD []
          = (write_entries fs base_filename symtab before error_count).1.getD [] ∧
        (write_entries fs base_filename symtab (before ++ [df]) error_count).2
          = (write_entries fs base_filename symtab before error_count).2 + 1)) ∧
    ¬ ((write_entries fs base_filename symtab (before ++ [df]) error_count).1.getD []
          ≠ (write_entries fs base_filename symtab before error_count).1.getD [] ∧
       (write_entries fs base_filename symtab (before ++ [df]) error_count).2
          ≠ (write_entries fs base_filename symtab before error_count).2) ∧
    ¬ ((write_entries fs base_filename symtab (before ++ [df]) error_count).1.getD []
          = (write_entries fs base_filename symtab before error_count).1.getD [] ∧
       (write_entries fs base_filename symtab (before ++ [df]) error_count).2
          = (write_entries fs base_filename symtab before error_count).2) := by
  rw [write_entries_append]
  obtain ⟨hfound, hmiss⟩ := write_entries_step_entry fs base_filename symtab
    (write_entries fs base_filename symtab before error_count).1
    (write_entries fs base_filename symtab before error_count).2 df L hopen hx hl
  rw [show write_entries fs base_filename symtab before error_count
    = ((write_entries fs base_filename symtab before error_count).1,
       (write_entries fs base_filename symtab before error_count).2) from rfl]
  cases hf : find_symbol symtab L with
  | none =>
    rw [hmiss hf]
    refine ⟨Or.inr ⟨rfl, rfl, rfl⟩, ?_, ?_⟩
    · intro h; exact h.1 rfl
    · intro h
      have := h.2
      simp only at this
      omega
  | some sym =>
    rw [hfound sym hf]
    refine ⟨Or.inl ⟨sym, rfl, rfl, rfl⟩, ?_, ?_⟩
    · intro h; exact h.2 rfl
    · intro h
      have := congrArg List.length h.1
      simp at this

theorem entry_completeness_witness :
    open_file_with_ext (fun _ => true) "f".toList ".ent".toList = true ∧
    (write_entries (fun _ => true) "f".toList [⟨"L".toList, 103, SYMBOL_DATA⟩]
        ([] ++ [{ label := none, data := [], data_length := 0, data_address := -1,
                  arg_label := some "L".toList, is_extern := false, is_entry := true }])
        0) = (some ["L abcbd\n".toList], 0) ∧
    ((∃ sym, find_symbol [⟨"L".toList, 103, SYMBOL_DATA⟩] "L".toList = some sym ∧
        (write_entries (fun _ => true) "f".toList [⟨"L".toList, 103, SYMBOL_DATA⟩]
            ([] ++ [{ label := none, data := [], data_length := 0, data_address := -1,
                      arg_label := some "L".toList, is_extern := false,
                      is_entry := true }]) 0).1.getD []
          = (write_entries (fun _ => true) "f".toList [⟨"L".toList, 103, SYMBOL_DATA⟩]
              [] 0).1.getD [] ++ [ref_line "L".toList sym.address] ∧
        (write_entries (fun _ => true) "f".toList [⟨"L".toList, 103, SYMBOL_DATA⟩]
            ([] ++ [{ label := none, data := [], data_length := 0, data_address := -1,
                      arg_label := some "L".toList, is_extern := false,
                      is_entry := true }]) 0).2
          = (write_entries (fun _ => true) "f".toList [⟨"L".toList, 103, SYMBOL_DATA⟩]
              [] 0).2) ∨
     (find_symbol [⟨"L".toList, 103, SYMBOL_DATA⟩] "L".toList = none ∧
        (write_entries (fun _ => true) "f".toList [⟨"L".toList, 103, SYMBOL_DATA⟩]
            ([] ++ [{ label := none, data := [], data_length := 0, data_address := -1,
                      arg_label := some "L".toList, is_extern := false,
                      is_entry := true }]) 0).1.getD []
          = (write_entries (fun _ => true) "f".toList [⟨"L".toList, 103, SYMBOL_DATA⟩]
              [] 0).1.getD [] ∧
        (write_entries (fun _ => true) "f".toList [⟨"L".toList, 103, SYMBOL_DATA⟩]
            ([] ++ [{ label := none, data := [], data_length := 0, data_address := -1,
                      arg_label := some "L".toList, is_extern := false,
                      is_entry := true }]) 0).2
          = (write_entries (fun _ => true) "f".toList [⟨"L".toList, 103, SYMBOL_DATA⟩]
              [] 0).2 + 1)) :=
  ⟨by decide, by decide,
   (entry_completeness (fun _ => true) "f".toList [⟨"L".toList, 103, SYMBOL_DATA⟩] [] _ 0
     "L".toList (by decide) rfl rfl rfl).1⟩

/-! ## End-to-end scenario 1 -/

/-- C10 (scenario 1), as amended: the first pass over the two lines
`MAIN: mov #-1, r3` and `stop` from a fresh process succeeds, puts MAIN in the
symbol table at address 100 with kind CODE, records the `mov` command at
address 100 with length three and the `stop` command at address 103 with
length one, and leaves ICF = 104 with the words 12 (the `mov` opcode word:
opcode 0, source mode 0, destination mode 3) at address 100, 1020 (the
immediate -1, `0b1111111100`) at 101, 12 (register 3 in bits 2..5) at 102 and
1020 (the `stop` opcode word, opcode 15) at 103. -/
theorem scenario_mov_stop :
    (first_pass "MAIN: mov #-1, r3\nstop\n".toList [] zero_image [] []).1 = 0 ∧
    (first_pass_fresh "MAIN: mov #-1, r3\nstop\n".toList).sym_table
      = [⟨"MAIN".toList, 100, SYMBOL_CODE⟩] ∧
    (first_pass_fresh "MAIN: mov #-1, r3\nstop\n".toList).command_list
      = [⟨some "MAIN".toList, 100, 3, 0, some "#-1".toList, some "r3".toList⟩,
         ⟨none, 103, 1, 15, none, none⟩] ∧
    (first_pass_fresh "MAIN: mov #-1, r3\nstop\n".toList).IC = 104 ∧
    (List.range 5).map (first_pass_fresh "MAIN: mov #-1, r3\nstop\n".toList).instruction_image
      = [12, 1020, 12, 1020, 0] ∧
    (1020 : Int) / 64 = 15 ∧ decimal_to_base4_letters 1020 = "dddda".toList := by
  refine ⟨by decide, by decide, by decide, by decide, by decide, by decide, by decide⟩

/-- C10 as stated fails: the `mov` of the scenario does not occupy two words
and `stop` is not at address 102; the word at address 102 is the register word
of `r3`, whose opcode field is 0. -/
theorem scenario_mov_is_not_two_words :
    ¬ ((first_pass_fresh "MAIN: mov #-1, r3\nstop\n".toList).command_list.map
        (fun c => (c.opcode, c.cmd_address, c.length)) = [(0, 100, 2), (15, 102, 1)]) ∧
    (first_pass_fresh "MAIN: mov #-1, r3\nstop\n".toList).command_list.map
        (fun c => (c.opcode, c.cmd_address, c.length)) = [(0, 100, 3), (15, 103, 1)] ∧
    (first_pass_fresh "MAIN: mov #-1, r3\nstop\n".toList).instruction_image 2 / 64 = 0 := by
  refine ⟨by decide, by decide, by decide⟩

/-! ## Immediate operands (C11) -/

theorem parse_digits_all (ds : CStr) (acc : Nat) (h : ds.all isdigit = true) :
    parse_digits acc ds = ds.foldl (fun a c => a * 10 + (c.toNat - 48)) acc := by
  induction ds generalizing acc with
  | nil => rfl
  | cons c cs ih =>
    simp only [List.all_cons, Bool.and_eq_true] at h
    simp only [parse_digits, h.1, if_true, List.foldl_cons]
    exact ih _ h.2

theorem isdigit_not_isspace (c : Char) (h : isdigit c = true) : isspace c = false := by
  simp only [isdigit, Bool.and_eq_true, decide_eq_true_eq] at h
  simp only [isspace, Bool.or_eq_false_iff, beq_eq_false_iff_ne, ne_eq,
    Bool.and_eq_false_iff, decide_eq_false_iff_not]
  omega

theorem literal_value_valid (text : CStr) (n : Int) (h : literal_value text = some n) :
    is_valid_data_num text = true := by
  cases text with
  | nil => simp [literal_value] at h
  | cons c cs =>
    simp only [literal_value] at h
    unfold is_valid_data_num
    by_cases h1 : c = '-'
    · simp only [h1, if_true, or_true] at h ⊢
      split at h
      · rename_i hc
        cases cs with
        | nil => exact absurd rfl hc.1
        | cons d ds => exact hc.2
      · cases h
    · by_cases h2 : c = '+'
      · simp only [h2, if_true, true_or] at h ⊢
        rw [if_neg (by decide)] at h
        split at h
        · rename_i hc
          cases cs with
          | nil => exact absurd rfl hc.1
          | cons d ds => exact hc.2
        · cases h
      · rw [if_neg h1, if_neg h2] at h
        simp only [h2, h1, or_self, if_false]
        split at h
        · assumption
        · cases h

theorem literal_value_strtol (text : CStr) (n : Int) (h : literal_value text = some n) :
    strtol10 text = clamp_long n := by
  cases text with
  | nil => simp [literal_value] at h
  | cons c cs =>
    simp only [literal_value] at h
    unfold strtol10
    by_cases h1 : c = '-'
    · subst h1
      simp only [if_true] at h
      split at h
      · rename_i hc
        cases h
        rw [List.dropWhile_cons_of_neg (by decide)]
        simp only [if_true]
        rw [parse_digits_all cs 0 hc.2]
        rfl
      · cases h
    · by_cases h2 : c = '+'
      · subst h2
        rw [if_neg (by decide), if_pos rfl] at h
        split at h
        · rename_i hc
          cases h
          rw [List.dropWhile_cons_of_neg (by decide)]
          simp only [if_true]
          rw [if_neg (by decide), parse_digits_all cs 0 hc.2]
          rfl
        · cases h
      · rw [if_neg h1, if_neg h2] at h
        split at h
        · rename_i hc
          cases h
          have hd : isdigit c = true := by
            simp only [List.all_cons, Bool.and_eq_true] at hc
            exact hc.1
          rw [List.dropWhile_cons_of_neg (by simp [isdigit_not_isspace c hd])]
          simp only [if_neg h1, if_neg h2]
          rw [parse_digits_all (c :: cs) 0 hc]
          rfl
        · cases h

theorem ofU32_toU32 (x : Int) (h0 : -2147483648 ≤ x) (h1 : x ≤ 2147483647) :
    ofU32 (toU32 x) = x := by
  unfold ofU32 toU32
  split <;> omega

/-- Within the range of `int`, `atoi` reads a literal as the number it denotes. -/
theorem atoi_literal (text : CStr) (n : Int) (h : literal_value text = some n)
    (h0 : -2147483648 ≤ n) (h1 : n ≤ 2147483647) : atoi text = n := by
  unfold atoi
  rw [literal_value_strtol text n h]
  have : clamp_long n = n := by
    unfold clamp_long
    rw [if_neg (by omega), if_neg (by omega)]
  rw [this, ofU32_toU32 n h0 h1]

/-- C11 (immediate encoding), as amended: for an operand `#n` whose text after
`#` is a literal of the integer `n` (an optional sign and decimal digits), with
`n` in the range of `int` and IC inside the code image, the block of
`emit_operands` for an IMMEDIATE operand (source or destination) stores the
word `(n mod 256) << 2` at index `IC - 100` and advances IC by one; bits 9..2
of the word hold the 8-bit two's complement of `n` and A/R/E is 00. For
-128 <= n <= 127 no error is counted; for every other such `n` exactly one
error is counted and the word is stored all the same. For n = -1 the word is
1020 = 0b1111111100, whose base-4 text is `dddda`. -/
theorem immediate_encoding (encode_reg : Int → Int) (text : CStr) (n : Int) (e : Emit)
    (hlit : literal_value text = some n)
    (hint : -2147483648 ≤ n ∧ n ≤ 2147483647)
    (hIC : 100 ≤ e.IC ∧ e.IC < 356) :
    addr_mode ('#' :: text) = ADDR_MODE_IMMEDIATE ∧
    emit_operand_block encode_reg ('#' :: text) ADDR_MODE_IMMEDIATE e
      = { image := set_word e.image (e.IC - 100).toNat (n % 256 * 4),
          IC := e.IC + 1,
          err_count := if -128 ≤ n ∧ n ≤ 127 then e.err_count else e.err_count + 1,
          had_error := if -128 ≤ n ∧ n ≤ 127 then e.had_error else true } ∧
    n % 256 * 4 / 4 = n % 256 ∧ n % 256 * 4 % 4 = 0 ∧ n % 256 * 4 < 1024 ∧
    (-128 ≤ n ∧ n < 0 → n % 256 = n + 256) ∧ (0 ≤ n ∧ n ≤ 127 → n % 256 = n) ∧
    literal_value "-1".toList = some (-1) ∧ (-1 : Int) % 256 * 4 = 1020 ∧
    decimal_to_base4_letters 1020 = "dddda".toList := by
  refine ⟨rfl, ?_, by omega, by omega, by omega, by omega, by omega, by decide, by decide,
    by decide⟩
  have hv := literal_value_valid text n hlit
  have ha := atoi_literal text n hlit hint.1 hint.2
  have hw : n % 256 * 4 % 1024 = n % 256 * 4 := by omega
  unfold emit_operand_block
  rw [if_neg (by decide), if_pos rfl]
  simp only [List.tail_cons, hv, ha, Bool.not_true, Bool.false_eq_true, if_false,
    validate_immediate_range, MIN_IMMEDIATE_VAL, MAX_IMMEDIATE_VAL, encode_immediate8_eq]
  rw [emit_word_in_range _ _ _ hIC.1 hIC.2, hw]
  by_cases hr : -128 ≤ n ∧ n ≤ 127
  · rw [if_neg (by omega), if_pos hr, if_pos hr]
    simp
  · rw [if_pos (by omega), if_neg hr, if_neg hr]
    simp

theorem immediate_encoding_witness :
    emit_operand_block encode_reg_dst_word "#-1".toList ADDR_MODE_IMMEDIATE
        ⟨zero_image, 101, 0, false⟩
      = { image := set_word zero_image ((101 : Int) - 100).toNat ((-1) % 256 * 4),
          IC := 101 + 1,
          err_count := if -128 ≤ (-1 : Int) ∧ (-1 : Int) ≤ 127 then 0 else 0 + 1,
          had_error := if -128 ≤ (-1 : Int) ∧ (-1 : Int) ≤ 127 then false else true } :=
  (immediate_encoding encode_reg_dst_word "-1".toList (-1) ⟨zero_image, 101, 0, false⟩
    (by decide) (by decide) (by decide)).2.1

/-- C11 as stated fails in two ways. When the code image is full, `emit_word`
stores nothing and IC stays: after 51 instructions of five words the line
`prn #5` is accepted without an error and recorded with length 2 at address
355, its opcode word 880 is stored at index 255, its immediate word is not
stored and ICF is 356. And a literal beyond the range of `int` is read by
`atoi` as another number: `prn #4294967296` stores the word 0 and counts no
error. -/
theorem immediate_not_emitted_or_not_diagnosed :
    (emit_operand_block encode_reg_dst_word "#5".toList ADDR_MODE_IMMEDIATE
        ⟨zero_image, 356, 0, false⟩).IC = 356 ∧
    (first_pass program_full_image [] zero_image [] []).1 = 0 ∧
    (first_pass_fresh program_full_image).IC = 356 ∧
    ((first_pass_fresh program_full_image).command_list.drop 51).map
        (fun c => (c.cmd_address, c.length, c.opcode, c.dst))
      = [(355, 2, 13, some "#5".toList)] ∧
    (first_pass_fresh program_full_image).instruction_image 255 = 880 ∧
    literal_value "4294967296".toList = some 4294967296 ∧
    atoi "4294967296".toList = 0 ∧
    (first_pass "prn #4294967296\n".toList [] zero_image [] []).1 = 0 ∧
    (first_pass_fresh "prn #4294967296\n".toList).error_count = 0 ∧
    (List.range 2).map (first_pass_fresh "prn #4294967296\n".toList).instruction_image
      = [880, 0] := by
  refine ⟨by decide, by decide!, by decide!, by decide!, by decide!, by decide, by decide,
    by decide, by decide, by decide⟩

/-! ## Operand count (C12) -/

/-- C12 (operand-count law): for every table entry and every pair of optional
operands, `check_operand_count` accepts exactly when the number of present
operands equals `(allowed_src != 0 ? 1 : 0) + (allowed_dst != 0 ? 1 : 0)`; a
rejection increments the error count by exactly one and an acceptance leaves
it unchanged. -/
theorem operand_count_law (info : InstructionInfo) (src dst : Option CStr)
    (err_count : Int) :
    ((check_operand_count info src dst err_count).1 = true ↔
      src.toList.length + dst.toList.length
        = (if info.allowed_src ≠ 0 then 1 else 0)
          + (if info.allowed_dst ≠ 0 then 1 else 0)) ∧
    ((check_operand_count info src dst err_count).1 = false →
      (check_operand_count info src dst err_count).2 = err_count + 1) ∧
    ((check_operand_count info src dst err_count).1 = true →
      (check_operand_count info src dst err_count).2 = err_count) := by
  unfold check_operand_count
  cases src <;> cases dst <;>
    by_cases hs : info.allowed_src = 0 <;> by_cases hd : info.allowed_dst = 0 <;>
    simp [hs, hd]

/-! ## Addressing-mode legality (C13) -/

/-- The test `mask & (1 << j)` of `validate_operand_modes` reads bit `j` of the mask. -/
theorem mask_test (m : Int) (j : Nat) (hj : j ≤ 3) :
    c_and m (c_shl 1 j) = 0 ↔ ¬ (m / 2 ^ j % 2 = 1) := by
  have hs : c_shl 1 j = ((2 ^ j : Nat) : Int) := by
    interval_cases j <;> decide
  have ht : toU32 (((2 ^ j : Nat) : Int)) = 2 ^ j := by
    interval_cases j <;> decide
  unfold c_and
  rw [hs, ht, Nat.and_two_pow, Nat.testBit_to_div_mod]
  have hx : toU32 m / 2 ^ j % 2 = 1 ↔ m / 2 ^ j % 2 = 1 := by
    unfold toU32
    interval_cases j <;> simp only [pow_zero, pow_one, Nat.reducePow, Int.reducePow] <;> omega
  by_cases h : toU32 m / 2 ^ j % 2 = 1
  · have h2 := hx.1 h
    simp only [h, decide_True, Bool.toNat_true, one_mul, h2, not_true_eq_false, iff_false]
    interval_cases j <;> decide
  · have h2 : ¬ (m / 2 ^ j % 2 = 1) := fun h3 => h (hx.2 h3)
    simp only [h, decide_False, Bool.toNat_false, zero_mul, h2, not_false_eq_true, iff_true]
    decide

theorem mode_test (mask : Int) (s : CStr) :
    c_and mask (c_shl 1 (addr_mode s).toNat) = 0 ↔ mode_allowed mask (addr_mode s) = false := by
  have hj : (addr_mode s).toNat ≤ 3 := by
    rcases addr_mode_range s with h | h | h | h <;> rw [h] <;> decide
  rw [mask_test mask _ hj]
  simp [mode_allowed]

theorem validate_operand_modes_iff (info : InstructionInfo) (src dst : Option CStr)
    (err_count : Int) :
    (validate_operand_modes info src dst err_count).1 = true ↔
      (∀ s, src = some s → mode_allowed info.allowed_src (addr_mode s) = true) ∧
      (∀ d, dst = some d → mode_allowed info.allowed_dst (addr_mode d) = true) := by
  unfold validate_operand_modes
  cases src with
  | none =>
    cases dst with
    | none => simp
    | some d =>
      by_cases hd : mode_allowed info.allowed_dst (addr_mode d) = true
      · have := (mode_test info.allowed_dst d).not.2 (by simp [hd])
        simp [this, hd]
      · have := (mode_test info.allowed_dst d).2 (by simpa using hd)
        simp [this, hd]
  | some s =>
    by_cases hs : mode_allowed info.allowed_src (addr_mode s) = true
    · have h1 := (mode_test info.allowed_src s).not.2 (by simp [hs])
      cases dst with
      | none => simp [h1, hs]
      | some d =>
        by_cases hd : mode_allowed info.allowed_dst (addr_mode d) = true
        · have := (mode_test info.allowed_dst d).not.2 (by simp [hd])
          simp [this, hd, h1, hs]
        · have := (mode_test info.allowed_dst d).2 (by simpa using hd)
          simp [this, hd, h1, hs]
    · have h1 := (mode_test info.allowed_src s).2 (by simpa using hs)
      simp [h1, hs]

theorem validate_operand_modes_count (info : InstructionInfo) (src dst : Option CStr)
    (err_count : Int) :
    ((validate_operand_modes info src dst err_count).1 = false →
      (validate_operand_modes info src dst err_count).2.2.2 = err_count + 1) ∧
    ((validate_operand_modes info src dst err_count).1 = true →
      (validate_operand_modes info src dst err_count).2.2.2 = err_count) := by
  unfold validate_operand_modes
  dsimp only
  split
  · simp
  · split <;> simp

/-- C13 (addressing-mode legality): `validate_operand_modes` accepts exactly
when, for each present operand, bit `1 << addr_mode(operand)` is set in the
source mask (for `src`) or the destination mask (for `dst`) of the table entry;
a rejection counts one error and an acceptance none. With the static table:
`lea` is rejected with an IMMEDIATE or REGISTER source and its DIRECT or MATRIX
source passes; each of `clr, not, inc, dec, jmp, bne, jsr, red, prn` has an
empty source mask, and among them only `prn` accepts an IMMEDIATE operand;
`rts` and `stop` have both masks empty. -/
theorem mode_legality (info : InstructionInfo) (src dst : Option CStr) (err_count : Int) :
    ((validate_operand_modes info src dst err_count).1 = true ↔
      (∀ s, src = some s → mode_allowed info.allowed_src (addr_mode s) = true) ∧
      (∀ d, dst = some d → mode_allowed info.allowed_dst (addr_mode d) = true)) ∧
    ((validate_operand_modes info src dst err_count).1 = false →
      (validate_operand_modes info src dst err_count).2.2.2 = err_count + 1) ∧
    ((validate_operand_modes info src dst err_count).1 = true →
      (validate_operand_modes info src dst err_count).2.2.2 = err_count) ∧
    get_instruction_info (opcode_from_string "lea".toList) = some LEA_INFO ∧
    (∀ s, addr_mode s = ADDR_MODE_IMMEDIATE ∨ addr_mode s = ADDR_MODE_REGISTER →
      (validate_operand_modes LEA_INFO (some s) dst err_count).1 = false) ∧
    (∀ s, addr_mode s = ADDR_MODE_DIRECT ∨ addr_mode s = ADDR_MODE_MATRIX →
      (validate_operand_modes LEA_INFO (some s) none err_count).1 = true) ∧
    (instruction_info_table.filter (fun e => SINGLE_OPERAND.contains e.name)).length = 9 ∧
    (∀ e, e ∈ instruction_info_table → e.name ∈ SINGLE_OPERAND →
      e.allowed_src = 0 ∧
      ∀ d, addr_mode d = ADDR_MODE_IMMEDIATE →
        ((validate_operand_modes e none (some d) err_count).1 = true
          ↔ e.name = "prn".toList)) ∧
    (∀ e, e ∈ instruction_info_table → e.name = "rts".toList ∨ e.name = "stop".toList →
      e.allowed_src = 0 ∧ e.allowed_dst = 0) ∧
    (instruction_info_table.filter
      (fun e => e.name = "rts".toList ∨ e.name = "stop".toList)).length = 2 := by
  refine ⟨validate_operand_modes_iff info src dst err_count,
    (validate_operand_modes_count info src dst err_count).1,
    (validate_operand_modes_count info src dst err_count).2, by decide, ?_, ?_, by decide,
    ?_, by decide, by decide⟩
  · intro s hs
    rw [← Bool.not_eq_true, validate_operand_modes_iff]
    intro h
    have h1 := h.1 s rfl
    rcases hs with hs | hs <;> rw [hs] at h1 <;> revert h1 <;> decide
  · intro s hs
    rw [validate_operand_modes_iff]
    refine ⟨?_, by simp⟩
    intro s1 h1
    cases h1
    rcases hs with hs | hs <;> rw [hs] <;> decide
  · intro e he hn
    have key : ∀ e ∈ instruction_info_table, e.name ∈ SINGLE_OPERAND →
        e.allowed_src = 0 ∧ (mode_allowed e.allowed_dst 0 = true ↔ e.name = "prn".toList) := by
      decide
    refine ⟨(key e he hn).1, ?_⟩
    intro d hd
    rw [validate_operand_modes_iff, ← (key e he hn).2]
    constructor
    · intro h
      have := h.2 d rfl
      rwa [hd] at this
    · intro h
      refine ⟨by simp, ?_⟩
      intro d1 h1
      cases h1
      rw [hd]
      exact h

/-! ## Addressing-mode classification (C14) -/

theorem strchr_isSome (s : CStr) (c : Char) : (strchr s c).isSome = true ↔ c ∈ s := by
  induction s with
  | nil => simp [strchr]
  | cons x xs ih =>
    unfold strchr
    by_cases h : x = c
    · simp [h]
    · rw [if_neg h, ih]
      simp [List.mem_cons, Ne.symm h]

theorem is_register_iff (s : CStr) : is_register s = true ↔ s ∈ REGISTER_NAMES := by
  constructor
  · intro h
    match s, h with
    | [c0, c1], h =>
      simp only [is_register, Bool.and_eq_true, beq_iff_eq, Bool.not_eq_true',
        Bool.or_eq_false_iff, decide_eq_false_iff_not, Nat.not_lt] at h
      obtain ⟨h0, h1, h2⟩ := h
      have hc : c1 = Char.ofNat c1.toNat := (Char.ofNat_toNat c1).symm
      subst h0
      rw [hc]
      generalize c1.toNat = n at h1 h2
      have h3 : n ≤ 55 := by omega
      interval_cases n <;> decide
  · intro h
    simp only [REGISTER_NAMES, List.mem_cons, List.mem_singleton, List.not_mem_nil,
      or_false] at h
    rcases h with h | h | h | h | h | h | h | h <;> subst h <;> decide

/-- C14 (addressing-mode classification): for every operand string,
`addr_mode` is IMMEDIATE when the first character is `#`; otherwise REGISTER
when the string is one of `r0` .. `r7`; otherwise MATRIX when it contains `[`;
otherwise DIRECT. The result is one of the four modes, and `is_register` holds
exactly for the eight strings `r0` .. `r7`, each of which is `r` followed by
one digit. -/
theorem addr_mode_classification (s : CStr) :
    (s.head? = some '#' → addr_mode s = 0) ∧
    (s.head? ≠ some '#' → s ∈ REGISTER_NAMES → addr_mode s = 3) ∧
    (s.head? ≠ some '#' → s ∉ REGISTER_NAMES → '[' ∈ s → addr_mode s = 2) ∧
    (s.head? ≠ some '#' → s ∉ REGISTER_NAMES → '[' ∉ s → addr_mode s = 1) ∧
    (addr_mode s = 0 ∨ addr_mode s = 1 ∨ addr_mode s = 2 ∨ addr_mode s = 3) ∧
    (is_register s = true ↔ s ∈ REGISTER_NAMES) ∧
    REGISTER_NAMES = (List.range 8).map (fun d => ['r', Char.ofNat (48 + d)]) := by
  refine ⟨?_, ?_, ?_, ?_, addr_mode_range s, is_register_iff s, by decide⟩
  · intro h
    simp [addr_mode, h, ADDR_MODE_IMMEDIATE]
  · intro h hr
    simp [addr_mode, h, (is_register_iff s).2 hr, ADDR_MODE_REGISTER]
  · intro h hr hm
    have hr2 : is_register s = false := by
      rw [← Bool.not_eq_true, is_register_iff]; exact hr
    simp [addr_mode, h, hr2, (strchr_isSome s '[').2 hm, ADDR_MODE_MATRIX]
  · intro h hr hm
    have hr2 : is_register s = false := by
      rw [← Bool.not_eq_true, is_register_iff]; exact hr
    have hm2 : (strchr s '[').isSome = false := by
      rw [← Bool.not_eq_true, strchr_isSome]; exact hm
    simp [addr_mode, h, hr2, hm2, ADDR_MODE_DIRECT]

/-! ## Matrix operands (C15) -/

theorem strchr_append (a rest : CStr) (c : Char) (h : c ∉ a) :
    strchr (a ++ c :: rest) c = some (c :: rest) := by
  induction a with
  | nil => simp [strchr]
  | cons x xs ih =>
    simp only [List.mem_cons, not_or] at h
    simp only [List.cons_append, strchr, if_neg (Ne.symm h.1)]
    exact ih h.2

theorem strchr_some (s : CStr) (c : Char) (p : CStr) (h : strchr s c = some p) :
    ∃ a rest, s = a ++ c :: rest ∧ p = c :: rest ∧ c ∉ a := by
  induction s with
  | nil => simp [strchr] at h
  | cons x xs ih =>
    unfold strchr at h
    by_cases hx : x = c
    · rw [if_pos hx] at h
      cases h
      exact ⟨[], xs, by simp [hx], by simp [hx], by simp⟩
    · rw [if_neg hx] at h
      obtain ⟨a, rest, h1, h2, h3⟩ := ih h
      refine ⟨x :: a, rest, by simp [h1], h2, ?_⟩
      simp only [List.mem_cons, not_or]
      exact ⟨Ne.symm hx, h3⟩

theorem cut_at_append (a rest : CStr) (c : Char) (h : c ∉ a) :
    cut_at (a ++ c :: rest) c = a := by
  induction a with
  | nil => simp [cut_at]
  | cons x xs ih =>
    simp only [List.mem_cons, not_or] at h
    have hx : (x != c) = true := by simpa using Ne.symm h.1
    have := ih h.2
    unfold cut_at at this ⊢
    simp only [List.cons_append, List.takeWhile_cons, hx, if_true, this]

/-- What `parse_matrix_regs` does on an operand with two bracket pairs: only
the two bracket contents are looked at. -/
theorem parse_matrix_regs_brackets (a A c B e : CStr) (ha : '[' ∉ a) (hA : ']' ∉ A)
    (hc : '[' ∉ c) (hB : ']' ∉ B) :
    parse_matrix_regs (a ++ '[' :: A ++ ']' :: c ++ '[' :: B ++ ']' :: e)
      = if is_register (trim A) = true ∧ is_register (trim B) = true then
          some (reg_code (trim A), reg_code (trim B))
        else none := by
  unfold parse_matrix_regs
  have e1 : a ++ '[' :: A ++ ']' :: c ++ '[' :: B ++ ']' :: e
      = a ++ '[' :: (A ++ ']' :: (c ++ '[' :: (B ++ ']' :: e))) := by simp
  rw [e1, strchr_append a _ '[' ha]
  simp only [List.tail_cons]
  rw [strchr_append A _ ']' hA]
  simp only [List.tail_cons]
  rw [strchr_append c _ '[' hc]
  simp only [List.tail_cons]
  rw [strchr_append B _ ']' hB, cut_at_append A _ ']' hA, cut_at_append B _ ']' hB]
  by_cases h1 : is_register (trim A) = true <;> by_cases h2 : is_register (trim B) = true <;>
    simp [h1, h2]

theorem parse_matrix_regs_some (op : CStr) (row col : Int)
    (h : parse_matrix_regs op = some (row, col)) :
    ∃ a A c B e, op = a ++ '[' :: A ++ ']' :: c ++ '[' :: B ++ ']' :: e ∧
      '[' ∉ a ∧ ']' ∉ A ∧ '[' ∉ c ∧ ']' ∉ B ∧
      is_register (trim A) = true ∧ is_register (trim B) = true ∧
      row = reg_code (trim A) ∧ col = reg_code (trim B) := by
  unfold parse_matrix_regs at h
  cases h1 : strchr op '[' with
  | none => simp [h1] at h
  | some p1 =>
    obtain ⟨a, r1, ha, hp1, hna⟩ := strchr_some op '[' p1 h1
    subst hp1
    simp only [h1, List.tail_cons] at h
    cases h2 : strchr r1 ']' with
    | none => simp [h2] at h
    | some p2 =>
      obtain ⟨A, r2, hA, hp2, hnA⟩ := strchr_some r1 ']' p2 h2
      subst hp2
      simp only [h2, List.tail_cons] at h
      cases h3 : strchr r2 '[' with
      | none => simp [h3] at h
      | some p3 =>
        obtain ⟨c, r3, hc, hp3, hnc⟩ := strchr_some r2 '[' p3 h3
        subst hp3
        simp only [h3, List.tail_cons] at h
        cases h4 : strchr r3 ']' with
        | none => simp [h4] at h
        | some p4 =>
          obtain ⟨B, e, hB, hp4, hnB⟩ := strchr_some r3 ']' p4 h4
          subst hp4
          simp only [h4] at h
          rw [hA, hB, cut_at_append A _ ']' hnA, cut_at_append B _ ']' hnB] at h
          refine ⟨a, A, c, B, e, ?_, hna, hnA, hnc, hnB, ?_⟩
          · rw [ha, hA, hc, hB]; simp
          · by_cases g1 : is_register (trim A) = true
            · by_cases g2 : is_register (trim B) = true
              · simp only [g1, g2, Bool.not_true, Bool.or_self, Bool.false_eq_true, if_false,
                  Option.some.injEq, Prod.mk.injEq] at h
                exact ⟨g1, g2, h.1.symm, h.2.symm⟩
              · simp [g1, g2] at h
            · simp [g1] at h

theorem reg_code_register (X : Nat) (h : X ≤ 7) :
    is_register ['r', Char.ofNat (48 + X)] = true ∧
      reg_code ['r', Char.ofNat (48 + X)] = (X : Int) := by
  interval_cases X <;> decide

theorem reg_code_range (s : CStr) (h : is_register s = true) :
    0 ≤ reg_code s ∧ reg_code s ≤ 7 := by
  rw [is_register_iff] at h
  simp only [REGISTER_NAMES, List.mem_cons, List.mem_singleton, List.not_mem_nil,
    or_false] at h
  rcases h with h | h | h | h | h | h | h | h <;> subst h <;> decide

theorem emit_matrix_block (encode_reg : Int → Int) (op : CStr) (e : Emit) :
    (emit_operand_block encode_reg op ADDR_MODE_MATRIX e).err_count
      = (if (parse_matrix_regs op).isNone = true then e.err_count + 1 else e.err_count) ∧
    (emit_operand_block encode_reg op ADDR_MODE_MATRIX e).had_error
      = (if (parse_matrix_regs op).isNone = true then true else e.had_error) ∧
    (emit_operand_block encode_reg op ADDR_MODE_MATRIX e).IC
      = (emit_word (encode_matrix_indices ((parse_matrix_regs op).getD (0, 0)).1
            ((parse_matrix_regs op).getD (0, 0)).2)
          (emit_word 0 e.image e.IC).2.1 (emit_word 0 e.image e.IC).2.2).2.2 := by
  unfold emit_operand_block
  rw [if_neg (by decide), if_neg (by decide), if_neg (by decide), if_pos rfl]
  dsimp only
  by_cases h : (parse_matrix_regs op).isNone = true
  · simp only [h, if_true, and_self]
  · simp only [h, if_false, and_self]
    simp

/-- C15 (matrix operand shape), as amended: `parse_matrix_regs` succeeds on
every operand of the shape `identifier[A][B]` in which `A` and `B`, with the
white space around them removed by `trim`, are the register names `rX` and
`rY` (X, Y in 0..7; `trim` leaves a register name as it is), and then returns
row = X and column = Y. When it succeeds, the operand has two bracket pairs
whose contents, trimmed, are register names, and row and column are their
numbers in 0..7. When it fails on an operand treated as MATRIX, the block of
`emit_operands` counts exactly one error; when it succeeds, none. With room
in the code image both words are emitted in either case. -/
theorem matrix_operand_shape (op : CStr) (encode_reg : Int → Int) (e : Emit) :
    (∀ (a A B : CStr) (X Y : Nat), '[' ∉ a → ']' ∉ A → ']' ∉ B → X ≤ 7 → Y ≤ 7 →
        trim A = ['r', Char.ofNat (48 + X)] → trim B = ['r', Char.ofNat (48 + Y)] →
        op = a ++ '[' :: A ++ ']' :: '[' :: B ++ [']'] →
        parse_matrix_regs op = some ((X : Int), (Y : Int))) ∧
    (∀ r, r ∈ REGISTER_NAMES → trim r = r) ∧
    (∀ row col, parse_matrix_regs op = some (row, col) →
        0 ≤ row ∧ row ≤ 7 ∧ 0 ≤ col ∧ col ≤ 7 ∧
        ∃ a A c B e, op = a ++ '[' :: A ++ ']' :: c ++ '[' :: B ++ ']' :: e ∧
          trim A ∈ REGISTER_NAMES ∧ trim B ∈ REGISTER_NAMES ∧
          row = reg_code (trim A) ∧ col = reg_code (trim B)) ∧
    (parse_matrix_regs op = none →
        (emit_operand_block encode_reg op ADDR_MODE_MATRIX e).err_count = e.err_count + 1 ∧
        (emit_operand_block encode_reg op ADDR_MODE_MATRIX e).had_error = true) ∧
    ((parse_matrix_regs op).isSome = true →
        (emit_operand_block encode_reg op ADDR_MODE_MATRIX e).err_count = e.err_count ∧
        (emit_operand_block encode_reg op ADDR_MODE_MATRIX e).had_error = e.had_error) ∧
    (100 ≤ e.IC ∧ e.IC + 2 ≤ 356 →
        (emit_operand_block encode_reg op ADDR_MODE_MATRIX e).IC = e.IC + 2) := by
  refine ⟨?_, by decide, ?_, ?_, ?_, ?_⟩
  · intro a A B X Y ha hA hB hX hY hta htb hop
    have h := parse_matrix_regs_brackets a A [] B [] ha hA (by simp) hB
    simp only [List.append_nil, List.append_assoc, List.cons_append, List.nil_append] at h
    have hop2 : op = a ++ '[' :: (A ++ ']' :: '[' :: (B ++ [']'])) := by rw [hop]; simp
    rw [hop2, h, hta, htb, if_pos ⟨(reg_code_register X hX).1, (reg_code_register Y hY).1⟩,
      (reg_code_register X hX).2, (reg_code_register Y hY).2]
  · intro row col h
    obtain ⟨a, A, c, B, e1, hop, -, -, -, -, g1, g2, hr, hc⟩ := parse_matrix_regs_some op row col h
    have r1 := reg_code_range _ g1
    have r2 := reg_code_range _ g2
    refine ⟨by omega, by omega, by omega, by omega, a, A, c, B, e1, hop,
      (is_register_iff _).1 g1, (is_register_iff _).1 g2, hr, hc⟩
  · intro h
    have hb := emit_matrix_block encode_reg op e
    rw [hb.1, hb.2.1, h]
    simp
  · intro h
    have hb := emit_matrix_block encode_reg op e
    rw [hb.1, hb.2.1]
    cases hp : parse_matrix_regs op with
    | none => rw [hp] at h; cases h
    | some v => simp
  · intro h
    have hb := emit_matrix_block encode_reg op e
    rw [hb.2.2, emit_word_in_range 0 e.image e.IC h.1 (by omega)]
    simp only []
    rw [emit_word_in_range _ _ _ (by omega) (by omega)]
    simp only []
    omega

/-- C15 as stated fails: `parse_matrix_regs` succeeds on operands that do not
have exactly the shape `identifier[rX][rY]`: with white space around a
register name, with text between the bracket pairs or after them, and with an
empty identifier. All three are classified as MATRIX, and the first pass
accepts `mov M[ r1 ][r2], r3` and `mov M[r1]x[r2]y, r3` without an error. -/
theorem matrix_shape_not_exact :
    parse_matrix_regs "M[ r1 ][r2]".toList = some (1, 2) ∧
    parse_matrix_regs "M[r1]x[r2]y".toList = some (1, 2) ∧
    parse_matrix_regs "[r1][r2]".toList = some (1, 2) ∧
    addr_mode "M[ r1 ][r2]".toList = ADDR_MODE_MATRIX ∧
    addr_mode "M[r1]x[r2]y".toList = ADDR_MODE_MATRIX ∧
    addr_mode "[r1][r2]".toList = ADDR_MODE_MATRIX ∧
    (first_pass "mov M[ r1 ][r2], r3\n".toList [] zero_image [] []).1 = 0 ∧
    (first_pass_fresh "mov M[ r1 ][r2], r3\n".toList).command_list
      = [⟨none, 100, 4, 0, some "M[ r1 ][r2]".toList, some "r3".toList⟩] ∧
    (first_pass "mov M[r1]x[r2]y, r3\n".toList [] zero_image [] []).1 = 0 := by
  refine ⟨by decide, by decide, by decide, by decide, by decide, by decide, by decide,
    by decide, by decide⟩

/-! ## Error accounting for illegal labels (C16) -/

/-- C16 (error accounting), the code at the failing input: for the source line
`1abc: stop` the label is found illegal by `check_label_legality` and dropped
by `consume_label_prefix`, which has no access to the error count; the rest of
the line is assembled, the error count stays 0 and `first_pass` returns 0. The
same happens for the reserved word `mov:` and for a label of 31 characters,
whereas the label `r1:`, which only `add_symbol` rejects, is counted. -/
theorem illegal_label_not_counted :
    check_label_legality "1abc".toList = false ∧
    consume_label_prefix (sanitize_line "1abc: stop\n".toList) = (" stop".toList, none) ∧
    (first_pass "1abc: stop\n".toList [] zero_image [] []).1 = 0 ∧
    (first_pass_fresh "1abc: stop\n".toList).error_count = 0 ∧
    (first_pass_fresh "1abc: stop\n".toList).sym_table = [] ∧
    (first_pass_fresh "1abc: stop\n".toList).command_list
      = [⟨none, 100, 1, 15, none, none⟩] ∧
    check_label_legality "mov".toList = false ∧
    (first_pass "mov: stop\n".toList [] zero_image [] []).1 = 0 ∧
    (first_pass "a_b: stop\n".toList [] zero_image [] []).1 = 0 ∧
    (first_pass "abcdefghijabcdefghijabcdefghijx: stop\n".toList [] zero_image [] []).1 = 0 ∧
    (first_pass "r1: stop\n".toList [] zero_image [] []).1 = 1 := by
  refine ⟨by decide, by decide, by decide, by decide, by decide, by decide, by decide,
    by decide, by decide, by decide, by decide⟩

/-! ## Unknown opcodes (C17) -/

theorem opcode_from_string_unknown (s : CStr) (h : s ∉ MNEMONICS) :
    opcode_from_string s = -1 := by
  simp only [MNEMONICS, instruction_info_table, List.map, List.mem_cons, List.mem_singleton,
    List.not_mem_nil, or_false, not_or] at h
  obtain ⟨h0, h1, h2, h3, h4, h5, h6, h7, h8, h9, h10, h11, h12, h13, h14, h15⟩ := h
  simp only [opcode_from_string, instruction_info_table, opcode_from_string_loop,
    if_neg h0, if_neg h1, if_neg h2, if_neg h3, if_neg h4, if_neg h5, if_neg h6, if_neg h7,
    if_neg h8, if_neg h9, if_neg h10, if_neg h11, if_neg h12, if_neg h13, if_neg h14,
    if_neg h15]

theorem opcode_from_string_known (s : CStr) (h : s ∈ MNEMONICS) :
    0 ≤ opcode_from_string s ∧ opcode_from_string s ≤ 15 := by
  simp only [MNEMONICS, instruction_info_table, List.map, List.mem_cons, List.mem_singleton,
    List.not_mem_nil, or_false] at h
  rcases h with h | h | h | h | h | h | h | h | h | h | h | h | h | h | h | h <;>
    subst h <;> decide

/-- C17 (a rejected instruction is atomic): when the first token of an
instruction line is not one of the sixteen mnemonics, `process_instruction`
returns 1 and changes nothing but the error count, which grows by exactly one:
IC, the code image, the command list and the symbol table stay as they were,
also when the line carries a label. For the source line `L: movx r1, r2` the
first pass fails with one error, no symbol, no command and IC = 100. -/
theorem rejected_instruction_atomic (line : CStr) (has_label : Bool)
    (label_name : Option CStr) (st : Pass1)
    (h : ∀ tok, (strtok line [' ', '\t']).1 = some tok → tok ∉ MNEMONICS) :
    process_instruction line has_label label_name st
      = (1, { st with error_count := st.error_count + 1 }) ∧
    (first_pass "L: movx r1, r2\n".toList [] zero_image [] []).1 = 1 ∧
    (first_pass_fresh "L: movx r1, r2\n".toList).error_count = 1 ∧
    (first_pass_fresh "L: movx r1, r2\n".toList).sym_table = [] ∧
    (first_pass_fresh "L: movx r1, r2\n".toList).command_list = [] ∧
    (first_pass_fresh "L: movx r1, r2\n".toList).IC = 100 ∧
    (List.range 4).map (first_pass_fresh "L: movx r1, r2\n".toList).instruction_image
      = [0, 0, 0, 0] := by
  refine ⟨?_, by decide, by decide, by decide, by decide, by decide, by decide⟩
  unfold process_instruction parse_opcode_and_operands
  rcases hs : strtok line [' ', '\t'] with ⟨tok, saved⟩
  cases tok with
  | none => rfl
  | some op =>
    have hop := opcode_from_string_unknown op (h op (by rw [hs]))
    cases hr : strtok_rest saved <;> simp [hr, hop]

theorem rejected_instruction_atomic_witness :
    process_instruction "movx r1, r2".toList true (some "L".toList)
        (first_pass_init [] zero_image [] [])
      = (1, { first_pass_init [] zero_image [] [] with
              error_count := (first_pass_init [] zero_image [] []).error_count + 1 }) :=
  (rejected_instruction_atomic "movx r1, r2".toList true (some "L".toList)
    (first_pass_init [] zero_image [] []) (by decide)).1

/-! ## Storage of `.data` values (C18) -/

theorem strtok_all_fuel_nil (delims : CStr) (n : Nat) (pre : CStr)
    (hpre : ∀ c ∈ pre, delims.contains c = true) :
    strtok_all_fuel delims n pre = [] := by
  cases n with
  | zero => rfl
  | succ n =>
    have h : pre.dropWhile (fun x => delims.contains x) = [] := by
      rw [List.dropWhile_eq_nil_iff]
      exact hpre
    simp only [strtok_all_fuel, strtok, h]

/-- One `strtok` step on leading delimiters, a token and a rest that is empty
or starts with a delimiter. -/
theorem strtok_token (delims pre t r : CStr)
    (hpre : ∀ c ∈ pre, delims.contains c = true)
    (ht : t ≠ []) (htok : ∀ c ∈ t, delims.contains c = false)
    (hr : ∀ c, r.head? = some c → delims.contains c = true) :
    strtok (pre ++ (t ++ r)) delims = (some t, r.tail) := by
  unfold strtok
  rw [List.dropWhile_append_of_pos hpre]
  cases t with
  | nil => exact absurd rfl ht
  | cons x xs =>
    have hx : delims.contains x = false := htok x (List.mem_cons_self _ _)
    rw [List.cons_append, List.dropWhile_cons_of_neg (by simpa using hx)]
    simp only
    have hall : ∀ a ∈ x :: xs, (fun y => !delims.contains y) a = true := by
      intro a ha
      simpa using htok a ha
    have e : x :: (xs ++ r) = (x :: xs) ++ r := rfl
    rw [e, List.takeWhile_append_of_pos hall, List.dropWhile_append_of_pos hall]
    cases r with
    | nil => simp
    | cons d ds =>
      have hd : delims.contains d = true := hr d rfl
      rw [List.takeWhile_cons_of_neg (by simpa using hd), List.dropWhile_cons_of_neg (by simpa using hd)]
      simp

theorem strtok_all_fuel_join (delims sep : CStr) (hsep : sep ≠ [])
    (hdel : ∀ c ∈ sep, delims.contains c = true) (toks : List CStr)
    (htoks : ∀ t ∈ toks, t ≠ [] ∧ ∀ c ∈ t, delims.contains c = false) :
    ∀ (fuel : Nat) (pre : CStr), toks.length ≤ fuel →
      (∀ c ∈ pre, delims.contains c = true) →
      strtok_all_fuel delims fuel (pre ++ join_values sep toks) = toks := by
  induction toks with
  | nil =>
    intro fuel pre _ hpre
    simp only [join_values, List.append_nil]
    exact strtok_all_fuel_nil delims fuel pre hpre
  | cons t ts ih =>
    intro fuel pre hfuel hpre
    have ht := htoks t (List.mem_cons_self _ _)
    have hts : ∀ t ∈ ts, t ≠ [] ∧ ∀ c ∈ t, delims.contains c = false :=
      fun u hu => htoks u (List.mem_cons_of_mem _ hu)
    cases fuel with
    | zero => simp at hfuel
    | succ n =>
      have hn : ts.length ≤ n := by simpa using hfuel
      cases ts with
      | nil =>
        have := strtok_token delims pre t [] hpre ht.1 ht.2 (by simp)
        simp only [List.append_nil] at this
        simp only [join_values, strtok_all_fuel, this, List.tail_nil]
        rw [strtok_all_fuel_nil delims n [] (by simp)]
      | cons t2 ts2 =>
        cases sep with
        | nil => exact absurd rfl hsep
        | cons d ds =>
          have hr : ∀ c, ((d :: ds) ++ join_values (d :: ds) (t2 :: ts2)).head? = some c →
              delims.contains c = true := by
            intro c hc
            simp only [List.cons_append, List.head?_cons, Option.some.injEq] at hc
            rw [← hc]
            exact hdel d (List.mem_cons_self _ _)
          have := strtok_token delims pre t _ hpre ht.1 ht.2 hr
          simp only [join_values, strtok_all_fuel, List.append_assoc, this]
          simp only [List.cons_append, List.tail_cons]
          rw [ih hts n ds hn (fun c hc => hdel c (List.mem_cons_of_mem _ hc))]

theorem join_values_length (sep : CStr) (toks : List CStr) (htoks : ∀ t ∈ toks, t ≠ []) :
    toks.length ≤ (join_values sep toks).length := by
  induction toks with
  | nil => simp
  | cons t ts ih =>
    have ht := htoks t (List.mem_cons_self _ _)
    have hl : 1 ≤ t.length := by
      cases t with
      | nil => exact absurd rfl ht
      | cons x xs => simp
    have := ih (fun u hu => htoks u (List.mem_cons_of_mem _ hu))
    cases ts with
    | nil => simpa [join_values] using hl
    | cons t2 ts2 =>
      simp only [join_values, List.length_append, List.length_cons] at this ⊢
      omega

/-- The tokens that `strtok` finds in a written-out list are the tokens of the list. -/
theorem strtok_all_join (delims sep : CStr) (hsep : sep ≠ [])
    (hdel : ∀ c ∈ sep, delims.contains c = true) (toks : List CStr)
    (htoks : ∀ t ∈ toks, t ≠ [] ∧ ∀ c ∈ t, delims.contains c = false) :
    strtok_all (join_values sep toks) delims = toks := by
  unfold strtok_all
  have hl := join_values_length sep toks (fun t ht => (htoks t ht).1)
  have := strtok_all_fuel_join delims sep hsep hdel toks htoks
    ((join_values sep toks).length + 1) [] (by omega) (by simp)
  simpa using this

theorem isdigit_not_delim (c : Char) (h : isdigit c = true) :
    VALUE_DELIMS.contains c = false := by
  simp only [isdigit, Bool.and_eq_true, decide_eq_true_eq] at h
  simp only [VALUE_DELIMS, List.contains_eq_any_beq, List.any_cons, List.any_nil,
    Bool.or_false, Bool.or_eq_false_iff, beq_eq_false_iff_ne, ne_eq]
  refine ⟨?_, ?_, ?_⟩ <;> intro hc <;> subst hc <;> revert h <;> decide

theorem literal_value_chars (t : CStr) (v : Int) (h : literal_value t = some v) :
    t ≠ [] ∧ ∀ c ∈ t, VALUE_DELIMS.contains c = false := by
  cases t with
  | nil => simp [literal_value] at h
  | cons c cs =>
    refine ⟨by simp, ?_⟩
    simp only [literal_value] at h
    have hds : ∀ ds : CStr, ds.all isdigit = true → ∀ x ∈ ds, VALUE_DELIMS.contains x = false := by
      intro ds hd x hx
      exact isdigit_not_delim x (List.all_eq_true.1 hd x hx)
    by_cases h1 : c = '-'
    · subst h1
      simp only [if_true] at h
      split at h
      · rename_i hc
        intro x hx
        rcases List.mem_cons.1 hx with hx | hx
        · subst hx; decide
        · exact hds cs hc.2 x hx
      · cases h
    · by_cases h2 : c = '+'
      · subst h2
        rw [if_neg (by decide), if_pos rfl] at h
        split at h
        · rename_i hc
          intro x hx
          rcases List.mem_cons.1 hx with hx | hx
          · subst hx; decide
          · exact hds cs hc.2 x hx
        · cases h
      · rw [if_neg h1, if_neg h2] at h
        split at h
        · rename_i hc
          exact hds _ hc
        · cases h

/-- The last character of a literal is a digit. -/
theorem literal_value_last (t : CStr) (v : Int) (h : literal_value t = some v) :
    ∃ c, t.getLast? = some c ∧ isdigit c = true := by
  have hds : ∀ ds : CStr, ds ≠ [] → ds.all isdigit = true →
      ∃ c, ds.getLast? = some c ∧ isdigit c = true := by
    intro ds hne hd
    refine ⟨ds.getLast hne, List.getLast?_eq_getLast _ hne, ?_⟩
    exact List.all_eq_true.1 hd _ (List.getLast_mem hne)
  cases t with
  | nil => simp [literal_value] at h
  | cons c cs =>
    simp only [literal_value] at h
    by_cases h1 : c = '-'
    · subst h1
      simp only [if_true] at h
      split at h
      · rename_i hc
        obtain ⟨x, hx, hxd⟩ := hds cs hc.1 hc.2
        refine ⟨x, ?_, hxd⟩
        cases cs with
        | nil => exact absurd rfl hc.1
        | cons d ds => simpa [List.getLast?_cons_cons] using hx
      · cases h
    · by_cases h2 : c = '+'
      · subst h2
        rw [if_neg (by decide), if_pos rfl] at h
        split at h
        · rename_i hc
          obtain ⟨x, hx, hxd⟩ := hds cs hc.1 hc.2
          refine ⟨x, ?_, hxd⟩
          cases cs with
          | nil => exact absurd rfl hc.1
          | cons d ds => simpa [List.getLast?_cons_cons] using hx
        · cases h
      · rw [if_neg h1, if_neg h2] at h
        split at h
        · rename_i hc
          exact hds _ (by simp) hc
        · cases h

theorem to_short_small (v : Int) (h0 : -32768 ≤ v) (h1 : v ≤ 32767) : to_short v = v := by
  unfold to_short
  split <;> omega

theorem is_num_within_range_iff (v : Int) :
    is_num_within_range v = true ↔ -512 ≤ v ∧ v ≤ 511 := by
  simp only [is_num_within_range, MIN_WORD_VAL, MAX_WORD_VAL, Bool.not_eq_true',
    Bool.or_eq_false_iff, decide_eq_false_iff_not]
  omega

/-- What the handlers read from a list of literals of in-range values. -/
theorem data_values (toks : List CStr) :
    ∀ (vals : List Int), toks.map literal_value = vals.map some →
      (∀ v ∈ vals, -512 ≤ v ∧ v ≤ 511) →
      toks.map (fun t => to_short (atoi t)) = vals ∧
      (∀ t ∈ toks, is_valid_data_num t = true) ∧
      (∀ t ∈ toks, t ≠ [] ∧ ∀ c ∈ t, VALUE_DELIMS.contains c = false) ∧
      (∀ t ∈ toks, ∃ c, t.getLast? = some c ∧ isdigit c = true) ∧
      toks.length = vals.length := by
  induction toks with
  | nil =>
    intro vals h _
    cases vals with
    | nil => simp
    | cons v vs => simp at h
  | cons t ts ih =>
    intro vals h hr
    cases vals with
    | nil => simp at h
    | cons v vs =>
      simp only [List.map_cons, List.cons.injEq] at h
      have hv := hr v (List.mem_cons_self _ _)
      obtain ⟨i1, i2, i3, i4, i5⟩ := ih vs h.2 (fun w hw => hr w (List.mem_cons_of_mem _ hw))
      have ha := atoi_literal t v h.1 (by omega) (by omega)
      refine ⟨?_, ?_, ?_, ?_, by simp [i5]⟩
      · simp only [List.map_cons, ha, to_short_small v (by omega) (by omega), i1]
      · intro u hu
        rcases List.mem_cons.1 hu with hu | hu
        · subst hu; exact literal_value_valid _ v h.1
        · exact i2 u hu
      · intro u hu
        rcases List.mem_cons.1 hu with hu | hu
        · subst hu; exact literal_value_chars _ v h.1
        · exact i3 u hu
      · intro u hu
        rcases List.mem_cons.1 hu with hu | hu
        · subst hu; exact literal_value_last _ v h.1
        · exact i4 u hu

theorem append_directive_room (df : DirectiveFields) (st : Pass1)
    (hroom : (st.command_list.length : Int) + st.directive_list.length < 256) :
    append_directive df st = { st with directive_list := st.directive_list ++ [df] } := by
  unfold append_directive
  rw [if_neg]
  simp only [command_count, directive_count, MAX_WORDS_MEMORY]
  omega

theorem append_directive_full (df : DirectiveFields) (st : Pass1)
    (hfull : 256 ≤ (st.command_list.length : Int) + st.directive_list.length) :
    append_directive df st = st := by
  unfold append_directive
  rw [if_pos]
  simp only [command_count, directive_count, MAX_WORDS_MEMORY]
  omega

/-- The handler of `.data` on operands whose tokens are literals of in-range
values, with room in the lists. -/
theorem handle_data_directive_values (operands : CStr) (label : Option CStr) (st : Pass1)
    (toks : List CStr) (vals : List Int)
    (htok : strtok_all operands VALUE_DELIMS = toks) (hk : toks ≠ [])
    (hvals : toks.map literal_value = vals.map some)
    (hrange : ∀ v ∈ vals, -512 ≤ v ∧ v ≤ 511)
    (hroom : (st.command_list.length : Int) + st.directive_list.length < 256) :
    handle_data_directive operands label st
      = (1, { st with
              directive_list := st.directive_list ++
                [{ label := label, data := vals, data_length := toks.length,
                   data_address := st.dc, arg_label := none, is_extern := false,
                   is_entry := false }],
              dc := st.dc + toks.length }) := by
  obtain ⟨i1, i2, -, -, -⟩ := data_values toks vals hvals hrange
  have f1 : toks.filter (fun t => !is_valid_data_num t) = [] := by
    rw [List.filter_eq_nil_iff]
    intro t ht
    simp [i2 t ht]
  have f2 : vals.filter (fun v => !is_num_within_range v) = [] := by
    rw [List.filter_eq_nil_iff]
    intro v hv
    simp [(is_num_within_range_iff v).2 (hrange v hv)]
  have hlen : toks.length ≠ 0 := by
    cases toks with
    | nil => exact absurd rfl hk
    | cons t ts => simp
  unfold handle_data_directive
  simp only [htok, f1, i1, f2, List.length_nil, Nat.cast_zero, add_zero, if_neg hlen]
  rw [append_directive_room _ _ (by simpa using hroom)]
  simp [new_directive]

theorem join_values_last (sep : CStr) (toks : List CStr) (hk : toks ≠ [])
    (h : ∀ t ∈ toks, ∃ c, t.getLast? = some c ∧ isdigit c = true) :
    ∃ c, (join_values sep toks).getLast? = some c ∧ isdigit c = true := by
  induction toks with
  | nil => exact absurd rfl hk
  | cons t ts ih =>
    cases ts with
    | nil => simpa [join_values] using h t (List.mem_cons_self _ _)
    | cons t2 ts2 =>
      obtain ⟨c, hc, hd⟩ := ih (by simp) (fun u hu => h u (List.mem_cons_of_mem _ hu))
      refine ⟨c, ?_, hd⟩
      simp only [join_values, List.getLast?_append, hc]
      rfl

/-- No trailing comma is found after a string that ends in a digit. -/
theorem check_trailing_comma_digit (s : CStr) (err : Int)
    (h : ∃ c, s.getLast? = some c ∧ isdigit c = true) :
    check_trailing_comma (some s) err = err := by
  obtain ⟨c, hc, hd⟩ := h
  obtain ⟨init, hs⟩ := List.getLast?_eq_some_iff.1 hc
  have hne : c ≠ ',' := by
    intro hcc
    subst hcc
    revert hd
    decide
  simp only [check_trailing_comma, hs, List.reverse_append, List.reverse_cons, List.reverse_nil,
    List.nil_append, List.singleton_append]
  rw [List.dropWhile_cons_of_neg (by simp [isdigit_not_isspace c hd])]
  simp [hne]

/-- The statement `add_symbol` of the first pass on a new, legal name. -/
theorem define_symbol_new (l : CStr) (address : Int) (type : SymbolType) (st : Pass1)
    (h1 : l ≠ []) (h2 : l.length ≤ 30) (h3 : l ∉ RESERVED_WORDS)
    (h4 : find_symbol st.sym_table l = none) :
    define_symbol l address type st
      = { st with sym_table := ⟨l, address, type⟩ :: st.sym_table } := by
  have hlen : ¬ (l.length = 0 ∨ l.length > MAX_LABEL_LENGTH) := by
    have : l.length ≠ 0 := by
      cases l with
      | nil => exact absurd rfl h1
      | cons x xs => simp
    simp only [MAX_LABEL_LENGTH]
    omega
  have hres : RESERVED_WORDS.contains l = false := by simpa using h3
  have htake : l.take (MAX_LABEL_LENGTH - 1) = l := by
    rw [List.take_of_length_le]
    simp only [MAX_LABEL_LENGTH]
    omega
  unfold define_symbol add_symbol
  simp only [if_neg hlen, hres, Bool.false_eq_true, if_false, h4, htake]
  simp

/-- C18 (`.data` storage), as amended: for a `.data` line whose operand text
is k >= 1 literals of values v1..vk in -512..511, written with a separator of
commas and blanks between neighbours, processed at data counter d while the
command and directive lists together hold fewer than 256 records, and whose
label, if any, is one that `add_symbol` accepts (1..30 characters, not a
reserved word, not yet in the table): `process_directive` returns 1, counts no
error, appends exactly one directive with data_address = d, data_length = k
and payload [v1, ..., vk] in source order, leaves DC = d + k, and adds the
label as a DATA symbol with address d. Nothing else changes. -/
theorem data_storage (sep : CStr) (toks : List CStr) (vals : List Int)
    (label : Option CStr) (st : Pass1)
    (hsep : sep ≠ [] ∧ ∀ c ∈ sep, c ∈ VALUE_DELIMS)
    (hk : toks ≠ [])
    (hvals : toks.map literal_value = vals.map some)
    (hrange : ∀ v ∈ vals, -512 ≤ v ∧ v ≤ 511)
    (hroom : (st.command_list.length : Int) + st.directive_list.length < 256)
    (hlabel : ∀ l, label = some l →
      l ≠ [] ∧ l.length ≤ 30 ∧ l ∉ RESERVED_WORDS ∧ find_symbol st.sym_table l = none) :
    process_directive ".data".toList (some (join_values sep toks)) label st
      = (1, { st with
              sym_table := (match label with
                | some l => ⟨l, st.dc, SYMBOL_DATA⟩ :: st.sym_table
                | none => st.sym_table),
              directive_list := st.directive_list ++
                [{ label := label, data := vals, data_length := vals.length,
                   data_address := st.dc, arg_label := none, is_extern := false,
                   is_entry := false }],
              dc := st.dc + vals.length }) := by
  obtain ⟨-, -, i3, i4, i5⟩ := data_values toks vals hvals hrange
  have htok : strtok_all (join_values sep toks) VALUE_DELIMS = toks :=
    strtok_all_join VALUE_DELIMS sep hsep.1 (fun c hc => by simpa using hsep.2 c hc) toks i3
  have hcomma : ∀ err, check_trailing_comma (some (join_values sep toks)) err = err :=
    fun err => check_trailing_comma_digit _ err (join_values_last sep toks hk i4)
  unfold process_directive
  simp only [true_or, decide_True, if_true, Option.isNone_some, Bool.false_eq_true, and_false,
    if_false, hcomma, Option.getD_some]
  cases label with
  | none =>
    simp only []
    rw [handle_data_directive_values _ none _ toks vals htok hk hvals hrange hroom, i5]
  | some l =>
    obtain ⟨h1, h2, h3, h4⟩ := hlabel l rfl
    simp only []
    rw [define_symbol_new l st.dc SYMBOL_DATA st h1 h2 h3 h4]
    have key := handle_data_directive_values (join_values sep toks) (some l)
      { st with sym_table := ⟨l, st.dc, SYMBOL_DATA⟩ :: st.sym_table } toks vals htok hk
      hvals hrange hroom
    rw [i5] at key
    exact key

theorem data_storage_witness :
    process_directive ".data".toList (some (join_values ", ".toList ["7".toList, "-3".toList]))
        (some "X".toList) (first_pass_init [] zero_image [] [])
      = (1, { first_pass_init [] zero_image [] [] with
              sym_table := [⟨"X".toList, 0, SYMBOL_DATA⟩],
              directive_list := [⟨some "X".toList, [7, -3], 2, 0, none, false, false⟩],
              dc := 0 + 2 }) :=
  data_storage ", ".toList ["7".toList, "-3".toList] [7, -3] (some "X".toList)
    (first_pass_init [] zero_image [] []) (by decide) (by decide) (by decide) (by decide)
    (by decide) (by decide)

/-- C18 as stated fails in two ways. A label that is already in the table is
not added again and counts an error: after `X: .data 1` the line `X: .data 2`
makes the first pass fail and leaves one symbol X. And when the command and
directive lists are full, the directive is dropped: after 256 `.entry` lines
the lines `.data 5` and `.string "ab"` count no error and advance DC to 4, but
the directive list still holds only the 256 `.entry` records. -/
theorem data_label_or_directive_dropped :
    (first_pass "X: .data 1\nX: .data 2\n".toList [] zero_image [] []).1 = 1 ∧
    (first_pass_fresh "X: .data 1\nX: .data 2\n".toList).error_count = 1 ∧
    (first_pass_fresh "X: .data 1\nX: .data 2\n".toList).sym_table
      = [⟨"X".toList, 100, SYMBOL_DATA⟩] ∧
    (first_pass program_full_lists [] zero_image [] []).1 = 0 ∧
    (first_pass_fresh program_full_lists).directive_list.length = 256 ∧
    ((first_pass_fresh program_full_lists).directive_list.filter
      (fun df => !df.is_entry)).length = 0 ∧
    (first_pass_fresh program_full_lists).dc = 4 := by
  refine ⟨by decide, by decide, by decide, by decide!, by decide!, by decide!, by decide!⟩

/-! ## Range check of data values (C19) -/

/-- C19 (`.data` range check), the code at the failing input: the token
`65536` is a valid literal, `atoi` reads it as 65536, the cast to `short`
makes it 0 before `is_num_within_range` sees it, so `.data 65536` and
`.mat [1][1] 65536` store the word 0 and count no error; `.data 65535` stores
-1 in the same way, whereas `.data 512` is counted as out of range. -/
theorem data_65536_stored_as_zero :
    is_valid_data_num "65536".toList = true ∧
    atoi "65536".toList = 65536 ∧
    to_short 65536 = 0 ∧
    is_num_within_range 65536 = false ∧
    (first_pass ".data 65536\n".toList [] zero_image [] []).1 = 0 ∧
    (first_pass_fresh ".data 65536\n".toList).error_count = 0 ∧
    (first_pass_fresh ".data 65536\n".toList).directive_list.map (fun df => df.data) = [[0]] ∧
    (first_pass ".mat [1][1] 65536\n".toList [] zero_image [] []).1 = 0 ∧
    (first_pass_fresh ".mat [1][1] 65536\n".toList).directive_list.map (fun df => df.data)
      = [[0]] ∧
    (first_pass ".data 65535\n".toList [] zero_image [] []).1 = 0 ∧
    (first_pass_fresh ".data 65535\n".toList).directive_list.map (fun df => df.data)
      = [[-1]] ∧
    (first_pass ".data 512\n".toList [] zero_image [] []).1 = 1 := by
  refine ⟨by decide, by decide, by decide, by decide, by decide, by decide, by decide,
    by decide, by decide, by decide, by decide, by decide⟩

/-! ## Storage of `.string` literals (C20) -/

theorem cut_at_not_mem (s : CStr) (c : Char) (h : c ∉ s) : cut_at s c = s := by
  unfold cut_at
  rw [List.takeWhile_eq_self_iff]
  intro x hx
  have : x ≠ c := fun hxc => h (hxc ▸ hx)
  simpa using this

theorem strchr_not_mem (s : CStr) (c : Char) (h : c ∉ s) : strchr s c = none := by
  have := (strchr_isSome s c).not.2 h
  cases hs : strchr s c with
  | none => rfl
  | some p => rw [hs] at this; simp at this

/-- Inside a string literal `trim_inbetween` copies every character up to the
closing quote. -/
theorem trim_inbetween_loop_in_string (s rest w : CStr) (saw_space : Bool) (q : Char)
    (h : q ∉ s) :
    trim_inbetween_loop (s ++ rest) w saw_space true q
      = trim_inbetween_loop rest (s.reverse ++ w) saw_space true q := by
  induction s generalizing w with
  | nil => rfl
  | cons c cs ih =>
    simp only [List.mem_cons, not_or] at h
    have hc : (c == q) = false := by simpa using Ne.symm h.1
    simpa [trim_inbetween_loop, hc] using ih (c :: w) h.2

/-- The text of a `.string` line with the literal `s`, without the newline. -/
theorem trim_inbetween_string_line (s : CStr) (h : DQUOTE ∉ s) :
    trim_inbetween (".string ".toList ++ DQUOTE :: s ++ [DQUOTE])
      = ".string ".toList ++ DQUOTE :: s ++ [DQUOTE] := by
  have e1 : trim_inbetween (".string ".toList ++ DQUOTE :: s ++ [DQUOTE])
      = trim_inbetween_loop (s ++ [DQUOTE]) (DQUOTE :: " gnirts.".toList) false true DQUOTE := by
    simp only [List.append_assoc, List.cons_append]
    rfl
  rw [e1, trim_inbetween_loop_in_string s [DQUOTE] _ false DQUOTE h]
  simp [trim_inbetween_loop]

theorem mem_string_line (s : CStr) (c : Char) (h : c ∈ string_line s) :
    c ∈ ".string ".toList ∨ c = DQUOTE ∨ c ∈ s := by
  simp only [string_line, List.mem_append, List.mem_cons, List.mem_singleton,
    List.not_mem_nil, or_false] at h
  rcases h with (h | h | h) | h
  · exact Or.inl h
  · exact Or.inr (Or.inl h)
  · exact Or.inr (Or.inr h)
  · exact Or.inr (Or.inl h)

theorem not_mem_string_line (s : CStr) (c : Char) (h1 : c ∉ ".string ".toList)
    (h2 : c ≠ DQUOTE) (h3 : c ∉ s) : c ∉ string_line s := by
  intro h
  rcases mem_string_line s c h with h | h | h
  · exact h1 h
  · exact h2 h
  · exact h3 h

theorem sanitize_string_line (s nl : CStr) (hnl : nl = [] ∨ nl = ['\n'])
    (hn : '\n' ∉ s) (hq : DQUOTE ∉ s) (hsemi : ';' ∉ s) :
    sanitize_line (string_line s ++ nl) = string_line s := by
  have hn2 : '\n' ∉ string_line s := not_mem_string_line s _ (by decide) (by decide) hn
  have hs2 : ';' ∉ string_line s := not_mem_string_line s _ (by decide) (by decide) hsemi
  have hcut : cut_at (string_line s ++ nl) '\n' = string_line s := by
    rcases hnl with h | h
    · rw [h, List.append_nil, cut_at_not_mem _ _ hn2]
    · rw [h, cut_at_append _ _ _ hn2]
  have hl : trim_left (string_line s) = string_line s := by
    unfold trim_left string_line
    rfl
  have hr : trim_right (string_line s) = string_line s := by
    unfold trim_right string_line
    rw [List.reverse_append, List.reverse_singleton, List.singleton_append,
      List.dropWhile_cons_of_neg (by decide)]
    simp
  unfold sanitize_line cleanup_line remove_comment trim
  rw [hcut, cut_at_not_mem _ _ hs2, hl, hr]
  exact trim_inbetween_string_line s hq

/-- The handler of `.string` on a literal without an inner quote, with room in
the lists. -/
theorem handle_string_directive_literal (s : CStr) (label : Option CStr) (st : Pass1)
    (hq : DQUOTE ∉ s)
    (hroom : (st.command_list.length : Int) + st.directive_list.length < 256) :
    handle_string_directive (DQUOTE :: s ++ [DQUOTE]) label st
      = (1, { st with
              directive_list := st.directive_list ++
                [{ label := label, data := s.map char_code ++ [0],
                   data_length := s.length + 1, data_address := st.dc, arg_label := none,
                   is_extern := false, is_entry := false }],
              dc := st.dc + s.length + 1 }) := by
  have h1 : trim_left (DQUOTE :: s ++ [DQUOTE]) = DQUOTE :: (s ++ [DQUOTE]) := by
    unfold trim_left
    rw [List.cons_append, List.dropWhile_cons_of_neg (by decide)]
  have h2 : strchr (DQUOTE :: (s ++ [DQUOTE])) DQUOTE = some (DQUOTE :: (s ++ [DQUOTE])) := by
    simp [strchr]
  have h3 : strchr (s ++ [DQUOTE]) DQUOTE = some [DQUOTE] := strchr_append s [] DQUOTE hq
  have h4 : cut_at (s ++ [DQUOTE]) DQUOTE = s := cut_at_append s [] DQUOTE hq
  unfold handle_string_directive
  simp only [h1, h2, List.tail_cons, h3, h4, List.dropWhile_nil, ne_eq, not_true_eq_false,
    if_false]
  rw [append_directive_room _ _ (by simpa using hroom)]
  simp [new_directive]

theorem char_code_printable (s : CStr) (h : ∀ c ∈ s, 32 ≤ c.toNat ∧ c.toNat ≤ 126) :
    s.map char_code = s.map (fun c => (c.toNat : Int)) := by
  apply List.map_congr_left
  intro c hc
  unfold char_code
  rw [if_pos (by have := h c hc; omega)]

theorem string_line_tokens (s : CStr) :
    strtok (string_line s) [' ', '\t'] = (some ".string".toList, DQUOTE :: s ++ [DQUOTE]) := by
  have h := strtok_token [' ', '\t'] [] ".string".toList (' ' :: DQUOTE :: s ++ [DQUOTE])
    (by simp) (by decide) (by decide) (by
      intro c hc
      simp only [List.cons_append, List.head?_cons, Option.some.injEq] at hc
      subst hc
      decide)
  simpa [string_line] using h

/-- C20 (`.string` storage), as amended: for every string `s` of printable
characters that contains none of `"`, `;` and `:`, the source line
`.string "s"` (with or without its newline, at most 80 characters), taken
through the line cleaner and the first pass at data counter d while the
command and directive lists together hold fewer than 256 records, counts no
error, appends one directive whose payload is the character codes of `s` in
order followed by one 0 word, with data_address = d, and leaves
DC = d + len(s) + 1; nothing else changes. For the lines `STR: .string "ab"`
and `LEN: .data 2` the payloads are 97, 98, 0 and 2, DC grows to 4, and after
relocation STR = 100 and LEN = 103. -/
theorem string_storage (s nl : CStr) (st : Pass1)
    (hnl : nl = [] ∨ nl = ['\n'])
    (hprint : ∀ c ∈ s, 32 ≤ c.toNat ∧ c.toNat ≤ 126)
    (hq : DQUOTE ∉ s) (hsemi : ';' ∉ s) (hcolon : ':' ∉ s)
    (_hlen : (string_line s ++ nl).length ≤ 80)
    (hroom : (st.command_list.length : Int) + st.directive_list.length < 256) :
    first_pass_line (string_line s ++ nl) st
      = { st with
          directive_list := st.directive_list ++
            [{ label := none, data := s.map (fun c => (c.toNat : Int)) ++ [0],
               data_length := s.length + 1, data_address := st.dc, arg_label := none,
               is_extern := false, is_entry := false }],
          dc := st.dc + s.length + 1 } ∧
    (first_pass "STR: .string \"ab\"\nLEN: .data 2\n".toList [] zero_image [] []).1 = 0 ∧
    (first_pass_fresh "STR: .string \"ab\"\nLEN: .data 2\n".toList).directive_list.map
        (fun df => (df.label, df.data, df.data_address))
      = [(some "STR".toList, [97, 98, 0], 0), (some "LEN".toList, [2], 3)] ∧
    (first_pass_fresh "STR: .string \"ab\"\nLEN: .data 2\n".toList).dc = 4 ∧
    (first_pass_fresh "STR: .string \"ab\"\nLEN: .data 2\n".toList).sym_table
      = [⟨"LEN".toList, 103, SYMBOL_DATA⟩, ⟨"STR".toList, 100, SYMBOL_DATA⟩] := by
  refine ⟨?_, by decide, by decide, by decide, by decide⟩
  have hn : '\n' ∉ s := by
    intro h
    have := hprint _ h
    revert this
    decide
  have hline := sanitize_string_line s nl hnl hn hq hsemi
  have hne : string_line s ≠ [] := by simp [string_line]
  have hc2 : ':' ∉ string_line s := not_mem_string_line s _ (by decide) (by decide) hcolon
  have hlp : consume_label_prefix (string_line s) = (string_line s, none) := by
    unfold consume_label_prefix
    rw [strchr_not_mem _ _ hc2]
  have hrest : strtok_rest (DQUOTE :: s ++ [DQUOTE]) = some (DQUOTE :: s ++ [DQUOTE]) := by
    simp [strtok_rest]
  have hcomma : ∀ err, check_trailing_comma (some (DQUOTE :: s ++ [DQUOTE])) err = err := by
    intro err
    have e : (DQUOTE :: s ++ [DQUOTE]).reverse = DQUOTE :: (DQUOTE :: s).reverse := by simp
    simp only [check_trailing_comma, e]
    rw [List.dropWhile_cons_of_neg (by decide)]
    simp only []
    rw [if_neg (by decide)]
  have hdir : process_directive ".string".toList (some (DQUOTE :: s ++ [DQUOTE])) none st
      = (1, { st with
              directive_list := st.directive_list ++
                [{ label := none, data := s.map (fun c => (c.toNat : Int)) ++ [0],
                   data_length := s.length + 1, data_address := st.dc, arg_label := none,
                   is_extern := false, is_entry := false }],
              dc := st.dc + s.length + 1 }) := by
    unfold process_directive
    have d1 : (".string".toList = ".data".toList) = False := by decide
    simp only [d1, true_or, or_true, false_or, decide_True, if_true, Option.isNone_some,
      Bool.false_eq_true, and_false, if_false, hcomma, Option.getD_some]
    have key := handle_string_directive_literal s none st hq hroom
    rw [char_code_printable s hprint] at key
    exact key
  unfold first_pass_line
  simp only [hline, if_neg hne, hlp, string_line_tokens, hrest, hdir]
  simp

theorem string_storage_witness :
    first_pass_line (string_line "ab".toList ++ "\n".toList)
        (first_pass_init [] zero_image [] [])
      = { first_pass_init [] zero_image [] [] with
          directive_list := [] ++
            [{ label := none, data := "ab".toList.map (fun c => (c.toNat : Int)) ++ [0],
               data_length := ("ab".toList.length : Int) + 1, data_address := 0,
               arg_label := none, is_extern := false, is_entry := false }],
          dc := 0 + ("ab".toList.length : Int) + 1 } :=
  (string_storage "ab".toList "\n".toList (first_pass_init [] zero_image [] [])
    (by decide) (by decide) (by decide) (by decide) (by decide) (by decide) (by decide)).1

/-- C20 as stated fails in three ways. A `;` inside the literal starts a
comment, so `.string "a;b"` loses its closing quote and counts an error. A `:`
inside the literal is taken for the end of a label, so `.string "a:b"` is read
as the unknown instruction `b"` and counts an error. And when the command and
directive lists are full, the directive of `.string "ab"` is dropped without an
error: after 256 `.entry` lines no directive with a payload is in the list. -/
theorem string_literal_cut_or_dropped :
    sanitize_line ".string \"a;b\"\n".toList = ".string \"a".toList ∧
    (first_pass ".string \"a;b\"\n".toList [] zero_image [] []).1 = 1 ∧
    (first_pass_fresh ".string \"a;b\"\n".toList).directive_list = [] ∧
    consume_label_prefix (sanitize_line ".string \"a:b\"\n".toList) = ("b\"".toList, none) ∧
    (first_pass ".string \"a:b\"\n".toList [] zero_image [] []).1 = 1 ∧
    (first_pass_fresh ".string \"a:b\"\n".toList).directive_list = [] ∧
    (first_pass program_full_lists [] zero_image [] []).1 = 0 ∧
    ((first_pass_fresh program_full_lists).directive_list.filter
      (fun df => decide (df.data ≠ []))).length = 0 := by
  refine ⟨by decide, by decide, by decide, by decide, by decide, by decide, by decide!,
    by decide!⟩

/-! ## The `.mat` directive (C21, C22) -/

theorem parse_digits_prefix (ds rest : CStr) (acc : Nat) (h : ds.all isdigit = true)
    (hrest : ∀ c, rest.head? = some c → isdigit c = false) :
    parse_digits acc (ds ++ rest) = ds.foldl (fun a c => a * 10 + (c.toNat - 48)) acc := by
  induction ds generalizing acc with
  | nil =>
    cases rest with
    | nil => rfl
    | cons x xs =>
      have := hrest x rfl
      simp [parse_digits, this]
  | cons c cs ih =>
    simp only [List.all_cons, Bool.and_eq_true] at h
    simp only [List.cons_append, parse_digits, h.1, if_true, List.foldl_cons]
    exact ih _ h.2

theorem dropWhile_isdigit_prefix (ds rest : CStr) (h : ds.all isdigit = true)
    (hrest : ∀ c, rest.head? = some c → isdigit c = false) :
    (ds ++ rest).dropWhile isdigit = rest := by
  rw [List.dropWhile_append_of_pos (fun a ha => List.all_eq_true.1 h a ha)]
  cases rest with
  | nil => rfl
  | cons x xs =>
    rw [List.dropWhile_cons_of_neg (by simp [hrest x rfl])]

/-- The conversion `%d` on a literal that is followed by a character other
than a digit. -/
theorem scan_int_literal (t rest : CStr) (n : Int) (h : literal_value t = some n)
    (h0 : -2147483648 ≤ n) (h1 : n ≤ 2147483647)
    (hrest : ∀ c, rest.head? = some c → isdigit c = false) :
    scan_int (t ++ rest) = some (n, rest) := by
  have hclamp : ∀ x : Int, x = n → ofU32 (toU32 (clamp_long x)) = n := by
    intro x hx
    subst hx
    have : clamp_long x = x := by
      unfold clamp_long
      rw [if_neg (by omega), if_neg (by omega)]
    rw [this, ofU32_toU32 x h0 h1]
  cases t with
  | nil => simp [literal_value] at h
  | cons c cs =>
    simp only [literal_value] at h
    unfold scan_int
    by_cases c1 : c = '-'
    · subst c1
      simp only [if_true] at h
      split at h
      · rename_i hc
        cases h
        rw [List.cons_append, List.dropWhile_cons_of_neg (by decide)]
        simp only [true_or, if_true]
        cases cs with
        | nil => exact absurd rfl hc.1
        | cons d ds =>
          have hd : isdigit d = true := by
            have := hc.2
            simp only [List.all_cons, Bool.and_eq_true] at this
            exact this.1
          simp only [List.cons_append, hd, if_true]
          have e : d :: (ds ++ rest) = (d :: ds) ++ rest := rfl
          rw [e, parse_digits_prefix _ rest 0 hc.2 hrest,
            dropWhile_isdigit_prefix _ rest hc.2 hrest]
          exact congrArg (fun v => some (v, rest)) (hclamp _ rfl)
      · cases h
    · by_cases c2 : c = '+'
      · subst c2
        rw [if_neg (by decide), if_pos rfl] at h
        split at h
        · rename_i hc
          cases h
          rw [List.cons_append, List.dropWhile_cons_of_neg (by decide)]
          simp only [or_true, if_true]
          cases cs with
          | nil => exact absurd rfl hc.1
          | cons d ds =>
            have hd : isdigit d = true := by
              have := hc.2
              simp only [List.all_cons, Bool.and_eq_true] at this
              exact this.1
            simp only [List.cons_append, hd, if_true]
            have e : d :: (ds ++ rest) = (d :: ds) ++ rest := rfl
            rw [e, parse_digits_prefix _ rest 0 hc.2 hrest,
              dropWhile_isdigit_prefix _ rest hc.2 hrest, if_neg (by decide)]
            exact congrArg (fun v => some (v, rest)) (hclamp _ rfl)
        · cases h
      · rw [if_neg c1, if_neg c2] at h
        split at h
        · rename_i hc
          cases h
          have hd : isdigit c = true := by
            simp only [List.all_cons, Bool.and_eq_true] at hc
            exact hc.1
          rw [List.cons_append, List.dropWhile_cons_of_neg (by simp [isdigit_not_isspace c hd])]
          simp only [c1, c2, or_self, if_false, hd, if_true]
          have e : c :: (cs ++ rest) = (c :: cs) ++ rest := rfl
          rw [e, parse_digits_prefix _ rest 0 hc hrest,
            dropWhile_isdigit_prefix _ rest hc hrest]
          exact congrArg (fun v => some (v, rest)) (hclamp _ rfl)
        · cases h

theorem dropWhile_isspace_prefix (ws tail : CStr) (hws : ∀ x ∈ ws, isspace x = true)
    (htail : ∀ x, tail.head? = some x → isspace x = false) :
    (ws ++ tail).dropWhile isspace = tail := by
  rw [List.dropWhile_append_of_pos hws]
  cases tail with
  | nil => rfl
  | cons x xs =>
    rw [List.dropWhile_cons_of_neg (by simp [htail x rfl])]

/-- The call `sscanf(operands, " [%d] [%d] %n", ...)` on two bracketed
literals followed by white space and a rest that does not start with white
space: both dimensions are read and the rest is what is left. -/
theorem sscanf_mat_operands (rt ct ws tail : CStr) (r c : Int)
    (hr : literal_value rt = some r) (hc : literal_value ct = some c)
    (hr0 : -2147483648 ≤ r ∧ r ≤ 2147483647) (hc0 : -2147483648 ≤ c ∧ c ≤ 2147483647)
    (hws : ∀ x ∈ ws, isspace x = true)
    (htail : ∀ x, tail.head? = some x → isspace x = false) :
    sscanf_mat ('[' :: (rt ++ ']' :: '[' :: (ct ++ ']' :: (ws ++ tail))))
      = some (r, c, rt.length + ct.length + 4 + ws.length) ∧
    ('[' :: (rt ++ ']' :: '[' :: (ct ++ ']' :: (ws ++ tail)))).drop
        (rt.length + ct.length + 4 + ws.length) = tail := by
  constructor
  · unfold sscanf_mat
    rw [List.dropWhile_cons_of_neg (by decide)]
    simp only [ne_eq, not_true_eq_false, if_false]
    rw [scan_int_literal rt _ r hr hr0.1 hr0.2 (by intro x hx; cases hx; decide)]
    simp only [ne_eq, not_true_eq_false, if_false]
    rw [List.dropWhile_cons_of_neg (by decide)]
    simp only [ne_eq, not_true_eq_false, if_false]
    rw [scan_int_literal ct _ c hc hc0.1 hc0.2 (by intro x hx; cases hx; decide)]
    simp only [ne_eq, not_true_eq_false, if_false]
    rw [ dropWhile_isspace_prefix ws tail hws htail]
    simp only [List.length_cons, List.length_append]
    congr 3
    omega
  · have e : '[' :: (rt ++ ']' :: '[' :: (ct ++ ']' :: (ws ++ tail)))
        = ('[' :: (rt ++ ']' :: '[' :: (ct ++ ']' :: ws))) ++ tail := by simp
    rw [e, List.drop_left']
    simp only [List.length_cons, List.length_append]
    omega

theorem literal_value_head (t : CStr) (v : Int) (h : literal_value t = some v) :
    ∃ c cs, t = c :: cs ∧ isspace c = false := by
  cases t with
  | nil => simp [literal_value] at h
  | cons c cs =>
    refine ⟨c, cs, rfl, ?_⟩
    simp only [literal_value] at h
    by_cases h1 : c = '-'
    · subst h1; decide
    · by_cases h2 : c = '+'
      · subst h2; decide
      · rw [if_neg h1, if_neg h2] at h
        split at h
        · rename_i hc
          simp only [List.all_cons, Bool.and_eq_true] at hc
          exact isdigit_not_isspace c hc.1
        · cases h

theorem join_values_head (sep : CStr) (toks : List CStr)
    (h : ∀ t ∈ toks, ∃ c cs, t = c :: cs ∧ isspace c = false) :
    ∀ x, (join_values sep toks).head? = some x → isspace x = false := by
  intro x hx
  cases toks with
  | nil => simp [join_values] at hx
  | cons t ts =>
    obtain ⟨c, cs, ht, hc⟩ := h t (List.mem_cons_self _ _)
    subst ht
    cases ts with
    | nil =>
      simp only [join_values, List.head?_cons, Option.some.injEq] at hx
      rw [← hx]; exact hc
    | cons t2 ts2 =>
      simp only [join_values, List.cons_append, List.head?_cons, Option.some.injEq] at hx
      rw [← hx]; exact hc

/-- The handler of `.mat` on two positive dimensions and literals of in-range
values: one error exactly when there are more values than cells, a directive
of `r * c` words with the values in front and zeros behind, and DC advanced by
the number of values. -/
theorem handle_mat_directive_values (rt ct ws sep : CStr) (toks : List CStr)
    (vals : List Int) (r c : Int) (label : Option CStr) (st : Pass1)
    (hr : literal_value rt = some r) (hc : literal_value ct = some c)
    (hdim : 0 < r ∧ 0 < c ∧ r ≤ 2147483647 ∧ c ≤ 2147483647)
    (hws : ∀ x ∈ ws, isspace x = true)
    (hsep : sep ≠ [] ∧ ∀ x ∈ sep, x ∈ VALUE_DELIMS)
    (hvals : toks.map literal_value = vals.map some)
    (hrange : ∀ v ∈ vals, -512 ≤ v ∧ v ≤ 511) :
    handle_mat_directive (mat_operands rt ct ws sep toks) label st
      = (1, append_directive
              { label := label,
                data := vals.take (r * c).toNat
                  ++ List.replicate ((r * c).toNat - vals.length) 0,
                data_length := r * c, data_address := st.dc, arg_label := none,
                is_extern := false, is_entry := false }
              { st with
                error_count :=
                  if (vals.length : Int) > r * c then st.error_count + 1 else st.error_count,
                dc := st.dc + vals.length }) := by
  obtain ⟨i1, i2, i3, -, i5⟩ := data_values toks vals hvals hrange
  have hheads : ∀ t ∈ toks, ∃ c cs, t = c :: cs ∧ isspace c = false := by
    intro t ht
    have hm : literal_value t ∈ toks.map literal_value := List.mem_map_of_mem _ ht
    rw [hvals] at hm
    obtain ⟨v, -, hv⟩ := List.mem_map.1 hm
    exact literal_value_head t v hv.symm
  obtain ⟨hs1, hs2⟩ := sscanf_mat_operands rt ct ws (join_values sep toks) r c hr hc
    ⟨by omega, hdim.2.2.1⟩ ⟨by omega, hdim.2.2.2⟩ hws (join_values_head sep toks hheads)
  have htok : strtok_all (join_values sep toks) VALUE_DELIMS = toks :=
    strtok_all_join VALUE_DELIMS sep hsep.1 (fun c hc => by simpa using hsep.2 c hc) toks i3
  have f1 : toks.filter (fun t => !is_valid_data_num t) = [] := by
    rw [List.filter_eq_nil_iff]
    intro t ht
    simp [i2 t ht]
  have f2 : vals.filter (fun v => !is_num_within_range v) = [] := by
    rw [List.filter_eq_nil_iff]
    intro v hv
    simp [(is_num_within_range_iff v).2 (hrange v hv)]
  have hpos : 0 < r * c := Int.mul_pos hdim.1 hdim.2.1
  unfold handle_mat_directive
  unfold mat_operands
  simp only [hs1]
  rw [if_neg (by omega)]
  simp only [hs2, htok, f1, i1, f2, List.length_nil, Nat.cast_zero, add_zero, i5]
  rw [if_neg (by omega)]
  simp [new_directive]

theorem append_directive_counters (df : DirectiveFields) (st : Pass1) :
    (append_directive df st).dc = st.dc ∧
    (append_directive df st).error_count = st.error_count := by
  unfold append_directive
  split <;> exact ⟨rfl, rfl⟩

/-- The handler of `.mat` advances DC by the number of values, whatever the
dimensions. -/
theorem handle_mat_directive_dc (rt ct ws sep : CStr) (toks : List CStr)
    (vals : List Int) (r c : Int) (label : Option CStr) (st : Pass1)
    (hr : literal_value rt = some r) (hc : literal_value ct = some c)
    (hdim : 0 < r ∧ 0 < c ∧ r ≤ 2147483647 ∧ c ≤ 2147483647)
    (hws : ∀ x ∈ ws, isspace x = true)
    (hsep : sep ≠ [] ∧ ∀ x ∈ sep, x ∈ VALUE_DELIMS)
    (hvals : toks.map literal_value = vals.map some)
    (hrange : ∀ v ∈ vals, -512 ≤ v ∧ v ≤ 511) :
    (handle_mat_directive (mat_operands rt ct ws sep toks) label st).2.dc
      = st.dc + vals.length := by
  rw [handle_mat_directive_values rt ct ws sep toks vals r c label st hr hc hdim hws hsep
    hvals hrange]
  exact (append_directive_counters _ _).1

/-- C21 (`.mat` advances DC by the cell count), the code at the failing input:
after `.mat [2][2] 1, 2` at DC = 0 the directive has four words but DC is 2,
not 4; with no value at all DC stays 0. The label X of a following `.data 7`
gets data address 2 and is relocated to 102, and the object file, which
`write_object` fills with all four words of the matrix, has two lines for
address 102 (`abcbc`): the third matrix word and the word of X. -/
theorem mat_dc_advances_by_values :
    (first_pass ".mat [2][2] 1, 2\n".toList [] zero_image [] []).1 = 0 ∧
    (first_pass_fresh ".mat [2][2] 1, 2\n".toList).dc = 2 ∧
    (first_pass_fresh ".mat [2][2] 1, 2\n".toList).directive_list.map
        (fun df => (df.data, df.data_length)) = [([1, 2, 0, 0], 4)] ∧
    (first_pass_fresh ".mat [2][2]\n".toList).dc = 0 ∧
    (first_pass_fresh ".mat [2][2]\n".toList).directive_list.map
        (fun df => (df.data, df.data_length)) = [([0, 0, 0, 0], 4)] ∧
    (first_pass_fresh ".mat [2][2] 1, 2\nX: .data 7\n".toList).directive_list.map
        (fun df => (df.data_address, df.data_length)) = [(0, 4), (2, 1)] ∧
    (first_pass_fresh ".mat [2][2] 1, 2\nX: .data 7\n".toList).sym_table
      = [⟨"X".toList, 102, SYMBOL_DATA⟩] ∧
    (assemble (fun _ => true) "f".toList ".mat [2][2] 1, 2\nX: .data 7\n".toList).map
        (fun r => (r.ret, r.ob_file))
      = some (0, some ["abcba aaaab\n".toList, "abcbb aaaac\n".toList,
          "abcbc aaaaa\n".toList, "abcbd aaaaa\n".toList, "abcbc aaabd\n".toList]) := by
  refine ⟨by decide, by decide, by decide, by decide, by decide, by decide, by decide,
    by decide⟩

/-- C22 (`.mat` zero padding): for a `.mat` line whose operand text is the
dimensions `[r][c]` with r > 0 and c > 0 (and `r * c` in the range of `int`)
followed by k literals of values v1..vk in -512..511: when k <= r*c no error is
counted and the directive that the handler hands to `append_directive`, which
is appended whenever the lists have room, has data_length = r*c, data_address
= DC, the values v1..vk in order as its first k payload words and 0 in its
remaining r*c - k payload words; when k > r*c exactly one error is counted. -/
theorem mat_zero_padding (rt ct ws sep : CStr) (toks : List CStr)
    (vals : List Int) (r c : Int) (label : Option CStr) (st : Pass1)
    (hr : literal_value rt = some r) (hc : literal_value ct = some c)
    (hdim : 0 < r ∧ 0 < c ∧ r * c ≤ 2147483647)
    (hws : ∀ x ∈ ws, isspace x = true)
    (hsep : sep ≠ [] ∧ ∀ x ∈ sep, x ∈ VALUE_DELIMS)
    (hvals : toks.map literal_value = vals.map some)
    (hrange : ∀ v ∈ vals, -512 ≤ v ∧ v ≤ 511) :
    ((vals.length : Int) ≤ r * c →
      (handle_mat_directive (mat_operands rt ct ws sep toks) label st).2.error_count
        = st.error_count ∧
      ((st.command_list.length : Int) + st.directive_list.length < 256 →
        (handle_mat_directive (mat_operands rt ct ws sep toks) label st).2.directive_list
          = st.directive_list ++
            [{ label := label,
               data := vals ++ List.replicate ((r * c).toNat - vals.length) 0,
               data_length := r * c, data_address := st.dc, arg_label := none,
               is_extern := false, is_entry := false }]) ∧
      (256 ≤ (st.command_list.length : Int) + st.directive_list.length →
        (handle_mat_directive (mat_operands rt ct ws sep toks) label st).2.directive_list
          = st.directive_list) ∧
      (vals ++ List.replicate ((r * c).toNat - vals.length) (0 : Int)).length = (r * c).toNat ∧
      (vals ++ List.replicate ((r * c).toNat - vals.length) (0 : Int)).take vals.length
        = vals ∧
      (vals ++ List.replicate ((r * c).toNat - vals.length) (0 : Int)).drop vals.length
        = List.replicate ((r * c).toNat - vals.length) 0) ∧
    ((vals.length : Int) > r * c →
      (handle_mat_directive (mat_operands rt ct ws sep toks) label st).2.error_count
        = st.error_count + 1) ∧
    (first_pass ".mat [2][2] 1, 2\n".toList [] zero_image [] []).1 = 0 ∧
    (first_pass_fresh ".mat [2][2] 1, 2\n".toList).directive_list
      = [⟨none, [1, 2, 0, 0], 4, 0, none, false, false⟩] := by
  have hrle : r ≤ 2147483647 := by nlinarith [hdim.1, hdim.2.1, hdim.2.2]
  have hcle : c ≤ 2147483647 := by nlinarith [hdim.1, hdim.2.1, hdim.2.2]
  have key := handle_mat_directive_values rt ct ws sep toks vals r c label st hr hc
    ⟨hdim.1, hdim.2.1, hrle, hcle⟩ hws hsep hvals hrange
  refine ⟨?_, ?_, by decide, by decide⟩
  · intro hk
    have hk2 : vals.length ≤ (r * c).toNat := by omega
    have htake : vals.take (r * c).toNat = vals := List.take_of_length_le hk2
    rw [key, htake, if_neg (by omega)]
    refine ⟨?_, ?_, ?_, ?_, ?_, ?_⟩
    · unfold append_directive
      split <;> rfl
    · intro hroom
      rw [append_directive_room _ _ (by simpa using hroom)]
    · intro hfull
      rw [append_directive_full _ _ (by simpa using hfull)]
    · simp only [List.length_append, List.length_replicate]
      omega
    · simp
    · simp
  · intro hk
    rw [key, if_pos hk]
    unfold append_directive
    split <;> rfl

theorem mat_zero_padding_witness :
    (handle_mat_directive
        (mat_operands "2".toList "2".toList " ".toList ", ".toList ["1".toList, "2".toList])
        (some "M".toList) (first_pass_init [] zero_image [] [])).2.directive_list
      = [] ++ [{ label := some "M".toList,
                 data := [1, 2] ++ List.replicate (((2 : Int) * 2).toNat - [1, 2].length) 0,
                 data_length := 2 * 2, data_address := 0, arg_label := none,
                 is_extern := false, is_entry := false }] :=
  ((mat_zero_padding "2".toList "2".toList " ".toList ", ".toList
    ["1".toList, "2".toList] [1, 2] 2 2 (some "M".toList)
    (first_pass_init [] zero_image [] []) (by decide) (by decide) (by decide) (by decide)
    (by decide) (by decide) (by decide)).1 (by decide)).2.1 (by decide)

/-! ## Reserved words in the symbol table (C23) -/

/-- C23 (the symbol table rejects reserved words), as amended: for every table
state, address and kind, `add_symbol` fails and adds nothing when the name is
one of the 16 opcode mnemonics, one of `r0` .. `r7`, or one of `data`, `string`,
`mat`, `extern`, `entry`; these 29 words are exactly the list of
`add_symbol`. -/
theorem add_symbol_rejects_reserved (head : List Symbol) (name : CStr) (address : Int)
    (type : SymbolType)
    (h : name ∈ MNEMONICS ∨ name ∈ REGISTER_NAMES ∨ name ∈ DIRECTIVE_NAMES) :
    add_symbol head name address type = (none, head) ∧
    (∀ w, w ∈ RESERVED_WORDS ↔ w ∈ MNEMONICS ∨ w ∈ REGISTER_NAMES ∨ w ∈ DIRECTIVE_NAMES) ∧
    MNEMONICS.length = 16 ∧ REGISTER_NAMES.length = 8 ∧ DIRECTIVE_NAMES.length = 5 := by
  have hall : ∀ w ∈ MNEMONICS ++ (REGISTER_NAMES ++ DIRECTIVE_NAMES), w ∈ RESERVED_WORDS := by
    decide
  have hback : ∀ w ∈ RESERVED_WORDS, w ∈ MNEMONICS ++ (REGISTER_NAMES ++ DIRECTIVE_NAMES) := by
    decide
  have hmem : ∀ w, w ∈ RESERVED_WORDS ↔
      w ∈ MNEMONICS ∨ w ∈ REGISTER_NAMES ∨ w ∈ DIRECTIVE_NAMES := by
    intro w
    constructor
    · intro hw
      simpa [List.mem_append] using hback w hw
    · intro hw
      exact hall w (by simpa [List.mem_append] using hw)
  refine ⟨?_, hmem, by decide, by decide, by decide⟩
  have hres : RESERVED_WORDS.contains name = true := by
    simpa using (hmem name).2 h
  unfold add_symbol
  by_cases hl : name.length = 0 ∨ name.length > MAX_LABEL_LENGTH
  · rw [if_pos hl]
  · rw [if_neg hl, if_pos hres]

theorem add_symbol_rejects_reserved_witness :
    add_symbol [⟨"X".toList, 100, SYMBOL_CODE⟩] "r3".toList 7 SYMBOL_DATA
      = (none, [⟨"X".toList, 100, SYMBOL_CODE⟩]) :=
  (add_symbol_rejects_reserved [⟨"X".toList, 100, SYMBOL_CODE⟩] "r3".toList 7 SYMBOL_DATA
    (by decide)).1

/-- C23 as stated fails for `mcro` and `mcroend`: they are not in the list of
`add_symbol`, which accepts them; the source line `.extern mcro` passes the
first pass and leaves the symbol `mcro` in the table. -/
theorem add_symbol_accepts_mcro :
    add_symbol [] "mcro".toList 0 SYMBOL_CODE
      = (some ⟨"mcro".toList, 0, SYMBOL_CODE⟩, [⟨"mcro".toList, 0, SYMBOL_CODE⟩]) ∧
    add_symbol [] "mcroend".toList 0 SYMBOL_CODE
      = (some ⟨"mcroend".toList, 0, SYMBOL_CODE⟩, [⟨"mcroend".toList, 0, SYMBOL_CODE⟩]) ∧
    (first_pass ".extern mcro\n".toList [] zero_image [] []).1 = 0 ∧
    (first_pass_fresh ".extern mcro\n".toList).sym_table
      = [⟨"mcro".toList, 0, SYMBOL_EXTERNAL⟩] := by
  refine ⟨by decide, by decide, by decide, by decide⟩

/-! ## Length and uniqueness of symbol names (C24, C25) -/

/-- C24 (symbol name length limit), the code at the failing input: a name of
31 characters is longer than 30, yet `add_symbol` accepts it (its test is
`name_len > MAX_LABEL_LENGTH` with `MAX_LABEL_LENGTH` = 31) and stores its first
30 characters, so `find_symbol` with the name just added finds nothing. The
line `.extern` with that name passes the first pass, and `jmp` to it is an
undefined symbol in the second pass; with the 30-character name both passes
succeed. A label of 31 characters is refused by `consume_label_prefix`. -/
theorem name_of_31_characters_accepted :
    NAME31.length = 31 ∧ NAME30 = NAME31.take 30 ∧
    add_symbol [] NAME31 5 SYMBOL_CODE
      = (some ⟨NAME30, 5, SYMBOL_CODE⟩, [⟨NAME30, 5, SYMBOL_CODE⟩]) ∧
    find_symbol (add_symbol [] NAME31 5 SYMBOL_CODE).2 NAME31 = none ∧
    (first_pass (".extern ".toList ++ NAME31 ++ "\n".toList) [] zero_image [] []).1 = 0 ∧
    (first_pass_fresh (".extern ".toList ++ NAME31 ++ "\n".toList)).sym_table
      = [⟨NAME30, 0, SYMBOL_EXTERNAL⟩] ∧
    (assemble (fun _ => true) "f".toList
        (".extern ".toList ++ NAME31 ++ "\njmp ".toList ++ NAME31 ++ "\n".toList)).map
      (fun r => r.ret) = some 1 ∧
    (assemble (fun _ => true) "f".toList
        (".extern ".toList ++ NAME30 ++ "\njmp ".toList ++ NAME30 ++ "\n".toList)).map
      (fun r => r.ret) = some 0 ∧
    consume_label_prefix (sanitize_line (NAME31 ++ ": stop\n".toList))
      = (" stop".toList, none) := by
  refine ⟨by decide, by decide, by decide, by decide, by decide, by decide, by decide,
    by decide, by decide⟩

/-- C25 (symbol names are unique), the code at the failing input: two names of
31 characters with the same first 30 characters are both accepted, because the
second is looked up by its full text, and both are stored as the same 30
characters; the table then holds two symbols with the same stored name. The
source with the two `.extern` lines passes the first pass. -/
theorem truncated_names_collide :
    NAME31 ≠ NAME31_OTHER ∧
    (add_symbol (add_symbol [] NAME31 5 SYMBOL_CODE).2 NAME31_OTHER 6 SYMBOL_DATA).2
      = [⟨NAME30, 6, SYMBOL_DATA⟩, ⟨NAME30, 5, SYMBOL_CODE⟩] ∧
    (add_symbol (add_symbol [] NAME30 5 SYMBOL_CODE).2 NAME31 6 SYMBOL_DATA).2
      = [⟨NAME30, 6, SYMBOL_DATA⟩, ⟨NAME30, 5, SYMBOL_CODE⟩] ∧
    (first_pass (".extern ".toList ++ NAME31 ++ "\n.extern ".toList ++ NAME31_OTHER
        ++ "\n".toList) [] zero_image [] []).1 = 0 ∧
    (first_pass_fresh (".extern ".toList ++ NAME31 ++ "\n.extern ".toList ++ NAME31_OTHER
        ++ "\n".toList)).sym_table
      = [⟨NAME30, 0, SYMBOL_EXTERNAL⟩, ⟨NAME30, 0, SYMBOL_EXTERNAL⟩] := by
  refine ⟨by decide, by decide, by decide, by decide, by decide⟩

/-! ## Names inserted by `.extern` (C26) -/

/-- C26 (symbol names are well formed), the code at the failing input: the
operand of `.extern` goes to `add_symbol` unchecked, so `.extern 1x` passes the
first pass without an error and leaves the symbol `1x`, which
`check_label_legality` refuses as a label; `.extern a b` leaves a symbol whose
name contains a blank. Both passes succeed on `.extern 1x` followed by
`jmp 1x`. -/
theorem extern_name_not_checked :
    check_label_legality "1x".toList = false ∧
    (first_pass ".extern 1x\n".toList [] zero_image [] []).1 = 0 ∧
    (first_pass_fresh ".extern 1x\n".toList).error_count = 0 ∧
    (first_pass_fresh ".extern 1x\n".toList).sym_table
      = [⟨"1x".toList, 0, SYMBOL_EXTERNAL⟩] ∧
    (first_pass ".extern a b\n".toList [] zero_image [] []).1 = 0 ∧
    (first_pass_fresh ".extern a b\n".toList).sym_table
      = [⟨"a b".toList, 0, SYMBOL_EXTERNAL⟩] ∧
    (assemble (fun _ => true) "f".toList ".extern 1x\njmp 1x\n".toList).map
      (fun r => (r.ret, r.ext_file)) = some (0, some ["1x abcbb\n".toList]) := by
  refine ⟨by decide, by decide, by decide, by decide, by decide, by decide, by decide⟩

/-! ## Macro expansion (C27) -/

theorem strtok_rest_length (s delims tok rest : CStr)
    (h : strtok s delims = (some tok, rest)) : rest.length < s.length := by
  unfold strtok at h
  have h1 := (List.dropWhile_sublist (fun x => delims.contains x) (l := s)).length_le
  cases hd : s.dropWhile (fun x => delims.contains x) with
  | nil => rw [hd] at h; cases h
  | cons x xs =>
    rw [hd] at h h1
    simp only [Prod.mk.injEq] at h
    have h2 := (List.dropWhile_sublist (fun y => !delims.contains y) (l := x :: xs)).length_le
    rw [← h.2, List.length_tail]
    simp only [List.length_cons] at h1 h2 ⊢
    omega

theorem strtok_none (s delims : CStr) (p : Option CStr × CStr)
    (h : strtok s delims = p) (h1 : p.1 = none) : p = (none, []) := by
  unfold strtok at h
  cases hd : s.dropWhile (fun x => delims.contains x) with
  | nil => rw [hd] at h; exact h.symm
  | cons x xs => rw [hd] at h; rw [← h] at h1; cases h1

theorem strtok_all_fuel_enough (delims : CStr) :
    ∀ (n m : Nat) (s : CStr), s.length < n → s.length < m →
      strtok_all_fuel delims n s = strtok_all_fuel delims m s := by
  intro n
  induction n with
  | zero => intro m s h; omega
  | succ n ih =>
    intro m s hn hm
    cases m with
    | zero => omega
    | succ m =>
      simp only [strtok_all_fuel]
      rcases hs : strtok s delims with ⟨tok, rest⟩
      cases tok with
      | none => rfl
      | some t =>
        have := strtok_rest_length s delims t rest hs
        simp only []
        rw [ih m rest (by omega) (by omega)]

/-- The words of a line, one `strtok` call at a time. -/
theorem words_unfold (s : CStr) :
    words s = match strtok s BLANKS with
      | (none, _) => []
      | (some tok, rest) => tok :: words rest := by
  have e : words s = strtok_all_fuel BLANKS (s.length + 1) s := rfl
  rw [e, strtok_all_fuel]
  rcases hs : strtok s BLANKS with ⟨tok, rest⟩
  cases tok with
  | none => rfl
  | some t =>
    have := strtok_rest_length s BLANKS t rest hs
    have e2 : words rest = strtok_all_fuel BLANKS (rest.length + 1) rest := rfl
    simp only [e2]
    rw [strtok_all_fuel_enough BLANKS s.length (rest.length + 1) rest (by omega) (by omega)]

theorem words_head (s : CStr) : (words s).head? = (strtok s BLANKS).1 := by
  rw [words_unfold]
  rcases hs : strtok s BLANKS with ⟨tok, rest⟩
  cases tok <;> rfl

theorem words_nil_of_none (s : CStr) (h : (strtok s BLANKS).1 = none) : words s = [] := by
  rw [words_unfold]
  rcases hs : strtok s BLANKS with ⟨tok, rest⟩
  rw [hs] at h
  simp only [] at h
  subst h
  rfl

theorem fgets_loop_prefix (l : CStr) :
    ∀ (rest cur : CStr) (room : Nat), '\n' ∉ l → l.length < room →
      fgets_loop (l ++ rest) cur room = fgets_loop rest (l.reverse ++ cur) (room - l.length) := by
  induction l with
  | nil => intro rest cur room _ _; simp
  | cons c cs ih =>
    intro rest cur room hn hlen
    simp only [List.mem_cons, not_or] at hn
    simp only [List.length_cons] at hlen
    have hc : ¬ (c = '\n' ∨ room ≤ 1) := by
      intro h
      rcases h with h | h
      · exact hn.1 h.symm
      · omega
    have e := ih rest (c :: cur) (room - 1) hn.2 (by omega)
    have e2 : room - 1 - cs.length = room - (cs.length + 1) := by omega
    simp only [List.cons_append, fgets_loop, if_neg hc, List.reverse_cons, List.append_assoc,
      List.singleton_append, List.length_cons]
    rw [← e2]
    exact e

theorem fgets_loop_line (l rest : CStr) (hn : '\n' ∉ l) (hlen : l.length ≤ 80) :
    fgets_loop (l ++ '\n' :: rest) [] (MAX_LINE_LENGTH - 1)
      = line_chunks l ++ fgets_loop rest [] (MAX_LINE_LENGTH - 1) := by
  have h80 : MAX_LINE_LENGTH - 1 = 80 := by decide
  rw [h80]
  unfold line_chunks
  by_cases h : l.length = 80
  · rw [if_pos h]
    obtain ⟨l0, x, hl⟩ : ∃ l0 x, l = l0 ++ [x] := by
      cases hl : l.reverse with
      | nil =>
        have : l = [] := by simpa using hl
        rw [this] at h
        simp at h
      | cons x xs =>
        refine ⟨xs.reverse, x, ?_⟩
        have := congrArg List.reverse hl
        simpa using this
    subst hl
    simp only [List.length_append, List.length_singleton] at h
    simp only [List.mem_append, List.mem_singleton, not_or] at hn
    have e : l0 ++ [x] ++ '\n' :: rest = l0 ++ (x :: '\n' :: rest) := by simp
    rw [e, fgets_loop_prefix l0 _ [] 80 hn.1 (by omega)]
    have h1 : 80 - l0.length = 1 := by omega
    rw [h1]
    simp only [List.append_nil, fgets_loop, Nat.le_refl, or_true, if_true, true_or, h80,
      List.reverse_cons, List.reverse_reverse, List.reverse_nil, List.nil_append,
      List.cons_append, List.nil_append]
  · rw [if_neg h, fgets_loop_prefix l _ [] 80 hn (by omega)]
    simp only [List.append_nil, fgets_loop, true_or, if_true, h80, List.reverse_cons,
      List.reverse_reverse, List.singleton_append, List.cons_append, List.nil_append]

/-- The lines that `fgets` delivers for a text of lines of at most 80
characters. -/
theorem fgets_lines_text_of (lines : List CStr)
    (h : ∀ l ∈ lines, '\n' ∉ l ∧ l.length ≤ 80) :
    fgets_lines (text_of lines) = (lines.map line_chunks).flatten := by
  unfold fgets_lines
  induction lines with
  | nil => rfl
  | cons l ls ih =>
    have hl := h l (List.mem_cons_self _ _)
    have e : text_of (l :: ls) = l ++ '\n' :: text_of ls := by
      simp [text_of]
    rw [e, fgets_loop_line l _ hl.1 hl.2, ih (fun x hx => h x (List.mem_cons_of_mem _ hx))]
    simp

theorem text_of_append (a b : List CStr) : text_of (a ++ b) = text_of a ++ text_of b := by
  simp [text_of]

theorem text_of_singleton (l : CStr) : text_of [l] = l ++ ['\n'] := by
  simp [text_of]

/-- The macro that `macro_find` returns has the body of the definition that the
specification looks up. -/
theorem macro_find_spec_body (head : List Macro) :
    ∀ (defined : List (CStr × List CStr)),
      head.map (fun m => (m.name, m.body)) = defined.map (fun d => (d.1, text_of d.2)) →
      ∀ n, (macro_find head n).map (fun m => m.body) = (spec_body defined n).map text_of := by
  induction head with
  | nil =>
    intro defined h n
    cases defined with
    | nil => rfl
    | cons d ds => simp at h
  | cons m ms ih =>
    intro defined h n
    cases defined with
    | nil => simp at h
    | cons d ds =>
      simp only [List.map_cons, List.cons.injEq, Prod.mk.injEq] at h
      obtain ⟨⟨h1, h2⟩, h3⟩ := h
      have := ih ds h3 n
      unfold spec_body at this ⊢
      by_cases hn : n = m.name
      · have hd : d.1 = n := by rw [hn, h1]
        simp [macro_find, hn, List.find?_cons, h1, h2]
      · have hd : ¬ d.1 = n := by rw [← h1]; exact fun e => hn e.symm
        simp only [macro_find, if_neg hn, List.find?_cons, hd, decide_False]
        exact this

theorem macro_find_some_body (head : List Macro) (defined : List (CStr × List CStr))
    (h : head.map (fun m => (m.name, m.body)) = defined.map (fun d => (d.1, text_of d.2)))
    (n : CStr) (m : Macro) (hm : macro_find head n = some m) :
    ∃ body, spec_body defined n = some body ∧ text_of body = m.body := by
  have := macro_find_spec_body head defined h n
  rw [hm] at this
  cases hb : spec_body defined n with
  | none => rw [hb] at this; cases this
  | some body =>
    rw [hb] at this
    simp only [Option.map_some', Option.some.injEq] at this
    exact ⟨body, rfl, this.symm⟩

theorem macro_find_none_body (head : List Macro) (defined : List (CStr × List CStr))
    (h : head.map (fun m => (m.name, m.body)) = defined.map (fun d => (d.1, text_of d.2)))
    (n : CStr) (hm : macro_find head n = none) : spec_body defined n = none := by
  have := macro_find_spec_body head defined h n
  rw [hm] at this
  cases hb : spec_body defined n with
  | none => rfl
  | some body => rw [hb] at this; cases this

theorem macro_scan_line_newline (st : ScanState) :
    macro_scan_line ['\n'] st = (true, { st with line_number := st.line_number + 1 }) := by
  rfl

theorem macro_scan_line_strip (l : CStr) (st : ScanState) (hn : '\n' ∉ l) :
    macro_scan_line (l ++ ['\n']) st = macro_scan_line l st := by
  unfold macro_scan_line
  rw [cut_at_append l [] '\n' hn, cut_at_not_mem l '\n' hn]

theorem scan_rel_next_line (st : ScanState) (defined : List (CStr × List CStr))
    (cur : Option (CStr × List CStr)) (h : scan_rel st defined cur) :
    scan_rel { st with line_number := st.line_number + 1 } defined cur := h

theorem end_macro_definition_some (name body : CStr) (start : Int) (head head1 : List Macro)
    (h : end_macro_definition name body start head = some head1) :
    head1 = head ++ [⟨name, body, start⟩] := by
  unfold end_macro_definition macro_create at h
  by_cases hd : macro_is_already_defined head name = true
  · simp [hd] at h
  · simp only [hd, Bool.false_eq_true, if_false, macro_push, Option.some.injEq] at h
    exact h.symm

/-- One line inside a definition. -/
theorem scan_line_sim_inside (l : CStr) (st st1 : ScanState)
    (defined : List (CStr × List CStr)) (name : CStr) (body : List CStr)
    (hn : '\n' ∉ l) (hw : words l ≠ [])
    (hrel : scan_rel st defined (some (name, body)))
    (h : macro_scan_line l st = (true, st1)) :
    ∃ defined1 cur1, scan_rel st1 defined1 cur1 ∧ st1.out = st.out ∧
      ∀ rest, spec_expand true (l :: rest) defined (some (name, body))
        = spec_expand true rest defined1 cur1 := by
  obtain ⟨hmap, hin, hname, hbody⟩ := hrel
  have hhead := words_head l
  rcases hs : strtok l BLANKS with ⟨tok, rest1⟩
  rw [hs] at hhead
  cases tok with
  | none => exact absurd (words_nil_of_none l (by rw [hs])) hw
  | some token =>
    simp only [] at hhead
    unfold macro_scan_line at h
    simp only [cut_at_not_mem l '\n' hn, hs, hin, if_true] at h
    by_cases hend : token = MACRO_END_DIRECTIVE
    · rw [if_pos hend] at h
      by_cases hx : has_extra_after_macro l = true
      · rw [if_pos hx] at h
        simp at h
      · rw [if_neg hx] at h
        cases he : end_macro_definition st.macro_name st.body st.start_line st.head with
        | none => rw [he] at h; simp at h
        | some head1 =>
          rw [he] at h
          simp only [Prod.mk.injEq, true_and] at h
          have h1 := end_macro_definition_some _ _ _ _ _ he
          refine ⟨defined ++ [(name, body)], none, ?_, ?_, ?_⟩
          · rw [← h]
            refine ⟨?_, rfl, rfl⟩
            simp only [h1, List.map_append, hmap, List.map_cons, List.map_nil, hname, hbody]
          · rw [← h]
          · intro rest
            simp only [spec_expand, hhead, hend, if_true]
    · rw [if_neg hend] at h
      simp only [Prod.mk.injEq, true_and] at h
      refine ⟨defined, some (name, body ++ [l]), ?_, ?_, ?_⟩
      · rw [← h]
        refine ⟨hmap, rfl, hname, ?_⟩
        simp only [append_body_line, hbody, text_of_append, text_of_singleton,
          List.append_assoc]
      · rw [← h]
      · intro rest
        have : ¬ (some token = some MACRO_END_DIRECTIVE) := by
          intro e
          exact hend (Option.some.inj e)
        simp only [spec_expand, hhead, this, if_false]

/-- A line that the specification's expansion copies. -/
theorem spec_expand_copy (l : CStr) (rest : List CStr) (defined : List (CStr × List CStr))
    (h1 : (words l).head? ≠ some MACRO_START_DIRECTIVE)
    (h2 : ∀ m, words l = [m] → spec_body defined m = none)
    (h3 : ∀ lab m, words l = [lab, m] →
      spec_body defined m = none ∨ ¬ (lab.length > 1 ∧ lab.getLast? = some ':')) :
    spec_expand true (l :: rest) defined none
      = l ++ ['\n'] ++ spec_expand true rest defined none := by
  rw [spec_expand, if_neg h1]
  split
  · next m hw => rw [h2 m hw]
  · next lab m hw =>
    rcases h3 lab m hw with h | h
    · rw [h]
    · cases hb : spec_body defined m with
      | none => rfl
      | some body =>
        simp only []
        rw [if_neg]
        intro hc
        exact h hc.2
  · rfl

/-- One line outside a definition. -/
theorem scan_line_sim_outside (l : CStr) (st st1 : ScanState)
    (defined : List (CStr × List CStr))
    (hn : '\n' ∉ l) (hw : words l ≠ [])
    (hrel : scan_rel st defined none)
    (h : macro_scan_line l st = (true, st1)) :
    ∃ defined1 cur1 emitted, scan_rel st1 defined1 cur1 ∧ st1.out = st.out ++ emitted ∧
      ∀ rest, spec_expand true (l :: rest) defined none
        = emitted ++ spec_expand true rest defined1 cur1 := by
  obtain ⟨hmap, hin, hbody⟩ := hrel
  have hwords := words_unfold l
  rcases hs : strtok l BLANKS with ⟨tok, rest1⟩
  rw [hs] at hwords
  cases tok with
  | none => exact absurd (words_nil_of_none l (by rw [hs])) hw
  | some token =>
    simp only [] at hwords
    have hwords1 := words_unfold rest1
    simp only [macro_scan_line, cut_at_not_mem l '\n' hn, hs, hin, Bool.false_eq_true,
      if_false] at h
    by_cases hstart : token = MACRO_START_DIRECTIVE
    · rw [if_pos hstart] at h
      cases hb : begin_macro_definition l (st.line_number + 1) st.head with
      | none => rw [hb] at h; simp at h
      | some p =>
        obtain ⟨nm, start⟩ := p
        rw [hb] at h
        simp only [Prod.mk.injEq, true_and] at h
        simp only [begin_macro_definition, hs] at hb
        rcases hs2 : strtok rest1 BLANKS with ⟨tok2, rest2⟩
        rw [hs2] at hb hwords1
        cases tok2 with
        | none => simp at hb
        | some t2 =>
          simp only [] at hb hwords1
          have hnm : nm = t2 := by
            split at hb
            · cases hb
            · split at hb
              · cases hb
              · split at hb
                · cases hb
                · simp only [Option.some.injEq, Prod.mk.injEq] at hb
                  exact hb.1.symm
          refine ⟨defined, some (nm, []), [], ?_, ?_, ?_⟩
          · rw [← h]
            exact ⟨hmap, rfl, rfl, hbody⟩
          · rw [← h]; simp
          · intro rest
            have e : (words l).head? = some MACRO_START_DIRECTIVE := by
              rw [hwords, hstart]; rfl
            have e2 : (words l).getD 1 [] = nm := by
              rw [hwords, hwords1, hnm]; rfl
            rw [spec_expand, if_pos e, e2]
            rfl
    · rw [if_neg hstart] at h
      have hne : (words l).head? ≠ some MACRO_START_DIRECTIVE := by
        rw [hwords]
        intro e
        exact hstart (Option.some.inj e)
      by_cases hend : token = MACRO_END_DIRECTIVE
      · rw [if_pos hend] at h
        simp at h
      · rw [if_neg hend] at h
        simp only [Prod.mk.injEq] at h
        obtain ⟨hok, hst⟩ := h
        have hcopy : ∀ d1, (∀ m, words l = [m] → spec_body defined m = none) →
            (∀ lab m, words l = [lab, m] →
              spec_body defined m = none ∨ ¬ (lab.length > 1 ∧ lab.getLast? = some ':')) →
            expand_macro_or_emit_line l token st.out st.head (st.line_number + 1)
              = (true, st.out ++ l ++ ['\n']) → d1 = defined →
            ∃ defined1 cur1 emitted, scan_rel st1 defined1 cur1 ∧
              st1.out = st.out ++ emitted ∧
              ∀ rest, spec_expand true (l :: rest) defined none
                = emitted ++ spec_expand true rest defined1 cur1 := by
          intro d1 h2 h3 he _
          refine ⟨defined, none, l ++ ['\n'], ?_, ?_, ?_⟩
          · rw [← hst]
            exact ⟨hmap, rfl, hbody⟩
          · rw [← hst, he]
            simp
          · intro rest
            exact spec_expand_copy l rest defined hne h2 h3
        unfold expand_macro_or_emit_line at hok hst hcopy
        simp only [hs] at hok hst hcopy
        rcases hs2 : strtok rest1 BLANKS with ⟨tok2, rest2⟩
        rw [hs2] at hwords1
        cases hf : macro_find st.head token with
        | some m =>
          rw [hf] at hok hst
          simp only [ has_extra_after_macro, hs, hs2] at hok hst
          cases tok2 with
          | some t2 => simp at hok
          | none =>
            simp only [] at hwords1
            rw [hwords1] at hwords
            simp only [Option.isSome_none, Bool.false_eq_true, if_false] at hok hst
            by_cases hl : m.line_number > st.line_number + 1
            · rw [if_pos hl] at hok
              simp at hok
            · rw [if_neg hl] at hst
              obtain ⟨body, hb1, hb2⟩ := macro_find_some_body st.head defined hmap token m hf
              refine ⟨defined, none, m.body, ?_, ?_, ?_⟩
              · rw [← hst]
                exact ⟨hmap, rfl, hbody⟩
              · rw [← hst]
              · intro rest
                rw [spec_expand, if_neg hne, hwords]
                simp only [hb1, hb2]
        | none =>
          have hnone := macro_find_none_body st.head defined hmap token hf
          rw [hf] at hok hst hcopy
          simp only [] at hok hst hcopy
          have h2 : ∀ m, words l = [m] → spec_body defined m = none := by
            intro m hm
            rw [hwords] at hm
            simp only [List.cons.injEq] at hm
            rw [← hm.1]
            exact hnone
          by_cases hlab : token.length > 1 ∧ token.getLast? = some ':'
          · rw [if_pos hlab] at hok hst hcopy
            rw [hs2] at hok hst hcopy
            cases tok2 with
            | none =>
              simp only [] at hwords1
              rw [hwords1] at hwords
              refine hcopy defined h2 ?_ rfl rfl
              intro lab m hm
              rw [hwords] at hm
              simp at hm
            | some t2 =>
              simp only [] at hwords1 hok hst hcopy
              rw [hwords1] at hwords
              cases hf2 : macro_find st.head t2 with
              | none =>
                rw [hf2] at hcopy
                refine hcopy defined h2 ?_ rfl rfl
                intro lab m hm
                rw [hwords] at hm
                simp only [List.cons.injEq] at hm
                left
                rw [← hm.2.1]
                exact macro_find_none_body st.head defined hmap t2 hf2
              | some m =>
                rw [hf2] at hok hst
                simp only [] at hok hst
                have hw2 := words_unfold rest2
                rcases hs3 : strtok rest2 BLANKS with ⟨tok3, rest3⟩
                rw [hs3] at hok hst hw2
                cases tok3 with
                | some t3 => simp at hok
                | none =>
                  simp only [] at hw2
                  rw [hw2] at hwords
                  simp only [Option.isSome_none, Bool.false_eq_true, if_false] at hok hst
                  by_cases hl : m.line_number > st.line_number + 1
                  · rw [if_pos hl] at hok
                    simp at hok
                  · rw [if_neg hl] at hst
                    obtain ⟨body, hb1, hb2⟩ :=
                      macro_find_some_body st.head defined hmap t2 m hf2
                    refine ⟨defined, none, token ++ [' '] ++ m.body, ?_, ?_, ?_⟩
                    · rw [← hst]
                      exact ⟨hmap, rfl, hbody⟩
                    · rw [← hst]
                      simp
                    · intro rest
                      rw [spec_expand, if_neg hne, hwords]
                      simp only [hb1, hb2]
                      rw [if_pos ⟨trivial, hlab⟩]
          · rw [if_neg hlab] at hcopy
            refine hcopy defined h2 ?_ rfl rfl
            intro lab m hm
            rw [hwords] at hm
            simp only [List.cons.injEq] at hm
            right
            rw [← hm.1]
            exact hlab

/-- One line in either state. -/
theorem scan_line_sim (l : CStr) (st st1 : ScanState)
    (defined : List (CStr × List CStr)) (cur : Option (CStr × List CStr))
    (hn : '\n' ∉ l) (hw : words l ≠ [])
    (hrel : scan_rel st defined cur)
    (h : macro_scan_line l st = (true, st1)) :
    ∃ defined1 cur1 emitted, scan_rel st1 defined1 cur1 ∧ st1.out = st.out ++ emitted ∧
      ∀ rest, spec_expand true (l :: rest) defined cur
        = emitted ++ spec_expand true rest defined1 cur1 := by
  cases cur with
  | none => exact scan_line_sim_outside l st st1 defined hn hw hrel h
  | some p =>
    obtain ⟨name, body⟩ := p
    obtain ⟨d1, c1, h1, h2, h3⟩ := scan_line_sim_inside l st st1 defined name body hn hw hrel h
    refine ⟨d1, c1, [], h1, ?_, ?_⟩
    · rw [h2]; simp
    · intro rest
      rw [h3 rest]
      rfl

/-- The loop over the reads of one line and then the remaining reads. -/
theorem macro_scan_loop_chunks (l : CStr) (tail : List CStr) (st r : ScanState)
    (hn : '\n' ∉ l)
    (h : macro_scan_loop (line_chunks l ++ tail) st = (true, r)) :
    ∃ st1 st2, macro_scan_line l st = (true, st1) ∧
      st2.out = st1.out ∧ (∀ d c, scan_rel st1 d c → scan_rel st2 d c) ∧
      macro_scan_loop tail st2 = (true, r) := by
  unfold line_chunks at h
  by_cases h80 : l.length = 80
  · rw [if_pos h80] at h
    simp only [List.cons_append, List.nil_append, macro_scan_loop] at h
    rcases hl : macro_scan_line l st with ⟨b, st1⟩
    rw [hl] at h
    cases b with
    | false => simp at h
    | true =>
      simp only [macro_scan_line_newline] at h
      exact ⟨st1, { st1 with line_number := st1.line_number + 1 }, rfl, rfl,
        fun d c hr => scan_rel_next_line st1 d c hr, h⟩
  · rw [if_neg h80] at h
    simp only [List.cons_append, List.nil_append, macro_scan_loop,
      macro_scan_line_strip l st hn] at h
    rcases hl : macro_scan_line l st with ⟨b, st1⟩
    rw [hl] at h
    cases b with
    | false => simp at h
    | true => exact ⟨st1, st1, rfl, rfl, fun _ _ hr => hr, h⟩

/-- The loop of `macro_scan` over the reads of a list of lines follows the
expansion. -/
theorem macro_scan_loop_sim :
    ∀ (lines : List CStr) (st r : ScanState) (defined : List (CStr × List CStr))
      (cur : Option (CStr × List CStr)),
      (∀ l ∈ lines, '\n' ∉ l ∧ l.length ≤ 80 ∧ words l ≠ []) →
      scan_rel st defined cur →
      macro_scan_loop (lines.map line_chunks).flatten st = (true, r) →
      r.out = st.out ++ spec_expand true lines defined cur := by
  intro lines
  induction lines with
  | nil =>
    intro st r defined cur _ _ h
    simp only [List.map_nil, List.flatten_nil, macro_scan_loop, Prod.mk.injEq] at h
    rw [← h.2]
    simp [spec_expand]
  | cons l rest ih =>
    intro st r defined cur hl hrel h
    have hl1 := hl l (List.mem_cons_self _ _)
    simp only [List.map_cons, List.flatten_cons] at h
    obtain ⟨st1, st2, h1, h2, h3, h4⟩ := macro_scan_loop_chunks l _ st r hl1.1 h
    obtain ⟨d1, c1, emitted, hr1, ho1, hs1⟩ :=
      scan_line_sim l st st1 defined cur hl1.1 hl1.2.2 hrel h1
    have := ih st2 r d1 c1 (fun x hx => hl x (List.mem_cons_of_mem _ hx)) (h3 d1 c1 hr1) h4
    rw [this, h2, ho1, hs1 rest, List.append_assoc]

/-- C27 (as amended). For a text of lines that hold no newline, are at most 80
characters long and have at least one word, in which every name after `mcro`
fits the buffer for it, whenever `macro_scan` accepts the text, its output is
the expansion line by line: the `mcro`, body and `mcroend` lines of a
definition produce nothing; a line that is only the name of a macro defined
before it produces the body, which is the lines of the definition in order,
each with one newline, and is not scanned again; a line of two words, a label
ending in a colon and the name of a macro defined before it, produces the label,
one space and the body; every other line is copied with one newline. -/
theorem macro_expansion (lines : List CStr) (out : CStr) (head : List Macro)
    (hlines : ∀ l ∈ lines, '\n' ∉ l ∧ l.length ≤ 80 ∧ words l ≠ [])
    (_hnames : ∀ l ∈ lines, (words l).head? = some MACRO_START_DIRECTIVE →
      ((words l).getD 1 []).length < MAX_LABEL_LENGTH)
    (h : macro_scan (text_of lines) = (true, out, head)) :
    out = spec_expand true lines [] none := by
  unfold macro_scan at h
  rw [fgets_lines_text_of lines (fun l hl => ⟨(hlines l hl).1, (hlines l hl).2.1⟩)] at h
  simp only [Prod.mk.injEq] at h
  obtain ⟨h1, h2, _⟩ := h
  rcases hr : macro_scan_loop (lines.map line_chunks).flatten
    { out := [], head := [], macro_name := [], body := [], line_number := 0,
      start_line := 0, inside_macro := false } with ⟨b, r⟩
  rw [hr] at h1 h2
  simp only [] at h1 h2
  subst h1
  have hrel : scan_rel
      { out := [], head := [], macro_name := [], body := [], line_number := 0,
        start_line := 0, inside_macro := false } [] none := ⟨rfl, rfl, rfl⟩
  have := macro_scan_loop_sim lines _ r [] none hlines hrel hr
  rw [← h2, this]
  rfl

theorem macro_expansion_witness :
    (macro_scan (text_of EXPANSION_EXAMPLE)).1 = true ∧
    (macro_scan (text_of EXPANSION_EXAMPLE)).2.1 = spec_expand true EXPANSION_EXAMPLE [] none ∧
    spec_expand true EXPANSION_EXAMPLE [] none = "L: inc r1\nM\ninc r1\nM\nstop\n".toList :=
  ⟨by decide,
   macro_expansion EXPANSION_EXAMPLE _ (macro_scan (text_of EXPANSION_EXAMPLE)).2.2
     (by decide) (by decide) (by decide),
   by decide⟩

/-- C27 (counterexample). The cleaned source `mcro M`, `inc r1`, `mcroend`,
`L: M` is accepted by `macro_scan`; its last line is not the name of a macro
alone, so the stated expansion copies it, while the output is `L: inc r1`. -/
theorem label_call_not_in_stated_expansion :
    cleanup_file "mcro M\ninc r1\nmcroend\nL: M\n".toList
      = "mcro M\ninc r1\nmcroend\nL: M\n".toList ∧
    (macro_scan "mcro M\ninc r1\nmcroend\nL: M\n".toList).1 = true ∧
    (macro_scan "mcro M\ninc r1\nmcroend\nL: M\n".toList).2.1 = "L: inc r1\n".toList ∧
    spec_expand false ["mcro M".toList, "inc r1".toList, "mcroend".toList, "L: M".toList]
      [] none = "L: M\n".toList := by
  decide

/-! ## Label-prefixed macro calls (C28) -/

theorem join_values_cons (sep t : CStr) (more : List CStr) (hsep : sep ≠ []) :
    ∃ r, join_values sep (t :: more) = t ++ r ∧
      ∀ c, r.head? = some c → sep.head? = some c := by
  cases more with
  | nil => exact ⟨[], by simp [join_values], by simp⟩
  | cons t2 ts =>
    refine ⟨sep ++ join_values sep (t2 :: ts), by simp [join_values], ?_⟩
    intro c hc
    cases sep with
    | nil => exact absurd rfl hsep
    | cons d ds => simpa using hc

/-- The first two `strtok` calls on a line that starts with two words. -/
theorem strtok_two_words (delims sep a b r : CStr)
    (hsep : sep ≠ [] ∧ ∀ c ∈ sep, delims.contains c = true)
    (ha : a ≠ [] ∧ ∀ c ∈ a, delims.contains c = false)
    (hb : b ≠ [] ∧ ∀ c ∈ b, delims.contains c = false)
    (hr : ∀ c, r.head? = some c → delims.contains c = true) :
    strtok (a ++ sep ++ (b ++ r)) delims = (some a, sep.tail ++ (b ++ r)) ∧
    strtok (sep.tail ++ (b ++ r)) delims = (some b, r.tail) := by
  cases sep with
  | nil => exact absurd rfl hsep.1
  | cons d ds =>
    constructor
    · have h := strtok_token delims [] a (d :: ds ++ (b ++ r)) (by simp) ha.1 ha.2 (by
        intro c hc
        simp only [List.cons_append, List.head?_cons, Option.some.injEq] at hc
        rw [← hc]
        exact hsep.2 d (List.mem_cons_self _ _))
      simpa using h
    · exact strtok_token delims ds b r (fun c hc => hsep.2 c (List.mem_cons_of_mem _ hc))
        hb.1 hb.2 hr

/-- C28 (label-prefixed macro call), as amended: for a line of exactly two
words `L: M`, where the first word ends in `:`, has more than one character
and is not itself the name of a macro in the list, and M is the name of a macro
in the list that was defined on an earlier line, `expand_macro_or_emit_line`
succeeds and writes the first word, one space and the body of M, and nothing
else; when a third word follows, it fails and writes nothing. For the input
`mcro M`, `inc r1`, `mcroend`, `L: M` the output of `macro_scan` is
`L: inc r1`. -/
theorem label_macro_call (lab m sep out : CStr) (head : List Macro) (line_num : Int)
    (mac : Macro)
    (hlab : lab.length > 1 ∧ lab.getLast? = some ':' ∧ ∀ c ∈ lab, c ∉ BLANKS)
    (hm : m ≠ [] ∧ ∀ c ∈ m, c ∉ BLANKS)
    (hsep : sep ≠ [] ∧ ∀ c ∈ sep, c ∈ BLANKS)
    (hnot : macro_find head lab = none)
    (hfind : macro_find head m = some mac)
    (hdef : mac.line_number ≤ line_num) :
    expand_macro_or_emit_line (join_values sep [lab, m]) lab out head line_num
      = (true, out ++ lab ++ [' '] ++ mac.body) ∧
    (∀ (third : CStr) (more : List CStr), third ≠ [] → (∀ c ∈ third, c ∉ BLANKS) →
      expand_macro_or_emit_line (join_values sep (lab :: m :: third :: more)) lab out head
        line_num = (false, out)) ∧
    macro_scan "mcro M\ninc r1\nmcroend\nL: M\n".toList
      = (true, "L: inc r1\n".toList, [⟨"M".toList, "inc r1\n".toList, 1⟩]) ∧
    (macro_scan "mcro M\ninc r1\nmcroend\nL: M x\n".toList).1 = false := by
  have hsep2 : sep ≠ [] ∧ ∀ c ∈ sep, BLANKS.contains c = true :=
    ⟨hsep.1, fun c hc => by simpa using hsep.2 c hc⟩
  have hlab2 : lab ≠ [] ∧ ∀ c ∈ lab, BLANKS.contains c = false := by
    refine ⟨?_, fun c hc => by simpa using hlab.2.2 c hc⟩
    intro h
    rw [h] at hlab
    simp at hlab
  have hm2 : m ≠ [] ∧ ∀ c ∈ m, BLANKS.contains c = false :=
    ⟨hm.1, fun c hc => by simpa using hm.2 c hc⟩
  refine ⟨?_, ?_, by decide, by decide⟩
  · obtain ⟨s1, s2⟩ := strtok_two_words BLANKS sep lab m [] hsep2 hlab2 hm2 (by simp)
    have e : join_values sep [lab, m] = lab ++ sep ++ (m ++ []) := by simp [join_values]
    unfold expand_macro_or_emit_line
    simp only [hnot, e, s1, s2, hfind, List.tail_nil]
    rw [if_pos ⟨hlab.1, hlab.2.1⟩]
    have e3 : (strtok [] BLANKS).1 = none := by decide
    simp only [e3, Option.isSome_none, Bool.false_eq_true, if_false]
    rw [if_neg (by omega)]
  · intro third more ht1 ht2
    have ht : third ≠ [] ∧ ∀ c ∈ third, BLANKS.contains c = false :=
      ⟨ht1, fun c hc => by simpa using ht2 c hc⟩
    obtain ⟨r3, hr3, hr3h⟩ := join_values_cons sep third more hsep.1
    have hsephead : ∀ c, sep.head? = some c → BLANKS.contains c = true := by
      intro c hc
      cases sep with
      | nil => simp at hc
      | cons d ds =>
        simp only [List.head?_cons, Option.some.injEq] at hc
        rw [← hc]
        exact hsep2.2 d (List.mem_cons_self _ _)
    have hr : ∀ c, (sep ++ (third ++ r3)).head? = some c → BLANKS.contains c = true := by
      intro c hc
      cases sep with
      | nil => exact absurd rfl hsep.1
      | cons d ds =>
        simp only [List.cons_append, List.head?_cons, Option.some.injEq] at hc
        rw [← hc]
        exact hsep2.2 d (List.mem_cons_self _ _)
    obtain ⟨s1, s2⟩ := strtok_two_words BLANKS sep lab m (sep ++ (third ++ r3)) hsep2 hlab2
      hm2 hr
    have s3 : (strtok (sep ++ (third ++ r3)).tail BLANKS).1 = some third := by
      cases sep with
      | nil => exact absurd rfl hsep.1
      | cons d ds =>
        simp only [List.cons_append, List.tail_cons]
        rw [strtok_token BLANKS ds third r3
          (fun c hc => hsep2.2 c (List.mem_cons_of_mem _ hc)) ht.1 ht.2
          (fun c hc => hsephead c (hr3h c hc))]
    have e : join_values sep (lab :: m :: third :: more)
        = lab ++ sep ++ (m ++ (sep ++ (third ++ r3))) := by
      simp only [join_values] at hr3 ⊢
      rw [hr3]
      simp
    unfold expand_macro_or_emit_line
    simp only [hnot, e, s1, s2, hfind, s3]
    rw [if_pos ⟨hlab.1, hlab.2.1⟩]
    simp

theorem label_macro_call_witness :
    expand_macro_or_emit_line (join_values " ".toList ["L:".toList, "M".toList]) "L:".toList
        "stop\n".toList [⟨"M".toList, "inc r1\n".toList, 1⟩] 4
      = (true, "stop\n".toList ++ "L:".toList ++ [' '] ++ "inc r1\n".toList) :=
  (label_macro_call "L:".toList "M".toList " ".toList "stop\n".toList
    [⟨"M".toList, "inc r1\n".toList, 1⟩] 4 ⟨"M".toList, "inc r1\n".toList, 1⟩
    (by decide) (by decide) (by decide) (by decide) (by decide) (by decide)).1

/-- C28 as stated fails when the first word is itself the name of a macro:
after the definitions of the macros `L:` and `M`, the line `L: M` is taken for
a call of `L:` with extra text, and `macro_scan` fails; `preprocess_file`
returns 1 on that source. -/
theorem label_that_is_a_macro_name :
    macro_scan "mcro L:\ninc r1\nmcroend\nmcro M\ndec r1\nmcroend\nL: M\n".toList
      = (false, [], [⟨"L:".toList, "inc r1\n".toList, 1⟩, ⟨"M".toList, "dec r1\n".toList, 4⟩]) ∧
    expand_macro_or_emit_line "L: M".toList "L:".toList []
        [⟨"L:".toList, "inc r1\n".toList, 1⟩, ⟨"M".toList, "dec r1\n".toList, 4⟩] 7
      = (false, []) ∧
    (preprocess_file "mcro L:\ninc r1\nmcroend\nmcro M\ndec r1\nmcroend\nL: M\n".toList).1
      = 1 := by
  refine ⟨by decide, by decide, by decide⟩

/-! ## Macro calls before the declaration and reserved macro names (C29, C30) -/

/-- C29 (macro call before declaration), the code at the failing input: in
the input `M`, `mcro M`, `inc r1`, `mcroend` the line `M` comes before the
definition of M. When it is read no macro M is in the list, so it is copied to
the output as an ordinary line, the definition is then accepted, and
`macro_scan` returns true with the output `M`; the test
`m->line_number > line_num` of `expand_macro_or_emit_line` is only reached for
a macro that is already in the list. -/
theorem call_before_declaration_accepted :
    macro_scan "M\nmcro M\ninc r1\nmcroend\n".toList
      = (true, "M\n".toList, [⟨"M".toList, "inc r1\n".toList, 2⟩]) ∧
    cleanup_file "M\nmcro M\ninc r1\nmcroend\n".toList = "M\nmcro M\ninc r1\nmcroend\n".toList ∧
    preprocess_file "M\nmcro M\ninc r1\nmcroend\n".toList = (0, "M\n".toList) ∧
    expand_macro_or_emit_line "M".toList "M".toList [] [] 1 = (true, "M\n".toList) := by
  refine ⟨by decide, by decide, by decide, by decide⟩

/-- C30 (macro names may not be reserved words), the code at the failing
input: `is_illegal_name` knows only `mcro`, `mcroend`, `mov`, `add`, `sub`, `stop`
and four directive names with their dot, so the definition line `mcro cmp` is
accepted, the macro `cmp` is stored, and a later line `cmp` is expanded. Of the
31 reserved words 25 are accepted as macro names; `mcro mov` fails. -/
theorem reserved_macro_name_accepted :
    is_illegal_name "cmp".toList = false ∧
    begin_macro_definition "mcro cmp".toList 1 [] = some ("cmp".toList, 1) ∧
    macro_scan "mcro cmp\ninc r1\nmcroend\ncmp\n".toList
      = (true, "inc r1\n".toList, [⟨"cmp".toList, "inc r1\n".toList, 1⟩]) ∧
    preprocess_file "mcro cmp\ninc r1\nmcroend\ncmp\n".toList = (0, "inc r1\n".toList) ∧
    (MNEMONICS ++ REGISTER_NAMES ++ DIRECTIVE_NAMES
        ++ ["mcro".toList, "mcroend".toList]).length = 31 ∧
    (MNEMONICS ++ REGISTER_NAMES ++ DIRECTIVE_NAMES ++ ["mcro".toList, "mcroend".toList]).filter
        (fun w => is_illegal_name w)
      = ["mov".toList, "add".toList, "sub".toList, "stop".toList, "mcro".toList,
         "mcroend".toList] ∧
    begin_macro_definition "mcro mov".toList 1 [] = none ∧
    (macro_scan "mcro mov\ninc r1\nmcroend\n".toList).1 = false := by
  refine ⟨by decide, by decide, by decide, by decide, by decide, by decide, by decide,
    by decide⟩

/-! ## Duplicate macros (C31) -/

theorem macro_find_none_iff (head : List Macro) (name : CStr) :
    macro_find head name = none ↔ name ∉ head.map (fun m => m.name) := by
  induction head with
  | nil => simp [macro_find]
  | cons m rest ih =>
    unfold macro_find
    by_cases h : name = m.name
    · simp [h]
    · simp only [h, if_false, ih, List.map_cons, List.mem_cons, false_or]

/-- The list of macros keeps its names distinct over one line read. -/
theorem macro_scan_line_nodup (raw : CStr) (st : ScanState)
    (h : (st.head.map (fun m => m.name)).Nodup) :
    ((macro_scan_line raw st).2.head.map (fun m => m.name)).Nodup := by
  unfold macro_scan_line
  simp only []
  split
  · exact h
  · split
    · split
      · split
        · exact h
        · split
          · exact h
          · rename_i head1 he
            have h1 := end_macro_definition_some _ _ _ _ _ he
            simp only []
            rw [h1, List.map_append, List.map_cons, List.map_nil]
            unfold end_macro_definition macro_create at he
            by_cases hd : macro_is_already_defined st.head st.macro_name = true
            · simp [hd] at he
            · unfold macro_is_already_defined at hd
              have hn : macro_find st.head st.macro_name = none := by
                cases hf : macro_find st.head st.macro_name with
                | none => rfl
                | some m => rw [hf] at hd; simp at hd
              have hnot := (macro_find_none_iff _ _).1 hn
              rw [List.nodup_append]
              refine ⟨h, List.nodup_singleton _, ?_⟩
              intro a ha hb
              simp only [List.mem_singleton] at hb
              rw [hb] at ha
              exact hnot ha
      · exact h
    · split
      · split
        · exact h
        · exact h
      · split
        · exact h
        · exact h

/-- The list of macros keeps its names distinct over the loop of
`macro_scan`. -/
theorem macro_scan_loop_nodup :
    ∀ (reads : List CStr) (st : ScanState), (st.head.map (fun m => m.name)).Nodup →
      ((macro_scan_loop reads st).2.head.map (fun m => m.name)).Nodup := by
  intro reads
  induction reads with
  | nil => intro st h; exact h
  | cons raw rest ih =>
    intro st h
    have h1 := macro_scan_line_nodup raw st h
    unfold macro_scan_loop
    rcases hl : macro_scan_line raw st with ⟨b, st1⟩
    rw [hl] at h1
    cases b with
    | false => exact h1
    | true => exact ih st1 h1

/-- The tokens of a line of exactly two words. -/
theorem strtok_of_two_words (l a b : CStr) (h : words l = [a, b]) :
    ∃ rest1 rest2, strtok l BLANKS = (some a, rest1) ∧
      strtok rest1 BLANKS = (some b, rest2) ∧ (strtok rest2 BLANKS).1 = none := by
  have h1 := words_unfold l
  rcases hs1 : strtok l BLANKS with ⟨t1, rest1⟩
  rw [hs1, h] at h1
  cases t1 with
  | none => cases h1
  | some t1 =>
    simp only [List.cons.injEq] at h1
    have h2 := words_unfold rest1
    rcases hs2 : strtok rest1 BLANKS with ⟨t2, rest2⟩
    rw [hs2, ← h1.2] at h2
    cases t2 with
    | none => cases h2
    | some t2 =>
      simp only [List.cons.injEq] at h2
      have h3 := words_unfold rest2
      rcases hs3 : strtok rest2 BLANKS with ⟨t3, rest3⟩
      rw [hs3, ← h2.2] at h3
      cases t3 with
      | some t3 => cases h3
      | none => exact ⟨rest1, rest2, by rw [h1.1], by rw [hs2, h2.1], by rw [hs3]⟩

/-- An accepted `mcro name` line outside a definition opens the definition of
`name`. -/
theorem macro_scan_line_opens (l name : CStr) (st st1 : ScanState)
    (hn : '\n' ∉ l) (hw : words l = [MACRO_START_DIRECTIVE, name])
    (hout : st.inside_macro = false)
    (h : macro_scan_line l st = (true, st1)) :
    st1.inside_macro = true ∧ st1.macro_name = name := by
  obtain ⟨rest1, rest2, hs1, hs2, hs3⟩ := strtok_of_two_words l _ _ hw
  simp only [macro_scan_line, cut_at_not_mem l '\n' hn, hs1, hout, Bool.false_eq_true,
    if_false, if_true, begin_macro_definition, hs2, hs3, Option.isSome_none] at h
  split at h
  · cases h
  · rename_i nm start hb
    simp only [Prod.mk.injEq, true_and] at h
    rw [← h]
    refine ⟨rfl, ?_⟩
    simp only []
    split at hb
    · cases hb
    · split at hb
      · cases hb
      · simp only [Option.some.injEq, Prod.mk.injEq] at hb
        exact hb.1.symm

/-- The line `mcro name` outside a definition is refused when `name` is in the
list of macros. -/
theorem macro_scan_line_duplicate (l name : CStr) (st : ScanState)
    (hn : '\n' ∉ l) (hw : words l = [MACRO_START_DIRECTIVE, name])
    (hout : st.inside_macro = false) (hdef : macro_find st.head name ≠ none) :
    (macro_scan_line l st).1 = false := by
  obtain ⟨rest1, rest2, hs1, hs2, hs3⟩ := strtok_of_two_words l _ _ hw
  have hd : macro_is_already_defined st.head name = true := by
    unfold macro_is_already_defined
    cases hf : macro_find st.head name with
    | none => exact absurd hf hdef
    | some m => rfl
  simp only [macro_scan_line, cut_at_not_mem l '\n' hn, hs1, hout, Bool.false_eq_true,
    if_false, if_true, begin_macro_definition, hs2, hs3, Option.isSome_none, hd]
  split
  · rfl
  · rename_i hb
    split at hb <;> cases hb

/-- What an accepted line does to the open definition and to the macros that
are known. -/
theorem macro_scan_line_known (l name : CStr) (st st1 : ScanState)
    (hn : '\n' ∉ l) (h : macro_scan_line l st = (true, st1)) :
    st1.inside_macro = inside_step l st.inside_macro ∧
    (macro_known st name → macro_known st1 name) := by
  have hhead := words_head l
  unfold inside_step
  rw [hhead]
  rcases hs : strtok l BLANKS with ⟨tok, rest1⟩
  simp only [macro_scan_line, cut_at_not_mem l '\n' hn, hs] at h
  cases tok with
  | none =>
    simp only [Prod.mk.injEq, true_and] at h
    rw [← h]
    exact ⟨rfl, fun hk => hk⟩
  | some token =>
    simp only [] at h ⊢
    by_cases hin : st.inside_macro = true
    · simp only [hin, if_true] at h ⊢
      by_cases hend : token = MACRO_END_DIRECTIVE
      · simp only [hend, if_true] at h
        split at h
        · cases h
        · split at h
          · cases h
          · rename_i head1 he
            simp only [Prod.mk.injEq, true_and] at h
            have h1 := end_macro_definition_some _ _ _ _ _ he
            rw [← h]
            refine ⟨by simp [hend], ?_⟩
            intro hk
            left
            simp only []
            rw [ne_eq, macro_find_none_iff, h1]
            simp only [List.map_append, List.map_cons, List.map_nil, List.mem_append,
              List.mem_singleton, not_or, not_and, not_not]
            rcases hk with hk | hk
            · rw [ne_eq, macro_find_none_iff, not_not] at hk
              intro hc
              exact absurd hk hc
            · intro _
              exact hk.2.symm
      · simp only [hend, if_false, Prod.mk.injEq, true_and] at h
        rw [← h]
        refine ⟨by simp [hin, hend], ?_⟩
        intro hk
        rcases hk with hk | hk
        · exact Or.inl hk
        · exact Or.inr ⟨rfl, hk.2⟩
    · have hout : st.inside_macro = false := by
        cases hb : st.inside_macro with
        | true => exact absurd hb hin
        | false => rfl
      simp only [hout, Bool.false_eq_true, if_false] at h ⊢
      by_cases hstart : token = MACRO_START_DIRECTIVE
      · simp only [hstart, if_true] at h
        split at h
        · cases h
        · simp only [Prod.mk.injEq, true_and] at h
          rw [← h]
          refine ⟨by simp [hstart], ?_⟩
          intro hk
          rcases hk with hk | hk
          · exact Or.inl hk
          · rw [hout] at hk
            cases hk.1
      · simp only [hstart, if_false] at h
        split at h
        · cases h
        · simp only [Prod.mk.injEq] at h
          rw [← h.2]
          refine ⟨by simp [hout, hstart], ?_⟩
          intro hk
          rcases hk with hk | hk
          · exact Or.inl hk
          · rw [hout] at hk
            cases hk.1

/-- The reads of one line, then the remaining reads: the state after the line
is the state of `macro_scan_line`, but for the line number. -/
theorem macro_scan_loop_line (l : CStr) (tail : List CStr) (st r : ScanState)
    (hn : '\n' ∉ l)
    (h : macro_scan_loop (line_chunks l ++ tail) st = (true, r)) :
    ∃ st1 st2, macro_scan_line l st = (true, st1) ∧
      st2.head = st1.head ∧ st2.inside_macro = st1.inside_macro ∧
      st2.macro_name = st1.macro_name ∧ macro_scan_loop tail st2 = (true, r) := by
  unfold line_chunks at h
  by_cases h80 : l.length = 80
  · rw [if_pos h80] at h
    simp only [List.cons_append, List.nil_append, macro_scan_loop] at h
    rcases hl : macro_scan_line l st with ⟨b, st1⟩
    rw [hl] at h
    cases b with
    | false => simp at h
    | true =>
      simp only [macro_scan_line_newline] at h
      exact ⟨st1, { st1 with line_number := st1.line_number + 1 }, rfl, rfl, rfl, rfl, h⟩
  · rw [if_neg h80] at h
    simp only [List.cons_append, List.nil_append, macro_scan_loop,
      macro_scan_line_strip l st hn] at h
    rcases hl : macro_scan_line l st with ⟨b, st1⟩
    rw [hl] at h
    cases b with
    | false => simp at h
    | true => exact ⟨st1, st1, rfl, rfl, rfl, rfl, h⟩

/-- The loop of `macro_scan` over the reads of a list of lines that it accepts:
whether a definition is open afterwards, and the macros that are known. -/
theorem macro_scan_loop_lines (name : CStr) :
    ∀ (lines : List CStr) (tail : List CStr) (st r : ScanState),
      (∀ l ∈ lines, '\n' ∉ l) →
      macro_scan_loop ((lines.map line_chunks).flatten ++ tail) st = (true, r) →
      ∃ st1, macro_scan_loop tail st1 = (true, r) ∧
        st1.inside_macro = inside_after lines st.inside_macro ∧
        (macro_known st name → macro_known st1 name) := by
  intro lines
  induction lines with
  | nil =>
    intro tail st r _ h
    exact ⟨st, h, rfl, fun hk => hk⟩
  | cons l rest ih =>
    intro tail st r hl h
    simp only [List.map_cons, List.flatten_cons, List.append_assoc] at h
    obtain ⟨st1, st2, h1, h2, h3, h4, h5⟩ :=
      macro_scan_loop_line l _ st r (hl l (List.mem_cons_self _ _)) h
    obtain ⟨hi, hk⟩ := macro_scan_line_known l name st st1 (hl l (List.mem_cons_self _ _)) h1
    obtain ⟨st3, h6, h7, h8⟩ := ih tail st2 r (fun x hx => hl x (List.mem_cons_of_mem _ hx)) h5
    refine ⟨st3, h6, ?_, ?_⟩
    · rw [h7, h3, hi]
      rfl
    · intro hk0
      apply h8
      have := hk hk0
      unfold macro_known at this ⊢
      rw [h2, h3, h4]
      exact this

/-- C31 (duplicate macro): for an input of lines (without newline characters,
at most 80 characters long) in which the line `d1`, with the two words `mcro`
and `name`, opens a definition (no definition is open after the lines `pre`
before it), that definition is closed by the lines `seg` that follow, after
which no definition is open, and the next line `d2` has the two words `mcro`
and `name` again: `macro_scan` returns false, and it does so when it reaches
`d2`, because the state in which the loop has accepted all the lines before
`d2` refuses `d2`. In every state that the loop of `macro_scan` reaches from a
list of macros without two equal names, and so from the empty list with which
it starts, the list holds no two macros with the same name. -/
theorem duplicate_macro_refused (pre seg post : List CStr) (d1 d2 name : CStr)
    (hlines : ∀ l ∈ pre ++ d1 :: (seg ++ d2 :: post), '\n' ∉ l ∧ l.length ≤ 80)
    (hpre : inside_after pre false = false)
    (hd1 : words d1 = [MACRO_START_DIRECTIVE, name])
    (hseg : inside_after seg true = false)
    (hd2 : words d2 = [MACRO_START_DIRECTIVE, name]) :
    (macro_scan (text_of (pre ++ d1 :: (seg ++ d2 :: post)))).1 = false ∧
    (∀ r, macro_scan_loop ((pre ++ d1 :: seg).map line_chunks).flatten scan_start = (true, r) →
      (macro_scan_line d2 r).1 = false) ∧
    (∀ reads st, (st.head.map (fun m => m.name)).Nodup →
      ((macro_scan_loop reads st).2.head.map (fun m => m.name)).Nodup) ∧
    (∀ input, ((macro_scan input).2.2.map (fun m => m.name)).Nodup) := by
  have hno : ∀ l ∈ pre ++ d1 :: (seg ++ d2 :: post), '\n' ∉ l := fun l hl => (hlines l hl).1
  have hnpre : ∀ l ∈ pre, '\n' ∉ l := fun l hl => hno l (List.mem_append_left _ hl)
  have hnd1 : '\n' ∉ d1 := hno d1 (List.mem_append_right _ (List.mem_cons_self _ _))
  have hnseg : ∀ l ∈ seg, '\n' ∉ l := fun l hl =>
    hno l (List.mem_append_right _ (List.mem_cons_of_mem _ (List.mem_append_left _ hl)))
  have hnd2 : '\n' ∉ d2 :=
    hno d2 (List.mem_append_right _ (List.mem_cons_of_mem _
      (List.mem_append_right _ (List.mem_cons_self _ _))))
  -- the state in which the lines before `d2` are accepted refuses `d2`
  have key : ∀ (tail : List CStr) (r : ScanState),
      macro_scan_loop (((pre ++ d1 :: seg).map line_chunks).flatten ++ tail) scan_start
        = (true, r) →
      ∃ st, macro_scan_loop tail st = (true, r) ∧ (macro_scan_line d2 st).1 = false := by
    intro tail r h
    simp only [List.map_append, List.map_cons, List.flatten_append, List.flatten_cons,
      List.append_assoc] at h
    obtain ⟨sa, ha, hia, _⟩ := macro_scan_loop_lines name pre _ scan_start r hnpre h
    obtain ⟨sb0, sb, hb1, hb2, hb3, hb4, hb5⟩ := macro_scan_loop_line d1 _ sa r hnd1 ha
    have hopen := macro_scan_line_opens d1 name sa sb0 hnd1 hd1
      (by rw [hia]; exact hpre) hb1
    obtain ⟨sc, hc, hic, hkc⟩ := macro_scan_loop_lines name seg _ sb r hnseg hb5
    have hkb : macro_known sb name :=
      Or.inr ⟨by rw [hb3]; exact hopen.1, by rw [hb4]; exact hopen.2⟩
    have hout : sc.inside_macro = false := by
      rw [hic, hb3, hopen.1]; exact hseg
    have hdef : macro_find sc.head name ≠ none := by
      rcases hkc hkb with hk | hk
      · exact hk
      · rw [hout] at hk
        cases hk.1
    exact ⟨sc, hc, macro_scan_line_duplicate d2 name sc hnd2 hd2 hout hdef⟩
  refine ⟨?_, ?_, macro_scan_loop_nodup, ?_⟩
  · unfold macro_scan
    rw [fgets_lines_text_of _ hlines]
    simp only []
    rcases hr : macro_scan_loop ((pre ++ d1 :: (seg ++ d2 :: post)).map line_chunks).flatten
      { out := [], head := [], macro_name := [], body := [], line_number := 0,
        start_line := 0, inside_macro := false } with ⟨b, r⟩
    cases b with
    | false => rfl
    | true =>
      exfalso
      have e : ((pre ++ d1 :: (seg ++ d2 :: post)).map line_chunks).flatten
          = ((pre ++ d1 :: seg).map line_chunks).flatten
            ++ (line_chunks d2 ++ (post.map line_chunks).flatten) := by
        simp only [List.map_append, List.map_cons, List.flatten_append, List.flatten_cons,
          List.append_assoc]
      rw [e] at hr
      obtain ⟨st, h1, h2⟩ := key _ r hr
      obtain ⟨s1, _, h3, _⟩ := macro_scan_loop_line d2 _ st r hnd2 h1
      rw [h3] at h2
      cases h2
  · intro r h
    have h0 := key [] r (by rw [List.append_nil]; exact h)
    obtain ⟨st, h1, h2⟩ := h0
    simp only [macro_scan_loop, Prod.mk.injEq] at h1
    rw [← h1.2]
    exact h2
  · intro input
    exact macro_scan_loop_nodup _ _ List.nodup_nil

theorem duplicate_macro_refused_witness :
    (macro_scan (text_of (["stop".toList] ++ "mcro FOO".toList ::
      (["inc r1".toList, "mcroend".toList, "FOO".toList] ++ "mcro FOO".toList ::
        ["dec r1".toList, "mcroend".toList])))).1 = false :=
  (duplicate_macro_refused ["stop".toList] ["inc r1".toList, "mcroend".toList, "FOO".toList]
    ["dec r1".toList, "mcroend".toList] "mcro FOO".toList "mcro FOO".toList "FOO".toList
    (by decide) (by decide) (by decide) (by decide) (by decide)).1

/-! ## The line cleaner (C32, C33, C40) -/

/-- C32 (line cleaner, commas), the code at the failing input: `cleanup_line`
leaves `mov r1,r2` as it is, with no space after the comma, and likewise
`a,b,c`; a space follows the comma only where white space stood before the
comma or after it (`mov r1 ,r2` and `mov r1,  r2` both become `mov r1, r2`). -/
theorem comma_without_space_kept :
    cleanup_line "mov r1,r2".toList = "mov r1,r2".toList ∧
    cleanup_line "mov r1,r2".toList ≠ "mov r1, r2".toList ∧
    cleanup_line "a,b,c".toList = "a,b,c".toList ∧
    cleanup_line "mov r1 ,r2".toList = "mov r1, r2".toList ∧
    cleanup_line "mov r1,  r2".toList = "mov r1, r2".toList ∧
    preprocess_file "mov r1,r2\n".toList = (0, "mov r1,r2\n".toList) := by
  refine ⟨by decide, by decide, by decide, by decide, by decide, by decide⟩

/-- C33 (line cleaner, white space), the code at the failing inputs: for `X:`
the output `X: ` ends in a space; for `a : b` the output is `a  b`, with two
spaces in a row and without the colon. The label line `LOOP : inc r1` loses its
colon in the preprocessor, and the first pass then counts an error for it,
while `LOOP: inc r1` passes. -/
theorem colon_after_space_dropped :
    cleanup_line "X:".toList = "X: ".toList ∧
    cleanup_line "a : b".toList = "a  b".toList ∧
    ':' ∉ cleanup_line "a : b".toList ∧
    preprocess_file "LOOP : inc r1\n".toList = (0, "LOOP  inc r1\n".toList) ∧
    (first_pass "LOOP  inc r1\n".toList [] zero_image [] []).1 = 1 ∧
    (first_pass "LOOP: inc r1\n".toList [] zero_image [] []).1 = 0 := by
  refine ⟨by decide, by decide, by decide, by decide, by decide, by decide⟩

/-- C40 (the line cleaner is idempotent), the code at the failing inputs:
cleaning `a : b` gives `a  b`, and cleaning that again gives `a b`; cleaning
`a ,` gives `a, `, and cleaning that again gives `a,`. The `.am` text of the
source line `a : b` is `a  b`, which the first pass reads as `a b`. -/
theorem cleaning_twice_differs :
    cleanup_line "a : b".toList = "a  b".toList ∧
    cleanup_line (cleanup_line "a : b".toList) = "a b".toList ∧
    cleanup_line (cleanup_line "a : b".toList) ≠ cleanup_line "a : b".toList ∧
    cleanup_line "a ,".toList = "a, ".toList ∧
    cleanup_line (cleanup_line "a ,".toList) = "a,".toList ∧
    cleanup_file "a : b\n".toList = "a  b\n".toList ∧
    sanitize_line "a  b\n".toList = "a b".toList := by
  refine ⟨by decide, by decide, by decide, by decide, by decide, by decide, by decide⟩

/-! ## The memory bound (C34) -/

/-- C34 (memory bound), the code at the failing input: `main` compares
`icf + dcf` with 256, and `icf` counts from 100, so a file is rejected for
memory overflow exactly when its words, `(icf - 100) + dcf`, are more than 156.
A source of 157 data words passes the preprocessor and the first pass and is
rejected for memory overflow; a source of 156 data words goes on to the second
pass. -/
theorem memory_bound_counts_base_address (fs : FileSystem) (s : Session)
    (base source : CStr) :
    ((main_file fs s base source).map (fun r => r.1.stage) = some FileStage.memory_overflow ↔
      (preprocess_file source).1 = 0 ∧
      (first_pass (preprocess_file source).2 s.symtab s.instruction_image s.command_list
        s.directive_list).1 = 0 ∧
      ((first_pass (preprocess_file source).2 s.symtab s.instruction_image s.command_list
          s.directive_list).2.IC - 100)
        + (first_pass (preprocess_file source).2 s.symtab s.instruction_image s.command_list
          s.directive_list).2.dc > 156) ∧
    (first_pass_fresh program_157_words).IC - 100 + (first_pass_fresh program_157_words).dc
      = 157 ∧
    stages (fun _ => true) [("f".toList, program_157_words)]
      = some [FileStage.memory_overflow] ∧
    stages (fun _ => true) [("f".toList, program_156_words)] = some [FileStage.complete] := by
  refine ⟨?_, by decide, by decide, by decide⟩
  unfold main_file
  simp only [MAX_WORDS_MEMORY]
  by_cases h1 : (preprocess_file source).1 = 0
  · by_cases h2 : (first_pass (preprocess_file source).2 s.symtab s.instruction_image
        s.command_list s.directive_list).1 = 0
    · by_cases h3 : (first_pass (preprocess_file source).2 s.symtab s.instruction_image
          s.command_list s.directive_list).2.IC
          + (first_pass (preprocess_file source).2 s.symtab s.instruction_image
            s.command_list s.directive_list).2.dc > 256
      · simp only [h1, h2, h3, ne_eq, not_true_eq_false, if_false, if_true, Option.map_some',
          true_and, true_iff]
        omega
      · simp only [h1, h2, h3, ne_eq, not_true_eq_false, if_false, true_and]
        have h4 : ¬ ((first_pass (preprocess_file source).2 s.symtab s.instruction_image
            s.command_list s.directive_list).2.IC - 100
          + (first_pass (preprocess_file source).2 s.symtab s.instruction_image
            s.command_list s.directive_list).2.dc > 156) := by omega
        simp only [h4, iff_false]
        split
        · simp
        · simp only [Option.map_some', Option.some.injEq]
          split <;> decide
    · simp [h1, h2]
  · simp [h1]

/-! ## State that survives from one file to the next (C35) -/

/-- C35 (session isolation), the code at the failing inputs: `main` never
empties its symbol table, and it calls `free_commands` only after a second
pass. After the file `X: stop` the symbol X stays in the table, so a second
file `X: stop`, which assembles when it is alone, fails its first pass with a
duplicate symbol. After the file `jmp Y`, `foo`, which fails its first pass, the
command `jmp Y` stays in the command list, so the first pass of a following
file `stop` starts with that command, and its second pass fails on the
undefined Y; alone, the file `stop` assembles. After a memory overflow the
symbols of the file also stay. -/
theorem state_leaks_between_files :
    stages (fun _ => true) [("a".toList, "X: stop\n".toList), ("b".toList, "X: stop\n".toList)]
      = some [FileStage.complete, FileStage.first_pass_failed] ∧
    stages (fun _ => true) [("b".toList, "X: stop\n".toList)] = some [FileStage.complete] ∧
    (main_file (fun _ => true) Session.start "a".toList "X: stop\n".toList).map
        (fun r => (r.2.symtab, r.2.command_list, r.2.directive_list))
      = some ([⟨"X".toList, 100, SYMBOL_CODE⟩], [], []) ∧
    stages (fun _ => true) [("a".toList, "jmp Y\nfoo\n".toList), ("b".toList, "stop\n".toList)]
      = some [FileStage.first_pass_failed, FileStage.second_pass_failed] ∧
    stages (fun _ => true) [("b".toList, "stop\n".toList)] = some [FileStage.complete] ∧
    (main_file (fun _ => true) Session.start "a".toList "jmp Y\nfoo\n".toList).map
        (fun r => (r.2.symtab, r.2.command_list, r.2.directive_list))
      = some ([], [⟨none, 100, 2, 9, none, some "Y".toList⟩], []) ∧
    (main (fun _ => true) [("a".toList, "jmp Y\nfoo\n".toList), ("b".toList, "stop\n".toList)]).map
        (fun reports => reports.map (fun r => r.pass1.map (fun p => p.command_list)))
      = some [some [⟨none, 100, 2, 9, none, some "Y".toList⟩],
              some [⟨none, 100, 2, 9, none, some "Y".toList⟩, ⟨none, 100, 1, 15, none, none⟩]] ∧
    (main_file (fun _ => true) Session.start "a".toList
        (".extern W\n".toList ++ program_157_words)).map
        (fun r => (r.1.stage, r.2.symtab, r.2.command_list, r.2.directive_list))
      = some (FileStage.memory_overflow, [⟨"W".toList, 0, SYMBOL_EXTERNAL⟩], [], []) := by
  refine ⟨by decide, by decide, by decide, by decide, by decide, by decide, by decide,
    by decide⟩

/-! ## The bit string of a value (C36) -/

/-- C36 (`decimal_to_binary` is two's complement), the code at the failing
inputs: `to_twos_complement` computes `~value + 1`, which is `-value`, so a
negative value gets the bit string of its absolute value: every `-(n + 1)` has
the string of `n + 1`, `decimal_to_binary(-1, 10)` is `0000000001` and
`decimal_to_binary(-5, 10)` is `0000000101`, the string of 5. Values that are
not negative get their binary numeral. -/
theorem negative_value_loses_sign (n : Nat) (bits : Int) :
    decimal_to_binary (-((n : Int) + 1)) bits = decimal_to_binary ((n : Int) + 1) bits ∧
    decimal_to_binary (-1) 10 = some "0000000001".toList ∧
    decimal_to_binary (-5) 10 = some "0000000101".toList ∧
    decimal_to_binary 5 10 = some "0000000101".toList ∧
    decimal_to_binary (-5) 10 ≠ some "1111111011".toList ∧
    decimal_to_binary 511 10 = some "0111111111".toList ∧
    decimal_to_binary (-512) 10 = some "1000000000".toList ∧
    decimal_to_binary 3 0 = none := by
  refine ⟨?_, by decide, by decide, by decide, by decide, by decide, by decide, by decide⟩
  unfold decimal_to_binary to_twos_complement c_not
  have h1 : -((n : Int) + 1) < 0 := by omega
  have h2 : ¬ ((n : Int) + 1 < 0) := by omega
  have h3 : - -((n : Int) + 1) - 1 + 1 = (n : Int) + 1 := by omega
  simp only [h1, h2, h3, if_true, if_false]

/-! ## What a line does to the lists and to DC -/

theorem list_step_of_eq (exact : Prop) (st st0 st1 : Pass1) (h : list_step exact st0 st1)
    (h1 : st0.directive_list = st.directive_list) (h2 : st0.command_list = st.command_list)
    (h3 : st0.dc = st.dc) : list_step exact st st1 := by
  unfold list_step command_count directive_count at *
  rw [h1, h2, h3] at h
  exact h

theorem list_step_same (exact : Prop) (st st1 : Pass1)
    (h1 : st1.directive_list = st.directive_list)
    (h2 : st1.command_list = st.command_list) (h3 : st1.dc = st.dc) :
    list_step exact st st1 :=
  Or.inl ⟨h1, h3, Or.inl h2⟩

/-- The call `append_directive(df)` with DC advanced by the payload length. -/
theorem append_directive_list_step (exact : Prop) (df : DirectiveFields) (st st0 : Pass1)
    (h1 : st0.directive_list = st.directive_list) (h2 : st0.command_list = st.command_list)
    (h3 : exact → st0.dc = st.dc + df.data_length)
    (hd : 0 ≤ df.data_length ∧ (df.data.length : Int) = df.data_length ∧
      (df.data_length = 0 ∨ df.data_address = st.dc)) :
    list_step exact st (append_directive df st0) := by
  right
  unfold append_directive
  by_cases hfull : command_count st0 + directive_count st0 ≥ MAX_WORDS_MEMORY
  · rw [if_pos hfull]
    refine ⟨h2, df, hd.1, hd.2.1, hd.2.2, h3, Or.inr ⟨?_, h1⟩⟩
    unfold command_count directive_count MAX_WORDS_MEMORY at *
    rw [h1, h2] at hfull
    omega
  · rw [if_neg hfull]
    refine ⟨h2, df, hd.1, hd.2.1, hd.2.2, h3, Or.inl ?_⟩
    show st0.directive_list ++ [df] = _
    rw [h1]

theorem handle_data_directive_list_step (exact : Prop) (operands : CStr)
    (label : Option CStr) (st : Pass1) :
    list_step exact st (handle_data_directive operands label st).2 := by
  unfold handle_data_directive
  simp only []
  split
  · exact list_step_same _ _ _ rfl rfl rfl
  · exact append_directive_list_step _ _ st _ rfl rfl (fun _ => rfl)
      ⟨by simp [new_directive], by simp [new_directive], Or.inr rfl⟩

theorem handle_string_directive_list_step (exact : Prop) (operands : CStr)
    (label : Option CStr) (st : Pass1) : list_step exact st (handle_string_directive operands label st).2 := by
  unfold handle_string_directive
  split
  · exact list_step_same _ _ _ rfl rfl rfl
  · simp only []
    split
    · exact list_step_same _ _ _ rfl rfl rfl
    · refine append_directive_list_step _ _ st _ rfl rfl (fun _ => ?_)
        ⟨?_, ?_, Or.inr rfl⟩
      · simp only [new_directive]
        omega
      · simp only [new_directive]
        omega
      · simp [new_directive]

theorem handle_mat_directive_list_step (exact : Prop) (operands : CStr)
    (label : Option CStr) (st : Pass1) (hmat : exact → mat_exact operands = true) :
    list_step exact st (handle_mat_directive operands label st).2 := by
  unfold handle_mat_directive
  split
  · exact list_step_same _ _ _ rfl rfl rfl
  · rename_i rows cols consumed hs
    simp only []
    split
    · exact list_step_same _ _ _ rfl rfl rfl
    · rename_i hpos
      have hr : 0 < rows := by omega
      have hc : 0 < cols := by omega
      have hcells : 0 < rows * cols := Int.mul_pos hr hc
      refine append_directive_list_step _ _ st _ rfl rfl (fun he => ?_) ⟨?_, ?_, Or.inr rfl⟩
      · have hk := hmat he
        unfold mat_exact at hk
        rw [hs] at hk
        simp only [decide_eq_true_eq] at hk
        simp only [new_directive]
        omega
      · simp only [new_directive]
        omega
      · simp only [new_directive, List.length_append, List.length_take, List.length_map,
          List.length_replicate]
        omega

theorem define_symbol_lists (name : CStr) (address : Int) (type : SymbolType) (st : Pass1) :
    (define_symbol name address type st).directive_list = st.directive_list ∧
    (define_symbol name address type st).command_list = st.command_list ∧
    (define_symbol name address type st).dc = st.dc := ⟨rfl, rfl, rfl⟩

theorem handle_extern_directive_list_step (exact : Prop) (operands : Option CStr)
    (st : Pass1) : list_step exact st (handle_extern_directive operands st).2 := by
  unfold handle_extern_directive
  split
  · exact list_step_same _ _ _ rfl rfl rfl
  · exact append_directive_list_step _ _ st _ rfl rfl (fun _ => by simp [new_directive, define_symbol])
      ⟨by simp [new_directive], by simp [new_directive], Or.inl rfl⟩

theorem handle_entry_directive_list_step (exact : Prop) (operands : Option CStr)
    (st : Pass1) : list_step exact st (handle_entry_directive operands st).2 := by
  unfold handle_entry_directive
  split
  · exact list_step_same _ _ _ rfl rfl rfl
  · exact append_directive_list_step _ _ st _ rfl rfl (fun _ => by simp [new_directive])
      ⟨by simp [new_directive], by simp [new_directive], Or.inl rfl⟩

theorem process_directive_list_step (exact : Prop) (directive : CStr)
    (operands : Option CStr) (label : Option CStr) (st : Pass1)
    (hmat : exact → directive = ".mat".toList → mat_exact (operands.getD []) = true) :
    list_step exact st (process_directive directive operands label st).2 := by
  unfold process_directive
  dsimp only
  have h1 : (if decide (directive = ".data".toList ∨ directive = ".string".toList ∨
          directive = ".mat".toList) = true then
        (match label with
          | some l => define_symbol l st.dc SYMBOL_DATA st
          | none => st) else st).directive_list = st.directive_list ∧
      (if decide (directive = ".data".toList ∨ directive = ".string".toList ∨
          directive = ".mat".toList) = true then
        (match label with
          | some l => define_symbol l st.dc SYMBOL_DATA st
          | none => st) else st).command_list = st.command_list ∧
      (if decide (directive = ".data".toList ∨ directive = ".string".toList ∨
          directive = ".mat".toList) = true then
        (match label with
          | some l => define_symbol l st.dc SYMBOL_DATA st
          | none => st) else st).dc = st.dc := by
    split
    · cases label <;> exact ⟨rfl, rfl, rfl⟩
    · exact ⟨rfl, rfl, rfl⟩
  split
  · exact list_step_same _ _ _ h1.1 h1.2.1 h1.2.2
  · split
    · exact list_step_of_eq _ _ _ _ (handle_data_directive_list_step _ _ _ _) h1.1 h1.2.1 h1.2.2
    · split
      · exact list_step_of_eq _ _ _ _ (handle_string_directive_list_step _ _ _ _)
          h1.1 h1.2.1 h1.2.2
      · split
        · rename_i hm
          exact list_step_of_eq _ _ _ _
            (handle_mat_directive_list_step _ _ _ _ (fun he => hmat he hm))
            h1.1 h1.2.1 h1.2.2
        · split
          · exact list_step_of_eq _ _ _ _ (handle_extern_directive_list_step _ _ _)
              h1.1 h1.2.1 h1.2.2
          · split
            · exact list_step_of_eq _ _ _ _ (handle_entry_directive_list_step _ _ _)
                h1.1 h1.2.1 h1.2.2
            · exact list_step_same _ _ _ h1.1 h1.2.1 h1.2.2

theorem encode_instruction_list_step (exact : Prop) (opcode : Int) (src dst : Option CStr)
    (src_mode dst_mode : Int) (has_label : Bool) (label_name : Option CStr) (st : Pass1) :
    list_step exact st
      (encode_instruction opcode src dst src_mode dst_mode has_label label_name st) := by
  rw [encode_instruction_eq]
  have hl := label_step_rest has_label label_name st
  left
  refine ⟨?_, ?_, ?_⟩
  · show (record_command _ _ _ _ _ _ _).directive_list = _
    unfold record_command
    rw [(append_command_rest _ _).2.2.2.1, hl.2.2.2.1]
  · show (record_command _ _ _ _ _ _ _).dc = _
    unfold record_command
    rw [(append_command_rest _ _).2.2.1, hl.2.2.1]
  · show (record_command _ _ _ _ _ _ _).command_list = _ ∨
      ∃ c, (record_command _ _ _ _ _ _ _).command_list = _ ++ [c]
    unfold record_command append_command
    split
    · left
      exact hl.2.2.2.2
    · right
      refine ⟨⟨if has_label = true then label_name else none, st.IC,
          compute_instruction_length src_mode dst_mode src dst, opcode, src, dst⟩, ?_⟩
      show (label_step has_label label_name st).command_list ++ [_] = _
      rw [hl.2.2.2.2]

theorem process_instruction_list_step (exact : Prop) (line : CStr) (has_label : Bool)
    (label_name : Option CStr) (st : Pass1) :
    list_step exact st (process_instruction line has_label label_name st).2 := by
  rcases process_instruction_cases line has_label label_name st with ⟨e, h⟩ |
    ⟨opcode, src, dst, e, h⟩ <;> rw [h]
  · exact list_step_same _ _ _ rfl rfl rfl
  · exact list_step_of_eq _ _ _ _ (encode_instruction_list_step _ _ _ _ _ _ _ _ _)
      rfl rfl rfl

/-- What one line of the first pass does to the lists and to DC. -/
theorem first_pass_line_list_step (exact : Prop) (raw_line : CStr) (st : Pass1)
    (hmat : exact → (line_directive raw_line).1 = some ".mat".toList →
      mat_exact ((line_directive raw_line).2.getD []) = true) :
    list_step exact st (first_pass_line raw_line st) := by
  unfold line_directive at hmat
  unfold first_pass_line
  dsimp only at hmat ⊢
  split
  · exact list_step_same _ _ _ rfl rfl rfl
  · split
    · exact list_step_same _ _ _ rfl rfl rfl
    · rename_i directive hd
      rw [hd] at hmat
      split
      · exact process_directive_list_step _ _ _ _ _
          (fun he hm => hmat he (by rw [hm]))
      · rename_i h0
        simp only [ne_eq, not_not] at h0
        obtain ⟨e, he⟩ := process_directive_zero _ _ _ _ h0
        rw [he]
        exact list_step_of_eq _ _ _ _ (process_instruction_list_step _ _ _ _ _) rfl rfl rfl

/-! ## The data segment (C37) -/

theorem list_step_count (exact : Prop) (st st1 : Pass1) (h : list_step exact st st1) :
    command_count st + directive_count st ≤ command_count st1 + directive_count st1 := by
  unfold command_count directive_count
  rcases h with ⟨h1, _, h3⟩ | ⟨h1, df, _, _, _, _, h5⟩
  · rw [h1]
    rcases h3 with h3 | ⟨c, h3⟩
    · rw [h3]
    · rw [h3, List.length_append, List.length_singleton]
      push_cast
      omega
  · rw [h1]
    rcases h5 with h5 | ⟨_, h5⟩
    · rw [h5, List.length_append, List.length_singleton]
      push_cast
      omega
    · rw [h5]

theorem first_pass_loop_count (lines : List CStr) (st : Pass1) :
    command_count st + directive_count st
      ≤ command_count (first_pass_loop lines st) + directive_count (first_pass_loop lines st) := by
  induction lines generalizing st with
  | nil => exact le_refl _
  | cons l rest ih =>
    have h1 := list_step_count False st _
      (first_pass_line_list_step False l st (fun h => h.elim))
    have h2 := ih (first_pass_line l st)
    unfold first_pass_loop at h2 ⊢
    rw [List.foldl_cons]
    omega

theorem data_chain_append (ds : List DirectiveFields) (df : DirectiveFields) :
    ∀ (lo hi : Int), data_chain ds lo hi = true → 0 ≤ df.data_length →
      (df.data.length : Int) = df.data_length →
      (df.data_length = 0 ∨ df.data_address = hi) →
      data_chain (ds ++ [df]) lo (hi + df.data_length) = true := by
  induction ds with
  | nil =>
    intro lo hi h h1 h2 h3
    simp only [data_chain, decide_eq_true_eq] at h
    subst h
    simp only [List.nil_append, data_chain, Bool.and_eq_true, Bool.or_eq_true,
      decide_eq_true_eq]
    exact ⟨⟨⟨h1, h2⟩, h3⟩, trivial⟩
  | cons d rest ih =>
    intro lo hi h h1 h2 h3
    simp only [List.cons_append, data_chain, Bool.and_eq_true, Bool.or_eq_true,
      decide_eq_true_eq] at h ⊢
    exact ⟨h.1, ih _ _ h.2 h1 h2 h3⟩

/-- One line of the first pass keeps the directives in a chain that ends at
DC, while the lists have room. -/
theorem list_step_data_chain (st st1 : Pass1) (h : list_step True st st1)
    (hroom : command_count st1 + directive_count st1 < 256)
    (hc : data_chain st.directive_list 0 st.dc = true) :
    data_chain st1.directive_list 0 st1.dc = true := by
  rcases h with ⟨h1, h2, _⟩ | ⟨h1, df, ha, hb, hd, he, h5⟩
  · rw [h1, h2]
    exact hc
  · rw [he trivial]
    rcases h5 with h5 | ⟨hfull, h5⟩
    · rw [h5]
      exact data_chain_append _ _ _ _ hc ha hb hd
    · exfalso
      unfold command_count directive_count at *
      rw [h1, h5] at hroom
      omega

theorem first_pass_loop_data_chain (lines : List CStr) (st : Pass1)
    (hmat : mat_lines_exact lines)
    (hroom : command_count (first_pass_loop lines st)
      + directive_count (first_pass_loop lines st) < 256)
    (hc : data_chain st.directive_list 0 st.dc = true) :
    data_chain (first_pass_loop lines st).directive_list 0 (first_pass_loop lines st).dc
      = true := by
  induction lines generalizing st with
  | nil => exact hc
  | cons l rest ih =>
    have hstep := first_pass_line_list_step True l st
      (fun _ => hmat l (List.mem_cons_self _ _))
    have hmono := first_pass_loop_count rest (first_pass_line l st)
    unfold first_pass_loop at hroom hmono ⊢
    rw [List.foldl_cons] at hroom ⊢
    exact ih (first_pass_line l st) (fun x hx => hmat x (List.mem_cons_of_mem _ hx)) hroom
      (list_step_data_chain _ _ hstep (by omega) hc)

/-- In a chain of directives from `lo`, every directive with a payload starts
at `lo` plus the payload lengths before it, and the payload lengths add up to
the length of the chain. -/
theorem data_chain_sums (ds : List DirectiveFields) :
    ∀ (lo hi : Int), data_chain ds lo hi = true →
      (ds.map (fun d => d.data_length)).sum = hi - lo ∧
      ∀ pre df post, ds = pre ++ df :: post → 0 < df.data_length →
        df.data_address = lo + (pre.map (fun d => d.data_length)).sum := by
  induction ds with
  | nil =>
    intro lo hi h
    simp only [data_chain, decide_eq_true_eq] at h
    refine ⟨by simp [h], ?_⟩
    intro pre df post he
    cases pre <;> cases he
  | cons d rest ih =>
    intro lo hi h
    simp only [data_chain, Bool.and_eq_true, Bool.or_eq_true, decide_eq_true_eq] at h
    obtain ⟨h1, h2⟩ := ih _ _ h.2
    refine ⟨by rw [List.map_cons, List.sum_cons, h1]; omega, ?_⟩
    intro pre df post he hpos
    cases pre with
    | nil =>
      simp only [List.nil_append, List.cons.injEq] at he
      rw [← he.1]
      rcases h.1.2 with h0 | h0
      · rw [← he.1] at hpos
        omega
      · simp [h0]
    | cons p pre1 =>
      simp only [List.cons_append, List.cons.injEq] at he
      rw [h2 pre1 df post he.2 hpos, List.map_cons, List.sum_cons, he.1]
      omega

theorem data_chain_le (ds : List DirectiveFields) :
    ∀ (lo hi : Int), data_chain ds lo hi = true → lo ≤ hi := by
  induction ds with
  | nil =>
    intro lo hi h
    simp only [data_chain, decide_eq_true_eq] at h
    omega
  | cons d rest ih =>
    intro lo hi h
    simp only [data_chain, Bool.and_eq_true, Bool.or_eq_true, decide_eq_true_eq] at h
    have := ih _ _ h.2
    omega

/-- The data lines that `write_object` writes for a chain of directives: one
line for each address of the chain, in increasing order, with the payload words
in list order. -/
theorem write_object_data_lines (icf : Int) (ds : List DirectiveFields) :
    ∀ (lo hi : Int), data_chain ds lo hi = true →
      (ds.map (fun df =>
        if df.data_length ≤ 0 then []
        else (List.range df.data_length.toNat).map
          (fun (j : Nat) => ob_line (icf + df.data_address + (j : Int))
            (df.data.getD j 0)))).flatten
      = (List.range (hi - lo).toNat).map
          (fun (j : Nat) => ob_line (icf + lo + (j : Int))
            ((ds.map (fun df => df.data)).flatten.getD j 0)) := by
  induction ds with
  | nil =>
    intro lo hi h
    simp only [data_chain, decide_eq_true_eq] at h
    subst h
    simp
  | cons d rest ih =>
    intro lo hi h
    simp only [data_chain, Bool.and_eq_true, Bool.or_eq_true, decide_eq_true_eq] at h
    obtain ⟨⟨⟨h0, hlen⟩, haddr⟩, hrest⟩ := h
    have hle := data_chain_le _ _ _ hrest
    have hsplit : (hi - lo).toNat = d.data.length + (hi - (lo + d.data_length)).toNat := by
      omega
    rw [List.map_cons, List.flatten_cons, List.map_cons, List.flatten_cons, ih _ _ hrest,
      hsplit, List.range_add, List.map_append, List.map_map]
    congr 1
    · by_cases hz : d.data_length ≤ 0
      · rw [if_pos hz]
        have : d.data.length = 0 := by omega
        rw [this]
        rfl
      · rw [if_neg hz]
        have ha : d.data_address = lo := by
          rcases haddr with ha | ha
          · omega
          · exact ha
        have hn : d.data_length.toNat = d.data.length := by omega
        rw [hn, ha]
        apply List.map_congr_left
        intro j hj
        rw [List.mem_range] at hj
        rw [List.getD_append _ _ _ _ hj]
    · apply List.map_congr_left
      intro j _
      simp only [Function.comp]
      rw [List.getD_append_right _ _ _ _ (by omega)]
      have e1 : d.data.length + j - d.data.length = j := by omega
      have e2 : icf + lo + ((d.data.length + j : Nat) : Int)
          = icf + (lo + d.data_length) + (j : Int) := by
        push_cast
        omega
      rw [e1, e2]

theorem data_chain_mem (ds : List DirectiveFields) :
    ∀ (lo hi : Int), data_chain ds lo hi = true →
      ∀ df ∈ ds, 0 ≤ df.data_length ∧ (df.data.length : Int) = df.data_length := by
  induction ds with
  | nil =>
    intro lo hi _ df hdf
    cases hdf
  | cons d rest ih =>
    intro lo hi h df hdf
    simp only [data_chain, Bool.and_eq_true, Bool.or_eq_true, decide_eq_true_eq] at h
    rcases List.mem_cons.1 hdf with e | e
    · rw [e]
      exact h.1.1
    · exact ih _ _ h.2 df e

/-- C37 (data segment tiling), as amended: after a first pass from a fresh
process over a source in which every `.mat` line gives as many values as its
matrix has cells, and which leaves fewer than 256 records in the command and
directive lists together, the directives tile the data segment. Every
directive has a payload of `data_length` words, with `data_length` 0 for
`.extern` and `.entry`; each directive with a payload has as its data address
the sum of the payload lengths of the directives before it; the payload lengths
add up to DCF; and `write_object` writes, after the code lines for the
addresses 100 .. ICF - 1, one data line for each of the addresses ICF, ICF + 1,
.., ICF + DCF - 1, in increasing order, with the payload words in list
order. -/
theorem data_segment_tiling (input_file : CStr)
    (hmat : mat_lines_exact (fgets_lines input_file))
    (hroom : command_count (first_pass_fresh input_file)
      + directive_count (first_pass_fresh input_file) < 256) :
    (∀ df ∈ (first_pass_fresh input_file).directive_list,
      0 ≤ df.data_length ∧ (df.data.length : Int) = df.data_length) ∧
    (∀ pre df post, (first_pass_fresh input_file).directive_list = pre ++ df :: post →
      0 < df.data_length →
      df.data_address = (pre.map (fun d => d.data_length)).sum) ∧
    ((first_pass_fresh input_file).directive_list.map (fun d => d.data_length)).sum
      = (first_pass_fresh input_file).dc ∧
    ∀ image, write_object (first_pass_fresh input_file).IC
        (first_pass_fresh input_file).directive_list image
      = (List.range ((first_pass_fresh input_file).IC - IC_INIT_VALUE).toNat).map
          (fun (i : Nat) => ob_line (IC_INIT_VALUE + (i : Int)) (image i))
        ++ (List.range (first_pass_fresh input_file).dc.toNat).map
          (fun (j : Nat) => ob_line ((first_pass_fresh input_file).IC + (j : Int))
            (((first_pass_fresh input_file).directive_list.map
              (fun df => df.data)).flatten.getD j 0)) := by
  have hchain : data_chain (first_pass_fresh input_file).directive_list 0
      (first_pass_fresh input_file).dc = true :=
    first_pass_loop_data_chain (fgets_lines input_file) (first_pass_init [] zero_image [] [])
      hmat hroom rfl
  obtain ⟨hsum, haddr⟩ := data_chain_sums _ _ _ hchain
  refine ⟨data_chain_mem _ _ _ hchain, ?_, by rw [hsum]; omega, ?_⟩
  · intro pre df post he hpos
    rw [haddr pre df post he hpos]
    omega
  · intro image
    unfold write_object
    rw [write_object_data_lines _ _ 0 _ hchain]
    simp only [add_zero, sub_zero]

theorem data_segment_tiling_witness :
    ((first_pass_fresh TILING_EXAMPLE).directive_list.map (fun d => d.data_length)).sum
      = (first_pass_fresh TILING_EXAMPLE).dc ∧
    (first_pass_fresh TILING_EXAMPLE).dc = 6 ∧
    (first_pass_fresh TILING_EXAMPLE).directive_list.map
        (fun d => (d.data_address, d.data_length, d.data))
      = [(0, 2, [5, 6]), (-1, 0, []), (2, 2, [7, 8]), (4, 2, [97, 0])] :=
  ⟨(data_segment_tiling TILING_EXAMPLE (by decide) (by decide)).2.2.1, by decide, by decide⟩

/-- C37 as stated fails in two ways. When the command and directive lists are
full, a directive is dropped while DC advances: after 256 `.entry` lines the
lines `.data 5` and `.string "ab"` leave DCF = 4, but the payload lengths of
the recorded directives add up to 0 and `write_object` writes no data line.
And a `.mat` line with fewer values than cells advances DC by the number of
values: after `.mat [1][2] 5` and `.data 7` the first pass succeeds with
DCF = 2, the two directives have the payload lengths 2 and 1 and the data
addresses 0 and 1, and `write_object` writes two lines for the address 101. -/
theorem data_segment_not_tiled :
    (first_pass program_full_lists [] zero_image [] []).1 = 0 ∧
    (first_pass_fresh program_full_lists).dc = 4 ∧
    ((first_pass_fresh program_full_lists).directive_list.map (fun d => d.data_length)).sum
      = 0 ∧
    write_object (first_pass_fresh program_full_lists).IC
      (first_pass_fresh program_full_lists).directive_list zero_image = [] ∧
    (first_pass ".mat [1][2] 5\n.data 7\n".toList [] zero_image [] []).1 = 0 ∧
    (first_pass_fresh ".mat [1][2] 5\n.data 7\n".toList).dc = 2 ∧
    (first_pass_fresh ".mat [1][2] 5\n.data 7\n".toList).directive_list.map
        (fun d => (d.data_address, d.data_length, d.data))
      = [(0, 2, [5, 0]), (1, 1, [7])] ∧
    write_object (first_pass_fresh ".mat [1][2] 5\n.data 7\n".toList).IC
        (first_pass_fresh ".mat [1][2] 5\n.data 7\n".toList).directive_list zero_image
      = ["abcba aaabb\n".toList, "abcbb aaaaa\n".toList, "abcbb aaabd\n".toList] := by
  refine ⟨by decide!, by decide!, by decide!, by decide!, by decide, by decide, by decide,
    by decide⟩

/-! ## The code segment (C38) -/

theorem commands_chain_append (cs : List CommandFields) (c : CommandFields) :
    ∀ (lo hi : Int), commands_chain cs lo hi = true → c.cmd_address = hi → 1 ≤ c.length →
      commands_chain (cs ++ [c]) lo (hi + c.length) = true := by
  induction cs with
  | nil =>
    intro lo hi h h1 h2
    simp only [commands_chain, decide_eq_true_eq] at h
    subst h
    simp only [List.nil_append, commands_chain, Bool.and_eq_true, decide_eq_true_eq]
    exact ⟨⟨h1, h2⟩, trivial⟩
  | cons d rest ih =>
    intro lo hi h h1 h2
    simp only [List.cons_append, commands_chain, Bool.and_eq_true, decide_eq_true_eq] at h ⊢
    exact ⟨h.1, ih _ _ h.2 h1 h2⟩

/-- In a chain of commands from `lo` to `hi`, no command claims an address
outside `lo .. hi - 1`, and every address inside is claimed by exactly one
command. -/
theorem commands_chain_claims (cs : List CommandFields) :
    ∀ (lo hi : Int), commands_chain cs lo hi = true →
      lo ≤ hi ∧
      (∀ a, a < lo ∨ hi ≤ a → cs.filter (fun c => claims c a) = []) ∧
      (∀ a, lo ≤ a → a < hi → (cs.filter (fun c => claims c a)).length = 1) := by
  induction cs with
  | nil =>
    intro lo hi h
    simp only [commands_chain, decide_eq_true_eq] at h
    refine ⟨by omega, fun _ _ => rfl, ?_⟩
    intro a h1 h2
    omega
  | cons d rest ih =>
    intro lo hi h
    simp only [commands_chain, Bool.and_eq_true, decide_eq_true_eq] at h
    obtain ⟨⟨hd, hlen⟩, hrest⟩ := h
    obtain ⟨h1, h2, h3⟩ := ih _ _ hrest
    refine ⟨by omega, ?_, ?_⟩
    · intro a ha
      have hc : claims d a = false := by
        unfold claims
        simp only [Bool.and_eq_false_imp, decide_eq_true_eq, decide_eq_false_iff_not]
        intro _
        omega
      rw [List.filter_cons, hc]
      exact h2 a (by omega)
    · intro a ha1 ha2
      by_cases hin : a < lo + d.length
      · have hc : claims d a = true := by
          unfold claims
          simp only [Bool.and_eq_true, decide_eq_true_eq]
          omega
        rw [List.filter_cons, hc, if_pos rfl, h2 a (Or.inl hin)]
        rfl
      · have hc : claims d a = false := by
          unfold claims
          simp only [Bool.and_eq_false_imp, decide_eq_true_eq, decide_eq_false_iff_not]
          intro _
          omega
        rw [List.filter_cons, hc]
        exact h3 a (by omega) ha2

theorem list_step_commands (exact : Prop) (st st1 : Pass1) (h : list_step exact st st1) :
    ∀ c ∈ st.command_list, c ∈ st1.command_list := by
  intro c hc
  rcases h with ⟨_, _, h3⟩ | ⟨h1, _⟩
  · rcases h3 with h3 | ⟨d, h3⟩
    · rw [h3]; exact hc
    · rw [h3]; exact List.mem_append_left _ hc
  · rw [h1]; exact hc

theorem first_pass_loop_commands (lines : List CStr) (st : Pass1) :
    ∀ c ∈ st.command_list, c ∈ (first_pass_loop lines st).command_list := by
  induction lines generalizing st with
  | nil => exact fun c hc => hc
  | cons l rest ih =>
    intro c hc
    have h1 := list_step_commands False st _
      (first_pass_line_list_step False l st (fun h => h.elim)) c hc
    have h2 := ih (first_pass_line l st) c h1
    unfold first_pass_loop at h2 ⊢
    rw [List.foldl_cons]
    exact h2

/-- One line of the first pass keeps the commands in a chain that ends at IC,
while the lists have room and no command reaches beyond the code image. -/
theorem first_pass_line_commands_chain (raw_line : CStr) (st : Pass1)
    (hinv : code_inv st)
    (hroom : command_count (first_pass_line raw_line st)
      + directive_count (first_pass_line raw_line st) < 256)
    (hfit : ∀ c ∈ (first_pass_line raw_line st).command_list, c.cmd_address + c.length ≤ 356)
    (hc : commands_chain st.command_list 100 st.IC = true) :
    commands_chain (first_pass_line raw_line st).command_list 100
      (first_pass_line raw_line st).IC = true := by
  rcases first_pass_line_cases raw_line st with ⟨e, he⟩ | ⟨d, o, l, he⟩ |
      ⟨opcode, src, dst, e, hl, ln, he⟩
  · rw [he]
    exact hc
  · rw [he]
    obtain ⟨a, _, c⟩ := process_directive_code d o l st
    rw [a, c]
    exact hc
  · rw [he] at hroom hfit ⊢
    rw [encode_instruction_eq] at hroom hfit ⊢
    have hIC := emit_instruction_IC opcode src dst st.instruction_image st.IC
      (label_step hl ln { st with error_count := e }).error_count hinv.1 hinv.2.1
    have hpos := compute_instruction_length_pos src dst
    have hls := label_step_rest hl ln { st with error_count := e }
    show commands_chain (record_command _ _ _ _ _ _ _).command_list 100
      (emit_operands _ _ _ _ _ _ _).2.2.1 = true
    have hroom1 : command_count (record_command st.IC
        (compute_instruction_length (mode_of src) (mode_of dst) src dst) opcode src dst
        (if hl = true then ln else none) (label_step hl ln { st with error_count := e }))
      + directive_count (record_command st.IC
        (compute_instruction_length (mode_of src) (mode_of dst) src dst) opcode src dst
        (if hl = true then ln else none) (label_step hl ln { st with error_count := e }))
      < 256 := hroom
    have hfit1 : ∀ c ∈ (record_command st.IC
        (compute_instruction_length (mode_of src) (mode_of dst) src dst) opcode src dst
        (if hl = true then ln else none)
        (label_step hl ln { st with error_count := e })).command_list,
        c.cmd_address + c.length ≤ 356 := hfit
    rw [hIC]
    unfold record_command append_command at hroom1 hfit1 ⊢
    split
    · rename_i hfull
      rw [if_pos hfull] at hroom1
      unfold MAX_WORDS_MEMORY at hfull
      omega
    · rename_i hfull
      rw [if_neg hfull] at hfit1
      have hlast := hfit1 _ (List.mem_append_right _ (List.mem_singleton_self _))
      simp only [] at hlast
      rw [min_eq_left hlast]
      show commands_chain ((label_step hl ln { st with error_count := e }).command_list
        ++ [_]) 100 _ = true
      rw [hls.2.2.2.2]
      exact commands_chain_append _ _ _ _ hc rfl hpos

theorem first_pass_loop_commands_chain (lines : List CStr) (st : Pass1)
    (hinv : code_inv st)
    (hroom : command_count (first_pass_loop lines st)
      + directive_count (first_pass_loop lines st) < 256)
    (hfit : ∀ c ∈ (first_pass_loop lines st).command_list, c.cmd_address + c.length ≤ 356)
    (hc : commands_chain st.command_list 100 st.IC = true) :
    commands_chain (first_pass_loop lines st).command_list 100 (first_pass_loop lines st).IC
      = true := by
  induction lines generalizing st with
  | nil => exact hc
  | cons l rest ih =>
    have hmono := first_pass_loop_count rest (first_pass_line l st)
    have hmem := first_pass_loop_commands rest (first_pass_line l st)
    unfold first_pass_loop at hroom hfit hmono hmem ⊢
    rw [List.foldl_cons] at hroom hfit ⊢
    exact ih (first_pass_line l st) (first_pass_line_code_inv l st hinv) hroom hfit
      (first_pass_line_commands_chain l st hinv (by omega)
        (fun c hcm => hfit c (hmem c hcm)) hc)

/-- C38 (command tiling), as amended: after a first pass from a fresh process
that leaves fewer than 256 records in the command and directive lists together
(so no command was dropped) and in which no recorded command reaches beyond the
last address 355 of the code image (so no word was dropped), the recorded
commands in list order tile the code segment: the first command starts at 100,
each following command starts at the start plus the length of the one before
it, each has at least one word, and the start plus the length of the last one
is ICF; so every address from 100 to ICF - 1 is claimed by exactly one command
and no other address is claimed. -/
theorem command_tiling (input_file : CStr)
    (hroom : command_count (first_pass_fresh input_file)
      + directive_count (first_pass_fresh input_file) < 256)
    (hfit : ∀ c ∈ (first_pass_fresh input_file).command_list,
      c.cmd_address + c.length ≤ 356) :
    commands_chain (first_pass_fresh input_file).command_list 100
      (first_pass_fresh input_file).IC = true ∧
    (∀ a, 100 ≤ a → a < (first_pass_fresh input_file).IC →
      ((first_pass_fresh input_file).command_list.filter (fun c => claims c a)).length = 1) ∧
    (∀ a, a < 100 ∨ (first_pass_fresh input_file).IC ≤ a →
      (first_pass_fresh input_file).command_list.filter (fun c => claims c a) = []) := by
  have hchain : commands_chain (first_pass_fresh input_file).command_list 100
      (first_pass_fresh input_file).IC = true :=
    first_pass_loop_commands_chain (fgets_lines input_file)
      (first_pass_init [] zero_image [] []) (code_inv_init [] []) hroom hfit rfl
  obtain ⟨_, h2, h3⟩ := commands_chain_claims _ _ _ hchain
  exact ⟨hchain, h3, h2⟩

theorem command_tiling_witness :
    commands_chain (first_pass_fresh CHAIN_EXAMPLE).command_list 100
      (first_pass_fresh CHAIN_EXAMPLE).IC = true ∧
    (first_pass_fresh CHAIN_EXAMPLE).command_list.map (fun c => (c.cmd_address, c.length))
      = [(100, 3), (103, 3), (106, 2), (108, 1)] ∧
    (first_pass_fresh CHAIN_EXAMPLE).IC = 109 :=
  ⟨(command_tiling CHAIN_EXAMPLE (by decide) (by decide)).1, by decide, by decide⟩

/-- C38 as stated fails when the code image fills up: the first pass over 51
instructions of five words and `prn #5` succeeds, the lists hold 52 records
and ICF - 100 is 256, which the claim admits, but the last command starts at
355 with length 2, so its start plus its length is 357 and not ICF = 356: the
second word of `prn #5` was not stored. -/
theorem last_command_beyond_image :
    (first_pass program_full_image [] zero_image [] []).1 = 0 ∧
    command_count (first_pass_fresh program_full_image)
      + directive_count (first_pass_fresh program_full_image) = 52 ∧
    (first_pass_fresh program_full_image).IC - 100 = 256 ∧
    (first_pass_fresh program_full_image).command_list.getLast?.map
        (fun c => (c.cmd_address, c.length, c.cmd_address + c.length))
      = some (355, 2, 357) ∧
    commands_chain (first_pass_fresh program_full_image).command_list 100
      (first_pass_fresh program_full_image).IC = false := by
  refine ⟨by decide!, by decide!, by decide!, by decide!, by decide!⟩

/-! ## The mode fields of absent operands (C39) -/

/-- C39 (absent operands encode as mode 00), the code at the failing inputs:
`process_instruction` passes the mode -1 of an absent operand to
`emit_first_word`, which masks it with 3, so both mode fields of an instruction
without operands are 11: for every opcode the first word is
`opcode * 64 + 60`. The opcode word of `stop` is 1020, not 960, that of `rts`
is 956, not 896, and that of `clr r1`, which has no source operand, is 380,
with 11 in bits 5..4. -/
theorem absent_operand_mode_is_three (opcode : Fin 16) :
    first_word (opcode.val : Int) (-1) (-1) = (opcode.val : Int) * 64 + 60 ∧
    (first_pass "stop\nrts\nclr r1\n".toList [] zero_image [] []).1 = 0 ∧
    (List.range 4).map (first_pass_fresh "stop\nrts\nclr r1\n".toList).instruction_image
      = [1020, 956, 380, 4] ∧
    (1020 : Int) / 16 % 4 = 3 ∧ (1020 : Int) / 4 % 4 = 3 ∧
    (380 : Int) / 64 = 5 ∧ (380 : Int) / 16 % 4 = 3 ∧ (380 : Int) / 4 % 4 = 3 ∧
    validate_operand_modes ⟨15, "stop".toList, 0, 0⟩ none none 0 = (true, -1, -1, 0) := by
  refine ⟨?_, by decide, by decide, by decide, by decide, by decide, by decide, by decide,
    by decide⟩
  revert opcode
  decide

end Asm
